import Mathlib

/-! # Ryzewa: the cached, transactional key store

A shallow embedding of `src/lib/Utils/auth-utils.js` (the Tiered Cache
`makeCacheableSignalKeyStore`, the Transaction Coordinator
`addTransactionCapability` and `withMutexes`), of the Signal Repository of
`src/lib/Signal/libsignal.js` with its bounded caches, of the pre-key
allocation, the pre-generation buffer and `extractDeviceJids` of
`src/lib/Utils/signal.js`, and of the `MessageQueue` of
`src/lib/Utils/message-queue.js`, with the properties proved about them.

Conventions of the embedding
* a JavaScript object or `Map` used as a dictionary is an association list in
  enumeration order (`Obj`); every read goes through `Obj.get`, every write
  through `Obj.set` (replace in place, else append) or `Obj.delete`;
* a stored value is `Option Blob`: `none` is JavaScript `null`, a blob is an
  object or buffer (always truthy); `undefined` is a key that is absent;
* an `async` function is a function from the state before to the result and the
  state after; a rejected promise is `Except.error`;
* the store underneath is a parameter (`Store`): any state type, any `get` and
  `set`, each free to fail; every call made to it is appended to a log together
  with what it answered;
* the general tier of the cache (`@cacheable/node-cache`, or the `_cache` handed
  in) is a parameter too (`GeneralTier`): what it answers for a key at a clock
  reading, and how a write changes it;
* `Date.now()` is an argument: `now` for a stretch of code that runs without
  awaiting, `later` for the part of the cache's `get` that follows its `await`;
  nothing is assumed of the clock, which may stand still or step back;
* a run is sequential: in the cache and the coordinator the mutexes of
  `async-mutex` are free when asked for, so `runExclusive(fn)` and
  `withMutexes(.., fn)` run `fn`; loggers write nothing that is read back and
  are left out; `withMutexes` itself is embedded apart, with the mutexes the
  caller holds and the order of its acquires and releases;
* what the Signal Repository imports from modules that are not at hand (the
  libsignal library, `./Group`, the jid decoding of `../WABinary`) is a
  parameter (`Libsignal`); its session operations act on what lies behind
  `storage`, and each call of one is noted in a log;
* a pre-key id is an integer; the decimal string by which the code keys its
  objects stands for the id (`IdObj`), and `Curve.generateKeyPair()` draws from
  a supply of key pairs given as a parameter;
* the lock of the cache (`cacheLock`) is embedded apart as a counting semaphore
  (`tieredGetLocked`, `tieredSetLocked`), the calls taken one after the other;
* concurrent calls are embedded apart as interleaved steps, one step being what
  a call does from one `await` to the next, and a schedule the order of the
  steps: `TxSched` for calls of `transaction`, `CallSched` for calls of `get`
  and `set` with no transaction open; a call that waits for a mutex has no step
  to take, and the order among those that wait for one mutex is left open;
* in `MessageQueue` the cache of recent messages (`lru-cache`), `_hashTask` and
  the id of an item are parameters, and the timer that takes items off the
  queue is left out.
-/

set_option autoImplicit false

namespace Ryzewa

/-! ## JavaScript dictionaries -/

/-- A JavaScript object (or `Map`) used as a dictionary, in enumeration order. -/
abbrev Obj (α : Type) := List (String × α)

namespace Obj

variable {α : Type}

/-- Property read `o[k]`: `none` is `undefined`. -/
def get : Obj α → String → Option α
  | [], _ => none
  | (k', v) :: r, k => if k' = k then some v else get r k

/-- Property write `o[k] = v`: an existing key keeps its place. -/
def set : Obj α → String → α → Obj α
  | [], k, v => [(k, v)]
  | (k', v') :: r, k, v => if k' = k then (k', v) :: r else (k', v') :: set r k v

/-- Removal `delete o[k]` (or `Map.delete`). -/
def delete (o : Obj α) (k : String) : Obj α :=
  o.filter (fun p => decide (p.1 ≠ k))

/-- The own keys `Object.keys(o)`, in enumeration order. -/
def keys (o : Obj α) : List String := o.map Prod.fst

/-- The test `k in o`. -/
def has (o : Obj α) (k : String) : Bool := (get o k).isSome

/-- The call `Object.assign(target, source)`: each own key of the source, with
the value read from the source, is written to the target. -/
def assign (target source : Obj α) : Obj α :=
  (keys source).foldl
    (fun acc k => match get source k with
      | some v => set acc k v
      | none => acc)
    target

end Obj

/-! ## Values, patches and the store underneath -/

/-- An opaque stored blob (a key pair, a serialised session, ...). -/
abbrev Blob := String

/-- A value of a patch or of the store: `none` is `null` (a deletion). -/
abbrev Val := Option Blob

/-- A patch `keyType -> id -> value | null`. -/
abbrev Patch := Obj (Obj Val)

/-- An error value carried by a rejected promise. -/
abbrev Err := String

/-- JavaScript truthiness of `o[k]`: `undefined` and `null` are falsy, a blob is
truthy. -/
def truthy : Option Val → Bool
  | some (some _) => true
  | _ => false

/-- The entry `p[type][id]` of a patch. -/
def Patch.entry (p : Patch) (type id : String) : Option Val :=
  match Obj.get p type with
  | some d => Obj.get d id
  | none => none

/-- One call made to the store underneath, with its outcome. -/
inductive Call where
  | get (type : String) (ids : List String) (result : Except Err (Obj Val))
  | set (patch : Patch) (result : Except Err Unit)

/-- Whether the logged call is a `set`. -/
def Call.isSet : Call → Bool
  | Call.set _ _ => true
  | Call.get _ _ _ => false

/-- Whether the logged call answered without failing. -/
def Call.succeeded : Call → Bool
  | Call.set _ (Except.ok _) => true
  | Call.get _ _ (Except.ok _) => true
  | _ => false

/-- The store underneath (`state` for the coordinator, `store` for the cache):
its state is of any type, its two operations may fail and may change it. -/
structure Store (σ : Type) where
  get : σ → String → List String → Except Err (Obj Val) × σ
  set : σ → Patch → Except Err Unit × σ

/-- What lies outside the code under study: the store's state, the log of the
calls made to the store (oldest first), and a record of the patches that callers
have handed to the coordinator's `set` (oldest first). The code reads neither
the log nor the record. -/
structure World (σ : Type) where
  st : σ
  log : List Call
  writes : List Patch

/-- The call `await state.get(type, ids)`, logged. -/
def storeGet {σ : Type} (S : Store σ) (type : String) (ids : List String) (w : World σ) :
    Except Err (Obj Val) × World σ :=
  let r := S.get w.st type ids
  (r.1, { w with st := r.2, log := w.log ++ [Call.get type ids r.1] })

/-- The call `await state.set(patch)`, logged. -/
def storeSet {σ : Type} (S : Store σ) (patch : Patch) (w : World σ) :
    Except Err Unit × World σ :=
  let r := S.set w.st patch
  (r.1, { w with st := r.2, log := w.log ++ [Call.set patch r.1] })

/-! ## Transaction Coordinator (`addTransactionCapability`) -/

/-- The closure variables of `addTransactionCapability`. -/
structure Coord where
  dbQueriesInTransaction : Nat
  transactionCache : Obj (Obj Val)
  mutations : Patch
  transactionsInProgress : Int

/-- The state right after `addTransactionCapability(state, logger, opts)`. -/
def Coord.init : Coord :=
  { dbQueriesInTransaction := 0, transactionCache := [], mutations := [],
    transactionsInProgress := 0 }

/-- The options `{ maxCommitRetries, delayBetweenTriesMs }`. -/
structure TransactionOpts where
  maxCommitRetries : Nat
  delayBetweenTriesMs : Nat

/-- The function `isInTransaction`. -/
def isInTransaction (c : Coord) : Bool := decide (c.transactionsInProgress > 0)

/-- The guarded write `if (o[keyType]) o[keyType][keyId] = v`. -/
def setIn (o : Obj (Obj Val)) (keyType keyId : String) (v : Val) : Obj (Obj Val) :=
  match Obj.get o keyType with
  | some d => Obj.set o keyType (Obj.set d keyId v)
  | none => o

/-- The defaulting `o[key] = o[key] || {}`. -/
def ensure (o : Obj (Obj Val)) (key : String) : Obj (Obj Val) :=
  match Obj.get o key with
  | some _ => o
  | none => Obj.set o key []

/-- In `processPreKeyDeletions`: `if (data[keyType]) delete data[keyType][keyId]`. -/
def deleteIn (data : Patch) (keyType keyId : String) : Patch :=
  match Obj.get data keyType with
  | some d => Obj.set data keyType (Obj.delete d keyId)
  | none => data

/-- The loop `for (const keyId in keyData)` of `processPreKeyDeletions`, over
the ids still to visit; `keyData` is the object as it was when the loop began
(an id is only ever deleted while it is being visited). -/
def processPreKeyDeletionsLoop {σ : Type} (S : Store σ) (keyType : String) (keyData : Obj Val) :
    List String → Patch → World σ → Except Err Patch × World σ
  | [], data, w => (Except.ok data, w)
  | keyId :: rest, data, w =>
    if Obj.get keyData keyId = some none then
      match storeGet S keyType [keyId] w with
      | (Except.error e, w1) => (Except.error e, w1)
      | (Except.ok existingKeys, w1) =>
        if truthy (Obj.get existingKeys keyId) then
          processPreKeyDeletionsLoop S keyType keyData rest data w1
        else
          processPreKeyDeletionsLoop S keyType keyData rest (deleteIn data keyType keyId) w1
    else
      processPreKeyDeletionsLoop S keyType keyData rest data w

/-- The function `processPreKeyDeletions(data, keyType, state, logger)`; it
returns the patch as it has mutated it. -/
def processPreKeyDeletions {σ : Type} (S : Store σ) (data : Patch) (keyType : String)
    (w : World σ) : Except Err Patch × World σ :=
  match Obj.get data keyType with
  | none => (Except.ok data, w)
  | some keyData => processPreKeyDeletionsLoop S keyType keyData (Obj.keys keyData) data w

/-- The loop `for (const key_ in data) if (key_ === 'pre-key') await
processPreKeyDeletions(data, key_, state, logger)` of `set`. -/
def preKeyPass {σ : Type} (S : Store σ) :
    List String → Patch → World σ → Except Err Patch × World σ
  | [], data, w => (Except.ok data, w)
  | keyType :: rest, data, w =>
    if keyType = "pre-key" then
      match processPreKeyDeletions S data keyType w with
      | (Except.error e, w1) => (Except.error e, w1)
      | (Except.ok data1, w1) => preKeyPass S rest data1 w1
    else
      preKeyPass S rest data w

/-- The loop `for (const senderKeyName of senderKeyNames)` of `set`: one
`state.set` per sender key, with a patch that holds that entry alone. -/
def storeSenderKeys {σ : Type} (S : Store σ) (data : Patch) :
    List String → World σ → Except Err Unit × World σ
  | [], w => (Except.ok (), w)
  | senderKeyName :: rest, w =>
    let senderKeyData : Patch :=
      [("sender-key", match Patch.entry data "sender-key" senderKeyName with
        | some v => [(senderKeyName, v)]
        | none => [])]
    match storeSet S senderKeyData w with
    | (Except.error e, w1) => (Except.error e, w1)
    | (Except.ok _, w1) => storeSenderKeys S data rest w1

/-- The callback that `set` hands to `withMutexes` (written out twice in the
source, once for `nonSenderKeyData` and once for `data`): the pre-key pass, then
`await state.set(data)`. -/
def validateAndStore {σ : Type} (S : Store σ) (data : Patch) (w : World σ) :
    Except Err Unit × World σ :=
  match preKeyPass S (Obj.keys data) data w with
  | (Except.error e, w1) => (Except.error e, w1)
  | (Except.ok data1, w1) => storeSet S data1 w1

/-- The `else` branch of `set` (no transaction open). -/
def setDirect {σ : Type} (S : Store σ) (data : Patch) (w : World σ) :
    Except Err Unit × World σ :=
  if Obj.has data "sender-key" then
    let senderKeyNames := Obj.keys ((Obj.get data "sender-key").getD [])
    match storeSenderKeys S data senderKeyNames w with
    | (Except.error e, w1) => (Except.error e, w1)
    | (Except.ok _, w1) =>
      let nonSenderKeyData := Obj.delete data "sender-key"
      if (Obj.keys nonSenderKeyData).length > 0 then
        validateAndStore S nonSenderKeyData w1
      else
        (Except.ok (), w1)
  else
    validateAndStore S data w

/-- The function `handlePreKeyOperations(data, keyType, transactionCache,
mutations, logger, isInTransaction, state)`; `state` is `none` when the
argument is left out. It returns the two objects as it has mutated them. -/
def handlePreKeyOperations {σ : Type} (data : Patch) (keyType : String)
    (transactionCache mutations : Obj (Obj Val)) (inTransaction : Bool)
    (state : Option (Store σ)) (w : World σ) :
    Except Err Unit × (Obj (Obj Val) × Obj (Obj Val)) × World σ :=
  match Obj.get data keyType with
  | none => (Except.ok (), (transactionCache, mutations), w)
  | some keyData =>
    let tc0 := ensure transactionCache keyType
    let mu0 := ensure mutations keyType
    let deletionKeys := (Obj.keys keyData).filter (fun keyId => Obj.get keyData keyId = some none)
    let updateKeys := (Obj.keys keyData).filter (fun keyId => ¬ Obj.get keyData keyId = some none)
    let write := fun (o : Obj (Obj Val)) (keyId : String) =>
      match Obj.get keyData keyId with
      | some v => setIn o keyType keyId v
      | none => o
    let tc1 := updateKeys.foldl write tc0
    let mu1 := updateKeys.foldl write mu0
    if deletionKeys.length = 0 then
      (Except.ok (), (tc1, mu1), w)
    else if inTransaction then
      let r := deletionKeys.foldl
        (fun (acc : Obj (Obj Val) × Obj (Obj Val)) keyId =>
          match Obj.get acc.1 keyType with
          | some _ => (setIn acc.1 keyType keyId none, setIn acc.2 keyType keyId none)
          | none => acc)
        (tc1, mu1)
      (Except.ok (), r, w)
    else
      match state with
      | none => (Except.ok (), (tc1, mu1), w)
      | some S =>
        match storeGet S keyType deletionKeys w with
        | (Except.error e, w1) => (Except.error e, (tc1, mu1), w1)
        | (Except.ok existingKeys, w1) =>
          let r := deletionKeys.foldl
            (fun (acc : Obj (Obj Val) × Obj (Obj Val)) keyId =>
              if truthy (Obj.get existingKeys keyId) then
                (setIn acc.1 keyType keyId none, setIn acc.2 keyType keyId none)
              else acc)
            (tc1, mu1)
          (Except.ok (), r, w1)

/-- The function `handleNormalKeyOperations(data, key, transactionCache,
mutations)`; `Object.assign` on an `undefined` target raises a `TypeError`. -/
def handleNormalKeyOperations (data : Patch) (key : String)
    (transactionCache mutations : Obj (Obj Val)) :
    Except Err (Obj (Obj Val) × Obj (Obj Val)) :=
  match Obj.get transactionCache key with
  | none => Except.error "TypeError: Cannot convert undefined or null to object"
  | some target =>
    let source := (Obj.get data key).getD []
    let tc1 := Obj.set transactionCache key (Obj.assign target source)
    let mu0 := ensure mutations key
    let mu1 := Obj.set mu0 key (Obj.assign ((Obj.get mu0 key).getD []) source)
    Except.ok (tc1, mu1)

/-- The `if (isInTransaction())` branch of `set`: the loop
`for (const key_ in data)` over the key types still to visit. -/
def setInTransaction {σ : Type} (data : Patch) :
    List String → Coord × World σ → Except Err Unit × (Coord × World σ)
  | [], s => (Except.ok (), s)
  | key :: rest, (c, w) =>
    let tc0 := ensure c.transactionCache key
    if key = "pre-key" then
      match handlePreKeyOperations data key tc0 c.mutations true (none : Option (Store σ)) w with
      | (Except.error e, (tc1, mu1), w1) =>
        (Except.error e, ({ c with transactionCache := tc1, mutations := mu1 }, w1))
      | (Except.ok _, (tc1, mu1), w1) =>
        setInTransaction data rest ({ c with transactionCache := tc1, mutations := mu1 }, w1)
    else
      match handleNormalKeyOperations data key tc0 c.mutations with
      | Except.error e => (Except.error e, ({ c with transactionCache := tc0 }, w))
      | Except.ok (tc1, mu1) =>
        setInTransaction data rest ({ c with transactionCache := tc1, mutations := mu1 }, w)

/-- The method `set(data)` of the coordinator. -/
def coordSet {σ : Type} (S : Store σ) (data : Patch) (s : Coord × World σ) :
    Except Err Unit × (Coord × World σ) :=
  if isInTransaction s.1 then
    setInTransaction data (Obj.keys data) s
  else
    let r := setDirect S data s.2
    (r.1, (s.1, r.2))

/-- In `get`, inside a transaction, the sender-key loop: one `state.get` per
name, each result merged into `transactionCache[type]`. -/
def fetchSenderKeys {σ : Type} (S : Store σ) (type : String) :
    List String → Coord × World σ → Except Err Unit × (Coord × World σ)
  | [], s => (Except.ok (), s)
  | senderKeyName :: rest, (c, w) =>
    match storeGet S type [senderKeyName] w with
    | (Except.error e, w1) => (Except.error e, (c, w1))
    | (Except.ok result, w1) =>
      let tc0 := ensure c.transactionCache type
      let tc1 := Obj.set tc0 type (Obj.assign ((Obj.get tc0 type).getD []) result)
      fetchSenderKeys S type rest ({ c with transactionCache := tc1 }, w1)

/-- In `get`, outside a transaction, the sender-key loop: one `state.get` per
name, the results merged into one object. -/
def getSenderKeys {σ : Type} (S : Store σ) (type : String) :
    List String → Obj Val → World σ → Except Err (Obj Val) × World σ
  | [], results, w => (Except.ok results, w)
  | senderKeyName :: rest, results, w =>
    match storeGet S type [senderKeyName] w with
    | (Except.error e, w1) => (Except.error e, w1)
    | (Except.ok result, w1) => getSenderKeys S type rest (Obj.assign results result) w1

/-- The final `ids.reduce(...)` of `get` inside a transaction: the requested
ids whose value in `transactionCache[type]` is truthy. -/
def readBack (transactionCache : Obj (Obj Val)) (type : String) (ids : List String) : Obj Val :=
  ids.foldl
    (fun dict id =>
      match Patch.entry transactionCache type id with
      | some (some b) => Obj.set dict id (some b)
      | _ => dict)
    []

/-- The method `get(type, ids)` of the coordinator. -/
def coordGet {σ : Type} (S : Store σ) (type : String) (ids : List String)
    (s : Coord × World σ) : Except Err (Obj Val) × (Coord × World σ) :=
  if isInTransaction s.1 then
    let idsRequiringFetch :=
      match Obj.get s.1.transactionCache type with
      | some dict => ids.filter (fun item => Obj.get dict item = none)
      | none => ids
    if idsRequiringFetch.length ≠ 0 then
      let c0 := { s.1 with dbQueriesInTransaction := s.1.dbQueriesInTransaction + 1 }
      if type = "sender-key" then
        match fetchSenderKeys S type idsRequiringFetch (c0, s.2) with
        | (Except.error e, s1) => (Except.error e, s1)
        | (Except.ok _, s1) => (Except.ok (readBack s1.1.transactionCache type ids), s1)
      else
        match storeGet S type idsRequiringFetch s.2 with
        | (Except.error e, w1) => (Except.error e, (c0, w1))
        | (Except.ok result, w1) =>
          let tc0 := ensure c0.transactionCache type
          let tc1 := Obj.set tc0 type (Obj.assign ((Obj.get tc0 type).getD []) result)
          (Except.ok (readBack tc1 type ids), ({ c0 with transactionCache := tc1 }, w1))
    else
      (Except.ok (readBack s.1.transactionCache type ids), s)
  else if type = "sender-key" then
    let r := getSenderKeys S type ids [] s.2
    (r.1, (s.1, r.2))
  else
    let r := storeGet S type ids s.2
    (r.1, (s.1, r.2))

/-- The loop of `commitTransaction`: `while (tries > 0)`, one `state.set` per
turn, leaving at the first that succeeds; a failure is logged and swallowed. -/
def commitLoop {σ : Type} (S : Store σ) (mutations : Patch) : Nat → World σ → World σ
  | 0, w => w
  | tries + 1, w =>
    match storeSet S mutations w with
    | (Except.ok _, w1) => w1
    | (Except.error _, w1) => commitLoop S mutations tries w1

/-- The function `commitTransaction`. -/
def commitTransaction {σ : Type} (S : Store σ) (opts : TransactionOpts)
    (s : Coord × World σ) : Coord × World σ :=
  if (Obj.keys s.1.mutations).length = 0 then s
  else (s.1, commitLoop S s.1.mutations opts.maxCommitRetries s.2)

/-- The function `cleanupTransactionState`. -/
def cleanupTransactionState (c : Coord) : Coord :=
  let n := c.transactionsInProgress - 1
  if n = 0 then
    { dbQueriesInTransaction := 0, transactionCache := [], mutations := [],
      transactionsInProgress := n }
  else
    { c with transactionsInProgress := n }

/-- What running a piece of asynchronous code does: from the state before, a
result or an error, and the state after. -/
abbrev Run (σ : Type) (α : Type) := Coord × World σ → Except Err α × (Coord × World σ)

/-- The function `executeTransactionWork(work)`. -/
def executeTransactionWork {σ α : Type} (S : Store σ) (opts : TransactionOpts)
    (work : Run σ α) : Run σ α := fun s =>
  match work s with
  | (Except.error e, s1) => (Except.error e, s1)
  | (Except.ok result, s1) =>
    if s1.1.transactionsInProgress = 1 then
      (Except.ok result, commitTransaction S opts s1)
    else
      (Except.ok result, s1)

/-- The method `transaction(work, key)`: the counter goes up, the work runs and
(for the outermost scope) commits, and `finally` the state is cleaned up. The
scope mutex of `key` is taken and released before the work starts. -/
def transaction {σ α : Type} (S : Store σ) (opts : TransactionOpts)
    (work : Run σ α) (_key : String) : Run σ α := fun s =>
  let s0 : Coord × World σ :=
    ({ s.1 with transactionsInProgress := s.1.transactionsInProgress + 1 }, s.2)
  let r := executeTransactionWork S opts work s0
  (r.1, (cleanupTransactionState r.2.1, r.2.2))

/-- A caller of the coordinator: a program that reads, writes, opens nested
transactions, raises and catches, and whose next step may depend on what it
has read. -/
inductive Work where
  | ret (result : Blob)
  | throw (error : Err)
  | get (type : String) (ids : List String) (next : Obj Val → Work)
  | set (data : Patch) (next : Work)
  | transaction (inner : Work) (key : String) (next : Blob → Work)
  | tryCatch (body : Work) (handler : Err → Work) (next : Blob → Work)

/-- Running a caller against the coordinator; each `set` it makes is noted in
the record of writes before the coordinator's `set` runs. -/
def Work.run {σ : Type} (S : Store σ) (opts : TransactionOpts) : Work → Run σ Blob
  | Work.ret result => fun s => (Except.ok result, s)
  | Work.throw error => fun s => (Except.error error, s)
  | Work.get type ids next => fun s =>
    match coordGet S type ids s with
    | (Except.error e, s1) => (Except.error e, s1)
    | (Except.ok found, s1) => Work.run S opts (next found) s1
  | Work.set data next => fun s =>
    match coordSet S data (s.1, { s.2 with writes := s.2.writes ++ [data] }) with
    | (Except.error e, s1) => (Except.error e, s1)
    | (Except.ok _, s1) => Work.run S opts next s1
  | Work.transaction inner key next => fun s =>
    match Ryzewa.transaction S opts (Work.run S opts inner) key s with
    | (Except.error e, s1) => (Except.error e, s1)
    | (Except.ok result, s1) => Work.run S opts (next result) s1
  | Work.tryCatch body handler next => fun s =>
    match Work.run S opts body s with
    | (Except.ok result, s1) => Work.run S opts (next result) s1
    | (Except.error e, s1) =>
      match Work.run S opts (handler e) s1 with
      | (Except.error e2, s2) => (Except.error e2, s2)
      | (Except.ok result, s2) => Work.run S opts (next result) s2

/-! ## Bounded in-memory tiers -/

/-- A cache entry `{ value, time }` (`session` and `record` for `value` in
`libsignal.js`): a value and the clock reading at which it was inserted. -/
structure Timed (α : Type) where
  value : α
  time : Int
  deriving DecidableEq

/-- The snapshot `[...m.entries()]` after `entries.sort((a, b) => a[1].time -
b[1].time)`: oldest first; the sort is stable. -/
def oldestFirst {α : Type} (m : Obj (Timed α)) : Obj (Timed α) :=
  m.insertionSort (fun a b => a.2.time ≤ b.2.time)

/-- The entries picked for eviction, `entries.slice(0, n)`. -/
def evicted {α : Type} (n : Nat) (m : Obj (Timed α)) : Obj (Timed α) :=
  (oldestFirst m).take n

/-- The sweep `entries.slice(0, n).forEach(([k]) => m.delete(k))`. -/
def evict {α : Type} (n : Nat) (m : Obj (Timed α)) : Obj (Timed α) :=
  (evicted n m).foldl (fun acc p => Obj.delete acc p.1) m

/-- The constant `HOT_KEY_MAX_SIZE`. -/
def HOT_KEY_MAX_SIZE : Nat := 500

/-- The constant `HOT_KEY_TTL`, in milliseconds. -/
def HOT_KEY_TTL : Int := 30000

/-- The constant `HOT_KEY_THRESHOLD`. -/
def HOT_KEY_THRESHOLD : Int := 3

/-- The constant `SESSION_CACHE_MAX_SIZE`. -/
def SESSION_CACHE_MAX_SIZE : Nat := 200

/-- The constant `SENDER_KEY_CACHE_MAX_SIZE`. -/
def SENDER_KEY_CACHE_MAX_SIZE : Nat := 100

/-- The function `setHotCache(uniqueId, value)`; `now` is `Date.now()`. -/
def setHotCache (now : Int) (hotKeyCache : Obj (Timed Val)) (uniqueId : String) (value : Val) :
    Obj (Timed Val) :=
  let swept := if hotKeyCache.length ≥ HOT_KEY_MAX_SIZE then evict 100 hotKeyCache else hotKeyCache
  Obj.set swept uniqueId { value := value, time := now }

/-- The function `setSessionInCache(addr, session)` of `libsignal.js`; `key` is
`addr.toString()`. -/
def setSessionInCache (now : Int) (sessionCache : Obj (Timed Blob)) (key : String)
    (session : Blob) : Obj (Timed Blob) :=
  let swept :=
    if sessionCache.length ≥ SESSION_CACHE_MAX_SIZE then evict 50 sessionCache else sessionCache
  Obj.set swept key { value := session, time := now }

/-- The function `setSenderKeyInCache(senderName, record)` of `libsignal.js`;
`key` is `senderName.toString()`. -/
def setSenderKeyInCache (now : Int) (senderKeyCache : Obj (Timed Blob)) (key : String)
    (record : Blob) : Obj (Timed Blob) :=
  let swept :=
    if senderKeyCache.length ≥ SENDER_KEY_CACHE_MAX_SIZE then evict 25 senderKeyCache
    else senderKeyCache
  Obj.set swept key { value := record, time := now }

/-! ## Tiered Cache (`makeCacheableSignalKeyStore`) -/

/-- The general tier `cache` (`@cacheable/node-cache`, or the `_cache` handed
in): a parameter. Its state is of any type; `get` is what `cache.get(key)`
answers when the clock reads `now` (`none` is `undefined`), `set` is
`cache.set(key, value)`. -/
structure GeneralTier (γ : Type) where
  get : γ → Int → String → Option Val
  set : γ → Int → String → Val → γ

/-- The module-level `hotKeyCache` and the closure variables of
`makeCacheableSignalKeyStore`; `cacheReads` records the keys asked of the general
tier, oldest first (the code does not read it). -/
structure Tiered (γ : Type) where
  hotKeyCache : Obj (Timed Val)
  keyAccessCount : Obj Int
  cache : γ
  cacheReads : List String

/-- The function `getUniqueId(type, id)`. -/
def getUniqueId (type id : String) : String := type ++ "." ++ id

/-- The function `isHotKey(uniqueId)`. -/
def isHotKey (keyAccessCount : Obj Int) (uniqueId : String) : Bool :=
  let count := (Obj.get keyAccessCount uniqueId).getD 0
  decide (count ≥ HOT_KEY_THRESHOLD)

/-- The function `trackKeyAccess(uniqueId)`. -/
def trackKeyAccess (keyAccessCount : Obj Int) (uniqueId : String) : Obj Int :=
  let count := (Obj.get keyAccessCount uniqueId).getD 0 + 1
  let counted := Obj.set keyAccessCount uniqueId count
  if counted.length > 1000 then
    let entries := counted.insertionSort (fun a b => a.2 ≥ b.2)
    (entries.take 500).foldl (fun acc p => Obj.set acc p.1 p.2) []
  else
    counted

/-- The function `getFromHotCache(uniqueId)`: the value of a live entry, or
`none` (`undefined`) after deleting whatever was there. -/
def getFromHotCache (now : Int) (hotKeyCache : Obj (Timed Val)) (uniqueId : String) :
    Option Val × Obj (Timed Val) :=
  match Obj.get hotKeyCache uniqueId with
  | some entry =>
    if now - entry.time < HOT_KEY_TTL then (some entry.value, hotKeyCache)
    else (none, Obj.delete hotKeyCache uniqueId)
  | none => (none, Obj.delete hotKeyCache uniqueId)

/-- The locals of `get` while its first loop runs. -/
structure GetState (γ : Type) where
  tier : Tiered γ
  data : Obj Val
  idsToFetch : List String

/-- One turn of the loop `for (const id of ids)` of `get`. -/
def getStep {γ : Type} (G : GeneralTier γ) (now : Int) (type : String) (g : GetState γ)
    (id : String) : GetState γ :=
  let uniqueId := getUniqueId type id
  let counts := trackKeyAccess g.tier.keyAccessCount uniqueId
  match getFromHotCache now g.tier.hotKeyCache uniqueId with
  | (some hotValue, hot) =>
    { g with
      tier := { g.tier with keyAccessCount := counts, hotKeyCache := hot }
      data := Obj.set g.data id hotValue }
  | (none, hot) =>
    let reads := g.tier.cacheReads ++ [uniqueId]
    match G.get g.tier.cache now uniqueId with
    | some item =>
      let hot1 := if isHotKey counts uniqueId then setHotCache now hot uniqueId item else hot
      { g with
        tier := { g.tier with keyAccessCount := counts, hotKeyCache := hot1, cacheReads := reads }
        data := Obj.set g.data id item }
    | none =>
      { g with
        tier := { g.tier with keyAccessCount := counts, hotKeyCache := hot, cacheReads := reads }
        idsToFetch := g.idsToFetch ++ [id] }

/-- One turn of the loop `for (const id of idsToFetch)` of `get`, after the
store has answered `fetched`. -/
def fetchStep {γ : Type} (G : GeneralTier γ) (later : Int) (type : String) (fetched : Obj Val)
    (g : GetState γ) (id : String) : GetState γ :=
  match Obj.get fetched id with
  | some (some item) =>
    let uniqueId := getUniqueId type id
    let cache1 := G.set g.tier.cache later uniqueId (some item)
    let hot1 :=
      if isHotKey g.tier.keyAccessCount uniqueId then
        setHotCache later g.tier.hotKeyCache uniqueId (some item)
      else g.tier.hotKeyCache
    { g with
      tier := { g.tier with cache := cache1, hotKeyCache := hot1 }
      data := Obj.set g.data id (some item) }
  | _ => g

/-- The method `get(type, ids)` of the Tiered Cache. The clock reads `now`
while the first loop runs and `later` once the store has answered. -/
def tieredGet {σ γ : Type} (S : Store σ) (G : GeneralTier γ) (now later : Int) (type : String)
    (ids : List String) (s : Tiered γ × World σ) : Except Err (Obj Val) × (Tiered γ × World σ) :=
  let g := ids.foldl (getStep G now type) { tier := s.1, data := [], idsToFetch := [] }
  if g.idsToFetch.length ≠ 0 then
    match storeGet S type g.idsToFetch s.2 with
    | (Except.error e, w1) => (Except.error e, (g.tier, w1))
    | (Except.ok fetched, w1) =>
      let g1 := g.idsToFetch.foldl (fetchStep G later type fetched) g
      (Except.ok g1.data, (g1.tier, w1))
  else
    (Except.ok g.data, (g.tier, s.2))

/-- The body of the inner loop `for (const id in data[type])` of `set`. -/
def setStep {γ : Type} (G : GeneralTier γ) (now : Int) (data : Patch) (type : String)
    (t : Tiered γ) (id : String) : Tiered γ :=
  match Patch.entry data type id with
  | none => t
  | some value =>
    let uniqueId := getUniqueId type id
    let cache1 := G.set t.cache now uniqueId value
    let hot1 :=
      if value ≠ none then setHotCache now t.hotKeyCache uniqueId value
      else Obj.delete t.hotKeyCache uniqueId
    { t with cache := cache1, hotKeyCache := hot1 }

/-- The two nested loops of `set`: every type of the patch, every id of the
type. -/
def setLoop {γ : Type} (G : GeneralTier γ) (now : Int) (data : Patch) (t : Tiered γ) :
    Tiered γ :=
  (Obj.keys data).foldl
    (fun t1 type =>
      (Obj.keys ((Obj.get data type).getD [])).foldl (setStep G now data type) t1)
    t

/-- The method `set(data)` of the Tiered Cache: both tiers are written, then the
whole patch goes to the store. -/
def tieredSet {σ γ : Type} (S : Store σ) (G : GeneralTier γ) (now : Int) (data : Patch)
    (s : Tiered γ × World σ) : Except Err Unit × (Tiered γ × World σ) :=
  let t1 := setLoop G now data s.1
  let r := storeSet S data s.2
  (r.1, (t1, r.2))

/-! ## Stores and callers used as concrete inputs -/

deriving instance DecidableEq for Except

deriving instance DecidableEq for Call

/-- An in-memory store: `get` answers the requested ids that hold a blob, `set`
merges the patch (a `null` stays as a tombstone that `get` does not answer). -/
def memStore : Store Patch where
  get := fun st type ids =>
    (Except.ok (ids.foldl
      (fun dict id =>
        match Patch.entry st type id with
        | some (some b) => Obj.set dict id (some b)
        | _ => dict)
      []), st)
  set := fun st patch =>
    (Except.ok (), (Obj.keys patch).foldl
      (fun acc type =>
        Obj.set acc type (Obj.assign ((Obj.get acc type).getD []) ((Obj.get patch type).getD [])))
      st)

/-- A store whose `set` fails while its counter is positive (counting down) and
succeeds from then on; its `get` answers nothing. -/
def flakyStore : Store Nat where
  get := fun st _ _ => (Except.ok [], st)
  set := fun st _ =>
    match st with
    | 0 => (Except.ok (), 0)
    | n + 1 => (Except.error "EIO", n)

/-- A world with the given store state, an empty log and no write recorded. -/
def World.fresh {σ : Type} (st : σ) : World σ := { st := st, log := [], writes := [] }

/-- The calls logged since the log read `before`. -/
def callsSince (before after : List Call) : List Call := after.drop before.length

/-- Among the calls `calls`, the store was asked for `[id]` of `keyType` and its
answer held no value for `id`. -/
def AnsweredMissing (calls : List Call) (keyType id : String) : Prop :=
  ∃ r, Call.get keyType [id] (Except.ok r) ∈ calls ∧ truthy (Obj.get r id) = false

/-- What a pass over the pre-key deletions of a patch does: it only asks the
store about single ids, each of them one that `asked` allows; it fails only if a
read failed; otherwise an entry of the patch is kept as it was or, when the
store answered that the id holds nothing, removed. -/
def PassSpec (asked : String → Prop) (keyType : String) (data : Patch) (calls : List Call)
    (res : Except Err Patch) : Prop :=
  (∀ call ∈ calls, ∃ id r, call = Call.get keyType [id] r ∧ asked id) ∧
  (∀ e, res = Except.error e → ∃ call ∈ calls, call.succeeded = false) ∧
  (∀ data', res = Except.ok data' →
    (∀ t i, Patch.entry data' t i = Patch.entry data t i ∨
      (Patch.entry data' t i = none ∧ t = keyType ∧ AnsweredMissing calls keyType i)) ∧
    (∀ i, AnsweredMissing calls keyType i → Patch.entry data' keyType i = none))

/-- What a direct `set` does, in terms of the calls it makes to the store. -/
def DirectSpec (data : Patch) (calls : List Call) (res : Except Err Unit) : Prop :=
  ((∀ call ∈ calls, call.succeeded = true) → res = Except.ok ()) ∧
  (∀ id, AnsweredMissing calls "pre-key" id →
    ∀ p r, Call.set p r ∈ calls → Patch.entry p "pre-key" id = none) ∧
  ((∀ call ∈ calls, call.succeeded = true) → ∀ t i v, Patch.entry data t i = some v →
    ¬ (t = "pre-key" ∧ v = none ∧ AnsweredMissing calls "pre-key" i) →
    ∃ p, Call.set p (Except.ok ()) ∈ calls ∧ Patch.entry p t i = some v)

/-- A store state in which pre-key `1` exists. -/
def store0 : Patch := [("pre-key", [("1", some "kp1")])]

/-- A patch that deletes pre-key `1` (stored) and pre-key `7` (never stored),
writes pre-key `2` and a session. -/
def patch0 : Patch :=
  [("pre-key", [("1", none), ("7", none), ("2", some "kp2")]),
   ("session", [("alice.0", some "s0")])]

/-- Options with ten commit attempts, three seconds apart. -/
def opts0 : TransactionOpts := { maxCommitRetries := 10, delayBetweenTriesMs := 3000 }

/-- A caller that deletes pre-key `7`, which nothing has created or read, and
returns. -/
def deleteUnknownPreKey : Work :=
  Work.set [("pre-key", [("7", none)])] (Work.ret "done")

/-- The patches handed to the coordinator's `set` since the record of writes
read `before`. -/
def writesSince (before after : List Patch) : List Patch := after.drop before.length

/-- The union of a sequence of writes at one `(type, id)`, starting from the
value `before`: a later write to the same type and id replaces an earlier
one. -/
def mergeWrites (ws : List Patch) (t i : String) (before : Option Val) : Option Val :=
  ws.foldl (fun acc p => (Patch.entry p t i).or acc) before

/-- What a stretch of a caller's run does while a transaction stays open: the
counter is where it was, the store has only been read, and the Mutation Batch
is its earlier content with the writes of the stretch merged in. -/
def TxStretch {σ : Type} (s s' : Coord × World σ) : Prop :=
  s'.1.transactionsInProgress = s.1.transactionsInProgress ∧
  ∃ gets ws, s'.2.log = s.2.log ++ gets ∧ (∀ call ∈ gets, call.isSet = false) ∧
    s'.2.writes = s.2.writes ++ ws ∧
    (∀ t i, Patch.entry s'.1.mutations t i = mergeWrites ws t i (Patch.entry s.1.mutations t i)) ∧
    (s.1.mutations ≠ [] → s'.1.mutations ≠ []) ∧
    ((∃ p ∈ ws, p ≠ []) → s'.1.mutations ≠ [])

/-- A caller that writes one session and returns. -/
def writeSession : Work :=
  Work.set [("session", [("alice.0", some "s1")])] (Work.ret "r")

/-- A caller that writes, opens a nested transaction under the same token which
writes and opens a third, and writes again over its first write. -/
def nestedWork : Work :=
  Work.set [("session", [("alice.0", some "s1")])]
    (Work.transaction
      (Work.set [("session", [("bob.0", some "s2")]), ("pre-key", [("3", some "kp3")])]
        (Work.transaction
          (Work.set [("sender-key", [("g::alice::0", some "sk")])] (Work.ret "deep"))
          "k" (fun r => Work.ret r)))
      "k"
      (fun r => Work.set [("session", [("alice.0", some "s3")])] (Work.ret r)))

/-- A caller whose only `set` hands over the empty patch `{}`, and which then
runs a nested transaction under the same token. -/
def emptyWrite : Work :=
  Work.set [] (Work.transaction (Work.ret "inner") "k" (fun r => Work.ret r))

/-- The hot tier after a run of `setHotCache` calls on the empty tier, each with
the clock reading, the key and the value of the call. -/
def hotAfter (inserts : List (Int × String × Val)) : Obj (Timed Val) :=
  inserts.foldl (fun hot x => setHotCache x.1 hot x.2.1 x.2.2) []

/-- The repository's session cache after a run of `setSessionInCache` calls on
the empty cache. -/
def sessionsAfter (inserts : List (Int × String × Blob)) : Obj (Timed Blob) :=
  inserts.foldl (fun cache x => setSessionInCache x.1 cache x.2.1 x.2.2) []

/-- The repository's sender-key cache after a run of `setSenderKeyInCache` calls
on the empty cache. -/
def senderKeysAfter (inserts : List (Int × String × Blob)) : Obj (Timed Blob) :=
  inserts.foldl (fun cache x => setSenderKeyInCache x.1 cache x.2.1 x.2.2) []

/-- A hot tier at capacity: 500 session entries, entry `i` inserted at time
`i`. -/
def fullHot : Obj (Timed Val) :=
  (List.range 500).map
    (fun (i : Nat) => ("session." ++ toString i, { value := some "v", time := Int.ofNat i }))

/-- A general tier for concrete inputs: an entry is answered for `stdTTL` (ten
minutes, as `OPTIMIZED_CACHE_CONFIG` asks) after it was set, and not after. -/
def ttlCache : GeneralTier (Obj (Timed Val)) where
  get := fun cache now key =>
    match Obj.get cache key with
    | some entry => if now - entry.time < 600000 then some entry.value else none
    | none => none
  set := fun cache now key value => Obj.set cache key { value := value, time := now }

/-- A Tiered Cache right after `makeCacheableSignalKeyStore`, the module just
loaded. -/
def emptyTier : Tiered (Obj (Timed Val)) :=
  { hotKeyCache := [], keyAccessCount := [], cache := [], cacheReads := [] }

/-- A Tiered Cache whose hot tier holds, for session `alice.0`, a value inserted
at time 0, while the general tier holds a newer value. -/
def staleTier : Tiered (Obj (Timed Val)) :=
  { hotKeyCache := [("session.alice.0", { value := some "old", time := 0 })]
    keyAccessCount := []
    cache := [("session.alice.0", { value := some "s0", time := 20000 })]
    cacheReads := [] }

/-- A Tiered Cache whose general tier holds session `alice.0`, read twice so
far and absent from the hot tier. -/
def warmTier : Tiered (Obj (Timed Val)) :=
  { hotKeyCache := []
    keyAccessCount := [("session.alice.0", 2)]
    cache := [("session.alice.0", { value := some "s0", time := 0 })]
    cacheReads := [] }

/-- The number of turns the two loops of the cache's `set` take over a patch:
one per id of each type. -/
def Patch.size (data : Patch) : Nat :=
  ((Obj.keys data).map (fun type => (Obj.keys ((Obj.get data type).getD [])).length)).sum

/-- A patch that writes one session. -/
def sessionPatch : Patch := [("session", [("alice.0", some "s1")])]

/-- A patch that writes one session and deletes another. -/
def mixedPatch : Patch := [("session", [("alice.0", some "s1"), ("bob.0", none)])]

/-- One call `get(type, ids)` of the Tiered Cache, with the two clock readings
of the call. -/
structure GetCall where
  now : Int
  later : Int
  type : String
  ids : List String

/-- The value `v` is one the cache `t` holds for `uniqueId` when the clock reads
`now`: the value of a hot entry younger than `HOT_KEY_TTL`, or what the general
tier answers. -/
def CachedValue {γ : Type} (G : GeneralTier γ) (now : Int) (t : Tiered γ) (uniqueId : String)
    (v : Val) : Prop :=
  (∃ e, Obj.get t.hotKeyCache uniqueId = some e ∧ now - e.time < HOT_KEY_TTL ∧ e.value = v) ∨
  G.get t.cache now uniqueId = some v

/-- Every id of the call is held by the cache `t` (a live hot entry or a
general-tier entry), and the call cannot lose one of them to a sweep: the hot
tier has room for one new entry per id, or every id is in the general tier. -/
def Cached {γ : Type} (G : GeneralTier γ) (r : GetCall) (t : Tiered γ) : Prop :=
  (∀ id ∈ r.ids, ∃ v, CachedValue G r.now t (getUniqueId r.type id) v) ∧
  (t.hotKeyCache.length + r.ids.length ≤ HOT_KEY_MAX_SIZE ∨
    ∀ id ∈ r.ids, ∃ v, G.get t.cache r.now (getUniqueId r.type id) = some v)

/-- The call, made in state `s`, reaches the store with no call and answers, for
every requested id, a value the cache held for it. -/
def Served {σ γ : Type} (S : Store σ) (G : GeneralTier γ) (r : GetCall)
    (s : Tiered γ × World σ) : Prop :=
  (tieredGet S G r.now r.later r.type r.ids s).2.2.log = s.2.log ∧
  ∃ data, (tieredGet S G r.now r.later r.type r.ids s).1 = Except.ok data ∧
    ∀ id ∈ r.ids, ∃ v, Obj.get data id = some v ∧
      CachedValue G r.now s.1 (getUniqueId r.type id) v

/-- Every call of the sequence finds its ids cached when its turn comes. -/
def AllCached {σ γ : Type} (S : Store σ) (G : GeneralTier γ) :
    List GetCall → Tiered γ × World σ → Prop
  | [], _ => True
  | r :: rest, s =>
    Cached G r s.1 ∧ AllCached S G rest (tieredGet S G r.now r.later r.type r.ids s).2

/-- Every call of the sequence is served from the cache when its turn comes. -/
def AllServed {σ γ : Type} (S : Store σ) (G : GeneralTier γ) :
    List GetCall → Tiered γ × World σ → Prop
  | [], _ => True
  | r :: rest, s =>
    Served S G r s ∧ AllServed S G rest (tieredGet S G r.now r.later r.type r.ids s).2

/-- The state after a sequence of `get` calls. -/
def afterGets {σ γ : Type} (S : Store σ) (G : GeneralTier γ) :
    List GetCall → Tiered γ × World σ → Tiered γ × World σ
  | [], s => s
  | r :: rest, s => afterGets S G rest (tieredGet S G r.now r.later r.type r.ids s).2

/-- What holds of the locals of `get` after its first loop has taken the ids
`done`, begun in the cache `t0`, with the ids `rest` still to come: nothing is
queued for the store; the general tier is as it was; every hot entry is one of
`t0` or a copy, made now, of what the general tier answers; every id taken has
a value in `data`, and every value in `data` is one the cache held; and, when
the hot tier had room (`roomy`), it still has room for `rest` and no live entry
of `t0` has been lost. -/
structure GetInv {γ : Type} (G : GeneralTier γ) (now : Int) (type : String) (t0 : Tiered γ)
    (roomy : Prop) (done rest : List String) (g : GetState γ) : Prop where
  queued : g.idsToFetch = []
  cache : g.tier.cache = t0.cache
  hot : ∀ uid e, Obj.get g.tier.hotKeyCache uid = some e →
    Obj.get t0.hotKeyCache uid = some e ∨ (G.get t0.cache now uid = some e.value ∧ e.time = now)
  present : ∀ id ∈ done, ∃ v, Obj.get g.data id = some v
  data : ∀ id v, Obj.get g.data id = some v → CachedValue G now t0 (getUniqueId type id) v
  room : roomy → g.tier.hotKeyCache.length + rest.length ≤ HOT_KEY_MAX_SIZE ∧
    ∀ uid e, Obj.get t0.hotKeyCache uid = some e → now - e.time < HOT_KEY_TTL →
      Obj.get g.tier.hotKeyCache uid = some e

/-- A Tiered Cache with a full hot tier: session `bob.0` is its oldest entry
(time 0), followed by 499 pre-keys inserted at times 1 to 499; the general
tier holds session `alice.0` only, which has been read twice. -/
def crowdedTier : Tiered (Obj (Timed Val)) :=
  { hotKeyCache :=
      ("session.bob.0", { value := some "sB", time := 0 }) ::
        (List.range 499).map
          (fun (i : Nat) =>
            (getUniqueId "pre-key" (toString i),
              { value := some "kp", time := Int.ofNat i + 1 }))
    keyAccessCount := [("session.alice.0", 2)]
    cache := [("session.alice.0", { value := some "sA", time := 0 })]
    cacheReads := [] }

/-- Two `get` calls for session `alice.0`, a second apart. -/
def warmCalls : List GetCall :=
  [{ now := 1000, later := 1001, type := "session", ids := ["alice.0"] },
   { now := 2000, later := 2001, type := "session", ids := ["alice.0", "alice.0"] }]

/-- A coordinator with one transaction open, in which session `alice.0` has
been written, session `bob.0` deleted and pre-key `1` read. -/
def openCoord : Coord :=
  { dbQueriesInTransaction := 1,
    transactionCache :=
      [("session", [("alice.0", some "s0"), ("bob.0", none)]), ("pre-key", [("1", some "kp1")])],
    mutations := [("session", [("alice.0", some "s0"), ("bob.0", none)])],
    transactionsInProgress := 1 }

/-- The store answers only for ids it was asked about. -/
def AnswersAsked {σ : Type} (S : Store σ) : Prop :=
  ∀ st type ids r st', S.get st type ids = (Except.ok r, st') →
    ∀ id, Obj.get r id ≠ none → id ∈ ids

/-- A store state that holds sessions for `carol.0` and `alice.0`. -/
def sessionStore : Patch := [("session", [("carol.0", some "s9"), ("alice.0", some "old")])]

/-- One step of the coordinator as seen from its callers, which may run
interleaved and under different scope tokens: a `transaction(work, key)` call
starting (its `transactionsInProgress += 1`), such a call finishing (the
`cleanupTransactionState()` of its `finally`), a `get`, a `set`, or a commit. -/
inductive TxEvent where
  | enter (key : String)
  | leave (key : String)
  | get (type : String) (ids : List String)
  | set (data : Patch)
  | commit

/-- What one step does to the coordinator and the world. -/
def TxEvent.apply {σ : Type} (S : Store σ) (opts : TransactionOpts) :
    TxEvent → Coord × World σ → Coord × World σ
  | TxEvent.enter _, s =>
    ({ s.1 with transactionsInProgress := s.1.transactionsInProgress + 1 }, s.2)
  | TxEvent.leave _, s => (cleanupTransactionState s.1, s.2)
  | TxEvent.get type ids, s => (coordGet S type ids s).2
  | TxEvent.set data, s => (coordSet S data s).2
  | TxEvent.commit, s => commitTransaction S opts s

/-- The state after a sequence of steps. -/
def runEvents {σ : Type} (S : Store σ) (opts : TransactionOpts) (evs : List TxEvent)
    (s : Coord × World σ) : Coord × World σ :=
  evs.foldl (fun s e => e.apply S opts s) s

/-- The scope tokens of the `transaction` calls that have started and not yet
finished after a sequence of steps, given those open before it; `none` if some
call finishes that had not started. -/
def openAfter : List TxEvent → List String → Option (List String)
  | [], started => some started
  | TxEvent.enter key :: rest, started => openAfter rest (key :: started)
  | TxEvent.leave key :: rest, started =>
    if key ∈ started then openAfter rest (started.erase key) else none
  | _ :: rest, started => openAfter rest started

/-- Two transactions under different scope tokens that overlap without
nesting, with a write, a read and a commit in between. -/
def overlapping : List TxEvent :=
  [TxEvent.enter "a", TxEvent.set sessionPatch, TxEvent.enter "b", TxEvent.leave "a",
   TxEvent.get "session" ["alice.0"], TxEvent.commit, TxEvent.leave "b"]

/-- A caller that writes a session and then raises. -/
def failingWork : Work :=
  Work.set [("session", [("alice.0", some "s1")])] (Work.throw "boom")

/-- The counter equals the number of open transactions, and with none open the
transaction-local cache and the Mutation Batch are empty. -/
def CounterInv (c : Coord) (started : List String) : Prop :=
  c.transactionsInProgress = started.length ∧
  (started = [] → c.transactionCache = [] ∧ c.mutations = [])

/-! ## Signal Repository (`makeLibSignalRepository`) -/

/-- The constant `SESSION_CACHE_TTL`, in milliseconds. -/
def SESSION_CACHE_TTL : Int := 5 * 60 * 1000

/-- The constant `SENDER_KEY_CACHE_TTL`, in milliseconds. -/
def SENDER_KEY_CACHE_TTL : Int := 10 * 60 * 1000

/-- The constant `STORAGE_CACHE_TTL`, in milliseconds. -/
def STORAGE_CACHE_TTL : Int := 3 * 60 * 1000

/-- The body shared by `getSessionFromCache`, `getSenderKeyFromCache`,
`getCachedSession` and `getCachedPreKey`: an entry younger than `ttl` is
answered; otherwise the key is deleted and the answer is `null`. -/
def lookupWithin (ttl now : Int) (cache : Obj (Timed Blob)) (key : String) :
    Option Blob × Obj (Timed Blob) :=
  match Obj.get cache key with
  | some entry =>
    if now - entry.time < ttl then (some entry.value, cache) else (none, Obj.delete cache key)
  | none => (none, Obj.delete cache key)

/-- The function `getSessionFromCache(addr)`; `key` is `addr.toString()`. No
method of the repository calls it. -/
def getSessionFromCache (now : Int) (sessionCache : Obj (Timed Blob)) (key : String) :
    Option Blob × Obj (Timed Blob) :=
  lookupWithin SESSION_CACHE_TTL now sessionCache key

/-- The function `getSenderKeyFromCache(senderName)`. -/
def getSenderKeyFromCache (now : Int) (senderKeyCache : Obj (Timed Blob)) (key : String) :
    Option Blob × Obj (Timed Blob) :=
  lookupWithin SENDER_KEY_CACHE_TTL now senderKeyCache key

/-- The function `getCachedSession(id)` of `signalStorage`. -/
def getCachedSession (now : Int) (cache : Obj (Timed Blob)) (id : String) :
    Option Blob × Obj (Timed Blob) :=
  lookupWithin STORAGE_CACHE_TTL now cache id

/-- The function `setCachedSession(id, session)` of `signalStorage`. -/
def setCachedSession (now : Int) (cache : Obj (Timed Blob)) (id : String) (session : Blob) :
    Obj (Timed Blob) :=
  let swept := if cache.length > 150 then evict 50 cache else cache
  Obj.set swept id { value := session, time := now }

/-- What lies behind `signalStorage(auth)`: the two module-level caches
`SESSION_STORAGE_CACHE` and `PREKEY_STORAGE_CACHE`, and the key store
`auth.keys` with the log of the calls made to it. -/
structure Storage (σ : Type) where
  sessions : Obj (Timed Blob)
  preKeys : Obj (Timed Blob)
  keys : World σ

/-- An error raised to the caller of a repository method: one of the two the
repository constructs itself, or one raised by code it calls (the key store,
the libsignal library, the decoding of a jid). -/
inductive RepoError where
  | groupIdRequired
  | unknownMessageType (type : String)
  | outside (error : Err)
  deriving DecidableEq

/-- A call of an operation of the libsignal library that works on sessions. -/
inductive EngineCall where
  | decryptPreKeyWhisperMessage (addr : String) (ciphertext : Blob)
  | decryptWhisperMessage (addr : String) (ciphertext : Blob)
  | initOutgoing (addr : String) (session : Blob)
  | process (senderName : String) (senderMsg : Blob)
  deriving DecidableEq

/-- What the repository imports from modules that are not at hand (`libsignal`,
`./Group`, `../WABinary`), as parameters. The session operations receive
`storage` and an address and nothing else of the repository, so they act on
what lies behind `storage`; constructing a cipher or a builder has no effect.
  * `jidToSignalProtocolAddress jid` is `jidToSignalProtocolAddress(jid).toString()`;
  * `senderKeyName group addr` is `new SenderKeyName(group, addr).toString()`;
  * `deserialize` is `SessionRecord.deserialize`;
  * `distributionMessage` is `new SenderKeyDistributionMessage(null, null, null, null, bytes)`;
  * `newRecord` is the serialised `new SenderKeyRecord()`. -/
structure Libsignal (σ : Type) where
  jidToSignalProtocolAddress : String → Except Err String
  senderKeyName : String → String → String
  deserialize : Blob → Except Err Blob
  distributionMessage : Blob → Except Err Blob
  newRecord : Blob
  decryptPreKeyWhisperMessage : String → Blob → Storage σ → Except Err Blob × Storage σ
  decryptWhisperMessage : String → Blob → Storage σ → Except Err Blob × Storage σ
  initOutgoing : String → Blob → Storage σ → Except Err Unit × Storage σ
  process : String → Blob → Storage σ → Except Err Unit × Storage σ

/-- The closure variables of `makeLibSignalRepository`, what lies behind
`storage`, and a log of the session operations of libsignal that the repository
has invoked (oldest first; the code does not read it). -/
structure Repo (σ : Type) where
  sessionCache : Obj (Timed Blob)
  senderKeyCache : Obj (Timed Blob)
  storage : Storage σ
  engineCalls : List EngineCall

/-- The answer `{ exists, cached }` of `validateSession`. -/
structure SessionStatus where
  «exists» : Bool
  cached : Bool
  deriving DecidableEq

/-- The method `loadSession(id)` of `signalStorage`; `now` and `later` are the
readings of `Date.now()` before and after the `await`. The answer `none` is
`undefined`. -/
def loadSession {σ : Type} (E : Libsignal σ) (S : Store σ) (now later : Int) (id : String)
    (st : Storage σ) : Except Err (Option Blob) × Storage σ :=
  let looked := getCachedSession now st.sessions id
  match looked.1 with
  | some cached =>
    match E.deserialize cached with
    | Except.error e => (Except.error e, { st with sessions := looked.2 })
    | Except.ok record => (Except.ok (some record), { st with sessions := looked.2 })
  | none =>
    match storeGet S "session" [id] st.keys with
    | (Except.error e, w1) => (Except.error e, { st with sessions := looked.2, keys := w1 })
    | (Except.ok found, w1) =>
      match Obj.get found id with
      | some (some sess) =>
        let st1 : Storage σ :=
          { st with sessions := setCachedSession later looked.2 id sess, keys := w1 }
        match E.deserialize sess with
        | Except.error e => (Except.error e, st1)
        | Except.ok record => (Except.ok (some record), st1)
      | _ => (Except.ok none, { st with sessions := looked.2, keys := w1 })

/-- The method `storeSenderKey(senderKeyName, key)` of `signalStorage`; `keyId`
is `senderKeyName.toString()` and `serialized` the buffer written. -/
def storeSenderKey {σ : Type} (S : Store σ) (keyId : String) (serialized : Blob)
    (st : Storage σ) : Except Err Unit × Storage σ :=
  let r := storeSet S [("sender-key", [(keyId, some serialized)])] st.keys
  (r.1, { st with keys := r.2 })

/-- The method `validateSession(jid)`; `now` and `later` are the clock readings
of `loadSession`, `last` that of `setSessionInCache`. -/
def validateSession {σ : Type} (E : Libsignal σ) (S : Store σ) (now later last : Int)
    (jid : String) (r : Repo σ) : Except RepoError SessionStatus × Repo σ :=
  match E.jidToSignalProtocolAddress jid with
  | Except.error e => (Except.error (RepoError.outside e), r)
  | Except.ok addrStr =>
    if Obj.has r.sessionCache addrStr then
      (Except.ok { «exists» := true, cached := true }, r)
    else
      match loadSession E S now later addrStr r.storage with
      | (Except.error e, st1) => (Except.error (RepoError.outside e), { r with storage := st1 })
      | (Except.ok (some session), st1) =>
        (Except.ok { «exists» := true, cached := false },
          { r with storage := st1,
                   sessionCache := setSessionInCache last r.sessionCache addrStr session })
      | (Except.ok none, st1) =>
        (Except.ok { «exists» := false, cached := false }, { r with storage := st1 })

/-- The method `decryptMessage`, called with `jid`, `type` and `ciphertext`. -/
def decryptMessage {σ : Type} (E : Libsignal σ) (jid type : String) (ciphertext : Blob)
    (r : Repo σ) : Except RepoError Blob × Repo σ :=
  match E.jidToSignalProtocolAddress jid with
  | Except.error e => (Except.error (RepoError.outside e), r)
  | Except.ok addr =>
    if type = "pkmsg" then
      let called := r.engineCalls ++ [EngineCall.decryptPreKeyWhisperMessage addr ciphertext]
      match E.decryptPreKeyWhisperMessage addr ciphertext r.storage with
      | (Except.error e, st1) =>
        (Except.error (RepoError.outside e), { r with storage := st1, engineCalls := called })
      | (Except.ok result, st1) =>
        (Except.ok result,
          { r with storage := st1, engineCalls := called,
                   sessionCache := Obj.delete r.sessionCache addr })
    else if type = "msg" then
      let called := r.engineCalls ++ [EngineCall.decryptWhisperMessage addr ciphertext]
      match E.decryptWhisperMessage addr ciphertext r.storage with
      | (Except.error e, st1) =>
        (Except.error (RepoError.outside e), { r with storage := st1, engineCalls := called })
      | (Except.ok result, st1) =>
        (Except.ok result, { r with storage := st1, engineCalls := called })
    else
      (Except.error (RepoError.unknownMessageType type), r)

/-- The method `injectE2ESession`, called with `jid` and `session`. -/
def injectE2ESession {σ : Type} (E : Libsignal σ) (jid : String) (session : Blob)
    (r : Repo σ) : Except RepoError Unit × Repo σ :=
  match E.jidToSignalProtocolAddress jid with
  | Except.error e => (Except.error (RepoError.outside e), r)
  | Except.ok addr =>
    let called := r.engineCalls ++ [EngineCall.initOutgoing addr session]
    match E.initOutgoing addr session r.storage with
    | (Except.error e, st1) =>
      (Except.error (RepoError.outside e), { r with storage := st1, engineCalls := called })
    | (Except.ok _, st1) =>
      (Except.ok (),
        { r with storage := st1, engineCalls := called,
                 sessionCache := Obj.delete r.sessionCache addr })

/-- The method `processSenderKeyDistributionMessage`, called with `item` and
`authorJid`: `groupId` is `item.groupId` (`none` when the property is missing),
`axolotl` is `item.axolotlSenderKeyDistributionMessage`; `now` and `later` are
the clock readings of `getSenderKeyFromCache` and `setSenderKeyInCache`. -/
def processSenderKeyDistributionMessage {σ : Type} (E : Libsignal σ) (S : Store σ)
    (now later : Int) (groupId : Option String) (axolotl : Blob) (authorJid : String)
    (r : Repo σ) : Except RepoError Unit × Repo σ :=
  if groupId.getD "" = "" then
    (Except.error RepoError.groupIdRequired, r)
  else
    match E.jidToSignalProtocolAddress authorJid with
    | Except.error e => (Except.error (RepoError.outside e), r)
    | Except.ok addr =>
      match E.distributionMessage axolotl with
      | Except.error e => (Except.error (RepoError.outside e), r)
      | Except.ok senderMsg =>
        let senderNameStr := E.senderKeyName (groupId.getD "") addr
        let looked := getSenderKeyFromCache now r.senderKeyCache senderNameStr
        let fetched : Except Err Bool × World σ :=
          match looked.1 with
          | some _ => (Except.ok true, r.storage.keys)
          | none =>
            match storeGet S "sender-key" [senderNameStr] r.storage.keys with
            | (Except.error e, w1) => (Except.error e, w1)
            | (Except.ok found, w1) => (Except.ok (truthy (Obj.get found senderNameStr)), w1)
        match fetched with
        | (Except.error e, w1) =>
          (Except.error (RepoError.outside e),
            { r with senderKeyCache := looked.2, storage := { r.storage with keys := w1 } })
        | (Except.ok known, w1) =>
          let st1 : Storage σ := { r.storage with keys := w1 }
          let stored : Except Err Unit × Storage σ × Obj (Timed Blob) :=
            if known then (Except.ok (), st1, looked.2)
            else
              match storeSenderKey S senderNameStr E.newRecord st1 with
              | (Except.error e, st2) => (Except.error e, st2, looked.2)
              | (Except.ok _, st2) =>
                (Except.ok (), st2, setSenderKeyInCache later looked.2 senderNameStr E.newRecord)
          match stored with
          | (Except.error e, st2, cache2) =>
            (Except.error (RepoError.outside e),
              { r with senderKeyCache := cache2, storage := st2 })
          | (Except.ok _, st2, cache2) =>
            let called := r.engineCalls ++ [EngineCall.process senderNameStr senderMsg]
            match E.process senderNameStr senderMsg st2 with
            | (Except.error e, st3) =>
              (Except.error (RepoError.outside e),
                { r with senderKeyCache := cache2, storage := st3, engineCalls := called })
            | (Except.ok _, st3) =>
              (Except.ok (),
                { r with senderKeyCache := Obj.delete cache2 senderNameStr, storage := st3,
                         engineCalls := called })

/-- A stand-in for the imported modules: a jid (other than the empty string) has
the address `jid.0`, blobs are handed on as they are, and each session
operation succeeds after one write to the key store. -/
def plainSignal : Libsignal Patch where
  jidToSignalProtocolAddress := fun jid =>
    if jid = "" then Except.error "TypeError" else Except.ok (jid ++ ".0")
  senderKeyName := fun group addr => group ++ "::" ++ addr
  deserialize := fun b => Except.ok b
  distributionMessage := fun b => Except.ok b
  newRecord := "new"
  decryptPreKeyWhisperMessage := fun addr ciphertext st =>
    (Except.ok ciphertext,
      { st with keys := (storeSet memStore [("session", [(addr, some "fresh")])] st.keys).2 })
  decryptWhisperMessage := fun addr ciphertext st =>
    (Except.ok ciphertext,
      { st with keys := (storeSet memStore [("session", [(addr, some "next")])] st.keys).2 })
  initOutgoing := fun addr session st =>
    (Except.ok (),
      { st with keys := (storeSet memStore [("session", [(addr, some session)])] st.keys).2 })
  process := fun senderName senderMsg st =>
    (Except.ok (),
      { st with keys := (storeSet memStore [("sender-key", [(senderName, some senderMsg)])]
          st.keys).2 })

/-- A repository just made, over a key store in the given state. -/
def Repo.fresh {σ : Type} (st : σ) : Repo σ :=
  { sessionCache := [], senderKeyCache := [],
    storage := { sessions := [], preKeys := [], keys := World.fresh st }, engineCalls := [] }

/-- A key store that holds a session for the address `alice.0`. -/
def aliceStore : Patch := [("session", [("alice.0", some "sess")])]

/-- A repository whose session cache holds entries for `alice.0` and `bob.0`,
over a key store that holds a session for `alice.0`. -/
def warmRepo : Repo Patch :=
  { Repo.fresh aliceStore with
    sessionCache := [("alice.0", { value := "sess", time := 0 }),
                     ("bob.0", { value := "sessb", time := 5 })] }

/-! ## Pre-key allocation (`signal.js`) -/

/-- A dictionary keyed by pre-key id. The code keys its objects by the decimal
string of the id (`newPreKeys[keyIndex]`, `id.toString()`), which names the id
one to one; here the id itself is the key. -/
abbrev IdObj (α : Type) := List (Int × α)

namespace IdObj

variable {α : Type}

/-- Property read `o[id]`: `none` is `undefined`. -/
def get : IdObj α → Int → Option α
  | [], _ => none
  | (k', v) :: r, k => if k' = k then some v else get r k

/-- Property write `o[id] = v`. -/
def set : IdObj α → Int → α → IdObj α
  | [], k, v => [(k, v)]
  | (k', v') :: r, k, v => if k' = k then (k', v) :: r else (k', v') :: set r k v

/-- The call `Object.assign(target, source)`. -/
def assign (target source : IdObj α) : IdObj α :=
  source.foldl (fun acc p => set acc p.1 p.2) target

end IdObj

/-- The fields `nextPreKeyId` and `firstUnuploadedPreKeyId` of the credentials
(also the shape of `update`). -/
structure Creds where
  nextPreKeyId : Int
  firstUnuploadedPreKeyId : Int
  deriving DecidableEq

/-- The module-level `preKeyGenerationCache`, and the number of key pairs drawn
so far from `Curve.generateKeyPair()` (which the code does not read). -/
structure PreKeyGenerationCache where
  pendingKeys : IdObj Blob
  lastGenerationTime : Int
  isGenerating : Bool
  drawn : Nat
  deriving DecidableEq

/-- The constant `PREKEY_BATCH_SIZE`. -/
def PREKEY_BATCH_SIZE : Nat := 10

/-- The function `generateSinglePreKey()`; `supply n` is the key pair that the
`n`-th call of `Curve.generateKeyPair()` returns. -/
def generateSinglePreKey (supply : Nat → Blob) (g : PreKeyGenerationCache) :
    Blob × PreKeyGenerationCache :=
  (supply g.drawn, { g with drawn := g.drawn + 1 })

/-- The ids `start, start + 1, ...`, `n` of them (the loops `for (let id = min;
id < limit; id++)` and `for (let i = next; i <= last; i++)`). -/
def idsFrom (start : Int) (n : Nat) : List Int :=
  (List.range n).map (fun i => start + (i : Nat))

/-- The slices `l.slice(i, i + size)` for `i = 0, size, 2 * size, ...` below the
length of `l`; the first argument bounds the number of slices and is given the
length of the list. -/
def slices {α : Type} (size : Nat) : Nat → List α → List (List α)
  | 0, _ => []
  | _ + 1, [] => []
  | fuel + 1, a :: l => (a :: l).take size :: slices size fuel ((a :: l).drop size)

/-- In `generateOrGetPreKeys`, the loop over `pendingKeys`: buffered key pairs
are given the ids from `keyIndex` on while `keyIndex <= lastPreKeyId`; it
returns `newPreKeys` and `keyIndex`. -/
def fillFromPending : List (Int × Blob) → Int → Int → IdObj Blob → IdObj Blob × Int
  | [], keyIndex, _, newPreKeys => (newPreKeys, keyIndex)
  | (_, keyPair) :: rest, keyIndex, lastPreKeyId, newPreKeys =>
    if keyIndex ≤ lastPreKeyId then
      fillFromPending rest (keyIndex + 1) lastPreKeyId (IdObj.set newPreKeys keyIndex keyPair)
    else
      (newPreKeys, keyIndex)

/-- One turn `newPreKeys[id] = generateSinglePreKey()`. -/
def generateFor (supply : Nat → Blob) (acc : IdObj Blob × PreKeyGenerationCache) (id : Int) :
    IdObj Blob × PreKeyGenerationCache :=
  let k := generateSinglePreKey supply acc.2
  (IdObj.set acc.1 id k.1, k.2)

/-- The result of `generateOrGetPreKeys`. -/
structure Allocation where
  newPreKeys : IdObj Blob
  lastPreKeyId : Int
  preKeysRange : Int × Int
  deriving DecidableEq

/-- The function `generateOrGetPreKeys(creds, range)`; `now` is `Date.now()`. -/
def generateOrGetPreKeys (supply : Nat → Blob) (now : Int) (creds : Creds) (range : Int)
    (g : PreKeyGenerationCache) : Allocation × PreKeyGenerationCache :=
  let avaliable := creds.nextPreKeyId - creds.firstUnuploadedPreKeyId
  let remaining := range - avaliable
  let lastPreKeyId := creds.nextPreKeyId + remaining - 1
  let generated : IdObj Blob × PreKeyGenerationCache :=
    if remaining > 0 then
      if g.pendingKeys.length > 0 ∧ now - g.lastGenerationTime < 5000 then
        let filled := fillFromPending g.pendingKeys creds.nextPreKeyId lastPreKeyId []
        let rest := (idsFrom filled.2 (lastPreKeyId + 1 - filled.2).toNat).foldl
          (generateFor supply) (filled.1, g)
        (rest.1, { rest.2 with pendingKeys := [] })
      else
        let keyIds := idsFrom creds.nextPreKeyId (lastPreKeyId + 1 - creds.nextPreKeyId).toNat
        (slices PREKEY_BATCH_SIZE keyIds.length keyIds).foldl
          (fun acc batch => batch.foldl (generateFor supply) acc) ([], g)
    else
      ([], g)
  ({ newPreKeys := generated.1, lastPreKeyId := lastPreKeyId,
     preKeysRange := (creds.firstUnuploadedPreKeyId, range) }, generated.2)

/-- The key store handed to `getPreKeys` and `getNextPreKeys`, as far as they
use it: `get('pre-key', ids)` and `set` of a patch that holds pre-keys alone;
its state is of any type, both operations may fail. -/
structure PreKeyStore (σ : Type) where
  get : σ → List Int → Except Err (IdObj Blob) × σ
  set : σ → IdObj Blob → Except Err Unit × σ

/-- In `getPreKeys`, the batched reads `Promise.all(batches.map(batch =>
get('pre-key', batch)))` merged by `Object.assign`; the reads, started together
in the code, are made here one after another, and the first failure is the
failure of the whole. -/
def getBatches {σ : Type} (S : PreKeyStore σ) :
    List (List Int) → σ → IdObj Blob → Except Err (IdObj Blob) × σ
  | [], st, acc => (Except.ok acc, st)
  | batch :: rest, st, acc =>
    match S.get st batch with
    | (Except.error e, st1) => (Except.error e, st1)
    | (Except.ok result, st1) => getBatches S rest st1 (IdObj.assign acc result)

/-- The function `getPreKeys(keys, min, limit)`. -/
def getPreKeys {σ : Type} (S : PreKeyStore σ) (min limit : Int) (st : σ) :
    Except Err (IdObj Blob) × σ :=
  let idList := idsFrom min (limit - min).toNat
  if idList.length ≤ 50 then S.get st idList
  else getBatches S (slices 50 idList.length idList) st []

/-- The result `update, preKeys` of `getNextPreKeys`. -/
structure NextPreKeys where
  update : Creds
  preKeys : IdObj Blob
  deriving DecidableEq

/-- The function `getNextPreKeys(state, count)`, with `creds` and `keys` of the
state; `now` is the clock reading of `generateOrGetPreKeys`. -/
def getNextPreKeys {σ : Type} (S : PreKeyStore σ) (supply : Nat → Blob) (now : Int)
    (creds : Creds) (count : Int) (s : PreKeyGenerationCache × σ) :
    Except Err NextPreKeys × (PreKeyGenerationCache × σ) :=
  let a := generateOrGetPreKeys supply now creds count s.1
  let update : Creds :=
    { nextPreKeyId := max (a.1.lastPreKeyId + 1) creds.nextPreKeyId,
      firstUnuploadedPreKeyId := max creds.firstUnuploadedPreKeyId (a.1.lastPreKeyId + 1) }
  match S.set s.2 a.1.newPreKeys with
  | (Except.error e, st1) => (Except.error e, (a.2, st1))
  | (Except.ok _, st1) =>
    match getPreKeys S a.1.preKeysRange.1 (a.1.preKeysRange.1 + a.1.preKeysRange.2) st1 with
    | (Except.error e, st2) => (Except.error e, (a.2, st2))
    | (Except.ok preKeys, st2) => (Except.ok { update := update, preKeys := preKeys }, (a.2, st2))

/-- A key store that returns what was set: `holds st id` tells whether it holds
a pre-key for `id`; a `get` answers with an entry for each id asked that it
holds, for no other id, and changes nothing held; after a `set` it holds the
ids of the patch and those it held. -/
def ReturnsWhatWasSet {σ : Type} (S : PreKeyStore σ) (holds : σ → Int → Bool) : Prop :=
  (∀ st ids, ∃ r st', S.get st ids = (Except.ok r, st') ∧ (∀ id, holds st' id = holds st id) ∧
    ∀ id, (IdObj.get r id).isSome = (decide (id ∈ ids) && holds st id)) ∧
  (∀ st p, ∃ st', S.set st p = (Except.ok (), st') ∧
    ∀ id, holds st' id = ((IdObj.get p id).isSome || holds st id))

/-- An in-memory pre-key store: its state is the dictionary of the pre-keys it
holds. -/
def memPreKeys : PreKeyStore (IdObj Blob) where
  get := fun st ids =>
    (Except.ok (ids.filterMap (fun id => (IdObj.get st id).map (fun b => (id, b)))), st)
  set := fun st p => (Except.ok (), IdObj.assign st p)

/-- A pre-generation buffer that holds nothing. -/
def idleBuffer : PreKeyGenerationCache :=
  { pendingKeys := [], lastGenerationTime := 0, isGenerating := false, drawn := 0 }

/-- Credentials with pre-keys 3 and 4 generated and not yet uploaded. -/
def creds0 : Creds := { nextPreKeyId := 5, firstUnuploadedPreKeyId := 3 }

/-- A pre-key store state that holds pre-keys 3 and 4. -/
def heldTwo : IdObj Blob := [(3, "a"), (4, "b")]

/-! ## Lock order (`withMutexes`) -/

/-- Something that happens during a call of `withMutexes`: an `acquire()` of
a mutex returning, a `release()` of it, or `fn` being called. -/
inductive LockEvent where
  | acquire (mutex : String)
  | release (mutex : String)
  | run
  deriving DecidableEq

/-- The mutexes of `async-mutex` as one caller sees them: the names of those it
holds itself and what has happened so far (oldest first; the code does not read
it). -/
structure Locks where
  held : List String
  trace : List LockEvent
  deriving DecidableEq

/-- The call `await mutex.acquire()`: a mutex that is free, or held by someone
else who releases it in time, is taken; a mutex that the caller holds itself is
waited for without end, as only the caller could release it (`none`). -/
def Locks.acquire (L : Locks) (mutex : String) : Option Locks :=
  if mutex ∈ L.held then none
  else some { held := mutex :: L.held, trace := L.trace ++ [LockEvent.acquire mutex] }

/-- The call `release()` of the function that `acquire()` returned. -/
def Locks.release (L : Locks) (mutex : String) : Locks :=
  { held := L.held.erase mutex, trace := L.trace ++ [LockEvent.release mutex] }

/-- The function `getKeyTypeMutex(type)` of the coordinator; a mutex is named by
its key in `mutexCache`. -/
def getKeyTypeMutex (type : String) : String := "keytype:" ++ type

/-- The loop `for (const mutex of mutexes) releases.push(await
mutex.acquire())`: the releases gathered, or `none` where an `acquire()` does
not return, and the locks as they then are. -/
def acquireEach : List String → Locks → List String → Option (List String) × Locks
  | [], L, releases => (some releases, L)
  | mutex :: rest, L, releases =>
    match L.acquire mutex with
    | none => (none, L)
    | some L1 => acquireEach rest L1 (releases ++ [mutex])

/-- The loop `while (releases.length > 0) releases.pop()()`: last acquired,
first released. -/
def releaseEach (releases : List String) (L : Locks) : Locks :=
  releases.reverse.foldl Locks.release L

/-- The call `fn()`, noted in the trace; `fn` works on a state of its own. -/
def callFn {τ α : Type} (fn : τ → Except Err α × τ) (s : Locks × τ) :
    Except Err α × (Locks × τ) :=
  let r := fn s.2
  (r.1, ({ s.1 with trace := s.1.trace ++ [LockEvent.run] }, r.2))

/-- The function `withMutexes(keyTypes, getKeyTypeMutex, fn)`. The result is
`none` when the call never returns. `[...keyTypes].sort()` orders strings by
their UTF-16 code units, the order used here is by code points; the two agree
on names without characters outside the Basic Multilingual Plane. -/
def withMutexes {τ α : Type} (keyTypes : List String) (getKeyTypeMutex : String → String)
    (fn : τ → Except Err α × τ) (s : Locks × τ) : Option (Except Err α) × (Locks × τ) :=
  match keyTypes with
  | [] =>
    let r := callFn fn s
    (some r.1, r.2)
  | [keyType] =>
    match s.1.acquire (getKeyTypeMutex keyType) with
    | none => (none, s)
    | some L1 =>
      let r := callFn fn (L1, s.2)
      (some r.1, (r.2.1.release (getKeyTypeMutex keyType), r.2.2))
  | _ =>
    let sortedKeyTypes := keyTypes.insertionSort (fun a b => a ≤ b)
    let mutexes := sortedKeyTypes.map getKeyTypeMutex
    match acquireEach mutexes s.1 [] with
    | (none, L1) => (none, (L1, s.2))
    | (some releases, L1) =>
      let r := callFn fn (L1, s.2)
      (some r.1, (releaseEach releases r.2.1, r.2.2))

/-- The caller holds no mutex, nothing has happened. -/
def Locks.free : Locks := { held := [], trace := [] }

/-- A caller that writes a session for `bob.0` and then raises. -/
def failingInner : Work :=
  Work.set [("session", [("bob.0", some "s2")])] (Work.throw "boom")

/-- A handler that writes a session for `alice.0` and returns. -/
def recover : Err → Work :=
  fun _ => Work.set [("session", [("alice.0", some "s3")])] (Work.ret "recovered")

/-- The continuation that returns what it is given. -/
def handOn : Blob → Work := fun r => Work.ret r

/-- The patches of the `set` calls among the calls logged, oldest first. -/
def setPatches (calls : List Call) : List Patch :=
  calls.filterMap (fun call =>
    match call with
    | Call.set p _ => some p
    | Call.get _ _ _ => none)

/-- In `set`, the patch `senderKeyData` built for one sender key: the entry
`data['sender-key'][senderKeyName]` alone. -/
def senderKeyPatch (data : Patch) (senderKeyName : String) : Patch :=
  [("sender-key", match Patch.entry data "sender-key" senderKeyName with
    | some v => [(senderKeyName, v)]
    | none => [])]

/-- A patch with two sender keys, the deletion of pre-key `7` and a session. -/
def groupPatch : Patch :=
  [("sender-key", [("g1::alice.0", some "k1"), ("g2::bob.0", some "k2")]),
   ("pre-key", [("7", none)]),
   ("session", [("alice.0", some "s1")])]

/-! ## Device lists (`extractDeviceJids`) -/

/-- What `jidDecode(jid)` answers: the user and, when the jid names one, the
device (`none` is `undefined`). -/
structure DecodedJid where
  user : String
  device : Option Int
  deriving DecidableEq

/-- An element of a device list, of which the code reads `id` and `keyIndex`
(`none` is `undefined`). -/
structure DeviceEntry where
  id : Int
  keyIndex : Option Int
  deriving DecidableEq

/-- An element of `result`: `id` and, when `devices?.deviceList` is an array,
that array. -/
structure UserResult where
  id : String
  deviceList : Option (List DeviceEntry)
  deriving DecidableEq

/-- JavaScript truthiness `!!keyIndex` of a number that may be `undefined`. -/
def truthyNumber : Option Int → Bool
  | some k => decide (k ≠ 0)
  | none => false

/-- The condition under which `extractDeviceJids` keeps a device. -/
def keepsDevice (me : DecodedJid) (excludeZeroDevices : Bool) (user : String)
    (entry : DeviceEntry) : Bool :=
  (!excludeZeroDevices || decide (entry.id ≠ 0)) &&
  (decide (me.user ≠ user) || decide (me.device ≠ some entry.id)) &&
  (decide (entry.id = 0) || truthyNumber entry.keyIndex)

/-- The loop `for (const userResult of result)` of `extractDeviceJids`, with the
inner loop over the device list; destructuring the `undefined` that `jidDecode`
answers for a jid it cannot decode raises a `TypeError`. -/
def extractLoop (jidDecode : String → Option DecodedJid) (me : DecodedJid)
    (excludeZeroDevices : Bool) :
    List UserResult → List (String × Int) → Except Err (List (String × Int))
  | [], extracted => Except.ok extracted
  | userResult :: rest, extracted =>
    match jidDecode userResult.id with
    | none => Except.error "TypeError: Cannot destructure property 'user' of undefined"
    | some decoded =>
      let extracted1 :=
        match userResult.deviceList with
        | some deviceList =>
          deviceList.foldl
            (fun acc entry =>
              if keepsDevice me excludeZeroDevices decoded.user entry then
                acc ++ [(decoded.user, entry.id)]
              else acc)
            extracted
        | none => extracted
      extractLoop jidDecode me excludeZeroDevices rest extracted1

/-- The function `extractDeviceJids(result, myJid, excludeZeroDevices)`;
`jidDecode`, of the module `../WABinary`, is a parameter. -/
def extractDeviceJids (jidDecode : String → Option DecodedJid) (result : List UserResult)
    (myJid : String) (excludeZeroDevices : Bool) : Except Err (List (String × Int)) :=
  match jidDecode myJid with
  | none => Except.error "TypeError: Cannot destructure property 'user' of undefined"
  | some me => extractLoop jidDecode me excludeZeroDevices result []

/-- The devices that the claim describes for one user result. -/
def devicesKept (jidDecode : String → Option DecodedJid) (me : DecodedJid)
    (excludeZeroDevices : Bool) (userResult : UserResult) : List (String × Int) :=
  match jidDecode userResult.id, userResult.deviceList with
  | some decoded, some deviceList =>
    (deviceList.filter (fun entry =>
      (excludeZeroDevices = false ∨ entry.id ≠ 0) ∧
      (decoded.user ≠ me.user ∨ some entry.id ≠ me.device) ∧
      (entry.id = 0 ∨ truthyNumber entry.keyIndex = true))).map
      (fun entry => (decoded.user, entry.id))
  | _, _ => []

/-- A decoder for jids of the form `user:device`, given as a table. -/
def tableDecode : String → Option DecodedJid
  | "me:2" => some { user := "me", device := some 2 }
  | "me" => some { user := "me", device := none }
  | "ann" => some { user := "ann", device := none }
  | "bob" => some { user := "bob", device := none }
  | _ => none

/-- A usync result: my own devices 0, 2 and 3, two devices of `ann` (one
without key index), and `bob` without a device list. -/
def usync0 : List UserResult :=
  [{ id := "me", deviceList := some [{ id := 0, keyIndex := none }, { id := 2, keyIndex := some 1 },
      { id := 3, keyIndex := some 2 }] },
   { id := "ann", deviceList := some [{ id := 0, keyIndex := none }, { id := 5, keyIndex := none },
      { id := 7, keyIndex := some 4 }] },
   { id := "bob", deviceList := none }]

/-- The key pairs `supply n, supply (n + 1), ...`, `k` of them: what `k` calls
of `Curve.generateKeyPair()` return when `n` pairs have been drawn before. -/
def draws (supply : Nat → Blob) (n k : Nat) : List Blob :=
  (List.range k).map (fun j => supply (n + j))

/-- The constant `PREKEY_GENERATION_COOLDOWN`, in milliseconds. -/
def PREKEY_GENERATION_COOLDOWN : Int := 100

/-- In `preGenerateKeys`, one turn `pendingKeys.set(i, generateSinglePreKey())`. -/
def bufferOne (supply : Nat → Blob) (g : PreKeyGenerationCache) (i : Int) :
    PreKeyGenerationCache :=
  let k := generateSinglePreKey supply g
  { k.2 with pendingKeys := IdObj.set k.2.pendingKeys i k.1 }

/-- In `preGenerateKeys(count)`, batch `b`: the turns for `i` from `b *
PREKEY_BATCH_SIZE` up to, not including, `Math.min(batchStart +
PREKEY_BATCH_SIZE, count)`. -/
def preGenerateBatch (supply : Nat → Blob) (count b : Nat) (g : PreKeyGenerationCache) :
    PreKeyGenerationCache :=
  let batchStart := b * PREKEY_BATCH_SIZE
  let batchEnd := min (batchStart + PREKEY_BATCH_SIZE) count
  (idsFrom batchStart (batchEnd - batchStart)).foldl (bufferOne supply) g

/-- In `preGenerateKeys(count)`, the stretch that runs without awaiting from
batch `b` on: the batch, and then either the `await` that lets other code run
(when more batches follow) or the end of the function, which notes the time and
clears `isGenerating`. `batchCount` is `Math.ceil(count / PREKEY_BATCH_SIZE)`. -/
def preGenerateFrom (supply : Nat → Blob) (count : Nat) (now : Int) (b : Nat)
    (g : PreKeyGenerationCache) : PreKeyGenerationCache :=
  let batchCount := (count + (PREKEY_BATCH_SIZE - 1)) / PREKEY_BATCH_SIZE
  if b < batchCount then
    let g1 := preGenerateBatch supply count b g
    if b < batchCount - 1 then g1
    else { g1 with lastGenerationTime := now, isGenerating := false }
  else g

/-- The start of `preGenerateKeys(count)`, up to its first `await` or, when
there is at most one batch, to its end; `now` is its `Date.now()`. -/
def preGenerateStart (supply : Nat → Blob) (count : Nat) (now : Int)
    (g : PreKeyGenerationCache) : PreKeyGenerationCache :=
  if g.isGenerating = true ∨ now - g.lastGenerationTime < PREKEY_GENERATION_COOLDOWN then g
  else
    let g0 := { g with isGenerating := true, pendingKeys := [] }
    if (count + (PREKEY_BATCH_SIZE - 1)) / PREKEY_BATCH_SIZE = 0 then
      { g0 with lastGenerationTime := now, isGenerating := false }
    else preGenerateFrom supply count now 0 g0

/-- A stretch of code that touches the pre-generation buffer and runs without
awaiting: a call of `generateOrGetPreKeys`, the start of a call of
`preGenerateKeys`, or its resumption at a later batch. -/
inductive PreKeyOp where
  | generate (creds : Creds) (range : Int) (now : Int)
  | preGenerate (count : Nat) (now : Int)
  | resume (count : Nat) (now : Int) (b : Nat)

/-- What a stretch does to the buffer and to the record of the key pairs handed
out so far (the values of every `newPreKeys` returned, oldest first). -/
def PreKeyOp.apply (supply : Nat → Blob) :
    PreKeyOp → PreKeyGenerationCache × List Blob → PreKeyGenerationCache × List Blob
  | PreKeyOp.generate creds range now, s =>
    let r := generateOrGetPreKeys supply now creds range s.1
    (r.2, s.2 ++ r.1.newPreKeys.map Prod.snd)
  | PreKeyOp.preGenerate count now, s => (preGenerateStart supply count now s.1, s.2)
  | PreKeyOp.resume count now b, s => (preGenerateFrom supply count now b s.1, s.2)

/-- The buffer and the record after a sequence of stretches, in any order. -/
def runPreKeyOps (supply : Nat → Blob) (ops : List PreKeyOp)
    (s : PreKeyGenerationCache × List Blob) : PreKeyGenerationCache × List Blob :=
  ops.foldl (fun s op => op.apply supply s) s

/-- Every key pair in the buffer or handed out is a draw of the supply made
so far, and no two of them are the same. -/
def DrawnOnce (supply : Nat → Blob) (s : PreKeyGenerationCache × List Blob) : Prop :=
  (s.1.pendingKeys.map Prod.snd ++ s.2).Nodup ∧
  ∀ v ∈ s.1.pendingKeys.map Prod.snd ++ s.2, ∃ i, i < s.1.drawn ∧ v = supply i

/-! ## MessageQueue (`src/lib/Utils/message-queue.js`)

The queue is the array `this.queue`, first element first. The timer that takes
items off the front (`_processNext`) is not part of the model: the statements
are about the array as `enqueue` leaves it. -/

/-- The priority level `PRIORITY.CRITICAL`. A smaller number is served first. -/
def PRIORITY.CRITICAL : Int := 0

/-- The priority level `PRIORITY.HIGH`. -/
def PRIORITY.HIGH : Int := 1

/-- The priority level `PRIORITY.NORMAL`, the default of `enqueue`. -/
def PRIORITY.NORMAL : Int := 2

/-- The priority level `PRIORITY.LOW`. -/
def PRIORITY.LOW : Int := 3

/-- The priority level `PRIORITY.BACKGROUND`. -/
def PRIORITY.BACKGROUND : Int := 4

/-- The part of `this.config` that `enqueue` reads. The constructor merges the
caller's `config` over `QUEUE_CONFIG`. -/
structure QueueConfig where
  MAX_QUEUE_SIZE : Nat
  deriving DecidableEq, Repr

/-- The defaults `QUEUE_CONFIG`. -/
def QUEUE_CONFIG : QueueConfig := { MAX_QUEUE_SIZE := 1000 }

/-- The fields of `metadata` that `enqueue` and `_hashTask` read. -/
structure Metadata where
  jid : Option String
  contentHash : Option String
  allowDuplicate : Bool
  deriving DecidableEq, Repr

/-- A `QueueItem`. Its `id` is built from the clock and `Math.random()`: here it
is handed to `enqueue` by the caller. -/
structure QueueItem where
  id : String
  task : String
  priority : Int
  metadata : Metadata
  deriving DecidableEq, Repr

/-- The two methods of the `lru-cache` object `recentMessages` that `enqueue`
calls, over any representation `ρ` of the cache. -/
structure RecentMessages (ρ : Type) where
  has : ρ → String → Bool
  set : ρ → String → ρ

/-- The state of a `MessageQueue` that `enqueue` reads and writes. -/
structure MessageQueue (ρ : Type) where
  config : QueueConfig
  queue : List QueueItem
  totalQueued : Nat
  recentMessages : ρ

/-- The number `Math.ceil(length * 0.1)` of items that `_dropLowPriority`
removes, taken as the tenth of the length rounded up. -/
def toDrop (length : Nat) : Nat := (length + 9) / 10

/-- The method `_dropLowPriority`: `this.queue.sort((a, b) => b.priority -
a.priority)` puts the larger priority numbers first (the sort is stable), then
`splice(0, toDrop)` removes the first `toDrop` items. The array stays as the
sort left it. -/
def MessageQueue._dropLowPriority {ρ : Type} (q : MessageQueue ρ) : MessageQueue ρ :=
  let sorted := q.queue.insertionSort (fun a b => a.priority ≥ b.priority)
  { q with queue := sorted.drop (toDrop sorted.length) }

/-- The insertion loop of `enqueue`: the item goes in front of the first item
whose priority number is larger, and to the end when there is none. -/
def insertByPriority (item : QueueItem) : List QueueItem → List QueueItem
  | [] => [item]
  | x :: rest =>
    if x.priority > item.priority then item :: x :: rest
    else x :: insertByPriority item rest

/-- The method `enqueue(task, priority, metadata)`. The result is the id of the
new item, or `none` for the `null` of a duplicate. `hashTask` stands for
`_hashTask` (JSON and base64 text). -/
def MessageQueue.enqueue {ρ : Type} (R : RecentMessages ρ)
    (hashTask : String → Metadata → String) (id : String)
    (task : String) (priority : Int) (metadata : Metadata) (q : MessageQueue ρ) :
    Option String × MessageQueue ρ :=
  let q1 := if q.queue.length ≥ q.config.MAX_QUEUE_SIZE then q._dropLowPriority else q
  let item : QueueItem := { id := id, task := task, priority := priority, metadata := metadata }
  let hash := hashTask task metadata
  if R.has q1.recentMessages hash && !metadata.allowDuplicate then (none, q1)
  else
    (some item.id,
      { q1 with
        queue := insertByPriority item q1.queue
        totalQueued := q1.totalQueued + 1
        recentMessages := R.set q1.recentMessages hash })

/-- The constructor `new MessageQueue(logger, config)` with a given empty cache
of recent messages. -/
def MessageQueue.new {ρ : Type} (config : QueueConfig) (recent : ρ) : MessageQueue ρ :=
  { config := config, queue := [], totalQueued := 0, recentMessages := recent }

/-- The order the queue is meant to have: priority numbers never decrease from
the front to the back. -/
def InPriorityOrder (queue : List QueueItem) : Prop :=
  queue.Sorted (fun a b => a.priority ≤ b.priority)

/-- A cache of recent messages as the list of the hashes set so far. -/
def listRecent : RecentMessages (List String) :=
  { has := fun r hash => r.contains hash, set := fun r hash => hash :: r }

/-- A stand-in for `_hashTask`: the jid and the content, which the hash of the
source is computed from. -/
def plainHash (task : String) (metadata : Metadata) : String :=
  metadata.jid.getD "" ++ "|" ++ task

/-- The metadata `{ jid }`. -/
def toJid (jid : String) : Metadata :=
  { jid := some jid, contentHash := none, allowDuplicate := false }

/-- A queue for three items (`new MessageQueue(logger, { MAX_QUEUE_SIZE: 3 })`)
after `enqueue("a", 0, ..)`, `enqueue("b", 1, ..)`, `enqueue("c", 3, ..)`. -/
def fullQueue : MessageQueue (List String) :=
  (MessageQueue.enqueue listRecent plainHash "id3" "c" PRIORITY.LOW (toJid "x")
    (MessageQueue.enqueue listRecent plainHash "id2" "b" PRIORITY.HIGH (toJid "x")
      (MessageQueue.enqueue listRecent plainHash "id1" "a" PRIORITY.CRITICAL (toJid "x")
        (MessageQueue.new { MAX_QUEUE_SIZE := 3 } [])).2).2).2

/-! ## The lock of the Tiered Cache (`cacheLock`)

Calls of `get` and `set` are taken one after the other, each from its start to
its return. -/

/-- The `Semaphore(1)` named `cacheLock`: the permits left, and the acquires and
releases so far (oldest first; the code does not read them). -/
structure Semaphore where
  value : Nat
  trace : List LockEvent
  deriving DecidableEq

/-- The semaphore `new Semaphore(1)`. -/
def Semaphore.new : Semaphore := { value := 1, trace := [] }

/-- The call `await cacheLock.acquire()`: a permit is taken when there is one;
without a permit the call waits for a release, which no call that has returned
will make (`none`). -/
def Semaphore.acquire (m : Semaphore) : Option Semaphore :=
  if m.value > 0 then
    some { value := m.value - 1, trace := m.trace ++ [LockEvent.acquire "cacheLock"] }
  else none

/-- The call `release()` of the function that `acquire()` returned. -/
def Semaphore.release (m : Semaphore) : Semaphore :=
  { value := m.value + 1, trace := m.trace ++ [LockEvent.release "cacheLock"] }

/-- The method `get(type, ids)` of the Tiered Cache with `cacheLock`: the lock
is taken only when there are ids to fetch, and `finally` releases it whether
`store.get` answers or fails. The result is `none` when the call never
returns. -/
def tieredGetLocked {σ γ : Type} (S : Store σ) (G : GeneralTier γ) (now later : Int)
    (type : String) (ids : List String) (s : Semaphore × (Tiered γ × World σ)) :
    Option (Except Err (Obj Val)) × (Semaphore × (Tiered γ × World σ)) :=
  let g := ids.foldl (getStep G now type) { tier := s.2.1, data := [], idsToFetch := [] }
  if g.idsToFetch.length ≠ 0 then
    match s.1.acquire with
    | none => (none, (s.1, (g.tier, s.2.2)))
    | some m1 =>
      match storeGet S type g.idsToFetch s.2.2 with
      | (Except.error e, w1) => (some (Except.error e), (m1.release, (g.tier, w1)))
      | (Except.ok fetched, w1) =>
        let g1 := g.idsToFetch.foldl (fetchStep G later type fetched) g
        (some (Except.ok g1.data), (m1.release, (g1.tier, w1)))
  else
    (some (Except.ok g.data), (s.1, (g.tier, s.2.2)))

/-- The method `set(data)` of the Tiered Cache with `cacheLock`: the lock is
held for the whole body, and `finally` releases it whether `store.set` answers
or fails. The result is `none` when the call never returns. -/
def tieredSetLocked {σ γ : Type} (S : Store σ) (G : GeneralTier γ) (now : Int) (data : Patch)
    (s : Semaphore × (Tiered γ × World σ)) :
    Option (Except Err Unit) × (Semaphore × (Tiered γ × World σ)) :=
  match s.1.acquire with
  | none => (none, s)
  | some m1 =>
    let t1 := setLoop G now data s.2.1
    let r := storeSet S data s.2.2
    (some r.1, (m1.release, (t1, r.2)))

/-- The ids that `get(type, ids)` finds in neither tier and asks of the store. -/
def idsToFetch {γ : Type} (G : GeneralTier γ) (now : Int) (type : String) (ids : List String)
    (t : Tiered γ) : List String :=
  (ids.foldl (getStep G now type) { tier := t, data := [], idsToFetch := [] }).idsToFetch

/-- A store that is down: `get` and `set` fail with `EIO`. -/
def downStore : Store Unit where
  get := fun st _ _ => (Except.error "EIO", st)
  set := fun st _ => (Except.error "EIO", st)

/-! ## Concurrent `transaction` calls

JavaScript runs one call at a time and changes over only at an `await`. Each
step below is what one call does from one `await` to the next; a schedule is
the order in which the calls take their steps. -/

/-- One awaited call made by the work of a transaction. -/
inductive CallerStep where
  | get (type : String) (ids : List String)
  | set (data : Patch)
  deriving DecidableEq

/-- The call `await get(type, ids)` or `await set(data)` of a work, its result
dropped. -/
def CallerStep.apply {σ : Type} (S : Store σ) :
    CallerStep → Coord × World σ → Except Err Unit × (Coord × World σ)
  | CallerStep.get type ids, s =>
    match coordGet S type ids s with
    | (Except.error e, s1) => (Except.error e, s1)
    | (Except.ok _, s1) => (Except.ok (), s1)
  | CallerStep.set data, s => coordSet S data s

/-- Where a call `transaction(work, key)` stands: `called` before
`getTransactionMutex(key).acquire()` has answered, `granted` once it has (the
mutex is held, the line after the `await` has not run yet), `working` with the
calls that the work has still to make, `leaving` after
`executeTransactionWork` and before the `finally`, `returned` after it. -/
inductive TxPhase where
  | called
  | granted
  | working (rest : List CallerStep)
  | leaving
  | returned
  deriving DecidableEq

/-- A call `transaction(work, key)`; the work is a sequence of awaited `get`
and `set` calls. -/
structure TxThread where
  key : String
  work : List CallerStep
  phase : TxPhase
  deriving DecidableEq

/-- The function `getTransactionMutex(key)`; a mutex is named by its key in
`mutexCache`. -/
def getTransactionMutex (key : String) : String := "transaction:" ++ key

/-- The calls in progress, the mutexes that are held (each with the index of the
call that holds it), and the coordinator with the world. -/
structure TxSched (σ : Type) where
  threads : List TxThread
  mutexes : List (String × Nat)
  state : Coord × World σ

/-- Whether the mutex of that name is held. -/
def isLocked (mutexes : List (String × Nat)) (name : String) : Bool :=
  mutexes.any (fun p => p.1 == name)

/-- The step of call `i` of `transaction`, or `none` when it has none to take:
there is no such call, it has returned, or it waits for a mutex that is held.
* `called`: `acquire()` answers when the mutex is free, and the call holds it.
* `granted`: `transactionsInProgress += 1`, then `releaseTxMutex()`, then
  `executeTransactionWork(work)` calls `work()`.
* `working`: the next `get` or `set` of the work; a failure ends the work. When
  the work has returned, `commitTransaction()` runs if the counter is 1.
* `leaving`: `cleanupTransactionState()`. -/
def TxSched.step {σ : Type} (S : Store σ) (opts : TransactionOpts) (i : Nat) (s : TxSched σ) :
    Option (TxSched σ) :=
  match s.threads[i]? with
  | none => none
  | some th =>
    match th.phase with
    | TxPhase.called =>
      if isLocked s.mutexes (getTransactionMutex th.key) then none
      else
        some { s with
          mutexes := (getTransactionMutex th.key, i) :: s.mutexes
          threads := s.threads.set i { th with phase := TxPhase.granted } }
    | TxPhase.granted =>
      some
        { threads := s.threads.set i { th with phase := TxPhase.working th.work }
          mutexes := s.mutexes.filter (fun p => p.1 != getTransactionMutex th.key)
          state :=
            ({ s.state.1 with
                transactionsInProgress := s.state.1.transactionsInProgress + 1 },
              s.state.2) }
    | TxPhase.working (call :: rest) =>
      match call.apply S s.state with
      | (Except.ok _, s1) =>
        some { s with
          state := s1
          threads := s.threads.set i { th with phase := TxPhase.working rest } }
      | (Except.error _, s1) =>
        some { s with
          state := s1
          threads := s.threads.set i { th with phase := TxPhase.leaving } }
    | TxPhase.working [] =>
      some { s with
        state :=
          (if s.state.1.transactionsInProgress = 1 then commitTransaction S opts s.state
            else s.state)
        threads := s.threads.set i { th with phase := TxPhase.leaving } }
    | TxPhase.leaving =>
      some { s with
        state := (cleanupTransactionState s.state.1, s.state.2)
        threads := s.threads.set i { th with phase := TxPhase.returned } }
    | TxPhase.returned => none

/-- The state after the calls have taken their steps in the order of the
schedule; `none` when the schedule names a call that has no step to take. -/
def runSchedule {σ : Type} (S : Store σ) (opts : TransactionOpts) :
    List Nat → TxSched σ → Option (TxSched σ)
  | [], s => some s
  | i :: rest, s =>
    match s.step S opts i with
    | none => none
    | some s1 => runSchedule S opts rest s1

/-- The calls `transaction(work, key)` just made, over a coordinator and a
world. -/
def TxSched.start {σ : Type} (calls : List (String × List CallerStep))
    (state : Coord × World σ) : TxSched σ :=
  { threads := calls.map (fun c => { key := c.1, work := c.2, phase := TxPhase.called })
    mutexes := []
    state := state }

/-- The phases of the calls. -/
def TxSched.phases {σ : Type} (s : TxSched σ) : List TxPhase :=
  s.threads.map (fun th => th.phase)

/-- Two calls of `transaction` under the same scope token `k`, each with one
`set` as its work. -/
def sameToken : List (String × List CallerStep) :=
  [("k", [CallerStep.set [("session", [("alice.0", some "s1")])]]),
   ("k", [CallerStep.set [("session", [("bob.0", some "s2")])]])]

/-- What holds of the mutex table after every schedule: a mutex that is held is
the transaction mutex of its holder, who is in phase `granted`; a call in phase
`granted` holds its mutex; no mutex is held twice. -/
structure MutexInv {σ : Type} (s : TxSched σ) : Prop where
  holder : ∀ name j, (name, j) ∈ s.mutexes →
    ∃ th, s.threads[j]? = some th ∧ th.phase = TxPhase.granted ∧
      name = getTransactionMutex th.key
  holds : ∀ j th, s.threads[j]? = some th → th.phase = TxPhase.granted →
    (getTransactionMutex th.key, j) ∈ s.mutexes
  once : (s.mutexes.map Prod.fst).Nodup

/-- The two calls of `sameToken` after the schedule `0, 0, 1`: the first is in
its work with the counter at 1, the second holds the mutex of the token. -/
def midRun : TxSched Patch :=
  { threads :=
      [{ key := "k", work := [CallerStep.set [("session", [("alice.0", some "s1")])]],
         phase := TxPhase.working [CallerStep.set [("session", [("alice.0", some "s1")])]] },
       { key := "k", work := [CallerStep.set [("session", [("bob.0", some "s2")])]],
         phase := TxPhase.granted }]
    mutexes := [("transaction:k", 1)]
    state := ({ Coord.init with transactionsInProgress := 1 }, World.fresh []) }

/-! ## Concurrent `get` and `set` calls with no transaction open

As for concurrent `transaction` calls, a step is what one call does between two
`await`s and a schedule is the order of the steps. A call of `state.set` is in
flight from the step that makes it to the step in which it answers. -/

/-- The function `getSenderKeyMutex(senderKeyName)`; a mutex is named by its key
in `mutexCache`. -/
def getSenderKeyMutex (senderKeyName : String) : String := "senderkey:" ++ senderKeyName

/-- What a call of `get` or `set` does between two `await`s.
* `acquire`: `mutex.acquire()` answers (also the start of `runExclusive`).
* `release`: the mutex is released (also the end of `runExclusive`).
* `read`: `await state.get(type, ids)`.
* `store`: the callback that `set` hands to `withMutexes`, up to its call of
  `state.set`: the pre-key pass over the data, whose reads neither take nor
  release a mutex, then `state.set(data)` is called.
* `send`: `state.set(patch)` is called.
* `settle`: the `state.set` in flight answers. -/
inductive MicroOp where
  | acquire (mutex : String)
  | release (mutex : String)
  | read (type : String) (ids : List String)
  | store (data : Patch)
  | send (patch : Patch)
  | settle
  deriving DecidableEq

/-- The body of the loop `for (const senderKeyName of senderKeyNames)` of `set`:
`queueSenderKeyOperation` runs `state.set(senderKeyData)` under the mutex of
the sender key. -/
def senderKeyOps (data : Patch) (senderKeyName : String) : List MicroOp :=
  let senderKeyData : Patch :=
    [("sender-key", match Patch.entry data "sender-key" senderKeyName with
      | some v => [(senderKeyName, v)]
      | none => [])]
  [MicroOp.acquire (getSenderKeyMutex senderKeyName), MicroOp.send senderKeyData,
   MicroOp.settle, MicroOp.release (getSenderKeyMutex senderKeyName)]

/-- The function `withMutexes(keyTypes, getKeyTypeMutex, fn)` as steps: the
mutexes are taken in sorted order, `fn` runs, the mutexes are released in the
reverse order. -/
def withMutexesOps (keyTypes : List String) (fn : List MicroOp) : List MicroOp :=
  let sortedKeyTypes := keyTypes.insertionSort (fun a b => a ≤ b)
  sortedKeyTypes.map (fun t => MicroOp.acquire (getKeyTypeMutex t)) ++ fn
    ++ sortedKeyTypes.reverse.map (fun t => MicroOp.release (getKeyTypeMutex t))

/-- The `else` branch of `set` (no transaction open) as steps. -/
def setOps (data : Patch) : List MicroOp :=
  if Obj.has data "sender-key" then
    let senderKeyNames := Obj.keys ((Obj.get data "sender-key").getD [])
    let nonSenderKeyData := Obj.delete data "sender-key"
    senderKeyNames.flatMap (senderKeyOps data) ++
      (if (Obj.keys nonSenderKeyData).length > 0 then
        withMutexesOps (Obj.keys nonSenderKeyData)
          [MicroOp.store nonSenderKeyData, MicroOp.settle]
      else [])
  else
    withMutexesOps (Obj.keys data) [MicroOp.store data, MicroOp.settle]

/-- The `else` branch of `get` (no transaction open) as steps. -/
def getOps (type : String) (ids : List String) : List MicroOp :=
  if type = "sender-key" then
    ids.flatMap (fun senderKeyName =>
      [MicroOp.acquire (getSenderKeyMutex senderKeyName), MicroOp.read type [senderKeyName],
       MicroOp.release (getSenderKeyMutex senderKeyName)])
  else
    [MicroOp.acquire (getKeyTypeMutex type), MicroOp.read type ids,
     MicroOp.release (getKeyTypeMutex type)]

/-- A call made on the coordinator. -/
inductive CoordCall where
  | get (type : String) (ids : List String)
  | set (data : Patch)
  deriving DecidableEq

/-- The steps of a call. -/
def CoordCall.ops : CoordCall → List MicroOp
  | CoordCall.get type ids => getOps type ids
  | CoordCall.set data => setOps data

/-- A call in progress: the steps it has still to take, the patch of its
`state.set` in flight if there is one, and the error it was rejected with. -/
structure CallThread where
  ops : List MicroOp
  inFlight : Option Patch
  failed : Option Err
  deriving DecidableEq

/-- The calls in progress, the mutexes that are held (each with the index of the
call that holds it), and the world. -/
structure CallSched (σ : Type) where
  threads : List CallThread
  mutexes : List (String × Nat)
  world : World σ

/-- Call `i` is rejected with `e`: the `finally` blocks release every mutex that
it holds. -/
def CallSched.abort {σ : Type} (s : CallSched σ) (i : Nat) (e : Err) (w : World σ) :
    CallSched σ :=
  { threads := s.threads.set i { ops := [], inFlight := none, failed := some e }
    mutexes := s.mutexes.filter (fun p => decide (p.2 ≠ i))
    world := w }

/-- The step of call `i`, or `none` when it has none to take: there is no such
call, it has returned, or it waits for a mutex that is held. -/
def CallSched.step {σ : Type} (S : Store σ) (i : Nat) (s : CallSched σ) :
    Option (CallSched σ) :=
  match s.threads[i]? with
  | none => none
  | some th =>
    match th.ops with
    | [] => none
    | MicroOp.acquire m :: rest =>
      if isLocked s.mutexes m then none
      else
        some { s with
          mutexes := (m, i) :: s.mutexes
          threads := s.threads.set i { th with ops := rest } }
    | MicroOp.release m :: rest =>
      some { s with
        mutexes := s.mutexes.filter (fun p => decide (p ≠ (m, i)))
        threads := s.threads.set i { th with ops := rest } }
    | MicroOp.read type ids :: rest =>
      match storeGet S type ids s.world with
      | (Except.error e, w1) => some (s.abort i e w1)
      | (Except.ok _, w1) =>
        some { s with world := w1, threads := s.threads.set i { th with ops := rest } }
    | MicroOp.store data :: rest =>
      match preKeyPass S (Obj.keys data) data s.world with
      | (Except.error e, w1) => some (s.abort i e w1)
      | (Except.ok data1, w1) =>
        some { s with
          world := w1
          threads := s.threads.set i { th with ops := rest, inFlight := some data1 } }
    | MicroOp.send patch :: rest =>
      some { s with threads := s.threads.set i { th with ops := rest, inFlight := some patch } }
    | MicroOp.settle :: rest =>
      match th.inFlight with
      | none => none
      | some patch =>
        match storeSet S patch s.world with
        | (Except.error e, w1) => some (s.abort i e w1)
        | (Except.ok _, w1) =>
          some { s with
            world := w1
            threads := s.threads.set i { th with ops := rest, inFlight := none } }

/-- The state after the calls have taken their steps in the order of the
schedule; `none` when the schedule names a call that has no step to take. -/
def runCalls {σ : Type} (S : Store σ) : List Nat → CallSched σ → Option (CallSched σ)
  | [], s => some s
  | i :: rest, s =>
    match s.step S i with
    | none => none
    | some s1 => runCalls S rest s1

/-- The calls just made, over a world. -/
def CallSched.start {σ : Type} (calls : List CoordCall) (w : World σ) : CallSched σ :=
  { threads := calls.map (fun c => { ops := c.ops, inFlight := none, failed := none })
    mutexes := []
    world := w }

/-- The mutexes that guard a patch: the mutex of each of its key types, and for
the key type `sender-key` the mutex of each of its sender keys instead. -/
def scopes (patch : Patch) : List String :=
  (Obj.keys patch).flatMap (fun type =>
    if type = "sender-key" then
      (Obj.keys ((Obj.get patch type).getD [])).map getSenderKeyMutex
    else [getKeyTypeMutex type])

/-- The steps `ops` never call `state.set` without the mutexes that guard the
patch, given that the mutexes `H` are held when they begin, and follow each
call of `state.set` by the step in which it answers. -/
def Guarded : (String → Prop) → List MicroOp → Prop
  | _, [] => True
  | H, MicroOp.acquire m :: rest => Guarded (fun n => n = m ∨ H n) rest
  | H, MicroOp.release m :: rest => Guarded (fun n => n ≠ m ∧ H n) rest
  | H, MicroOp.read _ _ :: rest => Guarded H rest
  | H, MicroOp.store data :: rest =>
    "sender-key" ∉ Obj.keys data ∧ (∀ t ∈ Obj.keys data, H (getKeyTypeMutex t)) ∧
      (∃ rest1, rest = MicroOp.settle :: rest1) ∧ Guarded H rest
  | H, MicroOp.send patch :: rest =>
    (∀ n ∈ scopes patch, H n) ∧ (∃ rest1, rest = MicroOp.settle :: rest1) ∧ Guarded H rest
  | H, MicroOp.settle :: rest => Guarded H rest

/-- What holds of the calls and the mutex table after every schedule: no mutex
is held twice; a call with a `state.set` in flight holds the mutexes that guard
its patch and its next step is the answer; the steps left are guarded. -/
structure CallInv {σ : Type} (s : CallSched σ) : Prop where
  once : (s.mutexes.map Prod.fst).Nodup
  flying : ∀ (j : Nat) (th : CallThread) (patch : Patch), s.threads[j]? = some th →
    th.inFlight = some patch →
    (∀ n ∈ scopes patch, (n, j) ∈ s.mutexes) ∧ ∃ rest, th.ops = MicroOp.settle :: rest
  guarded : ∀ (j : Nat) (th : CallThread), s.threads[j]? = some th →
    Guarded (fun n => (n, j) ∈ s.mutexes) th.ops

/-- Two `set` calls that both write a session and a sender key, and a `get` of
sessions. -/
def threeCalls : List CoordCall :=
  [CoordCall.set [("session", [("alice.0", some "s1")]), ("sender-key", [("g1", some "k1")])],
   CoordCall.set [("sender-key", [("g2", some "k2")]), ("session", [("bob.0", some "s2")])],
   CoordCall.get "session" ["alice.0"]]

/-- The first call of `threeCalls` with the `state.set` of its sender key in
flight. -/
def flyingG1 : CallThread :=
  { ops := [MicroOp.settle, MicroOp.release "senderkey:g1", MicroOp.acquire "keytype:session",
      MicroOp.store [("session", [("alice.0", some "s1")])], MicroOp.settle,
      MicroOp.release "keytype:session"]
    inFlight := some [("sender-key", [("g1", some "k1")])]
    failed := none }

/-- The second call of `threeCalls` with the `state.set` of its sender key in
flight. -/
def flyingG2 : CallThread :=
  { ops := [MicroOp.settle, MicroOp.release "senderkey:g2", MicroOp.acquire "keytype:session",
      MicroOp.store [("session", [("bob.0", some "s2")])], MicroOp.settle,
      MicroOp.release "keytype:session"]
    inFlight := some [("sender-key", [("g2", some "k2")])]
    failed := none }

/-- The calls of `threeCalls` after the schedule `0, 0, 1, 1`: both `set` calls
have the `state.set` of their sender key in flight, the `get` has not begun. -/
def twoInFlight : CallSched Patch :=
  { threads := [flyingG1, flyingG2,
      { ops := [MicroOp.acquire "keytype:session", MicroOp.read "session" ["alice.0"],
          MicroOp.release "keytype:session"]
        inFlight := none
        failed := none }]
    mutexes := [("senderkey:g2", 1), ("senderkey:g1", 0)]
    world := World.fresh [] }

/-- What a direct `set` hands to the store, beyond `DirectSpec`: a patch handed
to the store's `set` holds only entries of the input, and it holds the deletion
of a pre-key id only if the store was asked about that id in this call and
answered with a value. -/
def SendsChecked (data : Patch) (calls : List Call) : Prop :=
  (∀ p r t i v, Call.set p r ∈ calls → Patch.entry p t i = some v →
    Patch.entry data t i = some v) ∧
  (∀ p r id, Call.set p r ∈ calls → Patch.entry p "pre-key" id = some none →
    ∃ r1, Call.get "pre-key" [id] (Except.ok r1) ∈ calls ∧ truthy (Obj.get r1 id) = true)

/-! # Properties -/

/-! ## Facts about dictionaries -/

namespace Obj

variable {α : Type}

theorem get_set_self (o : Obj α) (k : String) (v : α) : get (set o k v) k = some v := by
  induction o with
  | nil => simp [set, get]
  | cons p r ih =>
    obtain ⟨k', v'⟩ := p
    by_cases h : k' = k
    · simp [set, get, h]
    · simp [set, get, h, ih]

theorem get_set_ne (o : Obj α) (k k' : String) (v : α) (h : k ≠ k') :
    get (set o k v) k' = get o k' := by
  induction o with
  | nil => simp [set, get, h]
  | cons p r ih =>
    obtain ⟨k0, v0⟩ := p
    by_cases h0 : k0 = k
    · subst h0
      simp [set, get, h]
    · by_cases h1 : k0 = k'
      · subst h1
        simp [set, get, h0]
      · simp [set, get, h0, h1, ih]

theorem get_set (o : Obj α) (k k' : String) (v : α) :
    get (set o k v) k' = if k = k' then some v else get o k' := by
  by_cases h : k = k'
  · subst h
    simp [get_set_self]
  · simp [h, get_set_ne o k k' v h]

theorem get_delete_self (o : Obj α) (k : String) : get (delete o k) k = none := by
  induction o with
  | nil => simp [delete, get]
  | cons p r ih =>
    obtain ⟨k0, v0⟩ := p
    by_cases h0 : k0 = k
    · simpa [delete, h0] using ih
    · simpa [delete, List.filter_cons, h0, get] using ih

theorem get_delete_ne (o : Obj α) (k k' : String) (h : k ≠ k') :
    get (delete o k) k' = get o k' := by
  induction o with
  | nil => simp [delete, get]
  | cons p r ih =>
    obtain ⟨k0, v0⟩ := p
    by_cases h0 : k0 = k
    · subst h0
      simpa [delete, get, h] using ih
    · by_cases h1 : k0 = k'
      · subst h1
        simp [delete, List.filter_cons, h0, get]
      · simpa [delete, List.filter_cons, h0, get, h1] using ih

theorem get_delete (o : Obj α) (k k' : String) :
    get (delete o k) k' = if k = k' then none else get o k' := by
  by_cases h : k = k'
  · subst h
    simp [get_delete_self]
  · simp [h, get_delete_ne o k k' h]

theorem get_eq_none_iff (o : Obj α) (k : String) : get o k = none ↔ k ∉ keys o := by
  induction o with
  | nil => simp [get, keys]
  | cons p r ih =>
    obtain ⟨k0, v0⟩ := p
    by_cases h0 : k0 = k
    · simp [get, keys, h0]
    · have h1 : ¬ k = k0 := fun h => h0 h.symm
      simpa [get, keys, h0, h1] using ih

theorem get_isSome_of_mem_keys (o : Obj α) (k : String) (h : k ∈ keys o) :
    ∃ v, get o k = some v := by
  cases hg : get o k with
  | none => exact absurd h ((get_eq_none_iff o k).1 hg)
  | some v => exact ⟨v, rfl⟩

theorem mem_keys_of_get (o : Obj α) (k : String) (v : α) (h : get o k = some v) :
    k ∈ keys o := by
  by_contra hk
  rw [(get_eq_none_iff o k).2 hk] at h
  cases h

theorem mem_of_get (o : Obj α) (k : String) (v : α) (h : get o k = some v) : (k, v) ∈ o := by
  induction o with
  | nil => simp [get] at h
  | cons p r ih =>
    obtain ⟨k0, v0⟩ := p
    by_cases h0 : k0 = k
    · simp [get, h0] at h
      simp [h0, h]
    · simp [get, h0] at h
      exact List.mem_cons_of_mem _ (ih h)

theorem length_set_le (o : Obj α) (k : String) (v : α) : (set o k v).length ≤ o.length + 1 := by
  induction o with
  | nil => simp [set]
  | cons p r ih =>
    obtain ⟨k0, v0⟩ := p
    by_cases h0 : k0 = k
    · simp [set, h0]
    · simpa [set, h0] using ih

theorem length_delete_le (o : Obj α) (k : String) : (delete o k).length ≤ o.length := by
  unfold delete
  exact List.length_filter_le _ _

theorem set_ne_nil (o : Obj α) (k : String) (v : α) : set o k v ≠ [] := by
  cases o with
  | nil => simp [set]
  | cons p r =>
    obtain ⟨k0, v0⟩ := p
    by_cases h0 : k0 = k <;> simp [set, h0]

/-- Writing the values of `source` at the keys `ks`, one after the other. -/
theorem get_foldl_write (source : Obj α) (ks : List String) (target : Obj α) (k : String) :
    get (ks.foldl (fun acc k => match get source k with
        | some v => set acc k v
        | none => acc) target) k
      = if k ∈ ks then (match get source k with
          | some v => some v
          | none => get target k) else get target k := by
  induction ks generalizing target with
  | nil => simp
  | cons a r ih =>
    rw [List.foldl_cons, ih]
    by_cases hk : k ∈ r
    · simp only [hk, if_true, List.mem_cons, or_true]
      cases hs : get source k with
      | some v => rfl
      | none =>
        simp only
        cases ha : get source a with
        | none => rfl
        | some va =>
          simp only
          have : a ≠ k := by
            intro h
            rw [h, hs] at ha
            cases ha
          exact get_set_ne target a k va this
    · simp only [hk, if_false, List.mem_cons, or_false]
      by_cases hak : k = a
      · subst hak
        simp only [if_true]
        cases hs : get source k with
        | none => rfl
        | some v => simp [get_set_self]
      · simp only [hak, if_false]
        cases ha : get source a with
        | none => rfl
        | some va =>
          simp only
          exact get_set_ne target a k va (fun h => hak h.symm)

theorem get_assign (target source : Obj α) (k : String) :
    get (assign target source) k
      = match get source k with
        | some v => some v
        | none => get target k := by
  unfold assign
  rw [get_foldl_write]
  by_cases hk : k ∈ keys source
  · simp [hk]
  · simp [hk, (get_eq_none_iff source k).2 hk]

end Obj

/-! ## `set` outside a transaction -/

theorem answeredMissing_mono {calls calls' : List Call} {keyType id : String}
    (h : AnsweredMissing calls keyType id) (hsub : ∀ c ∈ calls, c ∈ calls') :
    AnsweredMissing calls' keyType id := by
  obtain ⟨r, hr, hf⟩ := h
  exact ⟨r, hsub _ hr, hf⟩

theorem entry_deleteIn (data : Patch) (keyType keyId t i : String) :
    Patch.entry (deleteIn data keyType keyId) t i
      = if t = keyType ∧ i = keyId then none else Patch.entry data t i := by
  unfold deleteIn
  cases hd : Obj.get data keyType with
  | none =>
    by_cases h : t = keyType ∧ i = keyId
    · obtain ⟨h1, h2⟩ := h
      subst h1
      simp [Patch.entry, hd]
    · simp [h]
  | some d =>
    simp only [Patch.entry]
    by_cases ht : t = keyType
    · subst ht
      rw [Obj.get_set_self, hd]
      simp only [true_and]
      rw [Obj.get_delete]
      by_cases hi : i = keyId
      · simp [hi]
      · have : ¬ keyId = i := fun h => hi h.symm
        simp [hi, this]
    · rw [Obj.get_set_ne _ _ _ _ (fun h => ht h.symm)]
      simp [ht]


theorem passSpec_refl (asked : String → Prop) (keyType : String) (data : Patch) :
    PassSpec asked keyType data [] (Except.ok data) := by
  refine ⟨by simp, by simp, ?_⟩
  intro data' h
  cases h
  refine ⟨fun t i => Or.inl rfl, ?_⟩
  rintro i ⟨r, hr, _⟩
  simp at hr

theorem passSpec_weaken {asked asked' : String → Prop} {keyType : String} {data : Patch}
    {calls : List Call} {res : Except Err Patch} (h : PassSpec asked keyType data calls res)
    (himp : ∀ id, asked id → asked' id) : PassSpec asked' keyType data calls res := by
  obtain ⟨g, f, k⟩ := h
  refine ⟨?_, f, k⟩
  intro call hc
  obtain ⟨id, r, h1, h2⟩ := g call hc
  exact ⟨id, r, h1, himp id h2⟩

/-- A second pass, after a first pass that went through. -/
theorem passSpec_trans {asked : String → Prop} {keyType : String} {data data1 : Patch}
    {calls1 calls2 : List Call} {res : Except Err Patch}
    (h1 : PassSpec asked keyType data calls1 (Except.ok data1))
    (h2 : PassSpec asked keyType data1 calls2 res) :
    PassSpec asked keyType data (calls1 ++ calls2) res := by
  obtain ⟨g1, _, k1⟩ := h1
  obtain ⟨g2, f2, k2⟩ := h2
  obtain ⟨fr1, dr1⟩ := k1 data1 rfl
  refine ⟨?_, ?_, ?_⟩
  · intro call hc
    rcases List.mem_append.1 hc with h | h
    · exact g1 call h
    · exact g2 call h
  · intro e he
    obtain ⟨call, hc, hs⟩ := f2 e he
    exact ⟨call, List.mem_append_right _ hc, hs⟩
  · intro data' hd
    obtain ⟨fr2, dr2⟩ := k2 data' hd
    have none_stays : ∀ t i, Patch.entry data1 t i = none → Patch.entry data' t i = none := by
      intro t i hn
      rcases fr2 t i with h | ⟨h, _, _⟩
      · rw [h, hn]
      · exact h
    refine ⟨?_, ?_⟩
    · intro t i
      rcases fr2 t i with h | ⟨h, ht, hm⟩
      · rcases fr1 t i with h' | ⟨h', ht', hm'⟩
        · exact Or.inl (h.trans h')
        · exact Or.inr ⟨h.trans h', ht', answeredMissing_mono hm' (fun c hc => List.mem_append_left _ hc)⟩
      · exact Or.inr ⟨h, ht, answeredMissing_mono hm (fun c hc => List.mem_append_right _ hc)⟩
    · rintro i ⟨r, hr, hf⟩
      rcases List.mem_append.1 hr with h | h
      · exact none_stays _ _ (dr1 i ⟨r, h, hf⟩)
      · exact dr2 i ⟨r, h, hf⟩

theorem passSpec_error_of_failed {asked : String → Prop} {keyType : String} {data : Patch}
    {calls : List Call} {e : Err}
    (hg : ∀ call ∈ calls, ∃ id r, call = Call.get keyType [id] r ∧ asked id)
    (hf : ∃ call ∈ calls, call.succeeded = false) :
    PassSpec asked keyType data calls (Except.error e) := by
  refine ⟨hg, fun _ _ => hf, ?_⟩
  intro data' h
  cases h

theorem storeGet_log {σ : Type} (S : Store σ) (type : String) (ids : List String)
    (w : World σ) :
    (storeGet S type ids w).2.log = w.log ++ [Call.get type ids (storeGet S type ids w).1] ∧
    (storeGet S type ids w).2.writes = w.writes := by
  simp [storeGet]

theorem storeSet_log {σ : Type} (S : Store σ) (patch : Patch) (w : World σ) :
    (storeSet S patch w).2.log = w.log ++ [Call.set patch (storeSet S patch w).1] ∧
    (storeSet S patch w).2.writes = w.writes := by
  simp [storeSet]

theorem processPreKeyDeletionsLoop_spec {σ : Type} (S : Store σ) (keyType : String)
    (keyData : Obj Val) (ids : List String) (data : Patch) (w : World σ) :
    ∃ calls, (processPreKeyDeletionsLoop S keyType keyData ids data w).2.log = w.log ++ calls ∧
      PassSpec (fun id => Obj.get keyData id = some none) keyType data calls
        (processPreKeyDeletionsLoop S keyType keyData ids data w).1 := by
  induction ids generalizing data w with
  | nil => exact ⟨[], by simp [processPreKeyDeletionsLoop], passSpec_refl _ _ _⟩
  | cons keyId rest ih =>
    unfold processPreKeyDeletionsLoop
    by_cases hdel : Obj.get keyData keyId = some none
    · simp only [hdel, if_true]
      have hlog := (storeGet_log S keyType [keyId] w).1
      rcases hsg : storeGet S keyType [keyId] w with ⟨r, w1⟩
      rw [hsg] at hlog
      simp only at hlog
      have hget : ∀ call ∈ [Call.get keyType [keyId] r],
          ∃ id r, call = Call.get keyType [id] r ∧ Obj.get keyData id = some none := by
        intro call hc
        rw [List.mem_singleton.1 hc]
        exact ⟨keyId, r, rfl, hdel⟩
      cases r with
      | error e =>
        refine ⟨[Call.get keyType [keyId] (Except.error e)], hlog, ?_⟩
        exact passSpec_error_of_failed hget ⟨_, List.mem_singleton.2 rfl, rfl⟩
      | ok existingKeys =>
        simp only
        by_cases htr : truthy (Obj.get existingKeys keyId) = true
        · simp only [htr, if_true]
          obtain ⟨calls, hl, hs⟩ := ih data w1
          refine ⟨Call.get keyType [keyId] (Except.ok existingKeys) :: calls, ?_, ?_⟩
          · rw [hl, hlog]
            simp
          · have h0 : PassSpec (fun id => Obj.get keyData id = some none) keyType data
                [Call.get keyType [keyId] (Except.ok existingKeys)] (Except.ok data) := by
              refine ⟨hget, by simp, ?_⟩
              intro data' h
              cases h
              refine ⟨fun t i => Or.inl rfl, ?_⟩
              rintro i ⟨r, hr, hf⟩
              simp only [List.mem_singleton, Call.get.injEq, List.cons.injEq, and_true,
                true_and] at hr
              obtain ⟨h1, h2⟩ := hr
              cases h2
              subst h1
              rw [htr] at hf
              cases hf
            exact passSpec_trans h0 hs
        · simp only [htr]
          obtain ⟨calls, hl, hs⟩ := ih (deleteIn data keyType keyId) w1
          refine ⟨Call.get keyType [keyId] (Except.ok existingKeys) :: calls, ?_, ?_⟩
          · simp only [Bool.false_eq_true, if_false]
            rw [hl, hlog]
            simp
          · simp only [Bool.false_eq_true, if_false]
            have hfalse : truthy (Obj.get existingKeys keyId) = false := by
              simpa using htr
            have h0 : PassSpec (fun id => Obj.get keyData id = some none) keyType data
                [Call.get keyType [keyId] (Except.ok existingKeys)]
                (Except.ok (deleteIn data keyType keyId)) := by
              refine ⟨hget, by simp, ?_⟩
              intro data' h
              cases h
              refine ⟨?_, ?_⟩
              · intro t i
                rw [entry_deleteIn]
                by_cases hti : t = keyType ∧ i = keyId
                · obtain ⟨h1, h2⟩ := hti
                  subst h1 h2
                  exact Or.inr ⟨by simp, rfl, existingKeys, List.mem_singleton.2 rfl, hfalse⟩
                · simp [hti]
              · rintro i ⟨r, hr, hf⟩
                simp only [List.mem_singleton, Call.get.injEq, List.cons.injEq, and_true,
                  true_and] at hr
                obtain ⟨h1, _⟩ := hr
                subst h1
                rw [entry_deleteIn]
                simp
            exact passSpec_trans h0 hs
    · simp only [hdel, if_false]
      exact ih data w

theorem processPreKeyDeletions_spec {σ : Type} (S : Store σ) (data : Patch) (keyType : String)
    (w : World σ) :
    ∃ calls, (processPreKeyDeletions S data keyType w).2.log = w.log ++ calls ∧
      PassSpec (fun id => Patch.entry data keyType id = some none) keyType data calls
        (processPreKeyDeletions S data keyType w).1 := by
  unfold processPreKeyDeletions
  cases hd : Obj.get data keyType with
  | none => exact ⟨[], by simp, passSpec_refl _ _ _⟩
  | some keyData =>
    obtain ⟨calls, hl, hs⟩ := processPreKeyDeletionsLoop_spec S keyType keyData
      (Obj.keys keyData) data w
    refine ⟨calls, hl, passSpec_weaken hs ?_⟩
    intro id h
    simp [Patch.entry, hd, h]

theorem preKeyPass_spec {σ : Type} (S : Store σ) (types : List String) (data : Patch)
    (w : World σ) :
    ∃ calls, (preKeyPass S types data w).2.log = w.log ++ calls ∧
      PassSpec (fun id => Patch.entry data "pre-key" id = some none) "pre-key" data calls
        (preKeyPass S types data w).1 := by
  induction types generalizing data w with
  | nil => exact ⟨[], by simp [preKeyPass], passSpec_refl _ _ _⟩
  | cons keyType rest ih =>
    unfold preKeyPass
    by_cases hk : keyType = "pre-key"
    · subst hk
      simp only [if_true]
      obtain ⟨calls1, hl1, hs1⟩ := processPreKeyDeletions_spec S data "pre-key" w
      rcases hp : processPreKeyDeletions S data "pre-key" w with ⟨r, w1⟩
      rw [hp] at hl1 hs1
      simp only at hl1 hs1
      cases r with
      | error e => exact ⟨calls1, hl1, hs1⟩
      | ok data1 =>
        simp only
        obtain ⟨calls2, hl2, hs2⟩ := ih data1 w1
        refine ⟨calls1 ++ calls2, ?_, passSpec_trans hs1 (passSpec_weaken hs2 ?_)⟩
        · rw [hl2, hl1, List.append_assoc]
        · intro id h
          rcases (hs1.2.2 data1 rfl).1 "pre-key" id with h' | ⟨h', _, _⟩
          · rw [← h', h]
          · rw [h'] at h
            cases h
    · simp only [hk, if_false]
      exact ih data w
theorem validateAndStore_spec {σ : Type} (S : Store σ) (data : Patch) (w : World σ) :
    ∃ calls, (validateAndStore S data w).2.log = w.log ++ calls ∧
      DirectSpec data calls (validateAndStore S data w).1 := by
  unfold validateAndStore
  obtain ⟨calls1, hl1, hs1⟩ := preKeyPass_spec S (Obj.keys data) data w
  rcases hp : preKeyPass S (Obj.keys data) data w with ⟨r, w1⟩
  rw [hp] at hl1 hs1
  simp only at hl1 hs1
  obtain ⟨hg, hf, hk⟩ := hs1
  have noset : ∀ p r, Call.set p r ∉ calls1 := by
    intro p r hc
    obtain ⟨id, r', h, _⟩ := hg _ hc
    cases h
  cases r with
  | error e =>
    refine ⟨calls1, hl1, ?_, ?_, ?_⟩
    · intro hall
      obtain ⟨call, hc, hs⟩ := hf e rfl
      rw [hall call hc] at hs
      cases hs
    · intro id _ p r hc
      exact absurd hc (noset p r)
    · intro hall
      obtain ⟨call, hc, hs⟩ := hf e rfl
      rw [hall call hc] at hs
      cases hs
  | ok data1 =>
    simp only
    obtain ⟨fr, dr⟩ := hk data1 rfl
    have hlog := (storeSet_log S data1 w1).1
    refine ⟨calls1 ++ [Call.set data1 (storeSet S data1 w1).1], ?_, ?_, ?_, ?_⟩
    · rw [hlog, hl1, List.append_assoc]
    · intro hall
      have := hall (Call.set data1 (storeSet S data1 w1).1) (by simp)
      cases hr : (storeSet S data1 w1).1 with
      | ok u => rfl
      | error e =>
        rw [hr] at this
        cases this
    · rintro id ⟨r, hr, hfal⟩ p r' hc
      have hr1 : Call.get "pre-key" [id] (Except.ok r) ∈ calls1 := by
        rcases List.mem_append.1 hr with h | h
        · exact h
        · simp at h
      rcases List.mem_append.1 hc with h | h
      · exact absurd h (noset p r')
      · simp only [List.mem_singleton, Call.set.injEq] at h
        rw [h.1]
        exact dr id ⟨r, hr1, hfal⟩
    · intro hall t i v hv hnd
      have hok : (storeSet S data1 w1).1 = Except.ok () := by
        have := hall (Call.set data1 (storeSet S data1 w1).1) (by simp)
        cases hr : (storeSet S data1 w1).1 with
        | ok u => rfl
        | error e =>
          rw [hr] at this
          cases this
      refine ⟨data1, ?_, ?_⟩
      · rw [hok]
        simp
      · rcases fr t i with h | ⟨_, ht, hm⟩
        · rw [h, hv]
        · exfalso
          apply hnd
          refine ⟨ht, ?_, answeredMissing_mono hm (fun c hc => List.mem_append_left _ hc)⟩
          obtain ⟨r, hr, _⟩ := hm
          obtain ⟨id, r', h, hasked⟩ := hg _ hr
          simp only [Call.get.injEq, List.cons.injEq, and_true, true_and] at h
          obtain ⟨h1, _⟩ := h
          subst h1
          subst ht
          rw [hv] at hasked
          simpa using hasked

theorem storeSenderKeys_spec {σ : Type} (S : Store σ) (data : Patch) (names : List String)
    (w : World σ) :
    ∃ calls, (storeSenderKeys S data names w).2.log = w.log ++ calls ∧
      (∀ call ∈ calls, ∃ p r, call = Call.set p r ∧ ∀ i, Patch.entry p "pre-key" i = none) ∧
      (∀ e, (storeSenderKeys S data names w).1 = Except.error e →
        ∃ call ∈ calls, call.succeeded = false) ∧
      ((storeSenderKeys S data names w).1 = Except.ok () →
        ∀ name ∈ names, ∀ v, Patch.entry data "sender-key" name = some v →
          ∃ p, Call.set p (Except.ok ()) ∈ calls ∧ Patch.entry p "sender-key" name = some v) := by
  induction names generalizing w with
  | nil => exact ⟨[], by simp [storeSenderKeys], by simp, by simp [storeSenderKeys], by simp⟩
  | cons name rest ih =>
    unfold storeSenderKeys
    simp only
    generalize hpd : ([("sender-key", match Patch.entry data "sender-key" name with
        | some v => [(name, v)]
        | none => [])] : Patch) = senderKeyData
    have hpre : ∀ i, Patch.entry senderKeyData "pre-key" i = none := by
      intro i
      rw [← hpd]
      simp [Patch.entry, Obj.get]
    have hlog := (storeSet_log S senderKeyData w).1
    rcases hss : storeSet S senderKeyData w with ⟨r, w1⟩
    rw [hss] at hlog
    simp only at hlog
    cases r with
    | error e =>
      refine ⟨[Call.set senderKeyData (Except.error e)], hlog, ?_, ?_, ?_⟩
      · intro call hc
        rw [List.mem_singleton.1 hc]
        exact ⟨_, _, rfl, hpre⟩
      · intro e' _
        exact ⟨_, List.mem_singleton.2 rfl, rfl⟩
      · intro h
        cases h
    | ok u =>
      simp only
      obtain ⟨calls, hl, hshape, hfail, hok⟩ := ih w1
      refine ⟨Call.set senderKeyData (Except.ok u) :: calls, ?_, ?_, ?_, ?_⟩
      · rw [hl, hlog]
        simp
      · intro call hc
        rcases List.mem_cons.1 hc with h | h
        · rw [h]
          exact ⟨_, _, rfl, hpre⟩
        · exact hshape call h
      · intro e he
        obtain ⟨call, hc, hs⟩ := hfail e he
        exact ⟨call, List.mem_cons_of_mem _ hc, hs⟩
      · intro hres nm hnm v hv
        rcases List.mem_cons.1 hnm with h | h
        · subst h
          refine ⟨senderKeyData, List.mem_cons_self _ _, ?_⟩
          rw [← hpd, hv]
          simp [Patch.entry, Obj.get]
        · obtain ⟨p, hp, hpe⟩ := hok hres nm h v hv
          exact ⟨p, List.mem_cons_of_mem _ hp, hpe⟩
theorem entry_delete (data : Patch) (type t i : String) :
    Patch.entry (Obj.delete data type) t i = if type = t then none else Patch.entry data t i := by
  unfold Patch.entry
  rw [Obj.get_delete]
  by_cases h : type = t <;> simp [h]

theorem answeredMissing_of_append_sets {calls0 calls : List Call} {keyType id : String}
    (h0 : ∀ call ∈ calls0, ∃ p r, call = Call.set p r)
    (h : AnsweredMissing (calls0 ++ calls) keyType id) : AnsweredMissing calls keyType id := by
  obtain ⟨r, hr, hf⟩ := h
  rcases List.mem_append.1 hr with h | h
  · obtain ⟨p, r', hc⟩ := h0 _ h
    cases hc
  · exact ⟨r, h, hf⟩

theorem answeredMissing_not_of_sets {calls0 : List Call} {keyType id : String}
    (h0 : ∀ call ∈ calls0, ∃ p r, call = Call.set p r) :
    ¬ AnsweredMissing calls0 keyType id := by
  rintro ⟨r, hr, _⟩
  obtain ⟨p, r', hc⟩ := h0 _ hr
  cases hc

theorem setDirect_spec {σ : Type} (S : Store σ) (data : Patch) (w : World σ) :
    ∃ calls, (setDirect S data w).2.log = w.log ++ calls ∧
      DirectSpec data calls (setDirect S data w).1 := by
  unfold setDirect
  by_cases hsk : Obj.has data "sender-key" = true
  · simp only [hsk, if_true]
    obtain ⟨calls0, hl0, hshape, hfail, hok⟩ :=
      storeSenderKeys_spec S data (Obj.keys ((Obj.get data "sender-key").getD [])) w
    rcases hs : storeSenderKeys S data (Obj.keys ((Obj.get data "sender-key").getD [])) w
      with ⟨r, w1⟩
    rw [hs] at hl0 hfail hok
    simp only at hl0 hfail hok
    have hsets : ∀ call ∈ calls0, ∃ p r, call = Call.set p r := by
      intro call hc
      obtain ⟨p, r, h, _⟩ := hshape call hc
      exact ⟨p, r, h⟩
    cases r with
    | error e =>
      refine ⟨calls0, hl0, ?_, ?_, ?_⟩
      · intro hall
        obtain ⟨call, hc, hsu⟩ := hfail e rfl
        rw [hall call hc] at hsu
        cases hsu
      · intro id hm
        exact absurd hm (answeredMissing_not_of_sets hsets)
      · intro hall
        obtain ⟨call, hc, hsu⟩ := hfail e rfl
        rw [hall call hc] at hsu
        cases hsu
    | ok u =>
      simp only
      have hsender : ∀ i v, Patch.entry data "sender-key" i = some v →
          ∃ p, Call.set p (Except.ok ()) ∈ calls0 ∧ Patch.entry p "sender-key" i = some v := by
        intro i v hv
        refine hok rfl i ?_ v hv
        unfold Patch.entry at hv
        cases hd : Obj.get data "sender-key" with
        | none => simp [hd] at hv
        | some d =>
          simp only [hd] at hv
          simpa using Obj.mem_keys_of_get d i v hv
      by_cases hne : (Obj.keys (Obj.delete data "sender-key")).length > 0
      · simp only [hne, if_true]
        obtain ⟨calls1, hl1, ha, hb, hc⟩ :=
          validateAndStore_spec S (Obj.delete data "sender-key") w1
        refine ⟨calls0 ++ calls1, ?_, ?_, ?_, ?_⟩
        · rw [hl1, hl0, List.append_assoc]
        · intro hall
          exact ha (fun call h => hall call (List.mem_append_right _ h))
        · intro id hm p r hp
          rcases List.mem_append.1 hp with h | h
          · obtain ⟨p', r', he, hn⟩ := hshape _ h
            cases he
            exact hn id
          · exact hb id (answeredMissing_of_append_sets hsets hm) p r h
        · intro hall t i v hv hnd
          by_cases ht : t = "sender-key"
          · subst ht
            obtain ⟨p, hp, hpe⟩ := hsender i v hv
            exact ⟨p, List.mem_append_left _ hp, hpe⟩
          · have hv' : Patch.entry (Obj.delete data "sender-key") t i = some v := by
              have ht' : ¬ "sender-key" = t := fun h => ht h.symm
              rw [entry_delete, if_neg ht', hv]
            obtain ⟨p, hp, hpe⟩ := hc (fun call h => hall call (List.mem_append_right _ h))
              t i v hv' (fun ⟨h1, h2, h3⟩ =>
                hnd ⟨h1, h2, answeredMissing_mono h3 (fun c hc => List.mem_append_right _ hc)⟩)
            exact ⟨p, List.mem_append_right _ hp, hpe⟩
      · simp only [hne, if_false]
        have hnil : Obj.delete data "sender-key" = [] := by
          have : (Obj.delete data "sender-key").length = 0 := by
            simpa [Obj.keys] using hne
          exact List.length_eq_zero.1 this
        refine ⟨calls0, hl0, fun _ => rfl, ?_, ?_⟩
        · intro id hm
          exact absurd hm (answeredMissing_not_of_sets hsets)
        · intro _ t i v hv _
          by_cases ht : t = "sender-key"
          · subst ht
            exact hsender i v hv
          · have hv' : Patch.entry (Obj.delete data "sender-key") t i = some v := by
              have ht' : ¬ "sender-key" = t := fun h => ht h.symm
              rw [entry_delete, if_neg ht', hv]
            rw [hnil] at hv'
            simp [Patch.entry, Obj.get] at hv'
  · simp only [hsk, Bool.false_eq_true, if_false]
    exact validateAndStore_spec S data w

theorem callsSince_append (before calls : List Call) :
    callsSince before (before ++ calls) = calls := by
  simp [callsSince]

/-! ## `set` and `get` inside a transaction -/

theorem get_ensure_self (o : Obj (Obj Val)) (k : String) : ∃ d, Obj.get (ensure o k) k = some d := by
  unfold ensure
  cases h : Obj.get o k with
  | some d => exact ⟨d, by simp [h]⟩
  | none => exact ⟨[], by simp [Obj.get_set_self]⟩

theorem entry_ensure (o : Obj (Obj Val)) (k t i : String) :
    Patch.entry (ensure o k) t i = Patch.entry o t i := by
  unfold ensure
  cases h : Obj.get o k with
  | some d => rfl
  | none =>
    simp only [Patch.entry]
    by_cases ht : k = t
    · subst ht
      simp [Obj.get_set_self, h, Obj.get]
    · rw [Obj.get_set_ne _ _ _ _ ht]

theorem ensure_ne_nil (o : Obj (Obj Val)) (k : String) : ensure o k ≠ [] := by
  unfold ensure
  cases h : Obj.get o k with
  | some d =>
    simp only
    intro hn
    rw [hn] at h
    simp [Obj.get] at h
  | none => exact Obj.set_ne_nil _ _ _

theorem entry_setIn (o : Obj (Obj Val)) (keyType keyId : String) (v : Val) (t i : String)
    (h : ∃ d, Obj.get o keyType = some d) :
    Patch.entry (setIn o keyType keyId v) t i
      = if t = keyType ∧ i = keyId then some v else Patch.entry o t i := by
  obtain ⟨d, hd⟩ := h
  unfold setIn
  simp only [hd, Patch.entry]
  by_cases ht : t = keyType
  · subst ht
    rw [Obj.get_set_self, hd]
    simp only [true_and]
    rw [Obj.get_set]
    by_cases hi : i = keyId
    · simp [hi]
    · have : ¬ keyId = i := fun h => hi h.symm
      simp [hi, this]
  · rw [Obj.get_set_ne _ _ _ _ (fun h => ht h.symm)]
    simp [ht]

theorem get_setIn_self (o : Obj (Obj Val)) (keyType keyId : String) (v : Val)
    (h : ∃ d, Obj.get o keyType = some d) : ∃ d, Obj.get (setIn o keyType keyId v) keyType = some d := by
  obtain ⟨d, hd⟩ := h
  unfold setIn
  simp only [hd]
  exact ⟨_, Obj.get_set_self _ _ _⟩

theorem setIn_ne_nil (o : Obj (Obj Val)) (keyType keyId : String) (v : Val) (h : o ≠ []) :
    setIn o keyType keyId v ≠ [] := by
  unfold setIn
  cases Obj.get o keyType with
  | none => exact h
  | some d => exact Obj.set_ne_nil _ _ _

/-- The loop over `updateKeys` of `handlePreKeyOperations`, on one of the two
objects. -/
theorem foldl_write_spec (keyData : Obj Val) (keyType : String) (ks : List String)
    (o : Obj (Obj Val)) (h : ∃ d, Obj.get o keyType = some d) :
    (∃ d, Obj.get (ks.foldl (fun (o : Obj (Obj Val)) (keyId : String) =>
        match Obj.get keyData keyId with
        | some v => setIn o keyType keyId v
        | none => o) o) keyType = some d) ∧
    ∀ t i, Patch.entry (ks.foldl (fun (o : Obj (Obj Val)) (keyId : String) =>
        match Obj.get keyData keyId with
        | some v => setIn o keyType keyId v
        | none => o) o) t i
      = if t = keyType ∧ i ∈ ks then (Obj.get keyData i).or (Patch.entry o t i)
        else Patch.entry o t i := by
  induction ks generalizing o with
  | nil => exact ⟨h, by simp⟩
  | cons a r ih =>
    rw [List.foldl_cons]
    cases ha : Obj.get keyData a with
    | none =>
      simp only
      obtain ⟨h1, h2⟩ := ih o h
      refine ⟨h1, ?_⟩
      intro t i
      rw [h2]
      by_cases hir : i ∈ r
      · simp [hir]
      · by_cases hia : i = a
        · subst hia
          simp [hir, ha]
        · simp [hir, hia]
    | some v =>
      simp only
      obtain ⟨h1, h2⟩ := ih (setIn o keyType a v) (get_setIn_self o keyType a v h)
      refine ⟨h1, ?_⟩
      intro t i
      rw [h2, entry_setIn o keyType a v t i h]
      by_cases ht : t = keyType
      · subst ht
        by_cases hir : i ∈ r
        · simp only [hir, and_self, if_true, true_and, List.mem_cons, or_true]
          by_cases hia : i = a
          · subst hia
            simp [ha]
          · simp [hia]
        · by_cases hia : i = a
          · subst hia
            simp [hir, ha]
          · simp [hir, hia]
      · simp [ht]

/-- The loop over `deletionKeys` of `handlePreKeyOperations` inside a
transaction: the guard `if (transactionCache[keyType])` never fails. -/
theorem foldl_delete_spec (keyType : String) (ks : List String)
    (tc mu : Obj (Obj Val)) (htc : ∃ d, Obj.get tc keyType = some d)
    (hmu : ∃ d, Obj.get mu keyType = some d) :
    ∀ t i, Patch.entry (ks.foldl
        (fun (acc : Obj (Obj Val) × Obj (Obj Val)) keyId =>
          match Obj.get acc.1 keyType with
          | some _ => (setIn acc.1 keyType keyId none, setIn acc.2 keyType keyId none)
          | none => acc) (tc, mu)).2 t i
      = if t = keyType ∧ i ∈ ks then some none else Patch.entry mu t i := by
  induction ks generalizing tc mu with
  | nil => simp
  | cons a r ih =>
    rw [List.foldl_cons]
    obtain ⟨d, hd⟩ := htc
    simp only [hd]
    intro t i
    rw [ih _ _ (get_setIn_self tc keyType a none ⟨d, hd⟩) (get_setIn_self mu keyType a none hmu),
      entry_setIn mu keyType a none t i hmu]
    by_cases ht : t = keyType
    · by_cases hir : i ∈ r
      · simp [ht, hir]
      · by_cases hia : i = a
        · simp [ht, hia]
        · simp [ht, hir, hia]
    · simp [ht]

theorem foldl_delete_ne_nil (keyType : String) (ks : List String)
    (tc mu : Obj (Obj Val)) (hmu : mu ≠ []) :
    (ks.foldl
        (fun (acc : Obj (Obj Val) × Obj (Obj Val)) keyId =>
          match Obj.get acc.1 keyType with
          | some _ => (setIn acc.1 keyType keyId none, setIn acc.2 keyType keyId none)
          | none => acc) (tc, mu)).2 ≠ [] := by
  induction ks generalizing tc mu with
  | nil => simpa using hmu
  | cons a r ih =>
    rw [List.foldl_cons]
    cases Obj.get tc keyType with
    | none => exact ih tc mu hmu
    | some d => exact ih _ _ (setIn_ne_nil mu keyType a none hmu)

theorem foldl_write_ne_nil (keyData : Obj Val) (keyType : String) (ks : List String)
    (o : Obj (Obj Val)) (h : o ≠ []) :
    ks.foldl (fun (o : Obj (Obj Val)) (keyId : String) =>
        match Obj.get keyData keyId with
        | some v => setIn o keyType keyId v
        | none => o) o ≠ [] := by
  induction ks generalizing o with
  | nil => simpa using h
  | cons a r ih =>
    rw [List.foldl_cons]
    cases Obj.get keyData a with
    | none => exact ih o h
    | some v => exact ih _ (setIn_ne_nil o keyType a v h)
theorem handlePreKeyOperations_inTransaction {σ : Type} (data : Patch) (keyType : String)
    (tc mu : Obj (Obj Val)) (w : World σ) :
    (handlePreKeyOperations data keyType tc mu true (none : Option (Store σ)) w).1 = Except.ok () ∧
    (handlePreKeyOperations data keyType tc mu true (none : Option (Store σ)) w).2.2 = w ∧
    (∀ t i,
      Patch.entry (handlePreKeyOperations data keyType tc mu true (none : Option (Store σ)) w).2.1.2 t i
        = if t = keyType then (Patch.entry data t i).or (Patch.entry mu t i)
          else Patch.entry mu t i) ∧
    (mu ≠ [] →
      (handlePreKeyOperations data keyType tc mu true (none : Option (Store σ)) w).2.1.2 ≠ []) ∧
    ((∃ d, Obj.get data keyType = some d) →
      (handlePreKeyOperations data keyType tc mu true (none : Option (Store σ)) w).2.1.2 ≠ []) := by
  unfold handlePreKeyOperations
  cases hd : Obj.get data keyType with
  | none =>
    refine ⟨rfl, rfl, ?_, fun h => h, ?_⟩
    · intro t i
      by_cases ht : t = keyType
      · subst ht
        simp [Patch.entry, hd]
      · simp [ht]
    · rintro ⟨d, h⟩
      cases h
  | some keyData =>
    simp only
    have hmu0 := get_ensure_self mu keyType
    have htc0 := get_ensure_self tc keyType
    have hw := foldl_write_spec keyData keyType
      ((Obj.keys keyData).filter (fun keyId => ¬ Obj.get keyData keyId = some none))
      (ensure mu keyType) hmu0
    have hwt := foldl_write_spec keyData keyType
      ((Obj.keys keyData).filter (fun keyId => ¬ Obj.get keyData keyId = some none))
      (ensure tc keyType) htc0
    have hwn := foldl_write_ne_nil keyData keyType
      ((Obj.keys keyData).filter (fun keyId => ¬ Obj.get keyData keyId = some none))
      (ensure mu keyType) (ensure_ne_nil mu keyType)
    have hdata : ∀ i, Patch.entry data keyType i = Obj.get keyData i := by
      intro i
      simp [Patch.entry, hd]
    by_cases hlen : ((Obj.keys keyData).filter
        (fun keyId => Obj.get keyData keyId = some none)).length = 0
    · rw [if_pos hlen]
      refine ⟨rfl, rfl, ?_, fun _ => hwn, fun _ => hwn⟩
      intro t i
      simp only
      rw [hw.2 t i, entry_ensure]
      by_cases ht : t = keyType
      · subst ht
        simp only [true_and, if_true, hdata]
        cases hk : Obj.get keyData i with
        | none =>
          have hnm : i ∉ Obj.keys keyData := (Obj.get_eq_none_iff keyData i).1 hk
          simp [List.mem_filter, hnm]
        | some v =>
          have hmem : i ∈ Obj.keys keyData := Obj.mem_keys_of_get keyData i v hk
          by_cases hv : v = none
          · subst hv
            exfalso
            have : i ∈ (Obj.keys keyData).filter
                (fun keyId => Obj.get keyData keyId = some none) := by
              simp [List.mem_filter, hmem, hk]
            rw [List.length_eq_zero.1 hlen] at this
            simp at this
          · simp [List.mem_filter, hmem, hk, hv]
      · simp [ht]
    · rw [if_neg hlen]
      simp only [if_true]
      have hds := foldl_delete_spec keyType
        ((Obj.keys keyData).filter (fun keyId => Obj.get keyData keyId = some none))
        _ _ hwt.1 hw.1
      refine ⟨trivial, trivial, ?_, fun _ => foldl_delete_ne_nil _ _ _ _ hwn,
        fun _ => foldl_delete_ne_nil _ _ _ _ hwn⟩
      intro t i
      rw [hds t i, hw.2 t i, entry_ensure]
      by_cases ht : t = keyType
      · subst ht
        simp only [true_and, if_true, hdata]
        cases hk : Obj.get keyData i with
        | none =>
          have hnm : i ∉ Obj.keys keyData := (Obj.get_eq_none_iff keyData i).1 hk
          simp [List.mem_filter, hnm]
        | some v =>
          have hmem : i ∈ Obj.keys keyData := Obj.mem_keys_of_get keyData i v hk
          by_cases hv : v = none
          · subst hv
            simp [List.mem_filter, hmem, hk]
          · simp [List.mem_filter, hmem, hk, hv]
      · simp [ht]

theorem handleNormalKeyOperations_spec (data : Patch) (key : String)
    (tc mu : Obj (Obj Val)) (htc : ∃ d, Obj.get tc key = some d) :
    ∃ tc1 mu1, handleNormalKeyOperations data key tc mu = Except.ok (tc1, mu1) ∧
      mu1 ≠ [] ∧
      ∀ t i, Patch.entry mu1 t i
        = if t = key then (Patch.entry data t i).or (Patch.entry mu t i)
          else Patch.entry mu t i := by
  obtain ⟨target, ht⟩ := htc
  unfold handleNormalKeyOperations
  simp only [ht]
  refine ⟨_, _, rfl, Obj.set_ne_nil _ _ _, ?_⟩
  intro t i
  by_cases htk : t = key
  · subst htk
    simp only [if_true, Patch.entry, Obj.get_set_self, Obj.get_assign]
    obtain ⟨d0, hd0⟩ := get_ensure_self mu t
    have he := entry_ensure mu t t i
    simp only [Patch.entry, hd0] at he
    rw [hd0]
    simp only [Option.getD_some]
    cases hd : Obj.get data t with
    | none =>
      simp only [Option.getD_none, Obj.get, Option.none_or]
      exact he
    | some src =>
      simp only [Option.getD_some]
      cases hs : Obj.get src i with
      | none => simpa using he
      | some v => simp
  · simp only [htk, if_false, Patch.entry]
    rw [Obj.get_set_ne _ _ _ _ (fun h => htk h.symm)]
    have he := entry_ensure mu key t i
    simpa [Patch.entry] using he
theorem setInTransaction_spec {σ : Type} (data : Patch) (ks : List String) (c : Coord)
    (w : World σ) :
    ∃ c', setInTransaction data ks (c, w) = (Except.ok (), (c', w)) ∧
      c'.transactionsInProgress = c.transactionsInProgress ∧
      (∀ t i, Patch.entry c'.mutations t i
        = if t ∈ ks then (Patch.entry data t i).or (Patch.entry c.mutations t i)
          else Patch.entry c.mutations t i) ∧
      (c.mutations ≠ [] → c'.mutations ≠ []) ∧
      ((∃ k ∈ ks, ∃ d, Obj.get data k = some d) → c'.mutations ≠ []) := by
  induction ks generalizing c with
  | nil => exact ⟨c, rfl, rfl, by simp, fun h => h, by simp⟩
  | cons key rest ih =>
    unfold setInTransaction
    by_cases hk : key = "pre-key"
    · simp only [hk, if_true]
      obtain ⟨h1, h2, h3, h4, h5⟩ := handlePreKeyOperations_inTransaction (σ := σ) data "pre-key"
        (ensure c.transactionCache "pre-key") c.mutations w
      rcases hh : handlePreKeyOperations data "pre-key" (ensure c.transactionCache "pre-key")
        c.mutations true (none : Option (Store σ)) w with ⟨r, ⟨tc1, mu1⟩, w1⟩
      rw [hh] at h1 h2 h3 h4 h5
      simp only at h1 h2 h3 h4 h5
      subst h1 h2
      simp only
      obtain ⟨c', e1, e2, e3, e4, e5⟩ := ih { c with transactionCache := tc1, mutations := mu1 }
      refine ⟨c', e1, e2, ?_, fun h => e4 (h4 h), ?_⟩
      · intro t i
        rw [e3 t i]
        simp only [h3 t i]
        by_cases ht : t = "pre-key"
        · subst ht
          by_cases hr : "pre-key" ∈ rest
          · simp only [hr, if_true, List.mem_cons, true_or]
            cases Patch.entry data "pre-key" i <;> simp
          · simp [hr]
        · by_cases hr : t ∈ rest
          · simp [hr, ht]
          · simp [hr, ht]
      · rintro ⟨k, hkm, d, hd⟩
        rcases List.mem_cons.1 hkm with h | h
        · subst h
          exact e4 (h5 ⟨d, hd⟩)
        · exact e5 ⟨k, h, d, hd⟩
    · simp only [hk, if_false]
      obtain ⟨tc1, mu1, hn, hne, hent⟩ := handleNormalKeyOperations_spec data key
        (ensure c.transactionCache key) c.mutations (get_ensure_self _ _)
      rw [hn]
      simp only
      obtain ⟨c', e1, e2, e3, e4, e5⟩ := ih { c with transactionCache := tc1, mutations := mu1 }
      refine ⟨c', e1, e2, ?_, fun _ => e4 hne, fun _ => e4 hne⟩
      intro t i
      rw [e3 t i]
      simp only [hent t i]
      by_cases ht : t = key
      · subst ht
        by_cases hr : t ∈ rest
        · simp only [hr, if_true, List.mem_cons, true_or]
          cases Patch.entry data t i <;> simp
        · simp [hr]
      · by_cases hr : t ∈ rest
        · simp [hr, ht]
        · simp [hr, ht]

/-- A `set` made while a transaction is open: no store call, no failure, and the
Mutation Batch afterwards holds, for every type and id, the value of the patch
where the patch has one and its earlier value elsewhere. -/
theorem coordSet_inTransaction {σ : Type} (S : Store σ) (data : Patch) (c : Coord)
    (w : World σ) (hin : isInTransaction c = true) :
    ∃ c', coordSet S data (c, w) = (Except.ok (), (c', w)) ∧
      c'.transactionsInProgress = c.transactionsInProgress ∧
      (∀ t i, Patch.entry c'.mutations t i
        = (Patch.entry data t i).or (Patch.entry c.mutations t i)) ∧
      (c.mutations ≠ [] → c'.mutations ≠ []) ∧
      (data ≠ [] → c'.mutations ≠ []) := by
  obtain ⟨c', e1, e2, e3, e4, e5⟩ := setInTransaction_spec (σ := σ) data (Obj.keys data) c w
  refine ⟨c', ?_, e2, ?_, e4, ?_⟩
  · simp [coordSet, hin, e1]
  · intro t i
    rw [e3 t i]
    by_cases ht : t ∈ Obj.keys data
    · simp [ht]
    · have : Obj.get data t = none := (Obj.get_eq_none_iff data t).2 ht
      simp [ht, Patch.entry, this]
  · intro hne
    apply e5
    cases data with
    | nil => exact absurd rfl hne
    | cons p r =>
      obtain ⟨k, d⟩ := p
      exact ⟨k, by simp [Obj.keys], d, by simp [Obj.get]⟩
/-- C2 (the code departs from the claim). Inside a transaction on a fresh
coordinator, over an empty store, a `set` that deletes pre-key `7` (unknown to
the transaction-local cache) is queued all the same: the only call the store
receives is the commit, and its patch deletes pre-key `7`. -/
theorem unknown_prekey_deletion_is_committed :
    (transaction memStore opts0 (Work.run memStore opts0 deleteUnknownPreKey) "k"
        (Coord.init, World.fresh [])).2.2.log
      = [Call.set [("pre-key", [("7", none)])] (Except.ok ())] := by
  decide

/-! ## Transactions -/

theorem mergeWrites_append (ws1 ws2 : List Patch) (t i : String) (before : Option Val) :
    mergeWrites (ws1 ++ ws2) t i before = mergeWrites ws2 t i (mergeWrites ws1 t i before) := by
  simp [mergeWrites, List.foldl_append]

theorem txStretch_refl {σ : Type} (s : Coord × World σ) : TxStretch s s :=
  ⟨rfl, [], [], by simp, by simp, by simp, fun _ _ => rfl, fun h => h, by simp⟩

theorem txStretch_trans {σ : Type} {s1 s2 s3 : Coord × World σ} (h12 : TxStretch s1 s2)
    (h23 : TxStretch s2 s3) : TxStretch s1 s3 := by
  obtain ⟨a1, g1, ws1, b1, c1, d1, e1, f1, k1⟩ := h12
  obtain ⟨a2, g2, ws2, b2, c2, d2, e2, f2, k2⟩ := h23
  refine ⟨a2.trans a1, g1 ++ g2, ws1 ++ ws2, ?_, ?_, ?_, ?_, fun h => f2 (f1 h), ?_⟩
  · rw [b2, b1, List.append_assoc]
  · intro call hc
    rcases List.mem_append.1 hc with h | h
    · exact c1 call h
    · exact c2 call h
  · rw [d2, d1, List.append_assoc]
  · intro t i
    rw [e2, e1, mergeWrites_append]
  · rintro ⟨p, hp, hne⟩
    rcases List.mem_append.1 hp with h | h
    · exact f2 (k1 ⟨p, h, hne⟩)
    · exact k2 ⟨p, h, hne⟩

/-- A stretch that only reads the store and leaves counter and batch alone. -/
theorem txStretch_of_reads {σ : Type} {s s' : Coord × World σ}
    (htip : s'.1.transactionsInProgress = s.1.transactionsInProgress)
    (hmu : s'.1.mutations = s.1.mutations) (hw : s'.2.writes = s.2.writes)
    (hlog : ∃ gets, s'.2.log = s.2.log ++ gets ∧ ∀ call ∈ gets, call.isSet = false) :
    TxStretch s s' := by
  obtain ⟨gets, hl, hg⟩ := hlog
  refine ⟨htip, gets, [], hl, hg, by simp [hw], ?_, ?_, by simp⟩
  · intro t i
    simp [mergeWrites, hmu]
  · rw [hmu]
    exact fun h => h

theorem fetchSenderKeys_reads {σ : Type} (S : Store σ) (type : String) (names : List String)
    (c : Coord) (w : World σ) :
    (fetchSenderKeys S type names (c, w)).2.1.transactionsInProgress = c.transactionsInProgress ∧
    (fetchSenderKeys S type names (c, w)).2.1.mutations = c.mutations ∧
    (fetchSenderKeys S type names (c, w)).2.2.writes = w.writes ∧
    ∃ gets, (fetchSenderKeys S type names (c, w)).2.2.log = w.log ++ gets ∧
      ∀ call ∈ gets, call.isSet = false := by
  induction names generalizing c w with
  | nil => exact ⟨rfl, rfl, rfl, [], by simp [fetchSenderKeys], by simp⟩
  | cons name rest ih =>
    unfold fetchSenderKeys
    have hl := storeGet_log S type [name] w
    rcases hs : storeGet S type [name] w with ⟨r, w1⟩
    rw [hs] at hl
    simp only at hl
    cases r with
    | error e =>
      exact ⟨rfl, rfl, hl.2, [Call.get type [name] (Except.error e)], hl.1,
        by simp [Call.isSet]⟩
    | ok result =>
      simp only
      obtain ⟨a, b, c', gets, d, e⟩ := ih _ w1
      refine ⟨a, b, c'.trans hl.2, Call.get type [name] (Except.ok result) :: gets, ?_, ?_⟩
      · rw [d, hl.1]
        simp
      · intro call hc
        rcases List.mem_cons.1 hc with h | h
        · rw [h]
          rfl
        · exact e call h

theorem getSenderKeys_reads {σ : Type} (S : Store σ) (type : String) (names : List String)
    (results : Obj Val) (w : World σ) :
    (getSenderKeys S type names results w).2.writes = w.writes ∧
    ∃ gets, (getSenderKeys S type names results w).2.log = w.log ++ gets ∧
      ∀ call ∈ gets, call.isSet = false := by
  induction names generalizing results w with
  | nil => exact ⟨rfl, [], by simp [getSenderKeys], by simp⟩
  | cons name rest ih =>
    unfold getSenderKeys
    have hl := storeGet_log S type [name] w
    rcases hs : storeGet S type [name] w with ⟨r, w1⟩
    rw [hs] at hl
    simp only at hl
    cases r with
    | error e =>
      exact ⟨hl.2, [Call.get type [name] (Except.error e)], hl.1, by simp [Call.isSet]⟩
    | ok result =>
      simp only
      obtain ⟨c', gets, d, e⟩ := ih (Obj.assign results result) w1
      refine ⟨c'.trans hl.2, Call.get type [name] (Except.ok result) :: gets, ?_, ?_⟩
      · rw [d, hl.1]
        simp
      · intro call hc
        rcases List.mem_cons.1 hc with h | h
        · rw [h]
          rfl
        · exact e call h

/-- The coordinator's `get` only reads the store and touches neither the counter
nor the Mutation Batch, inside a transaction or not. -/
theorem coordGet_reads {σ : Type} (S : Store σ) (type : String) (ids : List String)
    (s : Coord × World σ) :
    (coordGet S type ids s).2.1.transactionsInProgress = s.1.transactionsInProgress ∧
    (coordGet S type ids s).2.1.mutations = s.1.mutations ∧
    (coordGet S type ids s).2.2.writes = s.2.writes ∧
    ∃ gets, (coordGet S type ids s).2.2.log = s.2.log ++ gets ∧
      ∀ call ∈ gets, call.isSet = false := by
  unfold coordGet
  by_cases hin : isInTransaction s.1 = true
  · simp only [hin, if_true]
    split
    · by_cases hsk : type = "sender-key"
      · simp only [hsk, if_true]
        obtain ⟨a, b, c, gets, d, e⟩ := fetchSenderKeys_reads S "sender-key"
          (match Obj.get s.1.transactionCache "sender-key" with
            | some dict => ids.filter (fun item => Obj.get dict item = none)
            | none => ids)
          { s.1 with dbQueriesInTransaction := s.1.dbQueriesInTransaction + 1 } s.2
        subst hsk
        rcases hf : fetchSenderKeys S "sender-key"
          (match Obj.get s.1.transactionCache "sender-key" with
            | some dict => ids.filter (fun item => Obj.get dict item = none)
            | none => ids)
          ({ s.1 with dbQueriesInTransaction := s.1.dbQueriesInTransaction + 1 }, s.2)
          with ⟨r, s1⟩
        rw [hf] at a b c d
        simp only at a b c d
        cases r with
        | error e' => exact ⟨a, b, c, gets, d, e⟩
        | ok u => exact ⟨a, b, c, gets, d, e⟩
      · simp only [hsk, if_false]
        have hl := storeGet_log S type
          (match Obj.get s.1.transactionCache type with
            | some dict => ids.filter (fun item => Obj.get dict item = none)
            | none => ids) s.2
        rcases hs : storeGet S type
          (match Obj.get s.1.transactionCache type with
            | some dict => ids.filter (fun item => Obj.get dict item = none)
            | none => ids) s.2 with ⟨r, w1⟩
        rw [hs] at hl
        simp only at hl
        cases r with
        | error e => exact ⟨rfl, rfl, hl.2, _, hl.1, by simp [Call.isSet]⟩
        | ok result => exact ⟨rfl, rfl, hl.2, _, hl.1, by simp [Call.isSet]⟩
    · exact ⟨rfl, rfl, rfl, [], by simp, by simp⟩
  · simp only [hin, Bool.false_eq_true, if_false]
    by_cases hsk : type = "sender-key"
    · simp only [hsk, if_true]
      obtain ⟨c, gets, d, e⟩ := getSenderKeys_reads S "sender-key" ids [] s.2
      exact ⟨by trivial, by trivial, c, gets, d, e⟩
    · simp only [hsk, if_false]
      have hl := storeGet_log S type ids s.2
      exact ⟨by trivial, by trivial, hl.2, _, hl.1, by simp [Call.isSet]⟩
theorem isInTransaction_of_pos (c : Coord) (h : c.transactionsInProgress ≥ 1) :
    isInTransaction c = true := by
  simp only [isInTransaction, decide_eq_true_eq]
  omega

/-- A nested `transaction` call made while a transaction is open: it does not
commit, and it hands the counter back as it found it. -/
theorem nested_transaction_stretch {σ : Type} (S : Store σ) (opts : TransactionOpts)
    (work : Run σ Blob) (key : String) (s : Coord × World σ)
    (hopen : s.1.transactionsInProgress ≥ 1)
    (hwork : ∀ s0 : Coord × World σ, s0.1.transactionsInProgress ≥ 1 →
      TxStretch s0 (work s0).2) :
    TxStretch s (transaction S opts work key s).2 := by
  have h0 := hwork ({ s.1 with transactionsInProgress := s.1.transactionsInProgress + 1 }, s.2)
    (by simp only; omega)
  unfold transaction executeTransactionWork
  dsimp only
  rcases hw : work ({ s.1 with transactionsInProgress := s.1.transactionsInProgress + 1 }, s.2)
    with ⟨r, c1, w1⟩
  rw [hw] at h0
  obtain ⟨a, gets, ws, b, c, d, e, f, k⟩ := h0
  simp only at a b c d e f k
  have hne : ¬ c1.transactionsInProgress = 1 := by omega
  have hne0 : ¬ c1.transactionsInProgress - 1 = 0 := by omega
  have hfinal : TxStretch s (cleanupTransactionState c1, w1) := by
    refine ⟨?_, gets, ws, b, c, d, ?_, ?_, ?_⟩
    · simp only [cleanupTransactionState, hne0, if_false]
      omega
    · simpa [cleanupTransactionState, hne0] using e
    · simpa [cleanupTransactionState, hne0] using f
    · simpa [cleanupTransactionState, hne0] using k
  cases r with
  | error e' => simpa using hfinal
  | ok result => simpa [hne] using hfinal

/-- While a transaction is open, whatever a caller does (reads, writes, nested
transactions, errors raised and caught) is a stretch: no `set` reaches the
store and the Mutation Batch gathers the writes. -/
theorem run_stretch {σ : Type} (S : Store σ) (opts : TransactionOpts) (work : Work) :
    ∀ s : Coord × World σ, s.1.transactionsInProgress ≥ 1 →
      TxStretch s (Work.run S opts work s).2 := by
  induction work with
  | ret result =>
    intro s _
    exact txStretch_refl s
  | throw error =>
    intro s _
    exact txStretch_refl s
  | get type ids next ih =>
    intro s hs
    obtain ⟨a, b, c, d⟩ := coordGet_reads S type ids s
    have h1 : TxStretch s (coordGet S type ids s).2 := txStretch_of_reads a b c d
    unfold Work.run
    rcases hg : coordGet S type ids s with ⟨r, s1⟩
    rw [hg] at h1 a
    simp only at h1 a
    cases r with
    | error e => exact h1
    | ok found => exact txStretch_trans h1 (ih found s1 (by omega))
  | set data next ih =>
    intro s hs
    obtain ⟨c', e1, e2, e3, e4, e5⟩ := coordSet_inTransaction S data s.1
      { s.2 with writes := s.2.writes ++ [data] } (isInTransaction_of_pos s.1 hs)
    have h1 : TxStretch s (c', { s.2 with writes := s.2.writes ++ [data] }) := by
      refine ⟨e2, [], [data], by simp, by simp, rfl, ?_, e4, ?_⟩
      · intro t i
        simp [mergeWrites, e3]
      · rintro ⟨p, hp, hne⟩
        rw [List.mem_singleton.1 hp] at hne
        exact e5 hne
    unfold Work.run
    simp only [e1]
    exact txStretch_trans h1 (ih _ (by rw [e2]; exact hs))
  | transaction inner key next ih_inner ih_next =>
    intro s hs
    have h1 := nested_transaction_stretch S opts (Work.run S opts inner) key s hs ih_inner
    unfold Work.run
    rcases ht : Ryzewa.transaction S opts (Work.run S opts inner) key s with ⟨r, s1⟩
    rw [ht] at h1
    simp only at h1
    cases r with
    | error e => exact h1
    | ok result => exact txStretch_trans h1 (ih_next result s1 (by rw [h1.1]; exact hs))
  | tryCatch body handler next ih_body ih_handler ih_next =>
    intro s hs
    have h1 := ih_body s hs
    unfold Work.run
    rcases hb : Work.run S opts body s with ⟨r, s1⟩
    rw [hb] at h1
    simp only at h1
    have hs1 : s1.1.transactionsInProgress ≥ 1 := by rw [h1.1]; exact hs
    cases r with
    | ok result => exact txStretch_trans h1 (ih_next result s1 hs1)
    | error e =>
      simp only
      have h2 := ih_handler e s1 hs1
      rcases hh : Work.run S opts (handler e) s1 with ⟨r2, s2⟩
      rw [hh] at h2
      simp only at h2
      have hs2 : s2.1.transactionsInProgress ≥ 1 := by rw [h2.1]; exact hs1
      cases r2 with
      | error e2 => exact txStretch_trans h1 h2
      | ok result => exact txStretch_trans (txStretch_trans h1 h2) (ih_next result s2 hs2)
/-- The commit loop: one `state.set(mutations)` per attempt, always with the
same batch; every attempt before the last one failed; at most `tries` attempts,
and exactly `tries` when none succeeded. -/
theorem commitLoop_spec {σ : Type} (S : Store σ) (mutations : Patch) (tries : Nat)
    (w : World σ) :
    ∃ attempts : List (Except Err Unit),
      (commitLoop S mutations tries w).log = w.log ++ attempts.map (Call.set mutations) ∧
      (commitLoop S mutations tries w).writes = w.writes ∧
      attempts.length ≤ tries ∧
      (∀ r ∈ attempts.dropLast, ∃ e, r = Except.error e) ∧
      ((∀ r ∈ attempts, ∃ e, r = Except.error e) → attempts.length = tries) ∧
      (tries ≥ 1 → attempts ≠ []) ∧
      (∀ r ∈ attempts, ∃ st, r = (S.set st mutations).1) := by
  induction tries generalizing w with
  | zero => exact ⟨[], by simp [commitLoop], rfl, by simp, by simp, by simp, by simp, by simp⟩
  | succ n ih =>
    unfold commitLoop
    have hl := storeSet_log S mutations w
    have hres : (storeSet S mutations w).1 = (S.set w.st mutations).1 := rfl
    rcases hs : storeSet S mutations w with ⟨r, w1⟩
    rw [hs] at hl hres
    simp only at hl hres
    cases r with
    | ok u =>
      refine ⟨[Except.ok u], by simpa using hl.1, hl.2, by simp, by simp, ?_, by simp, ?_⟩
      · intro h
        obtain ⟨e, he⟩ := h (Except.ok u) (by simp)
        cases he
      · intro r hr
        rw [List.mem_singleton.1 hr]
        exact ⟨w.st, hres⟩
    | error e =>
      simp only
      obtain ⟨attempts, a, b, c, d, f, _, k⟩ := ih w1
      refine ⟨Except.error e :: attempts, ?_, b.trans hl.2, by simp; omega, ?_, ?_, by simp, ?_⟩
      · rw [a, hl.1]
        simp
      · intro r hr
        cases attempts with
        | nil => simp at hr
        | cons x rest =>
          rw [List.dropLast_cons₂] at hr
          rcases List.mem_cons.1 hr with h | h
          · exact ⟨e, h⟩
          · exact d r h
      · intro h
        have := f (fun r hr => h r (List.mem_cons_of_mem _ hr))
        simp [this]
      · intro r hr
        rcases List.mem_cons.1 hr with h | h
        · rw [h]
          exact ⟨w.st, hres⟩
        · exact k r h

/-- C4. For an outermost transaction (after the work the counter reads 1) whose
work returned normally with a non-empty Mutation Batch: `transaction` returns the
work's result whatever the store does; the calls made to the store after the
work are commit attempts, each a `set` of that same batch; every attempt but
the last failed (the loop stops at the first success); there are at most
`maxCommitRetries` of them, and exactly that many when none succeeded. -/
theorem commit_retries_bounded {σ α : Type} (S : Store σ) (opts : TransactionOpts)
    (work : Run σ α) (key : String) (c : Coord) (w : World σ) (result : α)
    (hret : (work ({ c with transactionsInProgress := c.transactionsInProgress + 1 }, w)).1
      = Except.ok result)
    (houter : (work ({ c with transactionsInProgress := c.transactionsInProgress + 1 },
      w)).2.1.transactionsInProgress = 1)
    (hbatch : (work ({ c with transactionsInProgress := c.transactionsInProgress + 1 },
      w)).2.1.mutations ≠ []) :
    (transaction S opts work key (c, w)).1 = Except.ok result ∧
    ∃ attempts : List (Except Err Unit),
      (transaction S opts work key (c, w)).2.2.log
        = (work ({ c with transactionsInProgress := c.transactionsInProgress + 1 }, w)).2.2.log
          ++ attempts.map (Call.set (work ({ c with transactionsInProgress :=
              c.transactionsInProgress + 1 }, w)).2.1.mutations) ∧
      attempts.length ≤ opts.maxCommitRetries ∧
      (∀ r ∈ attempts.dropLast, ∃ e, r = Except.error e) ∧
      ((∀ r ∈ attempts, ∃ e, r = Except.error e) → attempts.length = opts.maxCommitRetries) := by
  unfold transaction executeTransactionWork
  dsimp only
  rcases hw : work ({ c with transactionsInProgress := c.transactionsInProgress + 1 }, w)
    with ⟨r, c1, w1⟩
  rw [hw] at hret houter hbatch
  simp only at hret houter hbatch
  subst hret
  have hkeys : ¬ (Obj.keys c1.mutations).length = 0 := by
    intro h
    apply hbatch
    have : c1.mutations.length = 0 := by simpa [Obj.keys] using h
    exact List.length_eq_zero.1 this
  obtain ⟨attempts, a, _, b, d, f, _, _⟩ := commitLoop_spec S c1.mutations opts.maxCommitRetries w1
  simp only [houter, if_true, commitTransaction, hkeys, if_false]
  exact ⟨trivial, attempts, a, b, d, f⟩
theorem commit_retries_bounded_witness :
    (Work.run flakyStore opts0 writeSession
        ({ Coord.init with transactionsInProgress := Coord.init.transactionsInProgress + 1 },
          World.fresh 20)).1 = Except.ok "r" ∧
    (Work.run flakyStore opts0 writeSession
        ({ Coord.init with transactionsInProgress := Coord.init.transactionsInProgress + 1 },
          World.fresh 20)).2.1.transactionsInProgress = 1 ∧
    (Work.run flakyStore opts0 writeSession
        ({ Coord.init with transactionsInProgress := Coord.init.transactionsInProgress + 1 },
          World.fresh 20)).2.1.mutations ≠ [] ∧
    (transaction flakyStore opts0 (Work.run flakyStore opts0 writeSession) "k"
        (Coord.init, World.fresh 20)).1 = Except.ok "r" ∧
    (transaction flakyStore opts0 (Work.run flakyStore opts0 writeSession) "k"
        (Coord.init, World.fresh 20)).2.2.log.length = 10 :=
  ⟨by decide, by decide, by decide,
   (commit_retries_bounded flakyStore opts0 (Work.run flakyStore opts0 writeSession) "k"
      Coord.init (World.fresh 20) "r" (by decide) (by decide) (by decide)).1,
   by decide⟩

/-- C3, as amended. An outermost `transaction` (counter at zero, empty batch)
whose work returns normally and hands at least one patch that names a key type
to `set`, over a store whose `set` succeeds and with at least one commit attempt
allowed: the calls the store receives are those made while the work ran, none
of them a `set`, followed by exactly one `set`; the patch of that `set` holds,
at every type and id, the union of all the writes made in the outer and the
nested scopes, a later write replacing an earlier one. -/
theorem nested_transactions_commit_once {σ : Type} (S : Store σ) (opts : TransactionOpts)
    (work : Work) (key : String) (c : Coord) (w : World σ) (result : Blob)
    (hidle : c.transactionsInProgress = 0) (hempty : c.mutations = [])
    (hretries : opts.maxCommitRetries ≥ 1)
    (hset : ∀ st p, (S.set st p).1 = Except.ok ())
    (hret : (transaction S opts (Work.run S opts work) key (c, w)).1 = Except.ok result)
    (hwrote : ∃ p ∈ writesSince w.writes
      (transaction S opts (Work.run S opts work) key (c, w)).2.2.writes, p ≠ []) :
    ∃ batch : Patch,
      callsSince w.log (transaction S opts (Work.run S opts work) key (c, w)).2.2.log
        = callsSince w.log (Work.run S opts work
            ({ c with transactionsInProgress := c.transactionsInProgress + 1 }, w)).2.2.log
          ++ [Call.set batch (Except.ok ())] ∧
      (∀ call ∈ callsSince w.log (Work.run S opts work
          ({ c with transactionsInProgress := c.transactionsInProgress + 1 }, w)).2.2.log,
        call.isSet = false) ∧
      (∀ t i, Patch.entry batch t i
        = mergeWrites (writesSince w.writes
            (transaction S opts (Work.run S opts work) key (c, w)).2.2.writes) t i none) := by
  have hst := run_stretch S opts work
    ({ c with transactionsInProgress := c.transactionsInProgress + 1 }, w)
    (by simp only; omega)
  revert hret hwrote
  unfold transaction executeTransactionWork
  dsimp only
  rcases hw : Work.run S opts work
    ({ c with transactionsInProgress := c.transactionsInProgress + 1 }, w) with ⟨r, c1, w1⟩
  rw [hw] at hst
  obtain ⟨a, gets, ws, b, g, d, e, _, k⟩ := hst
  simp only at a b g d e k
  have htip : c1.transactionsInProgress = 1 := by omega
  cases r with
  | error err =>
    intro hret
    simp at hret
  | ok res =>
    simp only [htip, if_true]
    intro _ hwrote
    obtain ⟨attempts, la, lw, lb, ld, _, lne, lres⟩ :=
      commitLoop_spec S c1.mutations opts.maxCommitRetries w1
    have hwr : (commitTransaction S opts (c1, w1)).2.writes = w.writes ++ ws := by
      unfold commitTransaction
      split
      · exact d
      · exact lw.trans d
    rw [hwr, writesSince, List.drop_left] at hwrote
    have hne : c1.mutations ≠ [] := k hwrote
    have hkeys : ¬ (Obj.keys c1.mutations).length = 0 := by
      intro h
      apply hne
      have : c1.mutations.length = 0 := by simpa [Obj.keys] using h
      exact List.length_eq_zero.1 this
    have hall : ∀ r ∈ attempts, r = Except.ok () := by
      intro r hr
      obtain ⟨st, h⟩ := lres r hr
      rw [h]
      exact hset st c1.mutations
    have hone : attempts = [Except.ok ()] := by
      cases attempts with
      | nil => exact absurd rfl (lne hretries)
      | cons x rest =>
        cases rest with
        | nil => rw [hall x (by simp)]
        | cons y rest2 =>
          exfalso
          obtain ⟨e', he⟩ := ld x (by simp [List.dropLast_cons₂])
          rw [hall x (by simp)] at he
          cases he
    refine ⟨c1.mutations, ?_, ?_, ?_⟩
    · simp only [commitTransaction, hkeys, if_false]
      rw [la, hone, b]
      simp [callsSince]
    · rw [b, callsSince_append]
      exact g
    · intro t i
      rw [hwr, writesSince, List.drop_left, e t i, hempty]
      rfl
theorem nested_transactions_commit_once_witness :
    Coord.init.transactionsInProgress = 0 ∧ Coord.init.mutations = [] ∧
    opts0.maxCommitRetries ≥ 1 ∧
    (∀ st p, (memStore.set st p).1 = Except.ok ()) ∧
    (transaction memStore opts0 (Work.run memStore opts0 nestedWork) "k"
      (Coord.init, World.fresh [])).1 = Except.ok "deep" ∧
    (∃ p ∈ writesSince (World.fresh ([] : Patch)).writes
      (transaction memStore opts0 (Work.run memStore opts0 nestedWork) "k"
        (Coord.init, World.fresh [])).2.2.writes, p ≠ []) ∧
    ∃ batch : Patch,
      callsSince (World.fresh ([] : Patch)).log
          (transaction memStore opts0 (Work.run memStore opts0 nestedWork) "k"
            (Coord.init, World.fresh [])).2.2.log
        = callsSince (World.fresh ([] : Patch)).log (Work.run memStore opts0 nestedWork
            ({ Coord.init with transactionsInProgress := Coord.init.transactionsInProgress + 1 },
              World.fresh [])).2.2.log
          ++ [Call.set batch (Except.ok ())] ∧
      (∀ call ∈ callsSince (World.fresh ([] : Patch)).log (Work.run memStore opts0 nestedWork
          ({ Coord.init with transactionsInProgress := Coord.init.transactionsInProgress + 1 },
            World.fresh [])).2.2.log,
        call.isSet = false) ∧
      (∀ t i, Patch.entry batch t i
        = mergeWrites (writesSince (World.fresh ([] : Patch)).writes
            (transaction memStore opts0 (Work.run memStore opts0 nestedWork) "k"
              (Coord.init, World.fresh [])).2.2.writes) t i none) :=
  ⟨rfl, rfl, by decide, fun _ _ => rfl, by decide!, by decide!,
   nested_transactions_commit_once memStore opts0 nestedWork "k" Coord.init (World.fresh [])
     "deep" rfl rfl (by decide) (fun _ _ => rfl) (by decide!) (by decide!)⟩

/-- C3 as stated fails. A work that makes one `set`, of the empty patch `{}`,
and runs a nested transaction under the same token returns normally on an idle
coordinator over a store whose `set` succeeds; the one write is on record, and
the store receives no call at all, so no `set`. -/
theorem empty_patch_commits_nothing :
    (transaction memStore opts0 (Work.run memStore opts0 emptyWrite) "k"
      (Coord.init, World.fresh [])).1 = Except.ok "inner" ∧
    (transaction memStore opts0 (Work.run memStore opts0 emptyWrite) "k"
      (Coord.init, World.fresh [])).2.2.writes = [[]] ∧
    (transaction memStore opts0 (Work.run memStore opts0 emptyWrite) "k"
      (Coord.init, World.fresh [])).2.2.log = [] := by
  decide!

/-! ## Bounded tiers: the sweep of the oldest entries -/

theorem deleteAll_eq_filter {α : Type} (ks : Obj (Timed α)) (m : Obj (Timed α)) :
    ks.foldl (fun acc p => Obj.delete acc p.1) m
      = m.filter (fun x => decide (x.1 ∉ ks.map Prod.fst)) := by
  induction ks generalizing m with
  | nil => simp
  | cons k r ih =>
    rw [List.foldl_cons, ih, Obj.delete, List.filter_filter]
    apply List.filter_congr
    intro x _
    simp only [List.map_cons, List.mem_cons, not_or, ne_eq]
    by_cases h1 : x.1 = k.1 <;> by_cases h2 : x.1 ∈ r.map Prod.fst <;> simp [h1, h2]

theorem evict_eq_filter {α : Type} (n : Nat) (m : Obj (Timed α)) :
    evict n m = m.filter (fun x => decide (x.1 ∉ (evicted n m).map Prod.fst)) := by
  unfold evict
  exact deleteAll_eq_filter _ _

theorem oldestFirst_sorted {α : Type} (m : Obj (Timed α)) :
    (oldestFirst m).Sorted (fun a b => a.2.time ≤ b.2.time) := by
  haveI : IsTotal (String × Timed α) (fun a b => a.2.time ≤ b.2.time) :=
    ⟨fun a b => le_total a.2.time b.2.time⟩
  haveI : IsTrans (String × Timed α) (fun a b => a.2.time ≤ b.2.time) :=
    ⟨fun _ _ _ h1 h2 => le_trans h1 h2⟩
  exact List.sorted_insertionSort _ m

theorem oldestFirst_perm {α : Type} (m : Obj (Timed α)) : (oldestFirst m).Perm m :=
  List.perm_insertionSort _ m

/-- Every entry swept is at least as old as every entry kept. -/
theorem evicted_older {α : Type} (n : Nat) (m : Obj (Timed α)) :
    ∀ e ∈ evicted n m, ∀ r ∈ evict n m, e.2.time ≤ r.2.time := by
  intro e he r hr
  rw [evict_eq_filter, List.mem_filter] at hr
  obtain ⟨hrm, hrk⟩ := hr
  have hrs : r ∈ oldestFirst m := (oldestFirst_perm m).mem_iff.2 hrm
  rw [← List.take_append_drop n (oldestFirst m)] at hrs
  rcases List.mem_append.1 hrs with h | h
  · exfalso
    have : r.1 ∈ (evicted n m).map Prod.fst := List.mem_map_of_mem _ h
    simp [this] at hrk
  · exact (oldestFirst_sorted m).rel_of_mem_take_of_mem_drop he h

theorem length_evicted {α : Type} (n : Nat) (m : Obj (Timed α)) :
    (evicted n m).length = min n m.length := by
  unfold evicted
  rw [List.length_take, (oldestFirst_perm m).length_eq]

/-- A sweep of at least one entry shrinks a tier that is not empty. -/
theorem length_evict_lt {α : Type} (n : Nat) (m : Obj (Timed α)) (hn : 0 < n) (hm : m ≠ []) :
    (evict n m).length < m.length := by
  rw [evict_eq_filter, List.length_filter_lt_length_iff_exists]
  have hlen : (oldestFirst m).length = m.length := (oldestFirst_perm m).length_eq
  cases hs : oldestFirst m with
  | nil =>
    rw [hs] at hlen
    exact absurd (List.length_eq_zero.1 hlen.symm) hm
  | cons x rest =>
    have hx : x ∈ evicted n m := by
      unfold evicted
      rw [hs]
      cases n with
      | zero => omega
      | succ k => simp
    refine ⟨x, (oldestFirst_perm m).mem_iff.1 (by rw [hs]; simp), ?_⟩
    have : x.1 ∈ (evicted n m).map Prod.fst := List.mem_map_of_mem _ hx
    simp [this]

/-- With distinct keys, as in a `Map`, a sweep removes exactly the entries it
picked. -/
theorem length_evict {α : Type} (n : Nat) (m : Obj (Timed α)) (hk : (Obj.keys m).Nodup) :
    (evict n m).length = m.length - n := by
  have hperm := oldestFirst_perm m
  have hnd : ((oldestFirst m).map Prod.fst).Nodup :=
    ((hperm.map Prod.fst).nodup_iff).2 hk
  rw [evict_eq_filter, ← (hperm.filter _).length_eq]
  have hsplit : oldestFirst m = evicted n m ++ (oldestFirst m).drop n := by
    unfold evicted
    exact (List.take_append_drop n _).symm
  rw [hsplit] at hnd
  rw [List.map_append, List.nodup_append] at hnd
  obtain ⟨_, _, hdisj⟩ := hnd
  conv_lhs => rw [hsplit]
  rw [List.filter_append, List.length_append]
  have h1 : (evicted n m).filter (fun x => decide (x.1 ∉ (evicted n m).map Prod.fst)) = [] := by
    rw [List.filter_eq_nil_iff]
    intro a ha
    have : a.1 ∈ (evicted n m).map Prod.fst := List.mem_map_of_mem _ ha
    simp [this]
  have h2 : ((oldestFirst m).drop n).filter
      (fun x => decide (x.1 ∉ (evicted n m).map Prod.fst)) = (oldestFirst m).drop n := by
    rw [List.filter_eq_self]
    intro a ha
    have ha' : a.1 ∈ ((oldestFirst m).drop n).map Prod.fst := List.mem_map_of_mem _ ha
    have : a.1 ∉ (evicted n m).map Prod.fst := fun h => hdisj h ha'
    simp [this]
  rw [h1, h2, List.length_drop, hperm.length_eq]
  simp
theorem length_insert_le {α : Type} (cap n : Nat) (m : Obj (Timed α)) (k : String)
    (e : Timed α) (hn : 0 < n) (hcap : 0 < cap) (hm : m.length ≤ cap) :
    (Obj.set (if m.length ≥ cap then evict n m else m) k e).length ≤ cap := by
  have hs := Obj.length_set_le (if m.length ≥ cap then evict n m else m) k e
  by_cases h : m.length ≥ cap
  · rw [if_pos h] at hs ⊢
    have hne : m ≠ [] := by
      intro h0
      rw [h0] at h
      simp at h
      omega
    have := length_evict_lt n m hn hne
    omega
  · rw [if_neg h] at hs ⊢
    omega

theorem setHotCache_length_le (now : Int) (hot : Obj (Timed Val)) (uid : String) (v : Val)
    (h : hot.length ≤ HOT_KEY_MAX_SIZE) :
    (setHotCache now hot uid v).length ≤ HOT_KEY_MAX_SIZE :=
  length_insert_le HOT_KEY_MAX_SIZE 100 hot uid _ (by decide) (by decide) h

theorem setSessionInCache_length_le (now : Int) (cache : Obj (Timed Blob)) (key : String)
    (session : Blob) (h : cache.length ≤ SESSION_CACHE_MAX_SIZE) :
    (setSessionInCache now cache key session).length ≤ SESSION_CACHE_MAX_SIZE :=
  length_insert_le SESSION_CACHE_MAX_SIZE 50 cache key _ (by decide) (by decide) h

theorem setSenderKeyInCache_length_le (now : Int) (cache : Obj (Timed Blob)) (key : String)
    (record : Blob) (h : cache.length ≤ SENDER_KEY_CACHE_MAX_SIZE) :
    (setSenderKeyInCache now cache key record).length ≤ SENDER_KEY_CACHE_MAX_SIZE :=
  length_insert_le SENDER_KEY_CACHE_MAX_SIZE 25 cache key _ (by decide) (by decide) h

theorem foldl_invariant {α β : Type} (P : β → Prop) (f : β → α → β) (l : List α) (b : β)
    (hb : P b) (hf : ∀ b a, P b → P (f b a)) : P (l.foldl f b) := by
  induction l generalizing b with
  | nil => exact hb
  | cons a r ih => exact ih (f b a) (hf b a hb)

/-- C8. Each bounded tier holds at most its capacity after every run of inserts
from the empty tier (500 for the hot tier, 200 for the session cache, 100 for
the sender-key cache), and an insert keeps a tier within capacity from any
state within capacity; an insert that finds the tier at or over capacity writes
into the swept tier, and every entry the sweep removed is at least as old as
every entry it kept. -/
theorem bounded_tiers_within_capacity :
    (∀ inserts, (hotAfter inserts).length ≤ HOT_KEY_MAX_SIZE) ∧
    (∀ inserts, (sessionsAfter inserts).length ≤ SESSION_CACHE_MAX_SIZE) ∧
    (∀ inserts, (senderKeysAfter inserts).length ≤ SENDER_KEY_CACHE_MAX_SIZE) ∧
    (∀ now hot uid v, hot.length ≤ HOT_KEY_MAX_SIZE →
      (setHotCache now hot uid v).length ≤ HOT_KEY_MAX_SIZE) ∧
    (∀ now cache key session, cache.length ≤ SESSION_CACHE_MAX_SIZE →
      (setSessionInCache now cache key session).length ≤ SESSION_CACHE_MAX_SIZE) ∧
    (∀ now cache key record, cache.length ≤ SENDER_KEY_CACHE_MAX_SIZE →
      (setSenderKeyInCache now cache key record).length ≤ SENDER_KEY_CACHE_MAX_SIZE) ∧
    (∀ now hot uid v, hot.length ≥ HOT_KEY_MAX_SIZE →
      setHotCache now hot uid v = Obj.set (evict 100 hot) uid { value := v, time := now } ∧
      ∀ e ∈ evicted 100 hot, ∀ r ∈ evict 100 hot, e.2.time ≤ r.2.time) ∧
    (∀ now cache key session, cache.length ≥ SESSION_CACHE_MAX_SIZE →
      setSessionInCache now cache key session
        = Obj.set (evict 50 cache) key { value := session, time := now } ∧
      ∀ e ∈ evicted 50 cache, ∀ r ∈ evict 50 cache, e.2.time ≤ r.2.time) ∧
    (∀ now cache key record, cache.length ≥ SENDER_KEY_CACHE_MAX_SIZE →
      setSenderKeyInCache now cache key record
        = Obj.set (evict 25 cache) key { value := record, time := now } ∧
      ∀ e ∈ evicted 25 cache, ∀ r ∈ evict 25 cache, e.2.time ≤ r.2.time) := by
  refine ⟨?_, ?_, ?_, setHotCache_length_le, setSessionInCache_length_le,
    setSenderKeyInCache_length_le, ?_, ?_, ?_⟩
  · intro inserts
    exact foldl_invariant (fun hot : Obj (Timed Val) => hot.length ≤ HOT_KEY_MAX_SIZE) _ inserts []
      (by simp) (fun b a hb => setHotCache_length_le a.1 b a.2.1 a.2.2 hb)
  · intro inserts
    exact foldl_invariant (fun c : Obj (Timed Blob) => c.length ≤ SESSION_CACHE_MAX_SIZE) _
      inserts [] (by simp) (fun b a hb => setSessionInCache_length_le a.1 b a.2.1 a.2.2 hb)
  · intro inserts
    exact foldl_invariant (fun c : Obj (Timed Blob) => c.length ≤ SENDER_KEY_CACHE_MAX_SIZE) _
      inserts [] (by simp) (fun b a hb => setSenderKeyInCache_length_le a.1 b a.2.1 a.2.2 hb)
  · intro now hot uid v h
    exact ⟨by simp [setHotCache, h], evicted_older 100 hot⟩
  · intro now cache key session h
    exact ⟨by simp [setSessionInCache, h], evicted_older 50 cache⟩
  · intro now cache key record h
    exact ⟨by simp [setSenderKeyInCache, h], evicted_older 25 cache⟩

/-- C9, as amended. An insert that finds a tier at or over capacity, its keys
distinct, sweeps a fixed batch, not half of the tier and not a single entry:
the 100 oldest entries of the hot tier (a fifth of its 500), the 50 oldest of
the session cache (a quarter of its 200), the 25 oldest of the sender-key cache
(a quarter of its 100); the swept tier has that many entries fewer, and every
entry swept is at least as old as every entry kept. -/
theorem sweep_takes_fixed_oldest_batch :
    (∀ hot : Obj (Timed Val), hot.length ≥ HOT_KEY_MAX_SIZE → (Obj.keys hot).Nodup →
      (∀ now uid v, setHotCache now hot uid v
        = Obj.set (evict 100 hot) uid { value := v, time := now }) ∧
      (evicted 100 hot).length = 100 ∧ (evict 100 hot).length = hot.length - 100 ∧
      ∀ e ∈ evicted 100 hot, ∀ r ∈ evict 100 hot, e.2.time ≤ r.2.time) ∧
    (∀ cache : Obj (Timed Blob), cache.length ≥ SESSION_CACHE_MAX_SIZE →
      (Obj.keys cache).Nodup →
      (∀ now key session, setSessionInCache now cache key session
        = Obj.set (evict 50 cache) key { value := session, time := now }) ∧
      (evicted 50 cache).length = 50 ∧ (evict 50 cache).length = cache.length - 50 ∧
      ∀ e ∈ evicted 50 cache, ∀ r ∈ evict 50 cache, e.2.time ≤ r.2.time) ∧
    (∀ cache : Obj (Timed Blob), cache.length ≥ SENDER_KEY_CACHE_MAX_SIZE →
      (Obj.keys cache).Nodup →
      (∀ now key record, setSenderKeyInCache now cache key record
        = Obj.set (evict 25 cache) key { value := record, time := now }) ∧
      (evicted 25 cache).length = 25 ∧ (evict 25 cache).length = cache.length - 25 ∧
      ∀ e ∈ evicted 25 cache, ∀ r ∈ evict 25 cache, e.2.time ≤ r.2.time) := by
  refine ⟨?_, ?_, ?_⟩
  · intro hot h hk
    refine ⟨fun now uid v => by simp [setHotCache, h], ?_, length_evict 100 hot hk,
      evicted_older 100 hot⟩
    rw [length_evicted]
    simp only [HOT_KEY_MAX_SIZE] at h
    omega
  · intro cache h hk
    refine ⟨fun now key session => by simp [setSessionInCache, h], ?_,
      length_evict 50 cache hk, evicted_older 50 cache⟩
    rw [length_evicted]
    simp only [SESSION_CACHE_MAX_SIZE] at h
    omega
  · intro cache h hk
    refine ⟨fun now key record => by simp [setSenderKeyInCache, h], ?_,
      length_evict 25 cache hk, evicted_older 25 cache⟩
    rw [length_evicted]
    simp only [SENDER_KEY_CACHE_MAX_SIZE] at h
    omega

theorem fullHot_length : fullHot.length = 500 := by
  simp [fullHot]

/-- C9 as stated fails. The hot tier at capacity holds 500 entries; an insert
then sweeps 100 of them, not 250, before it writes the new entry. -/
theorem hot_sweep_is_not_half :
    fullHot.length = 500 ∧
    (evicted 100 fullHot).length = 100 ∧
    (evicted 100 fullHot).length ≠ fullHot.length / 2 ∧
    setHotCache 1000 fullHot "session.new" (some "v")
      = Obj.set (evict 100 fullHot) "session.new" { value := some "v", time := 1000 } := by
  have h := fullHot_length
  have he : (evicted 100 fullHot).length = 100 := by
    rw [length_evicted, h]
    rfl
  refine ⟨h, he, ?_, ?_⟩
  · rw [he, h]
    decide
  · simp [setHotCache, h, HOT_KEY_MAX_SIZE]

/-! ## Tiered Cache: one id at a time -/

theorem getFromHotCache_hit (now : Int) (hot : Obj (Timed Val)) (uid : String) (e : Timed Val)
    (he : Obj.get hot uid = some e) (hlive : now - e.time < HOT_KEY_TTL) :
    getFromHotCache now hot uid = (some e.value, hot) := by
  simp [getFromHotCache, he, hlive]

theorem getFromHotCache_miss (now : Int) (hot : Obj (Timed Val)) (uid : String)
    (h : ∀ e, Obj.get hot uid = some e → ¬ now - e.time < HOT_KEY_TTL) :
    getFromHotCache now hot uid = (none, Obj.delete hot uid) := by
  unfold getFromHotCache
  cases he : Obj.get hot uid with
  | none => rfl
  | some e => simp [h e he]

/-- A turn of the first loop of `get` for an id whose hot entry is live. -/
theorem getStep_hot {γ : Type} (G : GeneralTier γ) (now : Int) (type : String)
    (g : GetState γ) (id : String) (e : Timed Val)
    (he : Obj.get g.tier.hotKeyCache (getUniqueId type id) = some e)
    (hlive : now - e.time < HOT_KEY_TTL) :
    getStep G now type g id =
      { g with
        tier := { g.tier with
          keyAccessCount := trackKeyAccess g.tier.keyAccessCount (getUniqueId type id) }
        data := Obj.set g.data id e.value } := by
  unfold getStep
  simp only [getFromHotCache_hit now _ _ e he hlive]

/-- A turn of the first loop of `get` for an id with no live hot entry that the
general tier holds. -/
theorem getStep_general {γ : Type} (G : GeneralTier γ) (now : Int) (type : String)
    (g : GetState γ) (id : String) (item : Val)
    (hmiss : ∀ e, Obj.get g.tier.hotKeyCache (getUniqueId type id) = some e →
      ¬ now - e.time < HOT_KEY_TTL)
    (hgen : G.get g.tier.cache now (getUniqueId type id) = some item) :
    getStep G now type g id =
      { g with
        tier := { g.tier with
          keyAccessCount := trackKeyAccess g.tier.keyAccessCount (getUniqueId type id)
          hotKeyCache :=
            if isHotKey (trackKeyAccess g.tier.keyAccessCount (getUniqueId type id))
                (getUniqueId type id) then
              setHotCache now (Obj.delete g.tier.hotKeyCache (getUniqueId type id))
                (getUniqueId type id) item
            else Obj.delete g.tier.hotKeyCache (getUniqueId type id)
          cacheReads := g.tier.cacheReads ++ [getUniqueId type id] }
        data := Obj.set g.data id item } := by
  unfold getStep
  simp only [getFromHotCache_miss now _ _ hmiss, hgen]

/-- A turn of the first loop of `get` for an id that neither tier holds. -/
theorem getStep_miss {γ : Type} (G : GeneralTier γ) (now : Int) (type : String)
    (g : GetState γ) (id : String)
    (hmiss : ∀ e, Obj.get g.tier.hotKeyCache (getUniqueId type id) = some e →
      ¬ now - e.time < HOT_KEY_TTL)
    (hgen : G.get g.tier.cache now (getUniqueId type id) = none) :
    getStep G now type g id =
      { g with
        tier := { g.tier with
          keyAccessCount := trackKeyAccess g.tier.keyAccessCount (getUniqueId type id)
          hotKeyCache := Obj.delete g.tier.hotKeyCache (getUniqueId type id)
          cacheReads := g.tier.cacheReads ++ [getUniqueId type id] }
        idsToFetch := g.idsToFetch ++ [id] } := by
  unfold getStep
  simp only [getFromHotCache_miss now _ _ hmiss, hgen]

theorem tieredGet_of_no_fetch {σ γ : Type} (S : Store σ) (G : GeneralTier γ) (now later : Int)
    (type : String) (ids : List String) (s : Tiered γ × World σ)
    (h : (ids.foldl (getStep G now type) { tier := s.1, data := [], idsToFetch := [] }).idsToFetch
      = []) :
    tieredGet S G now later type ids s =
      (Except.ok (ids.foldl (getStep G now type)
          { tier := s.1, data := [], idsToFetch := [] }).data,
        ((ids.foldl (getStep G now type) { tier := s.1, data := [], idsToFetch := [] }).tier,
          s.2)) := by
  unfold tieredGet
  simp [h]

/-- C10. A hot-tier entry whose age is at least `HOT_KEY_TTL` is never answered
from the hot tier, whatever the clock reads: `getFromHotCache` answers
`undefined` and deletes it; the turn of the loop of `get` that meets it asks the
general tier and takes the value from there, or else queues the id for the
store; and a `get` of that id alone answers the general tier's value with no
store call, or else asks the store for exactly that id and answers what the
store holds. -/
theorem expired_hot_entry_is_a_miss {σ γ : Type} (S : Store σ) (G : GeneralTier γ)
    (now later : Int) (type id : String) (t : Tiered γ) (w : World σ) (entry : Timed Val)
    (hentry : Obj.get t.hotKeyCache (getUniqueId type id) = some entry)
    (hage : now - entry.time ≥ HOT_KEY_TTL) :
    getFromHotCache now t.hotKeyCache (getUniqueId type id)
      = (none, Obj.delete t.hotKeyCache (getUniqueId type id)) ∧
    Obj.get (Obj.delete t.hotKeyCache (getUniqueId type id)) (getUniqueId type id) = none ∧
    (∀ data idsToFetch,
      (getStep G now type { tier := t, data := data, idsToFetch := idsToFetch } id).tier.cacheReads
        = t.cacheReads ++ [getUniqueId type id] ∧
      (∀ item, G.get t.cache now (getUniqueId type id) = some item →
        (getStep G now type { tier := t, data := data, idsToFetch := idsToFetch } id).data
          = Obj.set data id item ∧
        (getStep G now type { tier := t, data := data, idsToFetch := idsToFetch } id).idsToFetch
          = idsToFetch) ∧
      (G.get t.cache now (getUniqueId type id) = none →
        (getStep G now type { tier := t, data := data, idsToFetch := idsToFetch } id).data
          = data ∧
        (getStep G now type { tier := t, data := data, idsToFetch := idsToFetch } id).idsToFetch
          = idsToFetch ++ [id])) ∧
    (∀ item, G.get t.cache now (getUniqueId type id) = some item →
      (tieredGet S G now later type [id] (t, w)).1 = Except.ok [(id, item)] ∧
      (tieredGet S G now later type [id] (t, w)).2.2.log = w.log) ∧
    (G.get t.cache now (getUniqueId type id) = none →
      (tieredGet S G now later type [id] (t, w)).2.2.log
        = w.log ++ [Call.get type [id] (S.get w.st type [id]).1] ∧
      (tieredGet S G now later type [id] (t, w)).1
        = match (S.get w.st type [id]).1 with
          | Except.error e => Except.error e
          | Except.ok fetched =>
            match Obj.get fetched id with
            | some (some item) => Except.ok [(id, some item)]
            | _ => Except.ok []) := by
  have hmiss : ∀ e, Obj.get t.hotKeyCache (getUniqueId type id) = some e →
      ¬ now - e.time < HOT_KEY_TTL := by
    intro e he
    rw [hentry] at he
    cases he
    omega
  refine ⟨getFromHotCache_miss now _ _ hmiss, Obj.get_delete_self _ _, ?_, ?_, ?_⟩
  · intro data idsToFetch
    cases hg : G.get t.cache now (getUniqueId type id) with
    | none =>
      rw [getStep_miss G now type _ id hmiss hg]
      simp
    | some item =>
      rw [getStep_general G now type _ id item hmiss hg]
      simp
  · intro item hg
    have hstep := getStep_general G now type { tier := t, data := [], idsToFetch := [] } id item
      hmiss hg
    rw [tieredGet_of_no_fetch]
    · simp [hstep, Obj.set]
    · simp [hstep]
  · intro hg
    have hstep := getStep_miss G now type { tier := t, data := [], idsToFetch := [] } id hmiss hg
    unfold tieredGet
    simp only [List.foldl_cons, List.foldl_nil, hstep, List.nil_append, List.length_singleton,
      ne_eq, one_ne_zero, not_false_eq_true, if_true]
    unfold storeGet
    cases hs : (S.get w.st type [id]).1 with
    | error e => simp [hs]
    | ok fetched =>
      simp only [hs, List.foldl_cons, List.foldl_nil, true_and]
      unfold fetchStep
      cases hf : Obj.get fetched id with
      | none => simp
      | some v =>
        cases v with
        | none => simp
        | some item => simp [Obj.set]
theorem expired_hot_entry_is_a_miss_witness :
    Obj.get staleTier.hotKeyCache (getUniqueId "session" "alice.0")
      = some { value := some "old", time := 0 } ∧
    (30000 : Int) - (0 : Int) ≥ HOT_KEY_TTL ∧
    (tieredGet memStore ttlCache 30000 30001 "session" ["alice.0"]
      (staleTier, World.fresh [])).1 = Except.ok [("alice.0", some "s0")] :=
  ⟨by decide, by decide,
   ((expired_hot_entry_is_a_miss memStore ttlCache 30000 30001 "session" "alice.0" staleTier
      (World.fresh []) { value := some "old", time := 0 } (by decide) (by decide)).2.2.2.1
      (some "s0") (by decide)).1⟩

/-- C6. For an id that the general tier holds and the hot tier does not, a
`get` of that id copies the value into the hot tier exactly when the access
count it leaves is at least the threshold 3; and once copied, the next `get` of
the id made within `HOT_KEY_TTL` of the copy answers that value without asking
the general tier or the store. -/
theorem promotion_at_threshold {σ γ : Type} (S : Store σ) (G : GeneralTier γ)
    (now later : Int) (type id : String) (t : Tiered γ) (w : World σ) (item : Val)
    (hgen : G.get t.cache now (getUniqueId type id) = some item)
    (hcold : Obj.get t.hotKeyCache (getUniqueId type id) = none) :
    ((Obj.get (tieredGet S G now later type [id] (t, w)).2.1.keyAccessCount
          (getUniqueId type id)).getD 0 ≥ 3 →
      Obj.get (tieredGet S G now later type [id] (t, w)).2.1.hotKeyCache (getUniqueId type id)
        = some { value := item, time := now }) ∧
    ((Obj.get (tieredGet S G now later type [id] (t, w)).2.1.keyAccessCount
          (getUniqueId type id)).getD 0 < 3 →
      Obj.get (tieredGet S G now later type [id] (t, w)).2.1.hotKeyCache (getUniqueId type id)
        = none) ∧
    ((Obj.get (tieredGet S G now later type [id] (t, w)).2.1.keyAccessCount
          (getUniqueId type id)).getD 0 ≥ 3 →
      ∀ now2 later2 : Int, now2 - now < HOT_KEY_TTL →
        (tieredGet S G now2 later2 type [id] (tieredGet S G now later type [id] (t, w)).2).1
          = Except.ok [(id, item)] ∧
        (tieredGet S G now2 later2 type [id]
            (tieredGet S G now later type [id] (t, w)).2).2.1.cacheReads
          = (tieredGet S G now later type [id] (t, w)).2.1.cacheReads ∧
        (tieredGet S G now2 later2 type [id]
            (tieredGet S G now later type [id] (t, w)).2).2.2.log
          = (tieredGet S G now later type [id] (t, w)).2.2.log) := by
  have hmiss : ∀ e, Obj.get t.hotKeyCache (getUniqueId type id) = some e →
      ¬ now - e.time < HOT_KEY_TTL := by
    intro e he
    rw [hcold] at he
    cases he
  have hstep := getStep_general G now type { tier := t, data := [], idsToFetch := [] } id item
    hmiss hgen
  have hrun := tieredGet_of_no_fetch S G now later type [id] (t, w) (by simp [hstep])
  simp only [List.foldl_cons, List.foldl_nil, hstep] at hrun
  rw [hrun]
  simp only
  have hiff : isHotKey (trackKeyAccess t.keyAccessCount (getUniqueId type id))
      (getUniqueId type id) = true ↔
      (Obj.get (trackKeyAccess t.keyAccessCount (getUniqueId type id))
        (getUniqueId type id)).getD 0 ≥ 3 := by
    simp [isHotKey, HOT_KEY_THRESHOLD]
  refine ⟨?_, ?_, ?_⟩
  · intro hc
    rw [if_pos (hiff.2 hc)]
    unfold setHotCache
    exact Obj.get_set_self _ _ _
  · intro hc
    have : ¬ isHotKey (trackKeyAccess t.keyAccessCount (getUniqueId type id))
        (getUniqueId type id) = true := by
      intro h
      have := hiff.1 h
      omega
    rw [if_neg this]
    exact Obj.get_delete_self _ _
  · intro hc now2 later2 hnow
    rw [if_pos (hiff.2 hc)]
    have hentry : Obj.get (setHotCache now (Obj.delete t.hotKeyCache (getUniqueId type id))
        (getUniqueId type id) item) (getUniqueId type id)
        = some { value := item, time := now } := by
      unfold setHotCache
      exact Obj.get_set_self _ _ _
    have hstep2 := getStep_hot G now2 type
      { tier := { t with
          keyAccessCount := trackKeyAccess t.keyAccessCount (getUniqueId type id)
          hotKeyCache := setHotCache now (Obj.delete t.hotKeyCache (getUniqueId type id))
            (getUniqueId type id) item
          cacheReads := t.cacheReads ++ [getUniqueId type id] }
        data := [], idsToFetch := [] } id { value := item, time := now } hentry hnow
    have hrun2 := tieredGet_of_no_fetch S G now2 later2 type [id]
      ({ t with
          keyAccessCount := trackKeyAccess t.keyAccessCount (getUniqueId type id)
          hotKeyCache := setHotCache now (Obj.delete t.hotKeyCache (getUniqueId type id))
            (getUniqueId type id) item
          cacheReads := t.cacheReads ++ [getUniqueId type id] }, w) (by simp [hstep2])
    simp only [List.foldl_cons, List.foldl_nil, hstep2] at hrun2
    rw [hrun2]
    simp [Obj.set]

theorem promotion_at_threshold_witness :
    ttlCache.get warmTier.cache 1000 (getUniqueId "session" "alice.0") = some (some "s0") ∧
    Obj.get warmTier.hotKeyCache (getUniqueId "session" "alice.0") = none ∧
    Obj.get (tieredGet memStore ttlCache 1000 1001 "session" ["alice.0"]
        (warmTier, World.fresh [])).2.1.hotKeyCache (getUniqueId "session" "alice.0")
      = some { value := some "s0", time := 1000 } :=
  ⟨by decide, by decide,
   (promotion_at_threshold memStore ttlCache 1000 1001 "session" "alice.0" warmTier
      (World.fresh []) (some "s0") (by decide) (by decide)).1 (by decide)⟩

/-! ## Tiered Cache: `set` -/

theorem foldl_grow {α β : Type} (f : β → α → β) (size : β → Nat) (cost : α → Nat)
    (hgrow : ∀ b a, size (f b a) ≤ size b + cost a) (l : List α) (b : β) :
    size (l.foldl f b) ≤ size b + (l.map cost).sum := by
  induction l generalizing b with
  | nil => simp
  | cons a r ih =>
    have h1 := ih (f b a)
    have h2 := hgrow b a
    simp only [List.foldl_cons, List.map_cons, List.sum_cons]
    omega

/-- A property kept by every turn that has room is kept by the whole loop when
the loop has room for all its turns. -/
theorem foldl_keep {α β : Type} (f : β → α → β) (Q : β → Prop) (size : β → Nat)
    (cost : α → Nat) (cap : Nat) (hgrow : ∀ b a, size (f b a) ≤ size b + cost a)
    (hpres : ∀ b a, Q b → size b + cost a ≤ cap → Q (f b a)) (l : List α) (b : β)
    (hb : Q b) (hroom : size b + (l.map cost).sum ≤ cap) : Q (l.foldl f b) := by
  induction l generalizing b with
  | nil => exact hb
  | cons a r ih =>
    simp only [List.map_cons, List.sum_cons] at hroom
    have h2 := hgrow b a
    exact ih (f b a) (hpres b a hb (by omega)) (by omega)

/-- A property that one turn brings about, and that every later turn keeps, holds
after a loop that takes that turn. -/
theorem foldl_reach {α β : Type} (f : β → α → β) (Q : β → Prop) (size : β → Nat)
    (cost : α → Nat) (cap : Nat) (hgrow : ∀ b a, size (f b a) ≤ size b + cost a)
    (hpres : ∀ b a, Q b → size b + cost a ≤ cap → Q (f b a)) (x : α)
    (hest : ∀ b, size b + cost x ≤ cap → Q (f b x)) (l : List α) (b : β)
    (hx : x ∈ l) (hroom : size b + (l.map cost).sum ≤ cap) : Q (l.foldl f b) := by
  induction l generalizing b with
  | nil => simp at hx
  | cons a r ih =>
    simp only [List.map_cons, List.sum_cons] at hroom
    have h2 := hgrow b a
    rw [List.foldl_cons]
    by_cases hax : x = a
    · subst hax
      exact foldl_keep f Q size cost cap hgrow hpres r (f b x) (hest b (by omega)) (by omega)
    · rcases List.mem_cons.1 hx with h | h
      · exact absurd h hax
      · exact ih (f b a) h (by omega)

theorem length_evict_le {α : Type} (n : Nat) (m : Obj (Timed α)) :
    (evict n m).length ≤ m.length := by
  rw [evict_eq_filter]
  exact List.length_filter_le _ _

theorem get_filter_none {α : Type} (m : Obj α) (p : String × α → Bool) (k : String)
    (h : Obj.get m k = none) : Obj.get (m.filter p) k = none := by
  rw [Obj.get_eq_none_iff] at h ⊢
  intro hk
  apply h
  simp only [Obj.keys, List.mem_map] at hk ⊢
  obtain ⟨a, ha, hak⟩ := hk
  exact ⟨a, (List.mem_filter.1 ha).1, hak⟩

theorem get_evict_none {α : Type} (n : Nat) (m : Obj (Timed α)) (k : String)
    (h : Obj.get m k = none) : Obj.get (evict n m) k = none := by
  rw [evict_eq_filter]
  exact get_filter_none m _ k h

theorem setHotCache_length (now : Int) (hot : Obj (Timed Val)) (uid : String) (v : Val) :
    (setHotCache now hot uid v).length ≤ hot.length + 1 := by
  unfold setHotCache
  have h2 := length_evict_le 100 hot
  by_cases h : hot.length ≥ HOT_KEY_MAX_SIZE
  · simp only [h, if_true]
    have h1 := Obj.length_set_le (evict 100 hot) uid { value := v, time := now }
    omega
  · simp only [h, if_false]
    exact Obj.length_set_le hot uid { value := v, time := now }

theorem setStep_length {γ : Type} (G : GeneralTier γ) (now : Int) (data : Patch)
    (type : String) (t : Tiered γ) (id : String) :
    (setStep G now data type t id).hotKeyCache.length ≤ t.hotKeyCache.length + 1 := by
  unfold setStep
  cases Patch.entry data type id with
  | none => simp
  | some value =>
    simp only
    by_cases hv : value ≠ none
    · rw [if_pos hv]
      exact setHotCache_length now _ _ _
    · rw [if_neg hv]
      have := Obj.length_delete_le t.hotKeyCache (getUniqueId type id)
      omega
theorem sum_map_one {α : Type} (l : List α) : (l.map (fun _ => 1)).sum = l.length := by
  induction l with
  | nil => rfl
  | cons a r ih =>
    simp only [List.map_cons, List.sum_cons, List.length_cons, ih]
    omega

theorem mem_keys_of_entry (data : Patch) (type id : String) (v : Val)
    (h : Patch.entry data type id = some v) :
    type ∈ Obj.keys data ∧ id ∈ Obj.keys ((Obj.get data type).getD []) := by
  unfold Patch.entry at h
  cases hd : Obj.get data type with
  | none => simp [hd] at h
  | some d =>
    simp only [hd] at h
    exact ⟨Obj.mem_keys_of_get data type d hd, by simpa using Obj.mem_keys_of_get d id v h⟩

/-- A turn of `set` for a deleted entry leaves its key out of the hot tier. -/
theorem setStep_null {γ : Type} (G : GeneralTier γ) (now : Int) (data : Patch)
    (type id : String) (t : Tiered γ) (h : Patch.entry data type id = some none) :
    Obj.get (setStep G now data type t id).hotKeyCache (getUniqueId type id) = none := by
  unfold setStep
  simp only [h, ne_eq, not_true_eq_false, if_false]
  exact Obj.get_delete_self _ _

/-- A turn of `set` for a written entry puts it into the hot tier, whether or
not its key was there. -/
theorem setStep_value {γ : Type} (G : GeneralTier γ) (now : Int) (data : Patch)
    (type id : String) (t : Tiered γ) (b : Blob) (h : Patch.entry data type id = some (some b)) :
    Obj.get (setStep G now data type t id).hotKeyCache (getUniqueId type id)
      = some { value := some b, time := now } := by
  unfold setStep
  simp only [h, ne_eq, reduceCtorEq, not_false_eq_true, if_true]
  unfold setHotCache
  exact Obj.get_set_self _ _ _

/-- A turn of `set` for another key does not bring a key into the hot tier. -/
theorem setStep_keeps_absent {γ : Type} (G : GeneralTier γ) (now : Int) (data : Patch)
    (type' id' uid : String) (t : Tiered γ) (hne : getUniqueId type' id' ≠ uid)
    (h : Obj.get t.hotKeyCache uid = none) :
    Obj.get (setStep G now data type' t id').hotKeyCache uid = none := by
  unfold setStep
  cases Patch.entry data type' id' with
  | none => exact h
  | some value =>
    simp only
    by_cases hv : value ≠ none
    · rw [if_pos hv]
      unfold setHotCache
      rw [Obj.get_set_ne _ _ _ _ hne]
      by_cases hfull : t.hotKeyCache.length ≥ HOT_KEY_MAX_SIZE
      · simp only [hfull, if_true]
        exact get_evict_none 100 _ _ h
      · simp only [hfull, if_false]
        exact h
    · rw [if_neg hv, Obj.get_delete_ne _ _ _ hne]
      exact h

/-- A turn of `set` for another key, in a hot tier below capacity, leaves a
key's hot entry as it is. -/
theorem setStep_keeps_entry {γ : Type} (G : GeneralTier γ) (now : Int) (data : Patch)
    (type' id' uid : String) (t : Tiered γ) (hne : getUniqueId type' id' ≠ uid)
    (hroom : t.hotKeyCache.length + 1 ≤ HOT_KEY_MAX_SIZE) :
    Obj.get (setStep G now data type' t id').hotKeyCache uid = Obj.get t.hotKeyCache uid := by
  unfold setStep
  cases Patch.entry data type' id' with
  | none => rfl
  | some value =>
    simp only
    by_cases hv : value ≠ none
    · rw [if_pos hv]
      unfold setHotCache
      rw [Obj.get_set_ne _ _ _ _ hne]
      have hfull : ¬ t.hotKeyCache.length ≥ HOT_KEY_MAX_SIZE := by omega
      simp only [hfull, if_false]
    · rw [if_neg hv, Obj.get_delete_ne _ _ _ hne]

/-- C7, as amended. After a Tiered Cache `set`, for an entry of the patch whose
unique id no other entry of the patch shares: if its value is a deletion the
key is not in the hot tier; if its value is not a deletion the key is in the hot
tier with that value and the time of the `set`, whether or not it was hot
before, as long as the hot tier has room for the turns of the `set` (so that no
sweep runs). -/
theorem set_writes_through_hot_tier {σ γ : Type} (S : Store σ) (G : GeneralTier γ)
    (now : Int) (data : Patch) (t : Tiered γ) (w : World σ) (type id : String)
    (huniq : ∀ type' id' v', Patch.entry data type' id' = some v' →
      getUniqueId type' id' = getUniqueId type id → type' = type ∧ id' = id) :
    (Patch.entry data type id = some none →
      Obj.get (tieredSet S G now data (t, w)).2.1.hotKeyCache (getUniqueId type id) = none) ∧
    (∀ b, Patch.entry data type id = some (some b) →
      t.hotKeyCache.length + Patch.size data ≤ HOT_KEY_MAX_SIZE →
      Obj.get (tieredSet S G now data (t, w)).2.1.hotKeyCache (getUniqueId type id)
        = some { value := some b, time := now }) := by
  have hout : (tieredSet S G now data (t, w)).2.1 = setLoop G now data t := rfl
  rw [hout]
  unfold setLoop
  refine ⟨?_, ?_⟩
  · intro hnull
    obtain ⟨hty, hid⟩ := mem_keys_of_entry data type id none hnull
    have hpres : ∀ ty (b : Tiered γ) (a : String),
        Obj.get b.hotKeyCache (getUniqueId type id) = none → 0 + 0 ≤ 0 →
        Obj.get (setStep G now data ty b a).hotKeyCache (getUniqueId type id) = none := by
      intro ty b a hb _
      by_cases hu : getUniqueId ty a = getUniqueId type id
      · cases he : Patch.entry data ty a with
        | none => simpa [setStep, he] using hb
        | some v =>
          obtain ⟨h1, h2⟩ := huniq ty a v he hu
          subst h1 h2
          exact setStep_null G now data ty a b hnull
      · exact setStep_keeps_absent G now data ty a _ b hu hb
    exact foldl_reach
      (fun t1 ty => (Obj.keys ((Obj.get data ty).getD [])).foldl (setStep G now data ty) t1)
      (fun b : Tiered γ => Obj.get b.hotKeyCache (getUniqueId type id) = none)
      (fun _ => 0) (fun _ => 0) 0 (fun _ _ => Nat.le_refl _)
      (fun b ty hb _ => foldl_keep _ _ (fun _ => 0) (fun _ => 0) 0 (fun _ _ => Nat.le_refl _)
        (hpres ty) _ b hb (by simp))
      type
      (fun b _ => foldl_reach _ _ (fun _ => 0) (fun _ => 0) 0 (fun _ _ => Nat.le_refl _)
        (hpres type) id (fun b' _ => setStep_null G now data type id b' hnull) _ b hid
        (by simp))
      _ t hty (by simp)
  · intro b hval hroom
    obtain ⟨hty, hid⟩ := mem_keys_of_entry data type id (some b) hval
    have hpres : ∀ ty (c : Tiered γ) (a : String),
        Obj.get c.hotKeyCache (getUniqueId type id) = some { value := some b, time := now } →
        c.hotKeyCache.length + 1 ≤ HOT_KEY_MAX_SIZE →
        Obj.get (setStep G now data ty c a).hotKeyCache (getUniqueId type id)
          = some { value := some b, time := now } := by
      intro ty c a hc hr
      by_cases hu : getUniqueId ty a = getUniqueId type id
      · cases he : Patch.entry data ty a with
        | none => simpa [setStep, he] using hc
        | some v =>
          obtain ⟨h1, h2⟩ := huniq ty a v he hu
          subst h1 h2
          exact setStep_value G now data ty a c b hval
      · rw [setStep_keeps_entry G now data ty a _ c hu hr]
        exact hc
    have hgrow_in : ∀ ty (c : Tiered γ) (a : String),
        (setStep G now data ty c a).hotKeyCache.length ≤ c.hotKeyCache.length + 1 :=
      fun ty c a => setStep_length G now data ty c a
    have hgrow_out : ∀ (c : Tiered γ) (ty : String),
        ((Obj.keys ((Obj.get data ty).getD [])).foldl (setStep G now data ty) c).hotKeyCache.length
          ≤ c.hotKeyCache.length + (Obj.keys ((Obj.get data ty).getD [])).length := by
      intro c ty
      have := foldl_grow (setStep G now data ty) (fun c : Tiered γ => c.hotKeyCache.length)
        (fun _ => 1) (hgrow_in ty) (Obj.keys ((Obj.get data ty).getD [])) c
      rw [sum_map_one] at this
      exact this
    exact foldl_reach
      (fun t1 ty => (Obj.keys ((Obj.get data ty).getD [])).foldl (setStep G now data ty) t1)
      (fun c : Tiered γ => Obj.get c.hotKeyCache (getUniqueId type id)
        = some { value := some b, time := now })
      (fun c => c.hotKeyCache.length)
      (fun ty => (Obj.keys ((Obj.get data ty).getD [])).length) HOT_KEY_MAX_SIZE hgrow_out
      (fun c ty hc hr => foldl_keep _ _ (fun c : Tiered γ => c.hotKeyCache.length) (fun _ => 1)
        HOT_KEY_MAX_SIZE (hgrow_in ty) (hpres ty) _ c hc (by rw [sum_map_one]; exact hr))
      type
      (fun c hr => foldl_reach _ _ (fun c : Tiered γ => c.hotKeyCache.length) (fun _ => 1)
        HOT_KEY_MAX_SIZE (hgrow_in type) (hpres type) id
        (fun c' _ => setStep_value G now data type id c' b hval) _ c hid
        (by rw [sum_map_one]; exact hr))
      _ t hty hroom
theorem mixedPatch_unique : ∀ type' id' v', Patch.entry mixedPatch type' id' = some v' →
    getUniqueId type' id' = getUniqueId "session" "alice.0" →
    type' = "session" ∧ id' = "alice.0" := by
  intro type' id' v' h hu
  by_cases ht : "session" = type'
  · subst ht
    by_cases h1 : "alice.0" = id'
    · subst h1
      exact ⟨rfl, rfl⟩
    · by_cases h2 : "bob.0" = id'
      · subst h2
        exact absurd hu (by decide)
      · simp [Patch.entry, Obj.get, mixedPatch, h1, h2] at h
  · simp [Patch.entry, Obj.get, mixedPatch, ht] at h

theorem set_writes_through_hot_tier_witness :
    (∀ type' id' v', Patch.entry mixedPatch type' id' = some v' →
      getUniqueId type' id' = getUniqueId "session" "alice.0" →
      type' = "session" ∧ id' = "alice.0") ∧
    Obj.get (tieredSet memStore ttlCache 1000 mixedPatch
        (emptyTier, World.fresh [])).2.1.hotKeyCache (getUniqueId "session" "alice.0")
      = some { value := some "s1", time := 1000 } :=
  ⟨mixedPatch_unique,
   (set_writes_through_hot_tier memStore ttlCache 1000 mixedPatch emptyTier (World.fresh [])
      "session" "alice.0" mixedPatch_unique).2 "s1" (by decide) (by decide)⟩

/-- C7 as stated fails. On a Tiered Cache whose hot tier is empty, a `set` of
one session with a value that is not a deletion leaves that session in the hot
tier, although its key was not hot before the `set`. -/
theorem set_heats_cold_key :
    Obj.get emptyTier.hotKeyCache (getUniqueId "session" "alice.0") = none ∧
    Patch.entry sessionPatch "session" "alice.0" = some (some "s1") ∧
    Obj.get (tieredSet memStore ttlCache 1000 sessionPatch
        (emptyTier, World.fresh [])).2.1.hotKeyCache (getUniqueId "session" "alice.0")
      = some { value := some "s1", time := 1000 } := by
  decide

/-! ## Tiered Cache: `get` of cached ids -/

theorem get_filter_key {α : Type} (m : Obj α) (q : String → Bool) (k : String) :
    Obj.get (m.filter (fun x => q x.1)) k = if q k then Obj.get m k else none := by
  induction m with
  | nil => simp [Obj.get]
  | cons p r ih =>
    obtain ⟨k0, v0⟩ := p
    by_cases hq : q k0 = true
    · rw [List.filter_cons_of_pos (by simpa using hq)]
      by_cases hk : k0 = k
      · subst hk
        simp [Obj.get, hq]
      · simp only [Obj.get, hk, if_false]
        exact ih
    · rw [List.filter_cons_of_neg (by simpa using hq)]
      by_cases hk : k0 = k
      · subst hk
        rw [ih]
        simp [hq]
      · simp only [Obj.get, hk, if_false]
        exact ih

theorem get_evict_some {α : Type} (n : Nat) (m : Obj (Timed α)) (k : String) (e : Timed α)
    (h : Obj.get (evict n m) k = some e) : Obj.get m k = some e := by
  rw [evict_eq_filter] at h
  have := get_filter_key m (fun key => decide (key ∉ (evicted n m).map Prod.fst)) k
  rw [this] at h
  split at h
  · exact h
  · cases h

theorem get_delete_some {α : Type} (m : Obj α) (k k' : String) (e : α)
    (h : Obj.get (Obj.delete m k) k' = some e) : Obj.get m k' = some e := by
  rw [Obj.get_delete] at h
  split at h
  · cases h
  · exact h

/-- The entries of the hot tier after `setHotCache`: the new one, or one that
was there. -/
theorem get_setHotCache_some (now : Int) (hot : Obj (Timed Val)) (uid : String) (v : Val)
    (k : String) (e : Timed Val) (h : Obj.get (setHotCache now hot uid v) k = some e) :
    (k = uid ∧ e = { value := v, time := now }) ∨ Obj.get hot k = some e := by
  unfold setHotCache at h
  rw [Obj.get_set] at h
  by_cases hk : uid = k
  · simp only [hk, if_true, Option.some.injEq] at h
    exact Or.inl ⟨hk.symm, h.symm⟩
  · simp only [hk, if_false] at h
    right
    by_cases hfull : hot.length ≥ HOT_KEY_MAX_SIZE
    · simp only [hfull, if_true] at h
      exact get_evict_some 100 hot k e h
    · simp only [hfull, if_false] at h
      exact h

/-- Below capacity `setHotCache` only writes its own key. -/
theorem get_setHotCache_of_room (now : Int) (hot : Obj (Timed Val)) (uid : String) (v : Val)
    (k : String) (hroom : hot.length < HOT_KEY_MAX_SIZE) (hk : uid ≠ k) :
    Obj.get (setHotCache now hot uid v) k = Obj.get hot k := by
  unfold setHotCache
  rw [Obj.get_set_ne _ _ _ _ hk]
  have : ¬ hot.length ≥ HOT_KEY_MAX_SIZE := by omega
  simp only [this, if_false]

theorem hot_ttl_pos : (0 : Int) < HOT_KEY_TTL := by decide

/-- One turn of the first loop of `get`, for an id the cache holds, keeps the
loop on the cached path. -/
theorem getStep_inv {γ : Type} (G : GeneralTier γ) (now : Int) (type : String)
    (t0 : Tiered γ) (roomy : Prop) (done rest : List String) (id : String) (g : GetState γ)
    (hinv : GetInv G now type t0 roomy done (id :: rest) g)
    (hcached : ∃ v, CachedValue G now t0 (getUniqueId type id) v)
    (hgen : ¬ roomy → ∃ v, G.get t0.cache now (getUniqueId type id) = some v) :
    GetInv G now type t0 roomy (done ++ [id]) rest (getStep G now type g id) := by
  have hdata_set : ∀ v, CachedValue G now t0 (getUniqueId type id) v →
      (∀ id' ∈ done ++ [id], ∃ v', Obj.get (Obj.set g.data id v) id' = some v') ∧
      (∀ id' v', Obj.get (Obj.set g.data id v) id' = some v' →
        CachedValue G now t0 (getUniqueId type id') v') := by
    intro v hv
    refine ⟨?_, ?_⟩
    · intro id' hid'
      rw [Obj.get_set]
      by_cases h : id = id'
      · exact ⟨v, by simp [h]⟩
      · simp only [h, if_false]
        rcases List.mem_append.1 hid' with h1 | h1
        · exact hinv.present id' h1
        · exact absurd (List.mem_singleton.1 h1).symm h
    · intro id' v' h'
      rw [Obj.get_set] at h'
      by_cases h : id = id'
      · simp only [h, if_true, Option.some.injEq] at h'
        subst h h'
        exact hv
      · simp only [h, if_false] at h'
        exact hinv.data id' v' h'
  by_cases hhit : ∃ e, Obj.get g.tier.hotKeyCache (getUniqueId type id) = some e ∧
      now - e.time < HOT_KEY_TTL
  · obtain ⟨e, he, hlive⟩ := hhit
    rw [getStep_hot G now type g id e he hlive]
    have hv : CachedValue G now t0 (getUniqueId type id) e.value := by
      rcases hinv.hot _ e he with h | ⟨h, _⟩
      · exact Or.inl ⟨e, h, hlive, rfl⟩
      · exact Or.inr h
    obtain ⟨hp, hd⟩ := hdata_set e.value hv
    refine ⟨hinv.queued, hinv.cache, hinv.hot, hp, hd, ?_⟩
    intro hr
    obtain ⟨h1, h2⟩ := hinv.room hr
    simp only [List.length_cons] at h1
    exact ⟨by simp only; omega, h2⟩
  · have hmiss : ∀ e, Obj.get g.tier.hotKeyCache (getUniqueId type id) = some e →
        ¬ now - e.time < HOT_KEY_TTL := fun e he hl => hhit ⟨e, he, hl⟩
    have hgen' : ∃ item, G.get t0.cache now (getUniqueId type id) = some item := by
      by_cases hr : roomy
      · obtain ⟨v, hv⟩ := hcached
        rcases hv with ⟨e, he, hlive, _⟩ | h
        · exact absurd hlive (hmiss e ((hinv.room hr).2 _ e he hlive))
        · exact ⟨v, h⟩
      · exact hgen hr
    obtain ⟨item, hitem⟩ := hgen'
    have hitem' : G.get g.tier.cache now (getUniqueId type id) = some item := by
      rw [hinv.cache]
      exact hitem
    rw [getStep_general G now type g id item hmiss hitem']
    obtain ⟨hp, hd⟩ := hdata_set item (Or.inr hitem)
    refine ⟨hinv.queued, hinv.cache, ?_, hp, hd, ?_⟩
    · intro uid e he
      simp only at he
      by_cases hk : isHotKey (trackKeyAccess g.tier.keyAccessCount (getUniqueId type id))
          (getUniqueId type id) = true
      · rw [if_pos hk] at he
        rcases get_setHotCache_some now _ _ _ uid e he with ⟨h1, h2⟩ | h
        · subst h1 h2
          exact Or.inr ⟨hitem, rfl⟩
        · exact hinv.hot uid e (get_delete_some _ _ _ e h)
      · rw [if_neg hk] at he
        exact hinv.hot uid e (get_delete_some _ _ _ e he)
    · intro hr
      obtain ⟨h1, h2⟩ := hinv.room hr
      simp only [List.length_cons] at h1
      have hdl := Obj.length_delete_le g.tier.hotKeyCache (getUniqueId type id)
      have hkeep : ∀ uid e, Obj.get t0.hotKeyCache uid = some e → now - e.time < HOT_KEY_TTL →
          Obj.get (Obj.delete g.tier.hotKeyCache (getUniqueId type id)) uid = some e ∧
          getUniqueId type id ≠ uid := by
        intro uid e he hlive
        have hne : getUniqueId type id ≠ uid := by
          intro h
          subst h
          exact hmiss e (h2 _ e he hlive) hlive
        exact ⟨by rw [Obj.get_delete_ne _ _ _ hne]; exact h2 uid e he hlive, hne⟩
      simp only
      by_cases hk : isHotKey (trackKeyAccess g.tier.keyAccessCount (getUniqueId type id))
          (getUniqueId type id) = true
      · rw [if_pos hk]
        refine ⟨?_, ?_⟩
        · have := setHotCache_length now (Obj.delete g.tier.hotKeyCache (getUniqueId type id))
            (getUniqueId type id) item
          omega
        · intro uid e he hlive
          obtain ⟨hg, hne⟩ := hkeep uid e he hlive
          rw [get_setHotCache_of_room now _ _ _ uid (by omega) hne]
          exact hg
      · rw [if_neg hk]
        exact ⟨by omega, fun uid e he hlive => (hkeep uid e he hlive).1⟩

/-- The first loop of `get` over ids that the cache holds. -/
theorem getLoop_inv {γ : Type} (G : GeneralTier γ) (now : Int) (type : String)
    (t0 : Tiered γ) (roomy : Prop) (rest : List String) :
    ∀ (done : List String) (g : GetState γ), GetInv G now type t0 roomy done rest g →
      (∀ id ∈ rest, ∃ v, CachedValue G now t0 (getUniqueId type id) v) →
      (¬ roomy → ∀ id ∈ rest, ∃ v, G.get t0.cache now (getUniqueId type id) = some v) →
      GetInv G now type t0 roomy (done ++ rest) [] (rest.foldl (getStep G now type) g) := by
  induction rest with
  | nil =>
    intro done g hinv _ _
    simpa using hinv
  | cons id rest ih =>
    intro done g hinv hc hg
    have hstep := getStep_inv G now type t0 roomy done rest id g hinv
      (hc id (List.mem_cons_self _ _)) (fun hr => hg hr id (List.mem_cons_self _ _))
    have := ih (done ++ [id]) (getStep G now type g id) hstep
      (fun id' h => hc id' (List.mem_cons_of_mem _ h))
      (fun hr id' h => hg hr id' (List.mem_cons_of_mem _ h))
    simpa using this
/-- A `get` whose ids the cache holds, with room in the hot tier or with every id
in the general tier, is served from the cache. -/
theorem served_of_cached {σ γ : Type} (S : Store σ) (G : GeneralTier γ) (r : GetCall)
    (s : Tiered γ × World σ) (h : Cached G r s.1) : Served S G r s := by
  obtain ⟨hc, hroom⟩ := h
  have hinit : GetInv G r.now r.type s.1
      (s.1.hotKeyCache.length + r.ids.length ≤ HOT_KEY_MAX_SIZE) [] r.ids
      { tier := s.1, data := [], idsToFetch := [] } :=
    { queued := rfl
      cache := rfl
      hot := fun _ _ h => Or.inl h
      present := by simp
      data := by
        intro id v hv
        simp [Obj.get] at hv
      room := fun hr => ⟨hr, fun _ _ he _ => he⟩ }
  have hfin := getLoop_inv G r.now r.type s.1 _ r.ids [] _ hinit hc
    (fun hr => hroom.resolve_left hr)
  rw [List.nil_append] at hfin
  unfold Served
  rw [tieredGet_of_no_fetch S G r.now r.later r.type r.ids s hfin.queued]
  refine ⟨rfl, _, rfl, ?_⟩
  intro id hid
  obtain ⟨v, hv⟩ := hfin.present id hid
  exact ⟨v, hv, hfin.data id v hv⟩

/-- C5, as amended. For every sequence of `get` calls each of which, when its
turn comes, asks only for ids that have a live hot-tier entry or a general-tier
entry, and for which the hot tier has room for one new entry per requested id
or else every requested id is in the general tier: every call answers, for each
requested id, a value the cache held for it, and none makes a call to the
store, so the log of store calls after the sequence is the log before. -/
theorem cached_gets_skip_the_store {σ γ : Type} (S : Store σ) (G : GeneralTier γ)
    (calls : List GetCall) (s : Tiered γ × World σ) (h : AllCached S G calls s) :
    AllServed S G calls s ∧ (afterGets S G calls s).2.log = s.2.log := by
  induction calls generalizing s with
  | nil => exact ⟨trivial, rfl⟩
  | cons r rest ih =>
    obtain ⟨h1, h2⟩ := h
    have hs := served_of_cached S G r s h1
    obtain ⟨i1, i2⟩ := ih (tieredGet S G r.now r.later r.type r.ids s).2 h2
    refine ⟨⟨hs, i1⟩, ?_⟩
    simp only [afterGets]
    rw [i2]
    exact hs.1

theorem warmCalls_cached :
    AllCached memStore ttlCache warmCalls (warmTier, World.fresh []) := by
  refine ⟨⟨?_, Or.inl (by decide)⟩, ⟨?_, Or.inl (by decide)⟩, trivial⟩
  · intro id hid
    simp only [warmCalls, List.mem_singleton] at hid
    subst hid
    exact ⟨some "s0", Or.inr (by decide)⟩
  · intro id hid
    have hid' : id = "alice.0" := by
      simp only [warmCalls, List.mem_cons, List.mem_singleton, or_self] at hid
      rcases hid with h | h | h
      · exact h
      · exact h
      · simp at h
    subst hid'
    exact ⟨some "s0", Or.inr (by decide)⟩

theorem cached_gets_skip_the_store_witness :
    AllCached memStore ttlCache warmCalls (warmTier, World.fresh []) ∧
    (afterGets memStore ttlCache warmCalls (warmTier, World.fresh [])).2.log = [] :=
  ⟨warmCalls_cached,
   (cached_gets_skip_the_store memStore ttlCache warmCalls (warmTier, World.fresh [])
      warmCalls_cached).2⟩
/-- The first entry of a tier, when no entry is older, is among those swept. -/
theorem oldest_first_is_swept {α : Type} (n : Nat) (k : String) (e : Timed α)
    (others : Obj (Timed α)) (hold : ∀ x ∈ others, e.time ≤ x.2.time) (hn : 0 < n) :
    Obj.get (evict n ((k, e) :: others)) k = none := by
  have hsort : oldestFirst ((k, e) :: others) = (k, e) :: oldestFirst others := by
    unfold oldestFirst
    exact List.insertionSort_cons _ (fun b hb => hold b hb)
  have hmem : k ∈ (evicted n ((k, e) :: others)).map Prod.fst := by
    unfold evicted
    rw [hsort]
    cases n with
    | zero => omega
    | succ m => simp
  rw [evict_eq_filter]
  have := get_filter_key ((k, e) :: others)
    (fun key => decide (key ∉ (evicted n ((k, e) :: others)).map Prod.fst)) k
  rw [this]
  simp [hmem]

theorem delete_of_get_none {α : Type} (m : Obj α) (k : String) (h : Obj.get m k = none) :
    Obj.delete m k = m := by
  unfold Obj.delete
  rw [List.filter_eq_self]
  intro a ha
  have hk : k ∉ Obj.keys m := (Obj.get_eq_none_iff m k).1 h
  have : a.1 ≠ k := by
    intro hak
    apply hk
    rw [← hak]
    exact List.mem_map_of_mem _ ha
  simpa using this

theorem preKey_uid_ne_alice (s : String) : getUniqueId "pre-key" s ≠ "session.alice.0" := by
  intro h
  have h2 := congrArg String.data h
  simp only [getUniqueId, String.data_append] at h2
  change 'p' :: _ = 's' :: _ at h2
  injection h2 with hc _
  exact absurd hc (by decide)

theorem crowdedTier_length : crowdedTier.hotKeyCache.length = 500 := by
  simp [crowdedTier]

theorem crowdedTier_alice_cold :
    Obj.get crowdedTier.hotKeyCache (getUniqueId "session" "alice.0") = none := by
  rw [Obj.get_eq_none_iff]
  simp only [crowdedTier, Obj.keys, List.map_cons, List.map_map, List.mem_cons, List.mem_map,
    not_or, not_exists, not_and]
  refine ⟨by decide, ?_⟩
  intro i _ h
  exact preKey_uid_ne_alice (toString i) h

/-- A `get` of two ids, the first copied from the general tier into the hot
tier, the second lost from the hot tier by that copy and absent from the
general tier: the store is asked for the second. -/
theorem swept_id_is_fetched {σ γ : Type} (S : Store σ) (G : GeneralTier γ) (now later : Int)
    (type a b : String) (t : Tiered γ) (w : World σ) (item : Val)
    (hcold : Obj.get t.hotKeyCache (getUniqueId type a) = none)
    (hgenA : G.get t.cache now (getUniqueId type a) = some item)
    (hhotA : isHotKey (trackKeyAccess t.keyAccessCount (getUniqueId type a))
      (getUniqueId type a) = true)
    (hswept : Obj.get (setHotCache now t.hotKeyCache (getUniqueId type a) item)
      (getUniqueId type b) = none)
    (hgenB : G.get t.cache now (getUniqueId type b) = none) :
    (tieredGet S G now later type [a, b] (t, w)).2.2.log
      = w.log ++ [Call.get type [b] (S.get w.st type [b]).1] := by
  have hmissA : ∀ e, Obj.get t.hotKeyCache (getUniqueId type a) = some e →
      ¬ now - e.time < HOT_KEY_TTL := by
    intro e he
    rw [hcold] at he
    cases he
  have hstepA := getStep_general G now type { tier := t, data := [], idsToFetch := [] } a item
    hmissA hgenA
  simp only [hhotA, if_true, delete_of_get_none _ _ hcold] at hstepA
  have hstepB := getStep_miss G now type
    { tier := { t with
          keyAccessCount := trackKeyAccess t.keyAccessCount (getUniqueId type a)
          hotKeyCache := setHotCache now t.hotKeyCache (getUniqueId type a) item
          cacheReads := t.cacheReads ++ [getUniqueId type a] }
      data := Obj.set [] a item
      idsToFetch := [] } b
    (by
      intro e he
      simp only at he
      rw [hswept] at he
      cases he)
    hgenB
  unfold tieredGet
  simp only [List.foldl_cons, List.foldl_nil, hstepA, hstepB, List.nil_append,
    List.length_singleton, ne_eq, one_ne_zero, not_false_eq_true, if_true]
  unfold storeGet
  dsimp only
  rcases S.get w.st type [b] with ⟨r, st1⟩
  cases r <;> rfl

/-- C5 as stated fails. In `crowdedTier` session `bob.0` has a live hot-tier
entry and session `alice.0` a general-tier entry, so both requested ids are
cached; yet `get("session", ["alice.0", "bob.0"])` calls the store's `get` for
`bob.0`: copying `alice.0` into the full hot tier sweeps the oldest entries,
`bob.0` among them, before the loop reaches `bob.0`. -/
theorem sweep_sends_cached_id_to_store :
    (∀ id ∈ ["alice.0", "bob.0"],
      ∃ v, CachedValue ttlCache 1000 crowdedTier (getUniqueId "session" id) v) ∧
    (tieredGet memStore ttlCache 1000 1001 "session" ["alice.0", "bob.0"]
        (crowdedTier, World.fresh [])).2.2.log
      = [Call.get "session" ["bob.0"] (Except.ok [])] := by
  refine ⟨?_, ?_⟩
  · intro id hid
    simp only [List.mem_cons, List.mem_singleton, List.mem_nil_iff, or_false] at hid
    rcases hid with h | h
    · subst h
      exact ⟨some "sA", Or.inr (by decide)⟩
    · subst h
      exact ⟨some "sB", Or.inl ⟨{ value := some "sB", time := 0 }, by
        simp [crowdedTier, Obj.get, getUniqueId], by decide, rfl⟩⟩
  · have hswept : Obj.get (setHotCache 1000 crowdedTier.hotKeyCache
        (getUniqueId "session" "alice.0") (some "sA")) (getUniqueId "session" "bob.0")
        = none := by
      unfold setHotCache
      rw [Obj.get_set_ne _ _ _ _ (by decide)]
      have hfull : crowdedTier.hotKeyCache.length ≥ HOT_KEY_MAX_SIZE := by
        rw [crowdedTier_length]
        decide
      simp only [hfull, if_true]
      have hb : getUniqueId "session" "bob.0" = "session.bob.0" := by decide
      rw [hb]
      exact oldest_first_is_swept 100 "session.bob.0" _ _ (by
        intro x hx
        simp only [List.mem_map, List.mem_range] at hx
        obtain ⟨i, _, hi⟩ := hx
        rw [← hi]
        simp only [Int.ofNat_eq_coe]
        omega) (by decide)
    have h := swept_id_is_fetched memStore ttlCache 1000 1001 "session" "alice.0" "bob.0"
      crowdedTier (World.fresh []) (some "sA") crowdedTier_alice_cold (by decide) (by decide)
      hswept (by decide)
    rw [h]
    rfl

/-! ## The transaction-local cache under `set` -/

/-- The loop over `deletionKeys` of `handlePreKeyOperations` inside a
transaction, seen from the transaction-local cache. -/
theorem foldl_delete_cache_spec (keyType : String) (ks : List String)
    (tc mu : Obj (Obj Val)) (htc : ∃ d, Obj.get tc keyType = some d) :
    ∀ t i, Patch.entry (ks.foldl
        (fun (acc : Obj (Obj Val) × Obj (Obj Val)) keyId =>
          match Obj.get acc.1 keyType with
          | some _ => (setIn acc.1 keyType keyId none, setIn acc.2 keyType keyId none)
          | none => acc) (tc, mu)).1 t i
      = if t = keyType ∧ i ∈ ks then some none else Patch.entry tc t i := by
  induction ks generalizing tc mu with
  | nil => simp
  | cons a r ih =>
    rw [List.foldl_cons]
    obtain ⟨d, hd⟩ := htc
    simp only [hd]
    intro t i
    rw [ih _ _ (get_setIn_self tc keyType a none ⟨d, hd⟩),
      entry_setIn tc keyType a none t i ⟨d, hd⟩]
    by_cases ht : t = keyType
    · by_cases hir : i ∈ r
      · simp [ht, hir]
      · by_cases hia : i = a
        · simp [ht, hia]
        · simp [ht, hir, hia]
    · simp [ht]

/-- The function `handlePreKeyOperations` inside a transaction, seen from the
transaction-local cache: every entry of the patch for the key type is written,
deletions included. -/
theorem handlePreKeyOperations_cache {σ : Type} (data : Patch) (keyType : String)
    (tc mu : Obj (Obj Val)) (w : World σ) :
    ∀ t i,
      Patch.entry (handlePreKeyOperations data keyType tc mu true (none : Option (Store σ)) w).2.1.1 t i
        = if t = keyType then (Patch.entry data t i).or (Patch.entry tc t i)
          else Patch.entry tc t i := by
  unfold handlePreKeyOperations
  cases hd : Obj.get data keyType with
  | none =>
    intro t i
    by_cases ht : t = keyType
    · subst ht
      simp [Patch.entry, hd]
    · simp [ht]
  | some keyData =>
    simp only
    have hmu0 := get_ensure_self mu keyType
    have htc0 := get_ensure_self tc keyType
    have hwt := foldl_write_spec keyData keyType
      ((Obj.keys keyData).filter (fun keyId => ¬ Obj.get keyData keyId = some none))
      (ensure tc keyType) htc0
    have hdata : ∀ i, Patch.entry data keyType i = Obj.get keyData i := by
      intro i
      simp [Patch.entry, hd]
    by_cases hlen : ((Obj.keys keyData).filter
        (fun keyId => Obj.get keyData keyId = some none)).length = 0
    · rw [if_pos hlen]
      intro t i
      simp only
      rw [hwt.2 t i, entry_ensure]
      by_cases ht : t = keyType
      · subst ht
        simp only [true_and, if_true, hdata]
        cases hk : Obj.get keyData i with
        | none =>
          have hnm : i ∉ Obj.keys keyData := (Obj.get_eq_none_iff keyData i).1 hk
          simp [List.mem_filter, hnm]
        | some v =>
          have hmem : i ∈ Obj.keys keyData := Obj.mem_keys_of_get keyData i v hk
          by_cases hv : v = none
          · subst hv
            exfalso
            have : i ∈ (Obj.keys keyData).filter
                (fun keyId => Obj.get keyData keyId = some none) := by
              simp [List.mem_filter, hmem, hk]
            rw [List.length_eq_zero.1 hlen] at this
            simp at this
          · simp [List.mem_filter, hmem, hk, hv]
      · simp [ht]
    · rw [if_neg hlen]
      simp only [if_true]
      have hds := foldl_delete_cache_spec keyType
        ((Obj.keys keyData).filter (fun keyId => Obj.get keyData keyId = some none))
        _ ((Obj.keys keyData).filter (fun keyId => ¬ Obj.get keyData keyId = some none) |>.foldl
          (fun (o : Obj (Obj Val)) (keyId : String) =>
            match Obj.get keyData keyId with
            | some v => setIn o keyType keyId v
            | none => o) (ensure mu keyType)) hwt.1
      intro t i
      rw [hds t i, hwt.2 t i, entry_ensure]
      by_cases ht : t = keyType
      · subst ht
        simp only [true_and, if_true, hdata]
        cases hk : Obj.get keyData i with
        | none =>
          have hnm : i ∉ Obj.keys keyData := (Obj.get_eq_none_iff keyData i).1 hk
          simp [List.mem_filter, hnm]
        | some v =>
          have hmem : i ∈ Obj.keys keyData := Obj.mem_keys_of_get keyData i v hk
          by_cases hv : v = none
          · subst hv
            simp [List.mem_filter, hmem, hk]
          · simp [List.mem_filter, hmem, hk, hv]
      · simp [ht]

/-- The function `handleNormalKeyOperations`, seen from the transaction-local
cache. -/
theorem handleNormalKeyOperations_cache (data : Patch) (key : String)
    (tc mu : Obj (Obj Val)) (htc : ∃ d, Obj.get tc key = some d) :
    ∃ tc1 mu1, handleNormalKeyOperations data key tc mu = Except.ok (tc1, mu1) ∧
      ∀ t i, Patch.entry tc1 t i
        = if t = key then (Patch.entry data t i).or (Patch.entry tc t i)
          else Patch.entry tc t i := by
  obtain ⟨target, ht⟩ := htc
  unfold handleNormalKeyOperations
  simp only [ht]
  refine ⟨_, _, rfl, ?_⟩
  intro t i
  by_cases htk : t = key
  · subst htk
    simp only [if_true, Patch.entry, Obj.get_set_self, Obj.get_assign, ht]
    cases hd : Obj.get data t with
    | none => simp [Obj.get]
    | some src =>
      simp only [Option.getD_some]
      cases hs : Obj.get src i with
      | none => simp
      | some v => simp
  · simp only [htk, if_false, Patch.entry]
    rw [Obj.get_set_ne _ _ _ _ (fun h => htk h.symm)]

/-- The loop of `set` inside a transaction, seen from the transaction-local
cache: for the key types visited, the patch's entries replace the earlier
ones; everything else is as before. -/
theorem setInTransaction_cache {σ : Type} (data : Patch) (ks : List String) (c : Coord)
    (w : World σ) :
    ∀ t i, Patch.entry (setInTransaction data ks (c, w)).2.1.transactionCache t i
      = if t ∈ ks then (Patch.entry data t i).or (Patch.entry c.transactionCache t i)
        else Patch.entry c.transactionCache t i := by
  induction ks generalizing c with
  | nil => intro t i; simp [setInTransaction]
  | cons key rest ih =>
    unfold setInTransaction
    by_cases hk : key = "pre-key"
    · simp only [hk, if_true]
      obtain ⟨h1, h2, -, -, -⟩ := handlePreKeyOperations_inTransaction (σ := σ) data "pre-key"
        (ensure c.transactionCache "pre-key") c.mutations w
      have h3 := handlePreKeyOperations_cache (σ := σ) data "pre-key"
        (ensure c.transactionCache "pre-key") c.mutations w
      rcases hh : handlePreKeyOperations data "pre-key" (ensure c.transactionCache "pre-key")
        c.mutations true (none : Option (Store σ)) w with ⟨r, ⟨tc1, mu1⟩, w1⟩
      rw [hh] at h1 h2 h3
      simp only at h1 h2 h3
      subst h1 h2
      simp only
      intro t i
      rw [ih { c with transactionCache := tc1, mutations := mu1 } t i]
      simp only [h3 t i, entry_ensure]
      by_cases ht : t = "pre-key"
      · subst ht
        by_cases hr : "pre-key" ∈ rest
        · simp only [hr, if_true, List.mem_cons, true_or]
          cases Patch.entry data "pre-key" i <;> simp
        · simp [hr]
      · by_cases hr : t ∈ rest
        · simp [hr, ht]
        · simp [hr, ht]
    · simp only [hk, if_false]
      obtain ⟨tc1, mu1, hn, hent⟩ := handleNormalKeyOperations_cache data key
        (ensure c.transactionCache key) c.mutations (get_ensure_self _ _)
      rw [hn]
      simp only
      intro t i
      rw [ih { c with transactionCache := tc1, mutations := mu1 } t i]
      simp only [hent t i, entry_ensure]
      by_cases ht : t = key
      · subst ht
        by_cases hr : t ∈ rest
        · simp only [hr, if_true, List.mem_cons, true_or]
          cases Patch.entry data t i <;> simp
        · simp [hr]
      · by_cases hr : t ∈ rest
        · simp [hr, ht]
        · simp [hr, ht]

/-- A `set` made while a transaction is open, seen from the transaction-local
cache: afterwards it holds, for every type and id, the value of the patch where
the patch has one and its earlier value elsewhere. -/
theorem coordSet_inTransaction_cache {σ : Type} (S : Store σ) (data : Patch) (c : Coord)
    (w : World σ) (hin : isInTransaction c = true) :
    ∀ t i, Patch.entry (coordSet S data (c, w)).2.1.transactionCache t i
      = (Patch.entry data t i).or (Patch.entry c.transactionCache t i) := by
  intro t i
  have h := setInTransaction_cache (σ := σ) data (Obj.keys data) c w t i
  simp only [coordSet, hin, if_true]
  rw [h]
  by_cases ht : t ∈ Obj.keys data
  · simp [ht]
  · have : Obj.get data t = none := (Obj.get_eq_none_iff data t).2 ht
    simp [ht, Patch.entry, this]

/-- C13. While a transaction is open, `set(data)` succeeds and leaves the world
outside the coordinator as it was: the store's state and the log of calls made
to the store are unchanged, so the store receives neither a `get` nor a `set`,
whatever the key types of the patch. Every non-deletion entry of the patch is
afterwards the entry of both the transaction-local cache and the Mutation Batch
for its type and id, whatever was there before (a later write replaces an
earlier one), and a type and id for which the patch has no entry keeps its
entry in both. -/
theorem set_in_transaction_skips_store {σ : Type} (S : Store σ) (data : Patch) (c : Coord)
    (w : World σ) (hin : isInTransaction c = true) :
    (coordSet S data (c, w)).1 = Except.ok () ∧
    (coordSet S data (c, w)).2.2 = w ∧
    (∀ t i b, Patch.entry data t i = some (some b) →
      Patch.entry (coordSet S data (c, w)).2.1.transactionCache t i = some (some b) ∧
      Patch.entry (coordSet S data (c, w)).2.1.mutations t i = some (some b)) ∧
    (∀ t i, Patch.entry data t i = none →
      Patch.entry (coordSet S data (c, w)).2.1.transactionCache t i
        = Patch.entry c.transactionCache t i ∧
      Patch.entry (coordSet S data (c, w)).2.1.mutations t i = Patch.entry c.mutations t i) := by
  have hc := coordSet_inTransaction_cache S data c w hin
  obtain ⟨c', e1, -, e3, -, -⟩ := coordSet_inTransaction S data c w hin
  rw [e1] at hc ⊢
  simp only at hc ⊢
  refine ⟨trivial, trivial, ?_, ?_⟩
  · intro t i b hb
    rw [hc t i, e3 t i, hb]
    exact ⟨rfl, rfl⟩
  · intro t i hn
    rw [hc t i, e3 t i, hn]
    exact ⟨rfl, rfl⟩

theorem set_in_transaction_skips_store_witness :
    isInTransaction openCoord = true ∧
    (coordSet memStore patch0 (openCoord, World.fresh store0)).1 = Except.ok () ∧
    (coordSet memStore patch0 (openCoord, World.fresh store0)).2.2 = World.fresh store0 ∧
    (∀ t i b, Patch.entry patch0 t i = some (some b) →
      Patch.entry (coordSet memStore patch0
        (openCoord, World.fresh store0)).2.1.transactionCache t i = some (some b) ∧
      Patch.entry (coordSet memStore patch0
        (openCoord, World.fresh store0)).2.1.mutations t i = some (some b)) ∧
    (∀ t i, Patch.entry patch0 t i = none →
      Patch.entry (coordSet memStore patch0
        (openCoord, World.fresh store0)).2.1.transactionCache t i
        = Patch.entry openCoord.transactionCache t i ∧
      Patch.entry (coordSet memStore patch0 (openCoord, World.fresh store0)).2.1.mutations t i
        = Patch.entry openCoord.mutations t i) :=
  ⟨by decide, set_in_transaction_skips_store memStore patch0 openCoord (World.fresh store0)
    (by decide)⟩

/-! ## `get` inside a transaction -/

/-- The fold of `readBack` from any starting object: a requested id whose entry
holds a blob gets that blob, every other id keeps what the object had. -/
theorem get_readBack_fold (p : Obj (Obj Val)) (type : String) (ids : List String)
    (acc : Obj Val) (id : String) :
    Obj.get (ids.foldl
        (fun dict id =>
          match Patch.entry p type id with
          | some (some b) => Obj.set dict id (some b)
          | _ => dict) acc) id
      = if id ∈ ids ∧ truthy (Patch.entry p type id) = true then Patch.entry p type id
        else Obj.get acc id := by
  induction ids generalizing acc with
  | nil => simp
  | cons a r ih =>
    rw [List.foldl_cons, ih]
    by_cases hr : id ∈ r
    · by_cases ht : truthy (Patch.entry p type id) = true
      · simp [hr, ht]
      · simp only [hr, ht, List.mem_cons, or_true, and_false, if_false]
        rcases he : Patch.entry p type a with _ | _ | b
        · rfl
        · rfl
        · simp only
          have hne : a ≠ id := by
            intro h
            subst h
            simp [he, truthy] at ht
          exact Obj.get_set_ne acc a id (some b) hne
    · by_cases ha : id = a
      · subst ha
        rcases he : Patch.entry p type id with _ | _ | b
        · simp [hr, truthy]
        · simp [hr, truthy]
        · simp [hr, truthy, Obj.get_set_self]
      · simp only [hr, ha, List.mem_cons, or_self, false_and, if_false]
        rcases he : Patch.entry p type a with _ | _ | b
        · rfl
        · rfl
        · exact Obj.get_set_ne acc a id (some b) (fun h => ha h.symm)

/-- What `readBack` holds: exactly the requested ids whose entry in the
transaction-local cache is a blob, each with that blob. -/
theorem get_readBack (tc : Obj (Obj Val)) (type : String) (ids : List String) (id : String)
    (v : Val) :
    Obj.get (readBack tc type ids) id = some v ↔
      id ∈ ids ∧ ∃ b, v = some b ∧ Patch.entry tc type id = some (some b) := by
  unfold readBack
  rw [get_readBack_fold]
  rcases he : Patch.entry tc type id with _ | _ | b
  · simp [truthy, Obj.get]
  · simp [truthy, Obj.get]
  · by_cases hm : id ∈ ids
    · simp only [hm, truthy, true_and, if_true, Option.some.injEq]
      constructor
      · intro h
        exact ⟨b, h.symm, rfl⟩
      · rintro ⟨b', hv, hb⟩
        rw [hv, hb]
    · simp [hm, Obj.get]

/-- The merge `transactionCache[type] = Object.assign(transactionCache[type] ||
{}, result)` of `get`. -/
theorem entry_merge (tc : Obj (Obj Val)) (type : String) (result : Obj Val) (t i : String) :
    Patch.entry (Obj.set (ensure tc type) type
        (Obj.assign ((Obj.get (ensure tc type) type).getD []) result)) t i
      = if t = type then (Obj.get result i).or (Patch.entry tc t i) else Patch.entry tc t i := by
  by_cases ht : t = type
  · subst ht
    simp only [if_true, Patch.entry, Obj.get_set_self, Obj.get_assign]
    obtain ⟨d0, hd0⟩ := get_ensure_self tc t
    have he := entry_ensure tc t t i
    simp only [Patch.entry, hd0] at he
    rw [hd0]
    simp only [Option.getD_some]
    cases hs : Obj.get result i with
    | none => simpa using he
    | some v => simp
  · simp only [ht, if_false, Patch.entry]
    rw [Obj.get_set_ne _ _ _ _ (fun h => ht h.symm)]
    have he := entry_ensure tc type t i
    simpa [Patch.entry] using he

theorem answersAsked_storeGet {σ : Type} (S : Store σ) (hS : AnswersAsked S) (type : String)
    (ids : List String) (w w1 : World σ) (r : Obj Val)
    (h : storeGet S type ids w = (Except.ok r, w1)) :
    ∀ id, Obj.get r id ≠ none → id ∈ ids := by
  have h1 : (S.get w.st type ids).1 = Except.ok r := by
    have := congrArg Prod.fst h
    simpa [storeGet] using this
  exact hS w.st type ids r (S.get w.st type ids).2 (by rw [← h1])

/-- The ids that `get` decides to fetch inside a transaction: the requested ids
with no entry in the transaction-local cache. -/
theorem mem_idsRequiringFetch (tc : Obj (Obj Val)) (type : String) (ids : List String)
    (id : String) :
    id ∈ (match Obj.get tc type with
        | some dict => ids.filter (fun item => Obj.get dict item = none)
        | none => ids)
      ↔ id ∈ ids ∧ Patch.entry tc type id = none := by
  unfold Patch.entry
  cases Obj.get tc type with
  | none => simp
  | some dict => simp [List.mem_filter]

/-- The sender-key loop of `get` inside a transaction: one single-name `get`
per name, no failure unless a read failed, and (for a store that answers only
what it is asked) the entries of the names not fetched are left alone. -/
theorem fetchSenderKeys_spec {σ : Type} (S : Store σ) (type : String) (names : List String)
    (c : Coord) (w : World σ) :
    (∃ gets, (fetchSenderKeys S type names (c, w)).2.2.log = w.log ++ gets ∧
      (∀ call ∈ gets, ∃ name res, name ∈ names ∧ call = Call.get type [name] res) ∧
      ((∀ call ∈ gets, call.succeeded = true) →
        (fetchSenderKeys S type names (c, w)).1 = Except.ok ())) ∧
    (AnswersAsked S → ∀ id, id ∉ names →
      Patch.entry (fetchSenderKeys S type names (c, w)).2.1.transactionCache type id
        = Patch.entry c.transactionCache type id) := by
  induction names generalizing c w with
  | nil => exact ⟨⟨[], by simp [fetchSenderKeys], by simp, fun _ => rfl⟩, fun _ _ _ => rfl⟩
  | cons name rest ih =>
    unfold fetchSenderKeys
    have hl := storeGet_log S type [name] w
    rcases hs : storeGet S type [name] w with ⟨r, w1⟩
    rw [hs] at hl
    simp only at hl
    cases r with
    | error e =>
      refine ⟨⟨[Call.get type [name] (Except.error e)], hl.1, ?_, ?_⟩, fun _ _ _ => rfl⟩
      · intro call hc
        exact ⟨name, Except.error e, by simp, by simpa using hc⟩
      · intro h
        have := h _ (List.mem_singleton.2 rfl)
        simp [Call.succeeded] at this
    | ok result =>
      simp only
      obtain ⟨⟨gets, d, e, f⟩, g⟩ := ih
        { c with transactionCache := (Obj.set (ensure c.transactionCache type) type
            (Obj.assign ((Obj.get (ensure c.transactionCache type) type).getD []) result)) } w1
      refine ⟨⟨Call.get type [name] (Except.ok result) :: gets, ?_, ?_, ?_⟩, ?_⟩
      · rw [d, hl.1]
        simp
      · intro call hc
        rcases List.mem_cons.1 hc with h | h
        · exact ⟨name, Except.ok result, by simp, h⟩
        · obtain ⟨n, res, hn, hcall⟩ := e call h
          exact ⟨n, res, List.mem_cons_of_mem _ hn, hcall⟩
      · intro h
        exact f (fun call hc => h call (List.mem_cons_of_mem _ hc))
      · intro hS id hid
        rw [g hS id (fun h => hid (List.mem_cons_of_mem _ h))]
        simp only
        rw [entry_merge, if_pos rfl]
        have hnone : Obj.get result id = none := by
          by_contra hne
          have := answersAsked_storeGet S hS type [name] w w1 result hs id hne
          exact hid (by simpa using Or.inl (List.mem_singleton.1 this))
        rw [hnone]
        rfl

/-- The coordinator's `get` inside a transaction, in full: what it asks the
store, when it returns, what the result holds, and which entries of the
transaction-local cache it leaves alone. -/
theorem coordGet_inTransaction {σ : Type} (S : Store σ) (type : String) (ids : List String)
    (c : Coord) (w : World σ) (hin : isInTransaction c = true) :
    (∃ gets, (coordGet S type ids (c, w)).2.2.log = w.log ++ gets ∧
      (∀ call ∈ gets, ∃ asked res, call = Call.get type asked res ∧
        ∀ id ∈ asked, id ∈ ids ∧ Patch.entry c.transactionCache type id = none) ∧
      ((∀ call ∈ gets, call.succeeded = true) →
        ∃ found, (coordGet S type ids (c, w)).1 = Except.ok found)) ∧
    ((∀ id ∈ ids, Patch.entry c.transactionCache type id ≠ none) →
      coordGet S type ids (c, w)
        = (Except.ok (readBack c.transactionCache type ids), (c, w))) ∧
    (∀ found, (coordGet S type ids (c, w)).1 = Except.ok found →
      found = readBack (coordGet S type ids (c, w)).2.1.transactionCache type ids) ∧
    (AnswersAsked S → ∀ id, Patch.entry c.transactionCache type id ≠ none →
      Patch.entry (coordGet S type ids (c, w)).2.1.transactionCache type id
        = Patch.entry c.transactionCache type id) := by
  have hmem := mem_idsRequiringFetch c.transactionCache type ids
  by_cases hlen : (match Obj.get c.transactionCache type with
        | some dict => ids.filter (fun item => Obj.get dict item = none)
        | none => ids).length = 0
  · have heq : coordGet S type ids (c, w)
        = (Except.ok (readBack c.transactionCache type ids), (c, w)) := by
      unfold coordGet
      simp only [hin, if_true]
      rw [if_neg (by simpa using hlen)]
    rw [heq]
    refine ⟨⟨[], by simp, by simp, fun _ => ⟨_, rfl⟩⟩, fun _ => rfl, ?_, fun _ _ _ => rfl⟩
    intro found hf
    simp only [Except.ok.injEq] at hf
    exact hf.symm
  · have hex : ¬ ∀ id ∈ ids, Patch.entry c.transactionCache type id ≠ none := by
      intro hall
      apply hlen
      rw [List.length_eq_zero, List.eq_nil_iff_forall_not_mem]
      intro id hid
      exact hall id ((hmem id).1 hid).1 ((hmem id).1 hid).2
    by_cases hsk : type = "sender-key"
    · obtain ⟨⟨gets, d, e, f⟩, g⟩ := fetchSenderKeys_spec S type
        (match Obj.get c.transactionCache type with
          | some dict => ids.filter (fun item => Obj.get dict item = none)
          | none => ids)
        { c with dbQueriesInTransaction := c.dbQueriesInTransaction + 1 } w
      have heq : coordGet S type ids (c, w)
          = match fetchSenderKeys S type
              (match Obj.get c.transactionCache type with
                | some dict => ids.filter (fun item => Obj.get dict item = none)
                | none => ids)
              ({ c with dbQueriesInTransaction := c.dbQueriesInTransaction + 1 }, w) with
            | (Except.error e, s1) => (Except.error e, s1)
            | (Except.ok _, s1) => (Except.ok (readBack s1.1.transactionCache type ids), s1) := by
        unfold coordGet
        simp only [hin, if_true]
        rw [if_pos (by simpa using hlen), if_pos hsk]
      rw [heq]
      rcases hfs : fetchSenderKeys S type
          (match Obj.get c.transactionCache type with
            | some dict => ids.filter (fun item => Obj.get dict item = none)
            | none => ids)
          ({ c with dbQueriesInTransaction := c.dbQueriesInTransaction + 1 }, w) with ⟨r, s1⟩
      rw [hfs] at d f g
      simp only at d f g
      have hcalls : ∀ call ∈ gets, ∃ asked res, call = Call.get type asked res ∧
          ∀ id ∈ asked, id ∈ ids ∧ Patch.entry c.transactionCache type id = none := by
        intro call hc
        obtain ⟨name, res, hn, hcall⟩ := e call hc
        refine ⟨[name], res, hcall, ?_⟩
        intro id hid
        rw [List.mem_singleton.1 hid]
        exact (hmem name).1 hn
      have hkeep : AnswersAsked S → ∀ id, Patch.entry c.transactionCache type id ≠ none →
          Patch.entry s1.1.transactionCache type id = Patch.entry c.transactionCache type id := by
        intro hS id hne
        exact g hS id (fun h => hne ((hmem id).1 h).2)
      cases r with
      | error e' =>
        refine ⟨⟨gets, d, hcalls, ?_⟩, fun h => absurd h hex, ?_, hkeep⟩
        · intro h
          have := f h
          cases this
        · intro found hf
          cases hf
      | ok u =>
        refine ⟨⟨gets, d, hcalls, fun _ => ⟨_, rfl⟩⟩, fun h => absurd h hex, ?_, hkeep⟩
        intro found hf
        simp only [Except.ok.injEq] at hf
        exact hf.symm
    · have heq : coordGet S type ids (c, w)
          = match storeGet S type
              (match Obj.get c.transactionCache type with
                | some dict => ids.filter (fun item => Obj.get dict item = none)
                | none => ids) w with
            | (Except.error e, w1) =>
              (Except.error e,
                ({ c with dbQueriesInTransaction := c.dbQueriesInTransaction + 1 }, w1))
            | (Except.ok result, w1) =>
              (Except.ok (readBack (Obj.set (ensure c.transactionCache type) type
                  (Obj.assign ((Obj.get (ensure c.transactionCache type) type).getD []) result))
                  type ids),
                ({ c with
                    dbQueriesInTransaction := c.dbQueriesInTransaction + 1,
                    transactionCache := (Obj.set (ensure c.transactionCache type) type
                      (Obj.assign ((Obj.get (ensure c.transactionCache type) type).getD [])
                        result)) }, w1)) := by
        unfold coordGet
        simp only [hin, if_true]
        rw [if_pos (by simpa using hlen), if_neg hsk]
      rw [heq]
      have hl := storeGet_log S type
        (match Obj.get c.transactionCache type with
          | some dict => ids.filter (fun item => Obj.get dict item = none)
          | none => ids) w
      rcases hs : storeGet S type
        (match Obj.get c.transactionCache type with
          | some dict => ids.filter (fun item => Obj.get dict item = none)
          | none => ids) w with ⟨r, w1⟩
      rw [hs] at hl
      simp only at hl
      have hcalls : ∀ res, ∀ call ∈ [Call.get type
          (match Obj.get c.transactionCache type with
            | some dict => ids.filter (fun item => Obj.get dict item = none)
            | none => ids) res],
          ∃ asked res, call = Call.get type asked res ∧
          ∀ id ∈ asked, id ∈ ids ∧ Patch.entry c.transactionCache type id = none := by
        intro res call hc
        exact ⟨_, res, List.mem_singleton.1 hc, fun id hid => (hmem id).1 hid⟩
      cases r with
      | error e' =>
        refine ⟨⟨_, hl.1, hcalls _, ?_⟩, fun h => absurd h hex, ?_, fun _ _ _ => rfl⟩
        · intro h
          have := h _ (List.mem_singleton.2 rfl)
          simp [Call.succeeded] at this
        · intro found hf
          cases hf
      | ok result =>
        refine ⟨⟨_, hl.1, hcalls _, fun _ => ⟨_, rfl⟩⟩, fun h => absurd h hex, ?_, ?_⟩
        · intro found hf
          simp only [Except.ok.injEq] at hf
          exact hf.symm
        · intro hS id hne
          simp only
          rw [entry_merge, if_pos rfl]
          have hnone : Obj.get result id = none := by
            by_contra hne'
            have := answersAsked_storeGet S hS type _ w w1 result hs id hne'
            exact hne ((hmem id).1 this).2
          rw [hnone]
          rfl

/-- C12. While a transaction is open, every call that `get(type, ids)` makes to
the store is a `get` of that type whose ids are requested ids with no entry
(undefined) in the transaction-local cache for the type, and `get` returns
whenever those calls succeed; if every requested id has an entry, the store is
not called at all and nothing changes. The result holds exactly the requested
ids whose transaction-local value is then a blob (neither undefined nor null),
each with that blob. Over a store that answers only the ids it is asked, a
requested id written earlier in the transaction is read back with the written
value and one deleted earlier is absent from the result. -/
theorem get_in_transaction_fetches_unknown_ids {σ : Type} (S : Store σ) (type : String)
    (ids : List String) (c : Coord) (w : World σ) (hin : isInTransaction c = true) :
    (∃ gets, (coordGet S type ids (c, w)).2.2.log = w.log ++ gets ∧
      (∀ call ∈ gets, ∃ asked res, call = Call.get type asked res ∧
        ∀ id ∈ asked, id ∈ ids ∧ Patch.entry c.transactionCache type id = none) ∧
      ((∀ call ∈ gets, call.succeeded = true) →
        ∃ found, (coordGet S type ids (c, w)).1 = Except.ok found)) ∧
    ((∀ id ∈ ids, Patch.entry c.transactionCache type id ≠ none) →
      coordGet S type ids (c, w)
        = (Except.ok (readBack c.transactionCache type ids), (c, w))) ∧
    (∀ found, (coordGet S type ids (c, w)).1 = Except.ok found → ∀ id v,
      (Obj.get found id = some v ↔ id ∈ ids ∧ ∃ b, v = some b ∧
        Patch.entry (coordGet S type ids (c, w)).2.1.transactionCache type id
          = some (some b))) ∧
    (AnswersAsked S → ∀ found, (coordGet S type ids (c, w)).1 = Except.ok found →
      ∀ id ∈ ids,
        (∀ b, Patch.entry c.transactionCache type id = some (some b) →
          Obj.get found id = some (some b)) ∧
        (Patch.entry c.transactionCache type id = some none → Obj.get found id = none)) := by
  obtain ⟨h1, h2, h3, h4⟩ := coordGet_inTransaction S type ids c w hin
  refine ⟨h1, h2, ?_, ?_⟩
  · intro found hf id v
    rw [h3 found hf]
    exact get_readBack _ type ids id v
  · intro hS found hf id hid
    have hrb := fun v => get_readBack (coordGet S type ids (c, w)).2.1.transactionCache
      type ids id v
    rw [← h3 found hf] at hrb
    constructor
    · intro b hb
      have hk := h4 hS id (by rw [hb]; simp)
      exact (hrb (some b)).2 ⟨hid, b, rfl, by rw [hk, hb]⟩
    · intro hb
      have hk := h4 hS id (by rw [hb]; simp)
      cases hg : Obj.get found id with
      | none => rfl
      | some v =>
        obtain ⟨-, b, -, hbb⟩ := (hrb v).1 hg
        rw [hk, hb] at hbb
        cases hbb

theorem get_in_transaction_fetches_unknown_ids_witness :
    isInTransaction openCoord = true ∧
    ((∃ gets, (coordGet memStore "session" ["alice.0", "bob.0", "carol.0"]
          (openCoord, World.fresh sessionStore)).2.2.log
          = (World.fresh sessionStore).log ++ gets ∧
      (∀ call ∈ gets, ∃ asked res, call = Call.get "session" asked res ∧
        ∀ id ∈ asked, id ∈ ["alice.0", "bob.0", "carol.0"] ∧
          Patch.entry openCoord.transactionCache "session" id = none) ∧
      ((∀ call ∈ gets, call.succeeded = true) →
        ∃ found, (coordGet memStore "session" ["alice.0", "bob.0", "carol.0"]
          (openCoord, World.fresh sessionStore)).1 = Except.ok found)) ∧
    ((∀ id ∈ ["alice.0", "bob.0", "carol.0"],
        Patch.entry openCoord.transactionCache "session" id ≠ none) →
      coordGet memStore "session" ["alice.0", "bob.0", "carol.0"]
          (openCoord, World.fresh sessionStore)
        = (Except.ok (readBack openCoord.transactionCache "session"
            ["alice.0", "bob.0", "carol.0"]), (openCoord, World.fresh sessionStore))) ∧
    (∀ found, (coordGet memStore "session" ["alice.0", "bob.0", "carol.0"]
          (openCoord, World.fresh sessionStore)).1 = Except.ok found → ∀ id v,
      (Obj.get found id = some v ↔ id ∈ ["alice.0", "bob.0", "carol.0"] ∧ ∃ b, v = some b ∧
        Patch.entry (coordGet memStore "session" ["alice.0", "bob.0", "carol.0"]
          (openCoord, World.fresh sessionStore)).2.1.transactionCache "session" id
          = some (some b))) ∧
    (AnswersAsked memStore → ∀ found, (coordGet memStore "session"
          ["alice.0", "bob.0", "carol.0"] (openCoord, World.fresh sessionStore)).1
          = Except.ok found →
      ∀ id ∈ ["alice.0", "bob.0", "carol.0"],
        (∀ b, Patch.entry openCoord.transactionCache "session" id = some (some b) →
          Obj.get found id = some (some b)) ∧
        (Patch.entry openCoord.transactionCache "session" id = some none →
          Obj.get found id = none))) :=
  ⟨by decide, get_in_transaction_fetches_unknown_ids memStore "session"
    ["alice.0", "bob.0", "carol.0"] openCoord (World.fresh sessionStore) (by decide)⟩

/-- The in-memory store answers only the ids it is asked. -/
theorem memStore_answersAsked : AnswersAsked memStore := by
  intro st type ids r st' h id hne
  have hr : r = ids.foldl
      (fun dict id =>
        match Patch.entry st type id with
        | some (some b) => Obj.set dict id (some b)
        | _ => dict) [] := by
    have := congrArg Prod.fst h
    simp only [memStore, Except.ok.injEq] at this
    exact this.symm
  rw [hr, get_readBack_fold] at hne
  by_contra hid
  simp [hid, Obj.get] at hne

/-- On the open coordinator `openCoord` over `sessionStore`, a `get` of three
sessions asks the store for `carol.0` alone and answers `alice.0` with the
value written in the transaction, not the stored one; `bob.0`, deleted in the
transaction, is left out. -/
theorem get_in_transaction_example :
    (coordGet memStore "session" ["alice.0", "bob.0", "carol.0"]
        (openCoord, World.fresh sessionStore)).1
      = Except.ok [("alice.0", some "s0"), ("carol.0", some "s9")] ∧
    (coordGet memStore "session" ["alice.0", "bob.0", "carol.0"]
        (openCoord, World.fresh sessionStore)).2.2.log
      = [Call.get "session" ["carol.0"] (Except.ok [("carol.0", some "s9")])] := by
  decide

/-! ## The re-entrancy counter -/

theorem coordGet_idle {σ : Type} (S : Store σ) (type : String) (ids : List String)
    (s : Coord × World σ) (h : isInTransaction s.1 = false) :
    (coordGet S type ids s).2.1 = s.1 := by
  unfold coordGet
  simp only [h, Bool.false_eq_true, if_false]
  split <;> rfl

theorem coordSet_idle {σ : Type} (S : Store σ) (data : Patch) (s : Coord × World σ)
    (h : isInTransaction s.1 = false) : (coordSet S data s).2.1 = s.1 := by
  unfold coordSet
  simp only [h, Bool.false_eq_true, if_false]

theorem commitTransaction_coord {σ : Type} (S : Store σ) (opts : TransactionOpts)
    (s : Coord × World σ) : (commitTransaction S opts s).1 = s.1 := by
  unfold commitTransaction
  split <;> rfl

theorem counterInv_step {σ : Type} (S : Store σ) (opts : TransactionOpts) (e : TxEvent)
    (s : Coord × World σ) (started : List String) (h : CounterInv s.1 started) :
    (∀ key, e = TxEvent.enter key → CounterInv (e.apply S opts s).1 (key :: started)) ∧
    (∀ key, e = TxEvent.leave key → key ∈ started →
      CounterInv (e.apply S opts s).1 (started.erase key)) ∧
    ((∀ key, e ≠ TxEvent.enter key) → (∀ key, e ≠ TxEvent.leave key) →
      CounterInv (e.apply S opts s).1 started) := by
  obtain ⟨hc, he⟩ := h
  have hidle : started = [] → isInTransaction s.1 = false := by
    intro h0
    simp [isInTransaction, hc, h0]
  have hbusy : started ≠ [] → isInTransaction s.1 = true := by
    intro h0
    have : 0 < started.length := List.length_pos.2 h0
    simp only [isInTransaction, decide_eq_true_eq, hc]
    omega
  cases e with
  | enter k =>
    refine ⟨?_, (fun key h => by cases h), fun h => absurd rfl (h k)⟩
    intro key hk
    cases hk
    refine ⟨?_, (fun h => by cases h)⟩
    simp only [TxEvent.apply, hc, List.length_cons]
    push_cast
    rfl
  | leave k =>
    refine ⟨(fun key h => by cases h), ?_, fun _ h => absurd rfl (h k)⟩
    intro key hk hmem
    cases hk
    have hlen := List.length_erase_of_mem hmem
    have hpos : 0 < started.length := List.length_pos_of_mem hmem
    simp only [TxEvent.apply, cleanupTransactionState]
    by_cases h0 : s.1.transactionsInProgress - 1 = 0
    · rw [if_pos h0]
      refine ⟨?_, fun _ => ⟨rfl, rfl⟩⟩
      simp only [h0, hlen]
      omega
    · rw [if_neg h0]
      refine ⟨?_, ?_⟩
      · simp only [hlen]
        omega
      · intro hnil
        exfalso
        have : (started.erase k).length = 0 := by rw [hnil]; rfl
        omega
  | get type ids =>
    refine ⟨(fun key h => by cases h), (fun key h => by cases h), fun _ _ => ?_⟩
    simp only [TxEvent.apply]
    by_cases hs : started = []
    · rw [coordGet_idle S type ids s (hidle hs)]
      exact ⟨hc, he⟩
    · exact ⟨(coordGet_reads S type ids s).1.trans hc, fun h => absurd h hs⟩
  | set data =>
    refine ⟨(fun key h => by cases h), (fun key h => by cases h), fun _ _ => ?_⟩
    simp only [TxEvent.apply]
    by_cases hs : started = []
    · rw [coordSet_idle S data s (hidle hs)]
      exact ⟨hc, he⟩
    · obtain ⟨c', e1, e2, -⟩ := coordSet_inTransaction S data s.1 s.2 (hbusy hs)
      have e1' : coordSet S data s = (Except.ok (), (c', s.2)) := e1
      rw [e1']
      exact ⟨e2.trans hc, fun h => absurd h hs⟩
  | commit =>
    refine ⟨(fun key h => by cases h), (fun key h => by cases h), fun _ _ => ?_⟩
    simp only [TxEvent.apply, commitTransaction_coord]
    exact ⟨hc, he⟩

theorem runEvents_inv {σ : Type} (S : Store σ) (opts : TransactionOpts) (evs : List TxEvent) :
    ∀ (s : Coord × World σ) (started finished : List String), CounterInv s.1 started →
      openAfter evs started = some finished →
      CounterInv (runEvents S opts evs s).1 finished := by
  induction evs with
  | nil =>
    intro s started finished h ho
    simp only [openAfter, Option.some.injEq] at ho
    subst ho
    exact h
  | cons e rest ih =>
    intro s started finished h ho
    obtain ⟨h1, h2, h3⟩ := counterInv_step S opts e s started h
    simp only [runEvents, List.foldl_cons]
    cases e with
    | enter k => exact ih _ _ _ (h1 k rfl) (by simpa [openAfter] using ho)
    | leave k =>
      by_cases hm : k ∈ started
      · exact ih _ _ _ (h2 k rfl hm) (by simpa [openAfter, hm] using ho)
      · simp [openAfter, hm] at ho
    | get type ids =>
      exact ih _ _ _ (h3 (fun _ h => by cases h) (fun _ h => by cases h))
        (by simpa [openAfter] using ho)
    | set data =>
      exact ih _ _ _ (h3 (fun _ h => by cases h) (fun _ h => by cases h))
        (by simpa [openAfter] using ho)
    | commit =>
      exact ih _ _ _ (h3 (fun _ h => by cases h) (fun _ h => by cases h))
        (by simpa [openAfter] using ho)

/-- A whole `transaction(work, key)` call run to its end by a caller that
reads, writes, nests, raises and catches: whether the work returns or raises,
the counter is afterwards what it was before the call, and if that is zero the
transaction-local cache and the Mutation Batch are empty. -/
theorem transaction_counter {σ : Type} (S : Store σ) (opts : TransactionOpts) (work : Work)
    (key : String) (s : Coord × World σ) (h0 : 0 ≤ s.1.transactionsInProgress) :
    (transaction S opts (Work.run S opts work) key s).2.1.transactionsInProgress
      = s.1.transactionsInProgress ∧
    (s.1.transactionsInProgress = 0 →
      (transaction S opts (Work.run S opts work) key s).2.1.transactionCache = [] ∧
      (transaction S opts (Work.run S opts work) key s).2.1.mutations = []) := by
  have hst := (run_stretch S opts work
    ({ s.1 with transactionsInProgress := s.1.transactionsInProgress + 1 }, s.2)
    (by simp only; omega)).1
  unfold transaction executeTransactionWork
  dsimp only
  rcases hw : Work.run S opts work
    ({ s.1 with transactionsInProgress := s.1.transactionsInProgress + 1 }, s.2)
    with ⟨r, c1, w1⟩
  rw [hw] at hst
  simp only at hst
  have hclean : (cleanupTransactionState c1).transactionsInProgress = s.1.transactionsInProgress ∧
      (s.1.transactionsInProgress = 0 →
        (cleanupTransactionState c1).transactionCache = [] ∧
        (cleanupTransactionState c1).mutations = []) := by
    unfold cleanupTransactionState
    by_cases hz : c1.transactionsInProgress - 1 = 0
    · simp only [hz, if_true]
      exact ⟨by omega, fun _ => by simp⟩
    · simp only [hz, if_false]
      exact ⟨by omega, fun h => by omega⟩
  cases r with
  | error e => exact hclean
  | ok result =>
    simp only
    split
    · simpa [commitTransaction_coord] using hclean
    · exact hclean

/-- C14. From a fresh coordinator, after any sequence of steps of its callers
(transactions starting and finishing under any scope tokens and in any
interleaving, reads, writes, commits) in which a transaction only finishes
after it has started: the counter equals the number of `transaction` calls
started and not yet finished, so it is never negative, and `isInTransaction()`
is true exactly when that number is greater than zero; when every started
transaction has finished the counter is zero and the transaction-local cache
and the Mutation Batch are empty. A whole `transaction` call run from there
hands the counter back as it found it whether its work returns or raises, with
both objects empty if no other transaction is open. -/
theorem counter_counts_open_transactions {σ : Type} (S : Store σ) (opts : TransactionOpts)
    (w : World σ) (evs : List TxEvent) (started : List String)
    (hvalid : openAfter evs [] = some started) :
    (runEvents S opts evs (Coord.init, w)).1.transactionsInProgress = started.length ∧
    (isInTransaction (runEvents S opts evs (Coord.init, w)).1 = true ↔ 0 < started.length) ∧
    0 ≤ (runEvents S opts evs (Coord.init, w)).1.transactionsInProgress ∧
    (started = [] →
      (runEvents S opts evs (Coord.init, w)).1.transactionsInProgress = 0 ∧
      (runEvents S opts evs (Coord.init, w)).1.transactionCache = [] ∧
      (runEvents S opts evs (Coord.init, w)).1.mutations = []) ∧
    (∀ (work : Work) (key : String),
      (transaction S opts (Work.run S opts work) key
        (runEvents S opts evs (Coord.init, w))).2.1.transactionsInProgress = started.length ∧
      (started = [] →
        (transaction S opts (Work.run S opts work) key
          (runEvents S opts evs (Coord.init, w))).2.1.transactionCache = [] ∧
        (transaction S opts (Work.run S opts work) key
          (runEvents S opts evs (Coord.init, w))).2.1.mutations = [])) := by
  have hinit : CounterInv (Coord.init, w).1 [] := ⟨rfl, fun _ => ⟨rfl, rfl⟩⟩
  obtain ⟨hc, he⟩ := runEvents_inv S opts evs (Coord.init, w) [] started hinit hvalid
  refine ⟨hc, ?_, by omega, ?_, ?_⟩
  · simp only [isInTransaction, decide_eq_true_eq, hc]
    omega
  · intro hs
    refine ⟨?_, he hs⟩
    rw [hc, hs]
    rfl
  · intro work key
    obtain ⟨t1, t2⟩ := transaction_counter S opts work key
      (runEvents S opts evs (Coord.init, w)) (by omega)
    refine ⟨t1.trans hc, ?_⟩
    intro hs
    apply t2
    rw [hc, hs]
    rfl

theorem counter_counts_open_transactions_witness :
    openAfter overlapping [] = some [] ∧
    ((runEvents memStore opts0 overlapping
        (Coord.init, World.fresh [])).1.transactionsInProgress = ([] : List String).length ∧
    (isInTransaction (runEvents memStore opts0 overlapping (Coord.init, World.fresh [])).1 = true
      ↔ 0 < ([] : List String).length) ∧
    0 ≤ (runEvents memStore opts0 overlapping
        (Coord.init, World.fresh [])).1.transactionsInProgress ∧
    (([] : List String) = [] →
      (runEvents memStore opts0 overlapping
        (Coord.init, World.fresh [])).1.transactionsInProgress = 0 ∧
      (runEvents memStore opts0 overlapping (Coord.init, World.fresh [])).1.transactionCache = [] ∧
      (runEvents memStore opts0 overlapping (Coord.init, World.fresh [])).1.mutations = []) ∧
    (∀ (work : Work) (key : String),
      (transaction memStore opts0 (Work.run memStore opts0 work) key
        (runEvents memStore opts0 overlapping
          (Coord.init, World.fresh []))).2.1.transactionsInProgress
        = ([] : List String).length ∧
      (([] : List String) = [] →
        (transaction memStore opts0 (Work.run memStore opts0 work) key
          (runEvents memStore opts0 overlapping
            (Coord.init, World.fresh []))).2.1.transactionCache = [] ∧
        (transaction memStore opts0 (Work.run memStore opts0 work) key
          (runEvents memStore opts0 overlapping
            (Coord.init, World.fresh []))).2.1.mutations = []))) :=
  ⟨by decide, counter_counts_open_transactions memStore opts0 (World.fresh []) overlapping []
    (by decide)⟩

/-- While the two overlapping transactions of `overlapping` are both open the
counter reads two, and a transaction whose work raises leaves a fresh
coordinator as it found it. -/
theorem counter_examples :
    (runEvents memStore opts0 (overlapping.take 3)
        (Coord.init, World.fresh [])).1.transactionsInProgress = 2 ∧
    (runEvents memStore opts0 (overlapping.take 4)
        (Coord.init, World.fresh [])).1.transactionsInProgress = 1 ∧
    (transaction memStore opts0 (Work.run memStore opts0 failingWork) "k"
        (Coord.init, World.fresh [])).1 = Except.error "boom" ∧
    (transaction memStore opts0 (Work.run memStore opts0 failingWork) "k"
        (Coord.init, World.fresh [])).2.1.transactionsInProgress = 0 ∧
    (transaction memStore opts0 (Work.run memStore opts0 failingWork) "k"
        (Coord.init, World.fresh [])).2.1.mutations = [] := by
  decide

/-! ## Signal Repository -/

/-- C11 (the code departs from the claim). A first `validateSession` for
`alice`, at clock reading 0 over a key store that holds her session, caches the
session with time 0. A second one 400000 ms later, when the entry is older than
`SESSION_CACHE_TTL` and `getSessionFromCache` would treat it as a miss, answers
`exists: true, cached: true` on the strength of that entry: the key store has
received no further call and the entry is still in the cache. -/
theorem validateSession_answers_from_expired_entry :
    Obj.get (validateSession plainSignal memStore 0 0 0 "alice"
        (Repo.fresh aliceStore)).2.sessionCache "alice.0"
      = some { value := "sess", time := 0 } ∧
    SESSION_CACHE_TTL ≤ 400000 - 0 ∧
    (getSessionFromCache 400000 (validateSession plainSignal memStore 0 0 0 "alice"
        (Repo.fresh aliceStore)).2.sessionCache "alice.0").1 = none ∧
    (validateSession plainSignal memStore 400000 400000 400000 "alice"
        (validateSession plainSignal memStore 0 0 0 "alice" (Repo.fresh aliceStore)).2).1
      = Except.ok { «exists» := true, cached := true } ∧
    (validateSession plainSignal memStore 400000 400000 400000 "alice"
        (validateSession plainSignal memStore 0 0 0 "alice"
          (Repo.fresh aliceStore)).2).2.storage.keys.log
      = (validateSession plainSignal memStore 0 0 0 "alice"
          (Repo.fresh aliceStore)).2.storage.keys.log ∧
    Obj.get (validateSession plainSignal memStore 400000 400000 400000 "alice"
        (validateSession plainSignal memStore 0 0 0 "alice"
          (Repo.fresh aliceStore)).2).2.sessionCache "alice.0"
      = some { value := "sess", time := 0 } := by
  decide

/-- Whatever the age of a session-cache entry, `validateSession` answers from
it: the clock is not read, the state is unchanged. -/
theorem validateSession_ignores_age {σ : Type} (E : Libsignal σ) (S : Store σ)
    (now later last : Int) (jid addr : String) (r : Repo σ) (entry : Timed Blob)
    (haddr : E.jidToSignalProtocolAddress jid = Except.ok addr)
    (hentry : Obj.get r.sessionCache addr = some entry) :
    validateSession E S now later last jid r
      = (Except.ok { «exists» := true, cached := true }, r) := by
  unfold validateSession
  simp [haddr, Obj.has, hentry]

/-- With no session-cache entry for the address, `validateSession` goes to
storage and, when it answers, reports `cached: false`. -/
theorem validateSession_uncached {σ : Type} (E : Libsignal σ) (S : Store σ)
    (now later last : Int) (jid addr : String) (r : Repo σ) (status : SessionStatus)
    (haddr : E.jidToSignalProtocolAddress jid = Except.ok addr)
    (hnone : Obj.get r.sessionCache addr = none)
    (hres : (validateSession E S now later last jid r).1 = Except.ok status) :
    status.cached = false := by
  unfold validateSession at hres
  simp only [haddr, Obj.has, hnone, Option.isSome_none, Bool.false_eq_true, if_false] at hres
  rcases hl : loadSession E S now later addr r.storage with ⟨res, st1⟩
  rw [hl] at hres
  rcases res with e | _ | session
  · cases hres
  · simp only [Except.ok.injEq] at hres
    rw [← hres]
  · simp only [Except.ok.injEq] at hres
    rw [← hres]

/-- C18. `decryptMessage` with a type that is neither `pkmsg` nor `msg` fails
and leaves the repository exactly as it was: the log of session operations is
unchanged (neither decrypt operation of the cipher is invoked), the session
cache is unchanged, and what lies behind `storage` is unchanged (the key store
receives no call, nothing is persisted). Whenever the jid has an address, the
error is the unknown-message-type error for that type. -/
theorem unknown_message_type_is_rejected {σ : Type} (E : Libsignal σ) (jid type : String)
    (ciphertext : Blob) (r : Repo σ) (hpk : type ≠ "pkmsg") (hmsg : type ≠ "msg") :
    (∃ e, (decryptMessage E jid type ciphertext r).1 = Except.error e) ∧
    (∀ addr, E.jidToSignalProtocolAddress jid = Except.ok addr →
      (decryptMessage E jid type ciphertext r).1
        = Except.error (RepoError.unknownMessageType type)) ∧
    (decryptMessage E jid type ciphertext r).2 = r := by
  unfold decryptMessage
  cases ha : E.jidToSignalProtocolAddress jid with
  | error e =>
    refine ⟨⟨_, rfl⟩, ?_, rfl⟩
    intro addr h
    cases h
  | ok addr =>
    simp only [hpk, hmsg, if_false]
    exact ⟨⟨_, rfl⟩, fun _ _ => trivial, trivial⟩

theorem unknown_message_type_is_rejected_witness :
    "skmsg" ≠ "pkmsg" ∧ "skmsg" ≠ "msg" ∧
    ((∃ e, (decryptMessage plainSignal "alice" "skmsg" "c" (Repo.fresh aliceStore)).1
        = Except.error e) ∧
    (∀ addr, plainSignal.jidToSignalProtocolAddress "alice" = Except.ok addr →
      (decryptMessage plainSignal "alice" "skmsg" "c" (Repo.fresh aliceStore)).1
        = Except.error (RepoError.unknownMessageType "skmsg")) ∧
    (decryptMessage plainSignal "alice" "skmsg" "c" (Repo.fresh aliceStore)).2
      = Repo.fresh aliceStore) :=
  ⟨by decide, by decide,
    unknown_message_type_is_rejected plainSignal "alice" "skmsg" "c" (Repo.fresh aliceStore)
      (by decide) (by decide)⟩

/-- C19. `processSenderKeyDistributionMessage` with `item.groupId` missing or
empty fails with the group-id-required error and leaves the repository exactly
as it was: the sender-key cache is neither read (a read of a missing or expired
name would delete it) nor written, and the key store receives no call. With a
group id that is not empty, whatever else happens, the method never fails with
that error. -/
theorem missing_group_id_is_rejected {σ : Type} (E : Libsignal σ) (S : Store σ)
    (now later : Int) (groupId : Option String) (axolotl : Blob) (authorJid : String)
    (r : Repo σ) :
    ((groupId = none ∨ groupId = some "") →
      processSenderKeyDistributionMessage E S now later groupId axolotl authorJid r
        = (Except.error RepoError.groupIdRequired, r)) ∧
    (∀ group, groupId = some group → group ≠ "" →
      (processSenderKeyDistributionMessage E S now later groupId axolotl authorJid r).1
        ≠ Except.error RepoError.groupIdRequired) := by
  constructor
  · intro h
    have hg : groupId.getD "" = "" := by
      rcases h with h | h <;> rw [h] <;> rfl
    unfold processSenderKeyDistributionMessage
    rw [if_pos hg]
  · intro group hsome hne
    have hg : ¬ groupId.getD "" = "" := by
      rw [hsome]
      exact hne
    unfold processSenderKeyDistributionMessage
    rw [if_neg hg]
    cases E.jidToSignalProtocolAddress authorJid with
    | error e => simp
    | ok addr =>
      cases E.distributionMessage axolotl with
      | error e => simp
      | ok senderMsg =>
        dsimp only
        split
        · simp
        · split
          · simp
          · split <;> simp

/-- A distribution message for group `g1` from `bob`, on a fresh repository
over an empty key store: the method returns, having asked the key store for the
sender key, stored a new record and handed the message to the builder; the
same call without a group id fails at once. -/
theorem sender_key_distribution_example :
    (processSenderKeyDistributionMessage plainSignal memStore 0 0 (some "g1") "skdm" "bob"
        (Repo.fresh [])).1 = Except.ok () ∧
    (processSenderKeyDistributionMessage plainSignal memStore 0 0 (some "g1") "skdm" "bob"
        (Repo.fresh [])).2.engineCalls = [EngineCall.process "g1::bob.0" "skdm"] ∧
    ((processSenderKeyDistributionMessage plainSignal memStore 0 0 (some "g1") "skdm" "bob"
        (Repo.fresh [])).2.storage.keys.log.map Call.isSet) = [false, true, true] ∧
    (processSenderKeyDistributionMessage plainSignal memStore 0 0 none "skdm" "bob"
        (Repo.fresh [])).1 = Except.error RepoError.groupIdRequired ∧
    (processSenderKeyDistributionMessage plainSignal memStore 0 0 (some "") "skdm" "bob"
        (Repo.fresh [])).2.storage.keys.log = [] := by
  decide

/-- C20. For a peer whose jid has the address `addr`: after an
`injectE2ESession` that returns, and after a `decryptMessage` of type `pkmsg`
that returns, the session cache holds no entry for `addr`, every other key has
the entry it had, and a `validateSession` for that peer made next, whenever it
answers, reports `cached: false`. A `decryptMessage` of type `msg` leaves the
session cache as it was. -/
theorem rekeying_drops_session_cache_entry {σ : Type} (E : Libsignal σ) (S : Store σ)
    (jid addr : String) (r : Repo σ)
    (haddr : E.jidToSignalProtocolAddress jid = Except.ok addr) :
    (∀ session, (injectE2ESession E jid session r).1 = Except.ok () →
      Obj.get (injectE2ESession E jid session r).2.sessionCache addr = none ∧
      (∀ k, k ≠ addr → Obj.get (injectE2ESession E jid session r).2.sessionCache k
        = Obj.get r.sessionCache k) ∧
      (∀ now later last status,
        (validateSession E S now later last jid (injectE2ESession E jid session r).2).1
          = Except.ok status → status.cached = false)) ∧
    (∀ ciphertext result, (decryptMessage E jid "pkmsg" ciphertext r).1 = Except.ok result →
      Obj.get (decryptMessage E jid "pkmsg" ciphertext r).2.sessionCache addr = none ∧
      (∀ k, k ≠ addr → Obj.get (decryptMessage E jid "pkmsg" ciphertext r).2.sessionCache k
        = Obj.get r.sessionCache k) ∧
      (∀ now later last status,
        (validateSession E S now later last jid (decryptMessage E jid "pkmsg" ciphertext r).2).1
          = Except.ok status → status.cached = false)) ∧
    (∀ ciphertext, (decryptMessage E jid "msg" ciphertext r).2.sessionCache = r.sessionCache) := by
  refine ⟨?_, ?_, ?_⟩
  · intro session hok
    have hcache : (injectE2ESession E jid session r).2.sessionCache
        = Obj.delete r.sessionCache addr := by
      unfold injectE2ESession at hok ⊢
      simp only [haddr] at hok ⊢
      rcases hio : E.initOutgoing addr session r.storage with ⟨res, st1⟩
      rw [hio] at hok
      cases res with
      | error e => cases hok
      | ok u => rfl
    have hnone : Obj.get (injectE2ESession E jid session r).2.sessionCache addr = none := by
      rw [hcache]
      exact Obj.get_delete_self _ _
    refine ⟨hnone, ?_, ?_⟩
    · intro k hk
      rw [hcache]
      exact Obj.get_delete_ne _ _ _ (fun h => hk h.symm)
    · intro now later last status hres
      exact validateSession_uncached E S now later last jid addr _ status haddr hnone hres
  · intro ciphertext result hok
    have hcache : (decryptMessage E jid "pkmsg" ciphertext r).2.sessionCache
        = Obj.delete r.sessionCache addr := by
      unfold decryptMessage at hok ⊢
      simp only [haddr, if_true] at hok ⊢
      rcases hio : E.decryptPreKeyWhisperMessage addr ciphertext r.storage with ⟨res, st1⟩
      rw [hio] at hok
      cases res with
      | error e => cases hok
      | ok u => rfl
    have hnone : Obj.get (decryptMessage E jid "pkmsg" ciphertext r).2.sessionCache addr
        = none := by
      rw [hcache]
      exact Obj.get_delete_self _ _
    refine ⟨hnone, ?_, ?_⟩
    · intro k hk
      rw [hcache]
      exact Obj.get_delete_ne _ _ _ (fun h => hk h.symm)
    · intro now later last status hres
      exact validateSession_uncached E S now later last jid addr _ status haddr hnone hres
  · intro ciphertext
    unfold decryptMessage
    simp only [haddr]
    rcases E.decryptWhisperMessage addr ciphertext r.storage with ⟨res, st1⟩
    cases res <;> simp

theorem rekeying_drops_session_cache_entry_witness :
    plainSignal.jidToSignalProtocolAddress "alice" = Except.ok "alice.0" ∧
    ((∀ session, (injectE2ESession plainSignal "alice" session warmRepo).1 = Except.ok () →
      Obj.get (injectE2ESession plainSignal "alice" session warmRepo).2.sessionCache "alice.0"
        = none ∧
      (∀ k, k ≠ "alice.0" →
        Obj.get (injectE2ESession plainSignal "alice" session warmRepo).2.sessionCache k
          = Obj.get warmRepo.sessionCache k) ∧
      (∀ now later last status,
        (validateSession plainSignal memStore now later last "alice"
          (injectE2ESession plainSignal "alice" session warmRepo).2).1
          = Except.ok status → status.cached = false)) ∧
    (∀ ciphertext result,
      (decryptMessage plainSignal "alice" "pkmsg" ciphertext warmRepo).1 = Except.ok result →
      Obj.get (decryptMessage plainSignal "alice" "pkmsg" ciphertext warmRepo).2.sessionCache
        "alice.0" = none ∧
      (∀ k, k ≠ "alice.0" →
        Obj.get (decryptMessage plainSignal "alice" "pkmsg" ciphertext warmRepo).2.sessionCache k
          = Obj.get warmRepo.sessionCache k) ∧
      (∀ now later last status,
        (validateSession plainSignal memStore now later last "alice"
          (decryptMessage plainSignal "alice" "pkmsg" ciphertext warmRepo).2).1
          = Except.ok status → status.cached = false)) ∧
    (∀ ciphertext, (decryptMessage plainSignal "alice" "msg" ciphertext warmRepo).2.sessionCache
      = warmRepo.sessionCache)) :=
  ⟨by decide, rekeying_drops_session_cache_entry plainSignal memStore "alice" "alice.0" warmRepo
    (by decide)⟩

/-- On `warmRepo`: an `injectE2ESession` and a `pkmsg` decrypt for `alice` both
return and leave `bob.0` as the only session-cache entry, after which
`validateSession` for `alice` answers `cached: false`; a `msg` decrypt returns
and keeps both entries. -/
theorem rekeying_example :
    (injectE2ESession plainSignal "alice" "s2" warmRepo).1 = Except.ok () ∧
    Obj.keys (injectE2ESession plainSignal "alice" "s2" warmRepo).2.sessionCache = ["bob.0"] ∧
    (decryptMessage plainSignal "alice" "pkmsg" "c" warmRepo).1 = Except.ok "c" ∧
    Obj.keys (decryptMessage plainSignal "alice" "pkmsg" "c" warmRepo).2.sessionCache
      = ["bob.0"] ∧
    (validateSession plainSignal memStore 9 9 9 "alice"
        (decryptMessage plainSignal "alice" "pkmsg" "c" warmRepo).2).1
      = Except.ok { «exists» := true, cached := false } ∧
    (decryptMessage plainSignal "alice" "msg" "c" warmRepo).1 = Except.ok "c" ∧
    Obj.keys (decryptMessage plainSignal "alice" "msg" "c" warmRepo).2.sessionCache
      = ["alice.0", "bob.0"] := by
  decide

/-! ## Pre-key allocation -/

theorem idsFrom_succ (start : Int) (n : Nat) :
    idsFrom start (n + 1) = start :: idsFrom (start + 1) n := by
  unfold idsFrom
  rw [List.range_succ_eq_map, List.map_cons, List.map_map]
  congr 1
  · simp
  · apply List.map_congr_left
    intro i _
    simp only [Function.comp, Nat.cast_succ]
    omega

theorem idsFrom_append (start : Int) (a b : Nat) :
    idsFrom start (a + b) = idsFrom start a ++ idsFrom (start + a) b := by
  induction a generalizing start with
  | zero => simp [idsFrom]
  | succ a ih =>
    rw [show a + 1 + b = (a + b) + 1 by omega, idsFrom_succ, idsFrom_succ, ih (start + 1)]
    simp only [List.cons_append, Nat.cast_succ]
    rw [show start + 1 + (a : Int) = start + ((a : Int) + 1) by omega]

theorem mem_idsFrom (start : Int) (n : Nat) (id : Int) :
    id ∈ idsFrom start n ↔ start ≤ id ∧ id < start + n := by
  unfold idsFrom
  simp only [List.mem_map, List.mem_range]
  constructor
  · rintro ⟨i, hi, rfl⟩
    omega
  · rintro ⟨h1, h2⟩
    exact ⟨(id - start).toNat, by omega, by omega⟩

theorem length_idsFrom (start : Int) (n : Nat) : (idsFrom start n).length = n := by
  simp [idsFrom]

namespace IdObj

/-- Writing a key that the object does not have appends it. -/
theorem keys_set_fresh {α : Type} (o : IdObj α) (k : Int) (v : α)
    (h : ∀ k' ∈ o.map Prod.fst, k' ≠ k) :
    (set o k v).map Prod.fst = o.map Prod.fst ++ [k] := by
  induction o with
  | nil => rfl
  | cons p r ih =>
    obtain ⟨k', v'⟩ := p
    have hk : k' ≠ k := h k' (by simp)
    simp only [set, hk, if_false, List.map_cons, List.cons_append]
    rw [ih (fun x hx => h x (by simp [hx]))]

theorem get_set_id {α : Type} (o : IdObj α) (k k' : Int) (v : α) :
    get (set o k v) k' = if k = k' then some v else get o k' := by
  induction o with
  | nil =>
    by_cases h : k = k' <;> simp [set, get, h]
  | cons p r ih =>
    obtain ⟨a, b⟩ := p
    by_cases ha : a = k
    · subst ha
      by_cases h : a = k' <;> simp [set, get, h]
    · by_cases h : k = k'
      · subst h
        simp [set, get, ha, ih]
      · by_cases hak : a = k'
        · subst hak
          simp [set, get, ha, h]
        · simp [set, get, ha, h, hak, ih]

end IdObj

/-- Generating key pairs for the ids `start, start + 1, ...` into an object
whose ids are all below `start` appends those ids in order. -/
theorem keys_foldl_generateFor (supply : Nat → Blob) (n : Nat) :
    ∀ (start : Int) (acc : IdObj Blob × PreKeyGenerationCache),
      (∀ k ∈ acc.1.map Prod.fst, k < start) →
      (((idsFrom start n).foldl (generateFor supply) acc).1.map Prod.fst
        = acc.1.map Prod.fst ++ idsFrom start n) := by
  induction n with
  | zero =>
    intro start acc _
    simp [idsFrom]
  | succ n ih =>
    intro start acc h
    rw [idsFrom_succ, List.foldl_cons]
    have hfresh : (generateFor supply acc start).1.map Prod.fst
        = acc.1.map Prod.fst ++ [start] := by
      unfold generateFor
      exact IdObj.keys_set_fresh _ _ _ (fun k hk => by have := h k hk; omega)
    rw [ih (start + 1) _ ?_, hfresh]
    · simp
    · intro k hk
      rw [hfresh] at hk
      rcases List.mem_append.1 hk with hk | hk
      · have := h k hk
        omega
      · have := List.mem_singleton.1 hk
        omega

/-- The loop over the buffered key pairs: it hands out the ids from `keyIndex`
on, in order, and stops at the end of the buffer or past `lastPreKeyId`. -/
theorem fillFromPending_keys (pending : List (Int × Blob)) :
    ∀ (keyIndex lastPreKeyId : Int) (acc : IdObj Blob),
      (∀ k ∈ acc.map Prod.fst, k < keyIndex) → keyIndex ≤ lastPreKeyId + 1 →
      ∃ m : Nat,
        (fillFromPending pending keyIndex lastPreKeyId acc).2 = keyIndex + m ∧
        keyIndex + m ≤ lastPreKeyId + 1 ∧
        (fillFromPending pending keyIndex lastPreKeyId acc).1.map Prod.fst
          = acc.map Prod.fst ++ idsFrom keyIndex m := by
  induction pending with
  | nil =>
    intro keyIndex lastPreKeyId acc _ hle
    exact ⟨0, by simp [fillFromPending], by simpa using hle, by simp [fillFromPending, idsFrom]⟩
  | cons p rest ih =>
    intro keyIndex lastPreKeyId acc h hle
    obtain ⟨i, keyPair⟩ := p
    unfold fillFromPending
    by_cases hk : keyIndex ≤ lastPreKeyId
    · rw [if_pos hk]
      have hfresh : (IdObj.set acc keyIndex keyPair).map Prod.fst
          = acc.map Prod.fst ++ [keyIndex] :=
        IdObj.keys_set_fresh _ _ _ (fun k hk' => by have := h k hk'; omega)
      obtain ⟨m, e1, e2, e3⟩ := ih (keyIndex + 1) lastPreKeyId
        (IdObj.set acc keyIndex keyPair)
        (by
          intro k hk'
          rw [hfresh] at hk'
          rcases List.mem_append.1 hk' with hk' | hk'
          · have := h k hk'
            omega
          · have := List.mem_singleton.1 hk'
            omega)
        (by omega)
      refine ⟨m + 1, ?_, ?_, ?_⟩
      · rw [e1]
        push_cast
        omega
      · push_cast
        omega
      · rw [e3, hfresh, idsFrom_succ]
        simp
    · rw [if_neg hk]
      exact ⟨0, by simp, by simpa using hle, by simp [idsFrom]⟩

/-- Folding over the slices of a list, slice by slice, is folding over the
list. -/
theorem foldl_slices {α β : Type} (f : β → α → β) (size : Nat) (hsize : 0 < size) (fuel : Nat) :
    ∀ (l : List α) (acc : β), l.length ≤ fuel →
      (slices size fuel l).foldl (fun acc batch => batch.foldl f acc) acc = l.foldl f acc := by
  induction fuel with
  | zero =>
    intro l acc hl
    have : l = [] := List.length_eq_zero.1 (by omega)
    subst this
    rfl
  | succ fuel ih =>
    intro l acc hl
    cases l with
    | nil => rfl
    | cons a t =>
      simp only [slices, List.foldl_cons]
      rw [ih _ _ (by simp only [List.length_drop, List.length_cons] at hl ⊢; omega)]
      rw [← List.foldl_cons (f := f), ← List.foldl_append, List.take_append_drop]

/-- The ids that `generateOrGetPreKeys` writes when some are missing, for every
state of the pre-generation buffer and every clock reading. -/
theorem generateOrGetPreKeys_keys (supply : Nat → Blob) (now : Int)
    (creds : Creds) (range : Int) (g : PreKeyGenerationCache)
    (hpos : 0 < range - (creds.nextPreKeyId - creds.firstUnuploadedPreKeyId)) :
    (generateOrGetPreKeys supply now creds range g).1.newPreKeys.map Prod.fst
      = idsFrom creds.nextPreKeyId
          (range - (creds.nextPreKeyId - creds.firstUnuploadedPreKeyId)).toNat := by
  unfold generateOrGetPreKeys
  simp only [gt_iff_lt, hpos, if_true]
  split
  · obtain ⟨m, e1, e2, e3⟩ := fillFromPending_keys g.pendingKeys creds.nextPreKeyId
      (creds.nextPreKeyId + (range - (creds.nextPreKeyId - creds.firstUnuploadedPreKeyId)) - 1)
      [] (by simp) (by omega)
    simp only
    rw [keys_foldl_generateFor supply _ _ _ ?_, e3, e1]
    · simp only [List.map_nil, List.nil_append]
      have hm : (range - (creds.nextPreKeyId - creds.firstUnuploadedPreKeyId)).toNat
          = m + (creds.nextPreKeyId
              + (range - (creds.nextPreKeyId - creds.firstUnuploadedPreKeyId)) - 1 + 1
              - (creds.nextPreKeyId + (m : Int))).toNat := by
        omega
      rw [hm, idsFrom_append]
    · intro k hk
      simp only at hk
      rw [e3] at hk
      simp only [List.map_nil, List.nil_append] at hk
      rw [e1]
      exact ((mem_idsFrom _ _ _).1 hk).2
  · rw [length_idsFrom, foldl_slices (generateFor supply) PREKEY_BATCH_SIZE (by decide) _ _ _
      (by rw [length_idsFrom])]
    rw [keys_foldl_generateFor supply _ _ _ (by simp)]
    simp only [List.map_nil, List.nil_append]
    congr 1
    omega

/-- The last id that `generateOrGetPreKeys` reports. -/
theorem generateOrGetPreKeys_last (supply : Nat → Blob) (now : Int)
    (creds : Creds) (range : Int) (g : PreKeyGenerationCache) :
    (generateOrGetPreKeys supply now creds range g).1.lastPreKeyId
      = creds.firstUnuploadedPreKeyId + range - 1 := by
  unfold generateOrGetPreKeys
  simp only
  omega

/-- C16. With `available = nextPreKeyId - firstUnuploadedPreKeyId` and
`remaining = range - available`, for every state of the pre-generation buffer
and every clock reading (so whether the buffer is used or not): when
`remaining > 0` the ids of `newPreKeys`, in the order written, are
`nextPreKeyId, nextPreKeyId + 1, ..., nextPreKeyId + remaining - 1`, each once;
when `remaining <= 0`, `newPreKeys` is empty; and `lastPreKeyId` is
`firstUnuploadedPreKeyId + range - 1`. -/
theorem generateOrGetPreKeys_allocates_next_ids (supply : Nat → Blob) (now : Int)
    (creds : Creds) (range : Int) (g : PreKeyGenerationCache) :
    (0 < range - (creds.nextPreKeyId - creds.firstUnuploadedPreKeyId) →
      (generateOrGetPreKeys supply now creds range g).1.newPreKeys.map Prod.fst
        = idsFrom creds.nextPreKeyId
            (range - (creds.nextPreKeyId - creds.firstUnuploadedPreKeyId)).toNat) ∧
    (range - (creds.nextPreKeyId - creds.firstUnuploadedPreKeyId) ≤ 0 →
      (generateOrGetPreKeys supply now creds range g).1.newPreKeys = []) ∧
    (generateOrGetPreKeys supply now creds range g).1.lastPreKeyId
      = creds.firstUnuploadedPreKeyId + range - 1 := by
  refine ⟨generateOrGetPreKeys_keys supply now creds range g, ?_,
    generateOrGetPreKeys_last supply now creds range g⟩
  intro hle
  unfold generateOrGetPreKeys
  have hno : ¬ (range - (creds.nextPreKeyId - creds.firstUnuploadedPreKeyId) > 0) := by omega
  simp only [hno, if_false]

/-- Two runs from `nextPreKeyId = 5`, `firstUnuploadedPreKeyId = 3`. With an
empty buffer and `range = 25`, ids 5 to 27 are generated; with two buffered key
pairs still fresh and `range = 6`, ids 5 and 6 take the buffered pairs, 7 and 8
are generated, and the buffer is cleared. -/
theorem generateOrGetPreKeys_example :
    (generateOrGetPreKeys (fun _ => "k") 0
        { nextPreKeyId := 5, firstUnuploadedPreKeyId := 3 } 25
        { pendingKeys := [], lastGenerationTime := 0, isGenerating := false,
          drawn := 0 }).1.newPreKeys.map Prod.fst = idsFrom 5 23 ∧
    (generateOrGetPreKeys (fun _ => "k") 100
        { nextPreKeyId := 5, firstUnuploadedPreKeyId := 3 } 6
        { pendingKeys := [(0, "a"), (1, "b")], lastGenerationTime := 0, isGenerating := false,
          drawn := 0 })
      = ({ newPreKeys := [(5, "a"), (6, "b"), (7, "k"), (8, "k")], lastPreKeyId := 8,
           preKeysRange := (3, 6) },
         { pendingKeys := [], lastGenerationTime := 0, isGenerating := false, drawn := 2 }) := by
  decide

namespace IdObj

theorem get_isSome_iff {α : Type} (o : IdObj α) (k : Int) :
    (get o k).isSome = true ↔ k ∈ o.map Prod.fst := by
  induction o with
  | nil => simp [get]
  | cons p r ih =>
    obtain ⟨a, b⟩ := p
    by_cases h : a = k
    · simp [get, h]
    · have h' : ¬ k = a := fun e => h e.symm
      simp [get, h, h', ih]

theorem isSome_get_assign {α : Type} (source : IdObj α) :
    ∀ (target : IdObj α) (k : Int),
      (get (assign target source) k).isSome
        = ((get source k).isSome || (get target k).isSome) := by
  induction source with
  | nil =>
    intro target k
    simp [assign, get]
  | cons p r ih =>
    intro target k
    obtain ⟨a, b⟩ := p
    have hstep : assign target ((a, b) :: r) = assign (set target a b) r := rfl
    rw [hstep, ih, get_set_id]
    by_cases h : a = k
    · simp [get, h]
    · simp [get, h]

end IdObj

/-- The slices of a list hold the elements of the list. -/
theorem mem_slices {α : Type} (size : Nat) (hsize : 0 < size) (x : α) (fuel : Nat) :
    ∀ l : List α, l.length ≤ fuel → ((∃ b ∈ slices size fuel l, x ∈ b) ↔ x ∈ l) := by
  induction fuel with
  | zero =>
    intro l hl
    have : l = [] := List.length_eq_zero.1 (by omega)
    subst this
    simp [slices]
  | succ fuel ih =>
    intro l hl
    cases l with
    | nil => simp [slices]
    | cons a t =>
      have hd : ((a :: t).drop size).length ≤ fuel := by
        simp only [List.length_drop, List.length_cons] at hl ⊢
        omega
      simp only [slices, List.mem_cons, exists_eq_or_imp, ih _ hd]
      rw [← List.mem_append, List.take_append_drop]
      simp

/-- The batched reads over a store that returns what was set. -/
theorem getBatches_spec {σ : Type} (S : PreKeyStore σ) (holds : σ → Int → Bool)
    (hstore : ReturnsWhatWasSet S holds) (batches : List (List Int)) :
    ∀ (st : σ) (acc : IdObj Blob), ∃ r st', getBatches S batches st acc = (Except.ok r, st') ∧
      (∀ id, holds st' id = holds st id) ∧
      ∀ id, ((IdObj.get r id).isSome = true ↔
        ((∃ b ∈ batches, id ∈ b) ∧ holds st id = true) ∨ (IdObj.get acc id).isSome = true) := by
  induction batches with
  | nil =>
    intro st acc
    exact ⟨acc, st, rfl, fun _ => rfl, by simp⟩
  | cons batch rest ih =>
    intro st acc
    obtain ⟨r1, st1, hget, hview1, hr1⟩ := hstore.1 st batch
    obtain ⟨r, st', hrest, hview, hr⟩ := ih st1 (IdObj.assign acc r1)
    refine ⟨r, st', ?_, fun id => (hview id).trans (hview1 id), ?_⟩
    · simp only [getBatches, hget, hrest]
    · intro id
      rw [hr id, IdObj.isSome_get_assign, hr1 id]
      simp only [hview1, List.mem_cons, exists_eq_or_imp, Bool.or_eq_true, Bool.and_eq_true,
        decide_eq_true_eq]
      by_cases hb : id ∈ batch <;> by_cases hh : holds st id = true <;>
        by_cases hacc : (IdObj.get acc id).isSome = true <;> simp [hb, hh, hacc]

/-- The function `getPreKeys` over a store that returns what was set: it
answers with an entry for each id from `min` up to, not including, `limit` that
the store holds. -/
theorem getPreKeys_spec {σ : Type} (S : PreKeyStore σ) (holds : σ → Int → Bool)
    (hstore : ReturnsWhatWasSet S holds) (min limit : Int) (st : σ) :
    ∃ r st', getPreKeys S min limit st = (Except.ok r, st') ∧
      (∀ id, holds st' id = holds st id) ∧
      ∀ id, ((IdObj.get r id).isSome = true ↔ (min ≤ id ∧ id < limit) ∧ holds st id = true) := by
  have hmem : ∀ id, id ∈ idsFrom min (limit - min).toNat ↔ (min ≤ id ∧ id < limit) := by
    intro id
    rw [mem_idsFrom]
    omega
  unfold getPreKeys
  by_cases hlen : (idsFrom min (limit - min).toNat).length ≤ 50
  · simp only [hlen, if_true]
    obtain ⟨r, st', hget, hview, hr⟩ := hstore.1 st (idsFrom min (limit - min).toNat)
    refine ⟨r, st', hget, hview, ?_⟩
    intro id
    rw [hr id, Bool.and_eq_true, decide_eq_true_eq, hmem id]
  · simp only [hlen, if_false]
    obtain ⟨r, st', hget, hview, hr⟩ := getBatches_spec S holds hstore
      (slices 50 (idsFrom min (limit - min).toNat).length (idsFrom min (limit - min).toNat)) st []
    refine ⟨r, st', hget, hview, ?_⟩
    intro id
    rw [hr id, mem_slices 50 (by decide) id _ _ (le_refl _), hmem id]
    simp [IdObj.get]

/-- The in-memory pre-key store returns what was set. -/
theorem memPreKeys_returns :
    ReturnsWhatWasSet memPreKeys (fun st id => (IdObj.get st id).isSome) := by
  constructor
  · intro st ids
    refine ⟨_, st, rfl, fun _ => rfl, ?_⟩
    intro id
    induction ids with
    | nil => simp [IdObj.get]
    | cons a rest ih =>
      simp only [List.filterMap_cons]
      cases hg : IdObj.get st a with
      | none =>
        simp only [Option.map_none', ih]
        by_cases h : id = a
        · subst h
          simp [hg]
        · simp [h]
      | some b =>
        simp only [Option.map_some', IdObj.get]
        by_cases h : a = id
        · subst h
          simp [hg]
        · have h' : ¬ id = a := fun e => h e.symm
          simp only [h, if_false, ih, List.mem_cons, h', false_or]
  · intro st p
    exact ⟨_, rfl, fun id => IdObj.isSome_get_assign p st id⟩

/-- C17. Given a count that is not negative and a key store that returns what
was set and holds every pre-key id from `firstUnuploadedPreKeyId` up to, not
including, `nextPreKeyId`, whatever the pre-generation buffer holds:
`getNextPreKeys(count)` returns; `preKeys` has an entry for exactly the ids
`firstUnuploadedPreKeyId, ..., firstUnuploadedPreKeyId + count - 1`; `update`
is `nextPreKeyId: max(nextPreKeyId, firstUnuploadedPreKeyId + count)` and
`firstUnuploadedPreKeyId: firstUnuploadedPreKeyId + count`, so that neither
counter decreases and the first stays at most the second. (That
`firstUnuploadedPreKeyId <= nextPreKeyId` holds before is not needed.) -/
theorem getNextPreKeys_returns_first_unuploaded {σ : Type} (S : PreKeyStore σ)
    (holds : σ → Int → Bool) (supply : Nat → Blob) (now : Int) (creds : Creds) (count : Int)
    (g : PreKeyGenerationCache) (st : σ)
    (hstore : ReturnsWhatWasSet S holds) (hcount : 0 ≤ count)
    (hheld : ∀ id, creds.firstUnuploadedPreKeyId ≤ id → id < creds.nextPreKeyId →
      holds st id = true) :
    ∃ preKeys s',
      getNextPreKeys S supply now creds count (g, st)
        = (Except.ok
            { update :=
                { nextPreKeyId := max creds.nextPreKeyId (creds.firstUnuploadedPreKeyId + count),
                  firstUnuploadedPreKeyId := creds.firstUnuploadedPreKeyId + count },
              preKeys := preKeys }, s') ∧
      (∀ id, (IdObj.get preKeys id).isSome = true ↔
        creds.firstUnuploadedPreKeyId ≤ id ∧ id < creds.firstUnuploadedPreKeyId + count) ∧
      creds.nextPreKeyId ≤ max creds.nextPreKeyId (creds.firstUnuploadedPreKeyId + count) ∧
      creds.firstUnuploadedPreKeyId ≤ creds.firstUnuploadedPreKeyId + count ∧
      creds.firstUnuploadedPreKeyId + count
        ≤ max creds.nextPreKeyId (creds.firstUnuploadedPreKeyId + count) := by
  have hnew := generateOrGetPreKeys_keys supply now creds count g
  have hlast := generateOrGetPreKeys_last supply now creds count g
  have hrange : (generateOrGetPreKeys supply now creds count g).1.preKeysRange
      = (creds.firstUnuploadedPreKeyId, count) := rfl
  obtain ⟨st1, hset, hheld1⟩ := hstore.2 st (generateOrGetPreKeys supply now creds count g).1.newPreKeys
  obtain ⟨preKeys, st2, hget, -, hkeys⟩ := getPreKeys_spec S holds hstore
    creds.firstUnuploadedPreKeyId (creds.firstUnuploadedPreKeyId + count) st1
  refine ⟨preKeys, ((generateOrGetPreKeys supply now creds count g).2, st2), ?_, ?_,
    le_max_left _ _, by omega, le_max_right _ _⟩
  · unfold getNextPreKeys
    simp only [hset, hrange, hget, hlast]
    have h1 : max (creds.firstUnuploadedPreKeyId + count - 1 + 1) creds.nextPreKeyId
        = max creds.nextPreKeyId (creds.firstUnuploadedPreKeyId + count) := by
      rw [max_comm]
      congr 1
      omega
    have h2 : max creds.firstUnuploadedPreKeyId (creds.firstUnuploadedPreKeyId + count - 1 + 1)
        = creds.firstUnuploadedPreKeyId + count := by
      rw [max_eq_right (by omega)]
      omega
    rw [h1, h2]
  · intro id
    rw [hkeys id]
    constructor
    · exact fun h => h.1
    · intro h
      refine ⟨h, ?_⟩
      rw [hheld1 id]
      by_cases hlt : id < creds.nextPreKeyId
      · rw [hheld id h.1 hlt]
        simp
      · have hpos : 0 < count - (creds.nextPreKeyId - creds.firstUnuploadedPreKeyId) := by omega
        have hin : id ∈ (generateOrGetPreKeys supply now creds count g).1.newPreKeys.map
            Prod.fst := by
          rw [hnew hpos, mem_idsFrom]
          omega
        rw [(IdObj.get_isSome_iff _ _).2 hin]
        rfl

theorem heldTwo_holds : ∀ id : Int, creds0.firstUnuploadedPreKeyId ≤ id →
    id < creds0.nextPreKeyId → (IdObj.get heldTwo id).isSome = true := by
  intro id h1 h2
  have h1' : (3 : Int) ≤ id := h1
  have h2' : id < 5 := h2
  have : id = 3 ∨ id = 4 := by omega
  rcases this with h | h <;> subst h <;> rfl

theorem getNextPreKeys_returns_first_unuploaded_witness :
    ReturnsWhatWasSet memPreKeys (fun st id => (IdObj.get st id).isSome) ∧
    (0 : Int) ≤ 4 ∧
    (∀ id : Int, creds0.firstUnuploadedPreKeyId ≤ id → id < creds0.nextPreKeyId →
      (IdObj.get heldTwo id).isSome = true) ∧
    ∃ preKeys s',
      getNextPreKeys memPreKeys (fun _ => "k") 0 creds0 4 (idleBuffer, heldTwo)
        = (Except.ok
            { update :=
                { nextPreKeyId :=
                    max creds0.nextPreKeyId (creds0.firstUnuploadedPreKeyId + 4),
                  firstUnuploadedPreKeyId := creds0.firstUnuploadedPreKeyId + 4 },
              preKeys := preKeys }, s') ∧
      (∀ id, (IdObj.get preKeys id).isSome = true ↔
        creds0.firstUnuploadedPreKeyId ≤ id ∧ id < creds0.firstUnuploadedPreKeyId + 4) ∧
      creds0.nextPreKeyId ≤ max creds0.nextPreKeyId (creds0.firstUnuploadedPreKeyId + 4) ∧
      creds0.firstUnuploadedPreKeyId ≤ creds0.firstUnuploadedPreKeyId + 4 ∧
      creds0.firstUnuploadedPreKeyId + 4
        ≤ max creds0.nextPreKeyId (creds0.firstUnuploadedPreKeyId + 4) :=
  ⟨memPreKeys_returns, by decide, heldTwo_holds,
    getNextPreKeys_returns_first_unuploaded memPreKeys (fun st id => (IdObj.get st id).isSome)
      (fun _ => "k") 0 creds0 4 idleBuffer heldTwo memPreKeys_returns (by decide) heldTwo_holds⟩

/-- From `creds0` over `heldTwo`, asking for four pre-keys: 3 and 4 are the
ones held, 5 and 6 are generated and stored, and both counters move to 7. -/
theorem getNextPreKeys_example :
    (getNextPreKeys memPreKeys (fun _ => "k") 0 creds0 4 (idleBuffer, heldTwo)).1
      = Except.ok { update := { nextPreKeyId := 7, firstUnuploadedPreKeyId := 7 },
                    preKeys := [(3, "a"), (4, "b"), (5, "k"), (6, "k")] } ∧
    (getNextPreKeys memPreKeys (fun _ => "k") 0 creds0 4 (idleBuffer, heldTwo)).2.2
      = [(3, "a"), (4, "b"), (5, "k"), (6, "k")] := by
  decide

/-! ## Lock order -/

/-- Taking pairwise distinct mutexes, none of them held by the caller, one after
another succeeds. -/
theorem acquireEach_free (mutexes : List String) :
    ∀ (L : Locks) (releases : List String), mutexes.Nodup → (∀ m ∈ mutexes, m ∉ L.held) →
      acquireEach mutexes L releases
        = (some (releases ++ mutexes),
           { held := mutexes.reverse ++ L.held,
             trace := L.trace ++ mutexes.map LockEvent.acquire }) := by
  induction mutexes with
  | nil =>
    intro L releases _ _
    simp [acquireEach]
  | cons m rest ih =>
    intro L releases hnd hfree
    have hm : m ∉ L.held := hfree m (by simp)
    have hnd' := List.nodup_cons.1 hnd
    simp only [acquireEach, Locks.acquire, hm, if_false]
    rw [ih _ _ hnd'.2 ?_]
    · simp
    · intro x hx
      simp only [List.mem_cons, not_or]
      refine ⟨?_, hfree x (by simp [hx])⟩
      intro h
      exact hnd'.1 (h ▸ hx)

/-- Releasing, newest first, the mutexes that sit on top of those held. -/
theorem foldl_release (stack : List String) :
    ∀ (held : List String) (trace : List LockEvent),
      stack.foldl Locks.release { held := stack ++ held, trace := trace }
        = { held := held, trace := trace ++ stack.map LockEvent.release } := by
  induction stack with
  | nil =>
    intro held trace
    simp
  | cons m rest ih =>
    intro held trace
    simp only [List.foldl_cons, Locks.release, List.cons_append, List.erase_cons_head]
    rw [ih]
    simp

theorem getKeyTypeMutex_injective (a b : String) (h : getKeyTypeMutex a = getKeyTypeMutex b) :
    a = b := by
  unfold getKeyTypeMutex at h
  have hd := congrArg String.data h
  simp only [String.data_append] at hd
  exact String.ext (List.append_cancel_left hd)

/-- What `withMutexes` does with pairwise distinct key types none of whose
mutexes the caller holds: the call returns what `fn` returns, the locks end as
they began, and the trace grows by the acquires in sorted order, one call of
`fn`, and the releases in the reverse order. -/
theorem withMutexes_spec {τ α : Type} (keyTypes : List String) (g : String → String)
    (fn : τ → Except Err α × τ) (L : Locks) (x : τ)
    (hnodup : keyTypes.Nodup)
    (hinj : ∀ a ∈ keyTypes, ∀ b ∈ keyTypes, g a = g b → a = b)
    (hfree : ∀ t ∈ keyTypes, g t ∉ L.held) :
    withMutexes keyTypes g fn (L, x)
      = (some (fn x).1,
          ({ held := L.held,
             trace := L.trace
               ++ ((keyTypes.insertionSort (fun a b => a ≤ b)).map g).map LockEvent.acquire
               ++ [LockEvent.run]
               ++ ((keyTypes.insertionSort (fun a b => a ≤ b)).map g).reverse.map
                    LockEvent.release },
           (fn x).2)) := by
  cases keyTypes with
  | nil => simp [withMutexes, callFn]
  | cons a t =>
    cases t with
    | nil =>
      have ha : g a ∉ L.held := hfree a (by simp)
      simp [withMutexes, callFn, Locks.acquire, Locks.release, ha]
    | cons b t' =>
      have hperm := List.perm_insertionSort (fun (a b : String) => a ≤ b) (a :: b :: t')
      have hnd : ((List.insertionSort (fun (a b : String) => a ≤ b) (a :: b :: t')).map g).Nodup := by
        apply List.Nodup.map_on
        · intro p hp q hq hpq
          exact hinj p (hperm.subset hp) q (hperm.subset hq) hpq
        · exact hperm.nodup_iff.2 hnodup
      have hfr : ∀ m ∈ (List.insertionSort (fun (a b : String) => a ≤ b) (a :: b :: t')).map g,
          m ∉ L.held := by
        intro m hm
        obtain ⟨p, hp, rfl⟩ := List.mem_map.1 hm
        exact hfree p (hperm.subset hp)
      simp only [withMutexes]
      rw [acquireEach_free _ L [] hnd hfr]
      simp only [callFn, releaseEach, List.nil_append]
      rw [foldl_release]
theorem insertionSort_perm_eq (l l' : List String) (h : l'.Perm l) :
    l'.insertionSort (fun a b => a ≤ b) = l.insertionSort (fun a b => a ≤ b) := by
  apply List.eq_of_perm_of_sorted (r := fun (a b : String) => a ≤ b)
  · exact ((List.perm_insertionSort _ l').trans h).trans (List.perm_insertionSort _ l).symm
  · exact List.sorted_insertionSort _ l'
  · exact List.sorted_insertionSort _ l

/-- C15. `withMutexes` is not exported; `set` calls it with `Object.keys(..)` of
a patch and `getKeyTypeMutex`, holding none of those mutexes: the key types are
pairwise distinct and so are their mutexes. For such key types `withMutexes`
returns what `fn` returns, be it a result or an error; the mutexes are acquired
in ascending sorted order of type name, then `fn` is called once, then the
mutexes are released in the reverse order of acquisition, and the mutexes held
afterwards are those held before. A call with a permutation of the key types
does the same, acquiring in the same order. -/
theorem withMutexes_sorted_acquire_reverse_release {τ α : Type} (keyTypes : List String)
    (g : String → String) (fn : τ → Except Err α × τ) (L : Locks) (x : τ)
    (hnodup : keyTypes.Nodup)
    (hinj : ∀ a ∈ keyTypes, ∀ b ∈ keyTypes, g a = g b → a = b)
    (hfree : ∀ t ∈ keyTypes, g t ∉ L.held) :
    withMutexes keyTypes g fn (L, x)
      = (some (fn x).1,
          ({ held := L.held,
             trace := L.trace
               ++ ((keyTypes.insertionSort (fun a b => a ≤ b)).map g).map LockEvent.acquire
               ++ [LockEvent.run]
               ++ ((keyTypes.insertionSort (fun a b => a ≤ b)).map g).reverse.map
                    LockEvent.release },
           (fn x).2)) ∧
    (keyTypes.insertionSort (fun a b => a ≤ b)).Sorted (fun a b => a ≤ b) ∧
    (keyTypes.insertionSort (fun a b => a ≤ b)).Perm keyTypes ∧
    (∀ keyTypes' : List String, keyTypes'.Perm keyTypes →
      withMutexes keyTypes' g fn (L, x) = withMutexes keyTypes g fn (L, x)) := by
  refine ⟨withMutexes_spec keyTypes g fn L x hnodup hinj hfree,
    List.sorted_insertionSort _ keyTypes, List.perm_insertionSort _ keyTypes, ?_⟩
  intro keyTypes' hperm
  rw [withMutexes_spec keyTypes g fn L x hnodup hinj hfree,
    withMutexes_spec keyTypes' g fn L x (hperm.nodup_iff.2 hnodup)
      (fun a ha b hb => hinj a (hperm.subset ha) b (hperm.subset hb))
      (fun t ht => hfree t (hperm.subset ht)),
    insertionSort_perm_eq keyTypes keyTypes' hperm]

theorem withMutexes_sorted_acquire_reverse_release_witness :
    ["session", "pre-key"].Nodup ∧
    (∀ a ∈ ["session", "pre-key"], ∀ b ∈ ["session", "pre-key"],
      getKeyTypeMutex a = getKeyTypeMutex b → a = b) ∧
    (∀ t ∈ ["session", "pre-key"], getKeyTypeMutex t ∉ Locks.free.held) ∧
    (withMutexes ["session", "pre-key"] getKeyTypeMutex
        (fun n : Nat => ((Except.error "boom" : Except Err Blob), n + 1)) (Locks.free, 0)
      = (some ((fun n : Nat => ((Except.error "boom" : Except Err Blob), n + 1)) 0).1,
          ({ held := Locks.free.held,
             trace := Locks.free.trace
               ++ ((["session", "pre-key"].insertionSort (fun a b => a ≤ b)).map
                    getKeyTypeMutex).map LockEvent.acquire
               ++ [LockEvent.run]
               ++ ((["session", "pre-key"].insertionSort (fun a b => a ≤ b)).map
                    getKeyTypeMutex).reverse.map LockEvent.release },
           ((fun n : Nat => ((Except.error "boom" : Except Err Blob), n + 1)) 0).2)) ∧
    (["session", "pre-key"].insertionSort (fun a b => a ≤ b)).Sorted (fun a b => a ≤ b) ∧
    (["session", "pre-key"].insertionSort (fun a b => a ≤ b)).Perm ["session", "pre-key"] ∧
    (∀ keyTypes' : List String, keyTypes'.Perm ["session", "pre-key"] →
      withMutexes keyTypes' getKeyTypeMutex
          (fun n : Nat => ((Except.error "boom" : Except Err Blob), n + 1)) (Locks.free, 0)
        = withMutexes ["session", "pre-key"] getKeyTypeMutex
          (fun n : Nat => ((Except.error "boom" : Except Err Blob), n + 1)) (Locks.free, 0))) :=
  ⟨by decide, fun a _ b _ h => getKeyTypeMutex_injective a b h, by simp [Locks.free],
    withMutexes_sorted_acquire_reverse_release ["session", "pre-key"] getKeyTypeMutex
      (fun n : Nat => ((Except.error "boom" : Except Err Blob), n + 1)) Locks.free 0
      (by decide) (fun a _ b _ h => getKeyTypeMutex_injective a b h) (by simp [Locks.free])⟩

/-- A remark on a list that no call site passes. With the key type `session`
listed twice, the mutex is acquired once, the second `acquire()` of the same
mutex does not return, and so the call never returns: `fn` is not run and the
mutex stays held. -/
theorem duplicate_key_type_blocks :
    withMutexes ["session", "session"] getKeyTypeMutex
        (fun n : Nat => ((Except.ok "done" : Except Err Blob), n + 1)) (Locks.free, 0)
      = (none, ({ held := ["keytype:session"],
                  trace := [LockEvent.acquire "keytype:session"] }, 0)) := by
  simp [withMutexes, List.insertionSort, List.orderedInsert, acquireEach, Locks.acquire,
    Locks.free, getKeyTypeMutex]

/-- For `session` and `pre-key`, in either order, the mutex of `pre-key` is
acquired first and released last. -/
theorem withMutexes_example :
    (withMutexes ["session", "pre-key"] getKeyTypeMutex
        (fun n : Nat => ((Except.ok "done" : Except Err Blob), n + 1)) (Locks.free, 0)).2.1.trace
      = [LockEvent.acquire "keytype:pre-key", LockEvent.acquire "keytype:session", LockEvent.run,
         LockEvent.release "keytype:session", LockEvent.release "keytype:pre-key"] := by
  have h : ¬ ("session" ≤ "pre-key") := by
    rw [not_le, String.lt_iff_toList_lt]
    decide
  simp [withMutexes, List.insertionSort, List.orderedInsert, h, acquireEach, Locks.acquire,
    Locks.free, getKeyTypeMutex, callFn, releaseEach, Locks.release]

/-! ## `validateSession` -/

/-- The entry that `setSessionInCache` writes is there afterwards. -/
theorem get_setSessionInCache_self (now : Int) (cache : Obj (Timed Blob)) (key : String)
    (session : Blob) :
    Obj.get (setSessionInCache now cache key session) key
      = some { value := session, time := now } := by
  unfold setSessionInCache
  exact Obj.get_set_self _ _ _

/-- With no entry for the id in the storage cache, `loadSession` asks the key
store once; it answers the deserialised session that the store holds, or
`undefined` when the store holds none. -/
theorem loadSession_from_store {σ : Type} (E : Libsignal σ) (S : Store σ) (now later : Int)
    (id : String) (st : Storage σ) (found : Obj Val) (w1 : World σ)
    (hcold : Obj.get st.sessions id = none)
    (hget : storeGet S "session" [id] st.keys = (Except.ok found, w1)) :
    (∀ sess record, Obj.get found id = some (some sess) → E.deserialize sess = Except.ok record →
      (loadSession E S now later id st).1 = Except.ok (some record)) ∧
    (truthy (Obj.get found id) = false → (loadSession E S now later id st).1 = Except.ok none) := by
  have hlook : (getCachedSession now st.sessions id).1 = none := by
    simp [getCachedSession, lookupWithin, hcold]
  constructor
  · intro sess record hs hd
    unfold loadSession
    simp only [hlook, hget, hs, hd]
  · intro hn
    unfold loadSession
    simp only [hlook, hget]
    rcases hf : Obj.get found id with _ | _ | b
    · rfl
    · rfl
    · rw [hf] at hn
      simp [truthy] at hn

/-- C21. For a peer whose jid has the address `addr`:
with a session-cache entry for `addr`, `validateSession` answers `exists: true,
cached: true` and changes nothing; with none and `loadSession` answering
nothing (over a cold storage cache: the key store holds no session for `addr`),
it answers `exists: false, cached: false` and the session cache is unchanged;
with none and `loadSession` answering a session (the key store holds one that
deserialises), it answers `exists: true, cached: false` and the session cache
gets an entry for `addr`. Every answer with `cached` has `exists`, and after an
answer `exists: true, cached: false` the next call answers `exists: true,
cached: true`. -/
theorem validateSession_reports_presence {σ : Type} (E : Libsignal σ) (S : Store σ)
    (now later last : Int) (jid addr : String) (r : Repo σ)
    (haddr : E.jidToSignalProtocolAddress jid = Except.ok addr) :
    (∀ entry, Obj.get r.sessionCache addr = some entry →
      validateSession E S now later last jid r
        = (Except.ok { «exists» := true, cached := true }, r)) ∧
    (Obj.get r.sessionCache addr = none →
      ((loadSession E S now later addr r.storage).1 = Except.ok none →
        (validateSession E S now later last jid r).1
          = Except.ok { «exists» := false, cached := false } ∧
        (validateSession E S now later last jid r).2.sessionCache = r.sessionCache) ∧
      (∀ session, (loadSession E S now later addr r.storage).1 = Except.ok (some session) →
        (validateSession E S now later last jid r).1
          = Except.ok { «exists» := true, cached := false } ∧
        Obj.get (validateSession E S now later last jid r).2.sessionCache addr
          = some { value := session, time := last }) ∧
      (∀ found w1, Obj.get r.storage.sessions addr = none →
        storeGet S "session" [addr] r.storage.keys = (Except.ok found, w1) →
        (truthy (Obj.get found addr) = false →
          (validateSession E S now later last jid r).1
            = Except.ok { «exists» := false, cached := false }) ∧
        (∀ sess record, Obj.get found addr = some (some sess) →
          E.deserialize sess = Except.ok record →
          (validateSession E S now later last jid r).1
            = Except.ok { «exists» := true, cached := false }))) ∧
    (∀ status, (validateSession E S now later last jid r).1 = Except.ok status →
      status.cached = true → status.«exists» = true) ∧
    (∀ now2 later2 last2, (validateSession E S now later last jid r).1
        = Except.ok { «exists» := true, cached := false } →
      (validateSession E S now2 later2 last2 jid (validateSession E S now later last jid r).2).1
        = Except.ok { «exists» := true, cached := true }) := by
  have hnone : (loadSession E S now later addr r.storage).1 = Except.ok none →
      Obj.get r.sessionCache addr = none →
      (validateSession E S now later last jid r).1
        = Except.ok { «exists» := false, cached := false } ∧
      (validateSession E S now later last jid r).2.sessionCache = r.sessionCache := by
    intro hl hc
    unfold validateSession
    simp only [haddr, Obj.has, hc, Option.isSome_none, Bool.false_eq_true, if_false]
    rcases hls : loadSession E S now later addr r.storage with ⟨res, st1⟩
    rw [hls] at hl
    simp only at hl
    subst hl
    exact ⟨rfl, rfl⟩
  have hsome : ∀ session, (loadSession E S now later addr r.storage).1
        = Except.ok (some session) →
      Obj.get r.sessionCache addr = none →
      (validateSession E S now later last jid r).1
        = Except.ok { «exists» := true, cached := false } ∧
      Obj.get (validateSession E S now later last jid r).2.sessionCache addr
        = some { value := session, time := last } := by
    intro session hl hc
    unfold validateSession
    simp only [haddr, Obj.has, hc, Option.isSome_none, Bool.false_eq_true, if_false]
    rcases hls : loadSession E S now later addr r.storage with ⟨res, st1⟩
    rw [hls] at hl
    simp only at hl
    subst hl
    exact ⟨rfl, get_setSessionInCache_self _ _ _ _⟩
  refine ⟨fun entry he => validateSession_ignores_age E S now later last jid addr r entry haddr he,
    fun hc => ⟨fun hl => hnone hl hc, fun session hl => hsome session hl hc, ?_⟩, ?_, ?_⟩
  · intro found w1 hcold hget
    obtain ⟨h1, h2⟩ := loadSession_from_store E S now later addr r.storage found w1 hcold hget
    exact ⟨fun hn => (hnone (h2 hn) hc).1,
      fun sess record hs hd => (hsome record (h1 sess record hs hd) hc).1⟩
  · intro status hres hcached
    cases hc : Obj.get r.sessionCache addr with
    | some entry =>
      rw [validateSession_ignores_age E S now later last jid addr r entry haddr hc] at hres
      simp only [Except.ok.injEq] at hres
      rw [← hres]
    | none =>
      have := validateSession_uncached E S now later last jid addr r status haddr hc hres
      rw [this] at hcached
      cases hcached
  · intro now2 later2 last2 hres
    cases hc : Obj.get r.sessionCache addr with
    | some entry =>
      rw [validateSession_ignores_age E S now later last jid addr r entry haddr hc] at hres ⊢
      simp at hres
    | none =>
      have hentry : ∃ entry, Obj.get (validateSession E S now later last jid r).2.sessionCache
          addr = some entry := by
        unfold validateSession at hres ⊢
        simp only [haddr, Obj.has, hc, Option.isSome_none, Bool.false_eq_true, if_false]
          at hres ⊢
        rcases hls : loadSession E S now later addr r.storage with ⟨res, st1⟩
        rw [hls] at hres
        rcases res with e | _ | session
        · cases hres
        · simp at hres
        · exact ⟨_, get_setSessionInCache_self _ _ _ _⟩
      obtain ⟨entry, he⟩ := hentry
      rw [validateSession_ignores_age E S now2 later2 last2 jid addr _ entry haddr he]

theorem validateSession_reports_presence_witness :
    plainSignal.jidToSignalProtocolAddress "alice" = Except.ok "alice.0" ∧
    ((∀ entry, Obj.get (Repo.fresh aliceStore).sessionCache "alice.0" = some entry →
      validateSession plainSignal memStore 0 1 2 "alice" (Repo.fresh aliceStore)
        = (Except.ok { «exists» := true, cached := true }, Repo.fresh aliceStore)) ∧
    (Obj.get (Repo.fresh aliceStore).sessionCache "alice.0" = none →
      ((loadSession plainSignal memStore 0 1 "alice.0" (Repo.fresh aliceStore).storage).1 = Except.ok none →
        (validateSession plainSignal memStore 0 1 2 "alice" (Repo.fresh aliceStore)).1
          = Except.ok { «exists» := false, cached := false } ∧
        (validateSession plainSignal memStore 0 1 2 "alice" (Repo.fresh aliceStore)).2.sessionCache = (Repo.fresh aliceStore).sessionCache) ∧
      (∀ session, (loadSession plainSignal memStore 0 1 "alice.0" (Repo.fresh aliceStore).storage).1 = Except.ok (some session) →
        (validateSession plainSignal memStore 0 1 2 "alice" (Repo.fresh aliceStore)).1
          = Except.ok { «exists» := true, cached := false } ∧
        Obj.get (validateSession plainSignal memStore 0 1 2 "alice" (Repo.fresh aliceStore)).2.sessionCache "alice.0"
          = some { value := session, time := 2 }) ∧
      (∀ found w1, Obj.get (Repo.fresh aliceStore).storage.sessions "alice.0" = none →
        storeGet memStore "session" ["alice.0"] (Repo.fresh aliceStore).storage.keys = (Except.ok found, w1) →
        (truthy (Obj.get found "alice.0") = false →
          (validateSession plainSignal memStore 0 1 2 "alice" (Repo.fresh aliceStore)).1
            = Except.ok { «exists» := false, cached := false }) ∧
        (∀ sess record, Obj.get found "alice.0" = some (some sess) →
          plainSignal.deserialize sess = Except.ok record →
          (validateSession plainSignal memStore 0 1 2 "alice" (Repo.fresh aliceStore)).1
            = Except.ok { «exists» := true, cached := false }))) ∧
    (∀ status, (validateSession plainSignal memStore 0 1 2 "alice" (Repo.fresh aliceStore)).1 = Except.ok status →
      status.cached = true → status.«exists» = true) ∧
    (∀ now2 later2 last2, (validateSession plainSignal memStore 0 1 2 "alice" (Repo.fresh aliceStore)).1
        = Except.ok { «exists» := true, cached := false } →
      (validateSession plainSignal memStore now2 later2 last2 "alice" (validateSession plainSignal memStore 0 1 2 "alice" (Repo.fresh aliceStore)).2).1
        = Except.ok { «exists» := true, cached := true })) :=
  ⟨by decide, validateSession_reports_presence plainSignal memStore 0 1 2 "alice" "alice.0"
    (Repo.fresh aliceStore) (by decide)⟩

/-- Over a key store that holds a session for `alice.0` and none for `bob.0`:
the first `validateSession` for `alice` answers `cached: false`, the second
`cached: true`, and one for `bob` answers `exists: false` and caches
nothing. -/
theorem validateSession_example :
    (validateSession plainSignal memStore 0 1 2 "alice" (Repo.fresh aliceStore)).1
      = Except.ok { «exists» := true, cached := false } ∧
    (validateSession plainSignal memStore 3 4 5 "alice"
        (validateSession plainSignal memStore 0 1 2 "alice" (Repo.fresh aliceStore)).2).1
      = Except.ok { «exists» := true, cached := true } ∧
    (validateSession plainSignal memStore 0 1 2 "bob" (Repo.fresh aliceStore)).1
      = Except.ok { «exists» := false, cached := false } ∧
    (validateSession plainSignal memStore 0 1 2 "bob" (Repo.fresh aliceStore)).2.sessionCache
      = [] := by
  decide

/-! ## Transactions whose work raises -/

/-- C25. An outermost `transaction` (counter at zero) whose work raises: the
error raised is the one the work raised; the calls the store receives are those
made while the work ran, none of them a `set`, so no write made inside the work
is persisted; and afterwards the counter is zero and the transaction-local
cache and the Mutation Batch are empty. -/
theorem failed_transaction_persists_nothing {σ : Type} (S : Store σ) (opts : TransactionOpts)
    (work : Work) (key : String) (c : Coord) (w : World σ) (e : Err)
    (hidle : c.transactionsInProgress = 0)
    (hraise : (Work.run S opts work
        ({ c with transactionsInProgress := c.transactionsInProgress + 1 }, w)).1
      = Except.error e) :
    (transaction S opts (Work.run S opts work) key (c, w)).1 = Except.error e ∧
    (transaction S opts (Work.run S opts work) key (c, w)).2.2.log
      = (Work.run S opts work
          ({ c with transactionsInProgress := c.transactionsInProgress + 1 }, w)).2.2.log ∧
    (∀ call ∈ callsSince w.log (transaction S opts (Work.run S opts work) key (c, w)).2.2.log,
      call.isSet = false) ∧
    (transaction S opts (Work.run S opts work) key (c, w)).2.1.transactionsInProgress = 0 ∧
    (transaction S opts (Work.run S opts work) key (c, w)).2.1.transactionCache = [] ∧
    (transaction S opts (Work.run S opts work) key (c, w)).2.1.mutations = [] := by
  have hst := run_stretch S opts work
    ({ c with transactionsInProgress := c.transactionsInProgress + 1 }, w)
    (by simp only; omega)
  revert hraise
  unfold transaction executeTransactionWork
  dsimp only
  rcases hw : Work.run S opts work
    ({ c with transactionsInProgress := c.transactionsInProgress + 1 }, w) with ⟨r, c1, w1⟩
  rw [hw] at hst
  obtain ⟨a, gets, ws, b, g, -⟩ := hst
  simp only at a b g
  have hz : c1.transactionsInProgress - 1 = 0 := by omega
  intro hraise
  simp only at hraise
  subst hraise
  simp only [cleanupTransactionState, hz, if_true]
  refine ⟨trivial, trivial, ?_, trivial, trivial, trivial⟩
  rw [b, callsSince_append]
  exact g

theorem failed_transaction_persists_nothing_witness :
    Coord.init.transactionsInProgress = 0 ∧
    (Work.run memStore opts0 failingWork
        ({ Coord.init with transactionsInProgress := Coord.init.transactionsInProgress + 1 },
          World.fresh [])).1 = Except.error "boom" ∧
    ((transaction memStore opts0 (Work.run memStore opts0 failingWork) "k"
        (Coord.init, World.fresh [])).1 = Except.error "boom" ∧
    (transaction memStore opts0 (Work.run memStore opts0 failingWork) "k"
        (Coord.init, World.fresh [])).2.2.log
      = (Work.run memStore opts0 failingWork
          ({ Coord.init with transactionsInProgress := Coord.init.transactionsInProgress + 1 },
            World.fresh [])).2.2.log ∧
    (∀ call ∈ callsSince (World.fresh ([] : Patch)).log
        (transaction memStore opts0 (Work.run memStore opts0 failingWork) "k"
          (Coord.init, World.fresh [])).2.2.log,
      call.isSet = false) ∧
    (transaction memStore opts0 (Work.run memStore opts0 failingWork) "k"
        (Coord.init, World.fresh [])).2.1.transactionsInProgress = 0 ∧
    (transaction memStore opts0 (Work.run memStore opts0 failingWork) "k"
        (Coord.init, World.fresh [])).2.1.transactionCache = [] ∧
    (transaction memStore opts0 (Work.run memStore opts0 failingWork) "k"
        (Coord.init, World.fresh [])).2.1.mutations = []) :=
  ⟨rfl, by decide,
    failed_transaction_persists_nothing memStore opts0 failingWork "k" Coord.init
      (World.fresh []) "boom" rfl (by decide)⟩

/-! ## A nested scope that fails -/

/-- The commit of an outermost transaction whose work returns, having handed a
patch that names a key type to `set`, over a store whose `set` succeeds: one
`set` after the calls of the work, with the union of all the writes. -/
theorem outermost_commit_spec {σ : Type} (S : Store σ) (opts : TransactionOpts)
    (work : Work) (key : String) (c : Coord) (w : World σ) (result : Blob)
    (hidle : c.transactionsInProgress = 0) (hempty : c.mutations = [])
    (hretries : opts.maxCommitRetries ≥ 1)
    (hset : ∀ st p, (S.set st p).1 = Except.ok ())
    (hret : (transaction S opts (Work.run S opts work) key (c, w)).1 = Except.ok result)
    (hwrote : ∃ p ∈ writesSince w.writes
      (transaction S opts (Work.run S opts work) key (c, w)).2.2.writes, p ≠ []) :
    ∃ batch : Patch,
      callsSince w.log (transaction S opts (Work.run S opts work) key (c, w)).2.2.log
        = callsSince w.log (Work.run S opts work
            ({ c with transactionsInProgress := c.transactionsInProgress + 1 }, w)).2.2.log
          ++ [Call.set batch (Except.ok ())] ∧
      (∀ call ∈ callsSince w.log (Work.run S opts work
          ({ c with transactionsInProgress := c.transactionsInProgress + 1 }, w)).2.2.log,
        call.isSet = false) ∧
      (∀ t i, Patch.entry batch t i
        = mergeWrites (writesSince w.writes
            (transaction S opts (Work.run S opts work) key (c, w)).2.2.writes) t i none) := by
  have hst := run_stretch S opts work
    ({ c with transactionsInProgress := c.transactionsInProgress + 1 }, w)
    (by simp only; omega)
  revert hret hwrote
  unfold transaction executeTransactionWork
  dsimp only
  rcases hw : Work.run S opts work
    ({ c with transactionsInProgress := c.transactionsInProgress + 1 }, w) with ⟨r, c1, w1⟩
  rw [hw] at hst
  obtain ⟨a, gets, ws, b, g, d, e, _, k⟩ := hst
  simp only at a b g d e k
  have htip : c1.transactionsInProgress = 1 := by omega
  cases r with
  | error err =>
    intro hret
    simp at hret
  | ok res =>
    simp only [htip, if_true]
    intro _ hwrote
    obtain ⟨attempts, la, lw, lb, ld, _, lne, lres⟩ :=
      commitLoop_spec S c1.mutations opts.maxCommitRetries w1
    have hwr : (commitTransaction S opts (c1, w1)).2.writes = w.writes ++ ws := by
      unfold commitTransaction
      split
      · exact d
      · exact lw.trans d
    rw [hwr, writesSince, List.drop_left] at hwrote
    have hne : c1.mutations ≠ [] := k hwrote
    have hkeys : ¬ (Obj.keys c1.mutations).length = 0 := by
      intro h
      apply hne
      have : c1.mutations.length = 0 := by simpa [Obj.keys] using h
      exact List.length_eq_zero.1 this
    have hall : ∀ r ∈ attempts, r = Except.ok () := by
      intro r hr
      obtain ⟨st, h⟩ := lres r hr
      rw [h]
      exact hset st c1.mutations
    have hone : attempts = [Except.ok ()] := by
      cases attempts with
      | nil => exact absurd rfl (lne hretries)
      | cons x rest =>
        cases rest with
        | nil => rw [hall x (by simp)]
        | cons y rest2 =>
          exfalso
          obtain ⟨e', he⟩ := ld x (by simp [List.dropLast_cons₂])
          rw [hall x (by simp)] at he
          cases he
    refine ⟨c1.mutations, ?_, ?_, ?_⟩
    · simp only [commitTransaction, hkeys, if_false]
      rw [la, hone, b]
      simp [callsSince]
    · rw [b, callsSince_append]
      exact g
    · intro t i
      rw [hwr, writesSince, List.drop_left, e t i, hempty]
      rfl

/-- A write sequence that has no entry at a type and id leaves the value
there as it was. -/
theorem mergeWrites_untouched (ws : List Patch) (t i : String) (before : Option Val)
    (h : ∀ p ∈ ws, Patch.entry p t i = none) : mergeWrites ws t i before = before := by
  induction ws generalizing before with
  | nil => rfl
  | cons p rest ih =>
    simp only [mergeWrites, List.foldl_cons]
    rw [h p (by simp)]
    exact ih _ (fun q hq => h q (by simp [hq]))

/-- Running a caller that first runs a nested transaction which raises, and
catches the error, is running the handler from the state the nested
transaction left. -/
theorem run_tryCatch_failed_inner {σ : Type} (S : Store σ) (opts : TransactionOpts)
    (inner : Work) (key2 : String) (cont : Blob → Work) (handler : Err → Work)
    (next : Blob → Work) (s : Coord × World σ) (e : Err)
    (hinner : (transaction S opts (Work.run S opts inner) key2 s).1 = Except.error e) :
    Work.run S opts (Work.tryCatch (Work.transaction inner key2 cont) handler next) s
      = Work.run S opts (Work.tryCatch (Work.throw e) handler next)
          (transaction S opts (Work.run S opts inner) key2 s).2 := by
  rcases ht : transaction S opts (Work.run S opts inner) key2 s with ⟨r, s1⟩
  rw [ht] at hinner
  simp only at hinner
  subst hinner
  simp only [Work.run, ht]

/-- A `transaction` call records no write of its own: the writes on record
afterwards are those on record when its work ended. -/
theorem transaction_writes {σ : Type} (S : Store σ) (opts : TransactionOpts)
    (work : Run σ Blob) (key : String) (s : Coord × World σ) :
    (transaction S opts work key s).2.2.writes
      = (work ({ s.1 with transactionsInProgress := s.1.transactionsInProgress + 1 },
          s.2)).2.2.writes := by
  unfold transaction executeTransactionWork
  dsimp only
  rcases hw : work ({ s.1 with transactionsInProgress := s.1.transactionsInProgress + 1 }, s.2)
    with ⟨r, c1, w1⟩
  cases r with
  | error e => rfl
  | ok res =>
    simp only
    split
    · unfold commitTransaction
      split
      · rfl
      · obtain ⟨_, -, lw, -⟩ := commitLoop_spec S c1.mutations opts.maxCommitRetries w1
        exact lw
    · rfl

/-- C29. In an outermost transaction over a store whose `set` succeeds, let
the work run a nested transaction that makes writes and raises, catch the
error, and go on to return. Then the store receives exactly one `set`, after
the reads of the work, and its patch holds at every type and id the writes of
the failed inner scope with the later writes of the outer scope merged over
them: a write of the inner scope that nothing later replaces is in the patch
that is committed. -/
theorem failed_nested_scope_is_committed {σ : Type} (S : Store σ) (opts : TransactionOpts)
    (inner : Work) (key key2 : String) (cont : Blob → Work) (handler : Err → Work)
    (next : Blob → Work) (c : Coord) (w : World σ) (result : Blob) (e : Err)
    (hidle : c.transactionsInProgress = 0) (hempty : c.mutations = [])
    (hretries : opts.maxCommitRetries ≥ 1)
    (hset : ∀ st p, (S.set st p).1 = Except.ok ())
    (hinner : (transaction S opts (Work.run S opts inner) key2
        ({ c with transactionsInProgress := c.transactionsInProgress + 1 }, w)).1
      = Except.error e)
    (hwrote : ∃ p ∈ writesSince w.writes (transaction S opts (Work.run S opts inner) key2
        ({ c with transactionsInProgress := c.transactionsInProgress + 1 }, w)).2.2.writes,
      p ≠ [])
    (hret : (transaction S opts (Work.run S opts
        (Work.tryCatch (Work.transaction inner key2 cont) handler next)) key (c, w)).1
      = Except.ok result) :
    ∃ (batch : Patch) (gets : List Call),
      callsSince w.log (transaction S opts (Work.run S opts
          (Work.tryCatch (Work.transaction inner key2 cont) handler next)) key (c, w)).2.2.log
        = gets ++ [Call.set batch (Except.ok ())] ∧
      (∀ call ∈ gets, call.isSet = false) ∧
      (∀ t i, Patch.entry batch t i
        = mergeWrites
            (writesSince (transaction S opts (Work.run S opts inner) key2
                ({ c with transactionsInProgress := c.transactionsInProgress + 1 }, w)).2.2.writes
              (transaction S opts (Work.run S opts
                (Work.tryCatch (Work.transaction inner key2 cont) handler next)) key
                (c, w)).2.2.writes) t i
            (mergeWrites (writesSince w.writes (transaction S opts (Work.run S opts inner) key2
                ({ c with transactionsInProgress := c.transactionsInProgress + 1 },
                  w)).2.2.writes) t i none)) ∧
      (∀ t i v,
        mergeWrites (writesSince w.writes (transaction S opts (Work.run S opts inner) key2
            ({ c with transactionsInProgress := c.transactionsInProgress + 1 },
              w)).2.2.writes) t i none = some v →
        (∀ p ∈ writesSince (transaction S opts (Work.run S opts inner) key2
              ({ c with transactionsInProgress := c.transactionsInProgress + 1 }, w)).2.2.writes
            (transaction S opts (Work.run S opts
              (Work.tryCatch (Work.transaction inner key2 cont) handler next)) key
              (c, w)).2.2.writes,
          Patch.entry p t i = none) →
        Patch.entry batch t i = some v) := by
  have hI := nested_transaction_stretch S opts (Work.run S opts inner) key2
    ({ c with transactionsInProgress := c.transactionsInProgress + 1 }, w)
    (by simp only; omega) (fun s0 h => run_stretch S opts inner s0 h)
  have hrun := run_tryCatch_failed_inner S opts inner key2 cont handler next
    ({ c with transactionsInProgress := c.transactionsInProgress + 1 }, w) e hinner
  have hR := run_stretch S opts (Work.tryCatch (Work.throw e) handler next)
    (transaction S opts (Work.run S opts inner) key2
      ({ c with transactionsInProgress := c.transactionsInProgress + 1 }, w)).2
    (by rw [hI.1]; simp only; omega)
  rw [← hrun] at hR
  have hfw := transaction_writes S opts (Work.run S opts
    (Work.tryCatch (Work.transaction inner key2 cont) handler next)) key (c, w)
  obtain ⟨-, -, innerWs, -, -, hwI, -⟩ := hI
  obtain ⟨-, -, laterWs, -, -, hwR, -⟩ := hR
  simp only at hwI hwR hfw
  rw [hwI] at hwR
  have hfinal : (transaction S opts (Work.run S opts
      (Work.tryCatch (Work.transaction inner key2 cont) handler next)) key (c, w)).2.2.writes
      = w.writes ++ (innerWs ++ laterWs) := by
    rw [hfw, hwR, List.append_assoc]
  have hwrote' : ∃ p ∈ writesSince w.writes (transaction S opts (Work.run S opts
      (Work.tryCatch (Work.transaction inner key2 cont) handler next)) key (c, w)).2.2.writes,
      p ≠ [] := by
    obtain ⟨p, hp, hne⟩ := hwrote
    rw [hwI, writesSince, List.drop_left] at hp
    refine ⟨p, ?_, hne⟩
    rw [hfinal, writesSince, List.drop_left]
    exact List.mem_append_left _ hp
  obtain ⟨batch, hcalls, hgets, hbatch⟩ := outermost_commit_spec S opts
    (Work.tryCatch (Work.transaction inner key2 cont) handler next) key c w result
    hidle hempty hretries hset hret hwrote'
  have hentry : ∀ t i, Patch.entry batch t i
      = mergeWrites laterWs t i (mergeWrites innerWs t i none) := by
    intro t i
    rw [hbatch t i, hfinal, writesSince, List.drop_left, mergeWrites_append]
  have hIw : writesSince w.writes (transaction S opts (Work.run S opts inner) key2
      ({ c with transactionsInProgress := c.transactionsInProgress + 1 }, w)).2.2.writes
      = innerWs := by
    rw [hwI, writesSince, List.drop_left]
  have hLw : writesSince (transaction S opts (Work.run S opts inner) key2
        ({ c with transactionsInProgress := c.transactionsInProgress + 1 }, w)).2.2.writes
      (transaction S opts (Work.run S opts
        (Work.tryCatch (Work.transaction inner key2 cont) handler next)) key (c, w)).2.2.writes
      = laterWs := by
    rw [hfinal, hwI, ← List.append_assoc, writesSince, List.drop_left]
  rw [hIw, hLw]
  refine ⟨batch, _, hcalls, hgets, hentry, ?_⟩
  intro t i v hv hnone
  rw [hentry t i, mergeWrites_untouched laterWs t i _ hnone, hv]

theorem failed_nested_scope_is_committed_witness :
    Coord.init.transactionsInProgress = 0 ∧ Coord.init.mutations = [] ∧
    opts0.maxCommitRetries ≥ 1 ∧
    (∀ st p, (memStore.set st p).1 = Except.ok ()) ∧
    (transaction memStore opts0 (Work.run memStore opts0 failingInner) "k2"
        ({ Coord.init with transactionsInProgress := Coord.init.transactionsInProgress + 1 },
          World.fresh [])).1 = Except.error "boom" ∧
    (∃ p ∈ writesSince (World.fresh ([] : Patch)).writes
        (transaction memStore opts0 (Work.run memStore opts0 failingInner) "k2"
          ({ Coord.init with transactionsInProgress := Coord.init.transactionsInProgress + 1 },
            World.fresh [])).2.2.writes, p ≠ []) ∧
    (transaction memStore opts0 (Work.run memStore opts0
        (Work.tryCatch (Work.transaction failingInner "k2" handOn) recover handOn)) "k"
        (Coord.init, World.fresh [])).1 = Except.ok "recovered" ∧
    ∃ (batch : Patch) (gets : List Call),
      callsSince (World.fresh ([] : Patch)).log (transaction memStore opts0 (Work.run memStore opts0
          (Work.tryCatch (Work.transaction failingInner "k2" handOn) recover handOn)) "k" (Coord.init, World.fresh [])).2.2.log
        = gets ++ [Call.set batch (Except.ok ())] ∧
      (∀ call ∈ gets, call.isSet = false) ∧
      (∀ t i, Patch.entry batch t i
        = mergeWrites
            (writesSince (transaction memStore opts0 (Work.run memStore opts0 failingInner) "k2"
                ({ Coord.init with transactionsInProgress := Coord.init.transactionsInProgress + 1 }, World.fresh [])).2.2.writes
              (transaction memStore opts0 (Work.run memStore opts0
                (Work.tryCatch (Work.transaction failingInner "k2" handOn) recover handOn)) "k"
                (Coord.init, World.fresh [])).2.2.writes) t i
            (mergeWrites (writesSince (World.fresh ([] : Patch)).writes (transaction memStore opts0 (Work.run memStore opts0 failingInner) "k2"
                ({ Coord.init with transactionsInProgress := Coord.init.transactionsInProgress + 1 },
                  World.fresh [])).2.2.writes) t i none)) ∧
      (∀ t i v,
        mergeWrites (writesSince (World.fresh ([] : Patch)).writes (transaction memStore opts0 (Work.run memStore opts0 failingInner) "k2"
            ({ Coord.init with transactionsInProgress := Coord.init.transactionsInProgress + 1 },
              World.fresh [])).2.2.writes) t i none = some v →
        (∀ p ∈ writesSince (transaction memStore opts0 (Work.run memStore opts0 failingInner) "k2"
              ({ Coord.init with transactionsInProgress := Coord.init.transactionsInProgress + 1 }, World.fresh [])).2.2.writes
            (transaction memStore opts0 (Work.run memStore opts0
              (Work.tryCatch (Work.transaction failingInner "k2" handOn) recover handOn)) "k"
              (Coord.init, World.fresh [])).2.2.writes,
          Patch.entry p t i = none) →
        Patch.entry batch t i = some v) :=
  ⟨rfl, rfl, by decide, fun _ _ => rfl, by decide!, by decide!, by decide!,
    failed_nested_scope_is_committed memStore opts0 failingInner "k" "k2" handOn recover handOn
      Coord.init (World.fresh []) "recovered" "boom" rfl rfl (by decide) (fun _ _ => rfl)
      (by decide!) (by decide!) (by decide!)⟩

/-- The run of the witness above: the work returns `recovered`, and the one
call the store receives commits the session of `bob.0` written by the failed
inner scope together with that of `alice.0` written by the handler. -/
theorem failed_nested_scope_example :
    (transaction memStore opts0 (Work.run memStore opts0
        (Work.tryCatch (Work.transaction failingInner "k2" handOn) recover handOn)) "k"
        (Coord.init, World.fresh [])).2.2.log
      = [Call.set [("session", [("bob.0", some "s2"), ("alice.0", some "s3")])]
          (Except.ok ())] := by
  decide!

/-! ## `set` with sender keys, outside a transaction -/

theorem setPatches_append (a b : List Call) : setPatches (a ++ b) = setPatches a ++ setPatches b := by
  simp [setPatches, List.filterMap_append]

theorem setPatches_of_gets (gets : List Call) (h : ∀ call ∈ gets, call.isSet = false) :
    setPatches gets = [] := by
  induction gets with
  | nil => rfl
  | cons call rest ih =>
    have hc := h call (by simp)
    cases call with
    | get type ids r =>
      simp only [setPatches, List.filterMap_cons]
      exact ih (fun c hc' => h c (by simp [hc']))
    | set p r => simp [Call.isSet] at hc

theorem setPatches_of_sets (ps : List Patch) :
    setPatches (ps.map (fun p => Call.set p (Except.ok ()))) = ps := by
  induction ps with
  | nil => rfl
  | cons p rest ih =>
    simp only [List.map_cons, setPatches, List.filterMap_cons]
    exact congrArg (p :: ·) ih

/-- The sender-key loop of `set`, when it returns: one `set` per name, in
order, each with the patch of that name alone. -/
theorem storeSenderKeys_calls {σ : Type} (S : Store σ) (data : Patch) (names : List String)
    (w : World σ) (hok : (storeSenderKeys S data names w).1 = Except.ok ()) :
    (storeSenderKeys S data names w).2.log
      = w.log ++ names.map (fun name => Call.set (senderKeyPatch data name) (Except.ok ())) := by
  induction names generalizing w with
  | nil => simp [storeSenderKeys]
  | cons name rest ih =>
    unfold storeSenderKeys at hok ⊢
    simp only at hok ⊢
    have hlog := (storeSet_log S (senderKeyPatch data name) w).1
    unfold senderKeyPatch at hlog
    rcases hss : storeSet S [("sender-key", match Patch.entry data "sender-key" name with
        | some v => [(name, v)]
        | none => [])] w with ⟨r, w1⟩
    rw [hss] at hok hlog
    simp only at hlog
    cases r with
    | error e => cases hok
    | ok u =>
      simp only at hok ⊢
      rw [ih w1 hok, hlog]
      simp [senderKeyPatch]

/-- The callback of `withMutexes` in `set`, when it returns: the reads of the
pre-key pass, then one `set` with the patch as the pass left it. -/
theorem validateAndStore_calls {σ : Type} (S : Store σ) (data : Patch) (w : World σ)
    (hok : (validateAndStore S data w).1 = Except.ok ()) :
    ∃ gets data1, (validateAndStore S data w).2.log
        = w.log ++ gets ++ [Call.set data1 (Except.ok ())] ∧
      (∀ call ∈ gets, call.isSet = false) ∧
      PassSpec (fun id => Patch.entry data "pre-key" id = some none) "pre-key" data gets
        (Except.ok data1) := by
  unfold validateAndStore at hok ⊢
  obtain ⟨gets, hl1, hs1⟩ := preKeyPass_spec S (Obj.keys data) data w
  rcases hp : preKeyPass S (Obj.keys data) data w with ⟨r, w1⟩
  rw [hp] at hl1 hs1 hok
  simp only at hl1 hs1 hok ⊢
  cases r with
  | error e => cases hok
  | ok data1 =>
    simp only at hok ⊢
    have hlog := (storeSet_log S data1 w1).1
    rw [hok] at hlog
    refine ⟨gets, data1, ?_, ?_, hs1⟩
    · rw [hlog, hl1]
    · intro call hc
      obtain ⟨id, r, h, _⟩ := hs1.1 call hc
      rw [h]
      rfl

theorem entry_senderKeyPatch (data : Patch) (name t i : String) :
    Patch.entry (senderKeyPatch data name) t i
      = if t = "sender-key" ∧ i = name then Patch.entry data "sender-key" i else none := by
  unfold senderKeyPatch
  by_cases ht : t = "sender-key"
  · subst ht
    by_cases hi : i = name
    · subst hi
      cases he : Patch.entry data "sender-key" i with
      | none => simp [Patch.entry, Obj.get]
      | some v => simp [Patch.entry, Obj.get]
    · have hi' : ¬ name = i := fun h => hi h.symm
      cases he : Patch.entry data "sender-key" name with
      | none => simp [Patch.entry, Obj.get, hi]
      | some v => simp [Patch.entry, Obj.get, hi, hi']
  · have ht' : ¬ "sender-key" = t := fun h => ht h.symm
    simp [Patch.entry, Obj.get, ht, ht']

/-- The union of the single-name patches of the sender-key loop. -/
theorem mergeWrites_senderKeyPatches (data : Patch) (names : List String) (t i : String) :
    ∀ before : Option Val,
      mergeWrites (names.map (senderKeyPatch data)) t i before
        = if t = "sender-key" ∧ i ∈ names then (Patch.entry data "sender-key" i).or before
          else before := by
  induction names with
  | nil =>
    intro before
    simp [mergeWrites]
  | cons n rest ih =>
    intro before
    simp only [List.map_cons, mergeWrites, List.foldl_cons]
    have := ih ((Patch.entry (senderKeyPatch data n) t i).or before)
    simp only [mergeWrites] at this
    rw [this, entry_senderKeyPatch]
    by_cases ht : t = "sender-key"
    · by_cases hin : i = n
      · subst hin
        by_cases hr : i ∈ rest
        · simp only [ht, hr, and_self, if_true, List.mem_cons, true_or]
          cases Patch.entry data "sender-key" i <;> simp
        · simp [ht, hr]
      · by_cases hr : i ∈ rest
        · simp [ht, hin, hr]
        · simp [ht, hin, hr]
    · simp [ht]

/-- C26. A `set` made while no transaction is open, with a patch that has
sender-key entries, and that returns: the store receives one `set` per sender
key, in order, each with a patch that holds that entry alone; then the reads of
the pre-key pass; then, when the patch names other key types, one `set` more
with all of them and no sender key (none when it names no other type). The
union of the patches sent is the patch handed in, less the pre-key deletions
dropped because the store answered that the id holds nothing. -/
theorem direct_set_splits_sender_keys {σ : Type} (S : Store σ) (data : Patch) (c : Coord)
    (w : World σ) (hidle : isInTransaction c = false)
    (hsk : Obj.has data "sender-key" = true)
    (hok : (coordSet S data (c, w)).1 = Except.ok ()) :
    ∃ (gets : List Call) (rest : List Patch),
      callsSince w.log (coordSet S data (c, w)).2.2.log
        = (Obj.keys ((Obj.get data "sender-key").getD [])).map
            (fun name => Call.set (senderKeyPatch data name) (Except.ok ()))
          ++ gets ++ rest.map (fun p => Call.set p (Except.ok ())) ∧
      (∀ call ∈ gets, call.isSet = false) ∧
      (∀ name ∈ Obj.keys ((Obj.get data "sender-key").getD []),
        ∃ v, Patch.entry data "sender-key" name = some v ∧
          senderKeyPatch data name = [("sender-key", [(name, v)])]) ∧
      rest.length = (if (Obj.keys (Obj.delete data "sender-key")).length > 0 then 1 else 0) ∧
      (∀ p ∈ rest, ∀ i, Patch.entry p "sender-key" i = none) ∧
      (∀ t i,
        mergeWrites (setPatches (callsSince w.log (coordSet S data (c, w)).2.2.log)) t i none
            = Patch.entry data t i ∨
        (t = "pre-key" ∧ Patch.entry data t i = some none ∧ AnsweredMissing gets "pre-key" i ∧
          mergeWrites (setPatches (callsSince w.log (coordSet S data (c, w)).2.2.log)) t i none
            = none)) := by
  have hco : coordSet S data (c, w) = ((setDirect S data w).1, (c, (setDirect S data w).2)) := by
    simp [coordSet, hidle]
  rw [hco] at hok ⊢
  simp only at hok ⊢
  have hnames : ∀ name ∈ Obj.keys ((Obj.get data "sender-key").getD []),
      ∃ v, Patch.entry data "sender-key" name = some v ∧
        senderKeyPatch data name = [("sender-key", [(name, v)])] := by
    intro name hn
    cases hd : Obj.get data "sender-key" with
    | none =>
      rw [hd] at hn
      simp [Obj.keys] at hn
    | some d =>
      rw [hd] at hn
      simp only [Option.getD_some] at hn
      cases hv : Obj.get d name with
      | none => exact absurd hn ((Obj.get_eq_none_iff d name).1 hv)
      | some v =>
        have he : Patch.entry data "sender-key" name = some v := by
          simp [Patch.entry, hd, hv]
        exact ⟨v, he, by simp [senderKeyPatch, he]⟩
  have hmerge0 : ∀ t i, mergeWrites ((Obj.keys ((Obj.get data "sender-key").getD [])).map
      (senderKeyPatch data)) t i none
      = if t = "sender-key" then Patch.entry data t i else none := by
    intro t i
    rw [mergeWrites_senderKeyPatches]
    by_cases ht : t = "sender-key"
    · subst ht
      by_cases hin : i ∈ Obj.keys ((Obj.get data "sender-key").getD [])
      · simp [hin]
      · simp only [hin, and_false, if_false, if_true]
        cases hd : Obj.get data "sender-key" with
        | none => simp [Patch.entry, hd]
        | some d =>
          rw [hd] at hin
          simp only [Option.getD_some] at hin
          simp [Patch.entry, hd, (Obj.get_eq_none_iff d i).2 hin]
    · simp [ht]
  unfold setDirect at hok ⊢
  simp only [hsk, if_true] at hok ⊢
  rcases hs : storeSenderKeys S data (Obj.keys ((Obj.get data "sender-key").getD [])) w
    with ⟨r, w1⟩
  have hcalls0 := storeSenderKeys_calls S data (Obj.keys ((Obj.get data "sender-key").getD [])) w
  rw [hs] at hok hcalls0
  cases r with
  | error e => cases hok
  | ok u =>
    simp only at hok hcalls0 ⊢
    have hl0 := hcalls0 trivial
    by_cases hlen : (Obj.keys (Obj.delete data "sender-key")).length > 0
    · simp only [hlen, if_true] at hok ⊢
      obtain ⟨gets, data1, hl1, hgets, hpass⟩ :=
        validateAndStore_calls S (Obj.delete data "sender-key") w1 hok
      obtain ⟨hasked, -, hkeep⟩ := hpass
      obtain ⟨hent, -⟩ := hkeep data1 rfl
      have hd1 : ∀ i, Patch.entry data1 "sender-key" i = none := by
        intro i
        rcases hent "sender-key" i with h | ⟨h, -, -⟩
        · rw [h, entry_delete]
          simp
        · exact h
      refine ⟨gets, [data1], ?_, hgets, hnames, rfl, ?_, ?_⟩
      · rw [hl1, hl0, callsSince, List.append_assoc, List.append_assoc, List.drop_left]
        simp
      · intro p hp i
        rw [List.mem_singleton.1 hp]
        exact hd1 i
      · intro t i
        rw [hl1, hl0, callsSince, List.append_assoc, List.append_assoc, List.drop_left,
          setPatches_append, setPatches_append, setPatches_of_gets gets hgets]
        have hsets := setPatches_of_sets
          ((Obj.keys ((Obj.get data "sender-key").getD [])).map (senderKeyPatch data))
        rw [List.map_map] at hsets
        have hsets' : setPatches ((Obj.keys ((Obj.get data "sender-key").getD [])).map
            (fun name => Call.set (senderKeyPatch data name) (Except.ok ())))
            = (Obj.keys ((Obj.get data "sender-key").getD [])).map (senderKeyPatch data) := hsets
        rw [hsets']
        have hlast : setPatches [Call.set data1 (Except.ok ())] = [data1] := rfl
        rw [hlast, List.nil_append, mergeWrites_append, hmerge0]
        simp only [mergeWrites, List.foldl_cons, List.foldl_nil]
        by_cases ht : t = "sender-key"
        · left
          subst ht
          simp [hd1 i]
        · simp only [ht, if_false, Option.or_none]
          rcases hent t i with h | ⟨h, hpk, hmiss⟩
          · left
            rw [h, entry_delete, if_neg (fun h' : "sender-key" = t => ht h'.symm)]
          · right
            refine ⟨hpk, ?_, hmiss, h⟩
            obtain ⟨r, hr, -⟩ := hmiss
            obtain ⟨id, r', hcall, hask⟩ := hasked _ hr
            simp only [Call.get.injEq, List.cons.injEq, and_true, true_and] at hcall
            rw [hcall.1] at *
            rw [entry_delete] at hask
            subst hpk
            simpa using hask
    · simp only [hlen, if_false] at hok ⊢
      have hnil : Obj.delete data "sender-key" = [] := by
        have : (Obj.delete data "sender-key").length = 0 := by
          simpa [Obj.keys] using hlen
        exact List.length_eq_zero.1 this
      refine ⟨[], [], ?_, by simp, hnames, rfl, by simp, ?_⟩
      · rw [hl0, callsSince, List.drop_left]
        simp
      · intro t i
        left
        rw [hl0, callsSince, List.drop_left]
        have hsets := setPatches_of_sets
          ((Obj.keys ((Obj.get data "sender-key").getD [])).map (senderKeyPatch data))
        rw [List.map_map] at hsets
        have hsets' : setPatches ((Obj.keys ((Obj.get data "sender-key").getD [])).map
            (fun name => Call.set (senderKeyPatch data name) (Except.ok ())))
            = (Obj.keys ((Obj.get data "sender-key").getD [])).map (senderKeyPatch data) := hsets
        rw [hsets', hmerge0]
        by_cases ht : t = "sender-key"
        · simp [ht]
        · simp only [ht, if_false]
          have := entry_delete data "sender-key" t i
          rw [hnil] at this
          rw [if_neg (fun h' : "sender-key" = t => ht h'.symm)] at this
          rw [← this]
          rfl

theorem direct_set_splits_sender_keys_witness :
    isInTransaction Coord.init = false ∧ Obj.has groupPatch "sender-key" = true ∧
    (coordSet memStore groupPatch (Coord.init, World.fresh [])).1 = Except.ok () ∧
    ∃ (gets : List Call) (rest : List Patch),
      callsSince (World.fresh ([] : Patch)).log (coordSet memStore groupPatch (Coord.init, World.fresh [])).2.2.log
        = (Obj.keys ((Obj.get groupPatch "sender-key").getD [])).map
            (fun name => Call.set (senderKeyPatch groupPatch name) (Except.ok ()))
          ++ gets ++ rest.map (fun p => Call.set p (Except.ok ())) ∧
      (∀ call ∈ gets, call.isSet = false) ∧
      (∀ name ∈ Obj.keys ((Obj.get groupPatch "sender-key").getD []),
        ∃ v, Patch.entry groupPatch "sender-key" name = some v ∧
          senderKeyPatch groupPatch name = [("sender-key", [(name, v)])]) ∧
      rest.length = (if (Obj.keys (Obj.delete groupPatch "sender-key")).length > 0 then 1 else 0) ∧
      (∀ p ∈ rest, ∀ i, Patch.entry p "sender-key" i = none) ∧
      (∀ t i,
        mergeWrites (setPatches (callsSince (World.fresh ([] : Patch)).log (coordSet memStore groupPatch (Coord.init, World.fresh [])).2.2.log)) t i none
            = Patch.entry groupPatch t i ∨
        (t = "pre-key" ∧ Patch.entry groupPatch t i = some none ∧ AnsweredMissing gets "pre-key" i ∧
          mergeWrites (setPatches (callsSince (World.fresh ([] : Patch)).log (coordSet memStore groupPatch (Coord.init, World.fresh [])).2.2.log)) t i none
            = none)) :=
  ⟨by decide, by decide, by decide,
    direct_set_splits_sender_keys memStore groupPatch Coord.init (World.fresh [])
      (by decide) (by decide) (by decide)⟩

/-- The run of the witness above over an empty store: two `set` calls with one
sender key each, the read that finds pre-key `7` missing, and one `set` with
the session and the pre-key type emptied of the dropped deletion. -/
theorem direct_set_example :
    (coordSet memStore groupPatch (Coord.init, World.fresh [])).2.2.log
      = [Call.set [("sender-key", [("g1::alice.0", some "k1")])] (Except.ok ()),
         Call.set [("sender-key", [("g2::bob.0", some "k2")])] (Except.ok ()),
         Call.get "pre-key" ["7"] (Except.ok []),
         Call.set [("pre-key", []), ("session", [("alice.0", some "s1")])] (Except.ok ())] := by
  decide

/-! ## Device lists -/

theorem keepsDevice_iff (me : DecodedJid) (excludeZeroDevices : Bool) (user : String)
    (entry : DeviceEntry) :
    keepsDevice me excludeZeroDevices user entry = true ↔
      (excludeZeroDevices = false ∨ entry.id ≠ 0) ∧
      (user ≠ me.user ∨ some entry.id ≠ me.device) ∧
      (entry.id = 0 ∨ truthyNumber entry.keyIndex = true) := by
  unfold keepsDevice
  simp only [Bool.and_eq_true, Bool.or_eq_true, Bool.not_eq_true', decide_eq_true_eq]
  constructor
  · rintro ⟨⟨h1, h2⟩, h3⟩
    exact ⟨h1, h2.imp (fun h e => h e.symm) (fun h e => h e.symm), h3⟩
  · rintro ⟨h1, h2, h3⟩
    exact ⟨⟨h1, h2.imp (fun h e => h e.symm) (fun h e => h e.symm)⟩, h3⟩

/-- The inner loop of `extractDeviceJids`: the devices kept are appended in the
order of the list. -/
theorem foldl_push_kept {α β : Type} (keep : α → Bool) (f : α → β) (l : List α) :
    ∀ acc : List β,
      l.foldl (fun acc a => if keep a then acc ++ [f a] else acc) acc
        = acc ++ (l.filter keep).map f := by
  induction l with
  | nil => intro acc; simp
  | cons a rest ih =>
    intro acc
    rw [List.foldl_cons, ih]
    by_cases h : keep a = true
    · simp [h, List.filter_cons]
    · simp [h, List.filter_cons]

/-- The outer loop of `extractDeviceJids`, when every id decodes. -/
theorem extractLoop_spec (jidDecode : String → Option DecodedJid) (me : DecodedJid)
    (excludeZeroDevices : Bool) (result : List UserResult)
    (hall : ∀ userResult ∈ result, (jidDecode userResult.id).isSome = true) :
    ∀ extracted : List (String × Int),
      extractLoop jidDecode me excludeZeroDevices result extracted
        = Except.ok (extracted
            ++ result.flatMap (devicesKept jidDecode me excludeZeroDevices)) := by
  induction result with
  | nil => intro extracted; simp [extractLoop]
  | cons userResult rest ih =>
    intro extracted
    have hd := hall userResult (by simp)
    cases hj : jidDecode userResult.id with
    | none => rw [hj] at hd; cases hd
    | some decoded =>
      unfold extractLoop
      simp only [hj]
      rw [ih (fun u hu => hall u (by simp [hu]))]
      cases hl : userResult.deviceList with
      | none => simp [devicesKept, hj, hl]
      | some deviceList =>
        simp only [foldl_push_kept, List.flatMap_cons, devicesKept, hj, hl, List.append_assoc]
        congr 4
        apply List.filter_congr
        intro entry _
        rw [Bool.eq_iff_iff, keepsDevice_iff]
        simp

/-- C28. When `myJid` and the id of every user result decode,
`extractDeviceJids` returns, in the order of the input, the pairs of user and
device of the device lists for which all three hold: `excludeZeroDevices` is
false or the device is not 0; the user is not my user or the device is not my
device; the device is 0 or `keyIndex` is set (truthy: neither missing nor 0).
My own pair of user and device is never among them, and a user result without
a device list contributes nothing. -/
theorem extractDeviceJids_keeps_listed_devices (jidDecode : String → Option DecodedJid)
    (result : List UserResult) (myJid : String) (excludeZeroDevices : Bool) (me : DecodedJid)
    (hme : jidDecode myJid = some me)
    (hall : ∀ userResult ∈ result, (jidDecode userResult.id).isSome = true) :
    extractDeviceJids jidDecode result myJid excludeZeroDevices
      = Except.ok (result.flatMap (devicesKept jidDecode me excludeZeroDevices)) ∧
    (∀ device, me.device = some device →
      (me.user, device) ∉ result.flatMap (devicesKept jidDecode me excludeZeroDevices)) ∧
    (∀ userResult ∈ result, userResult.deviceList = none →
      devicesKept jidDecode me excludeZeroDevices userResult = []) := by
  refine ⟨?_, ?_, ?_⟩
  · unfold extractDeviceJids
    simp only [hme]
    rw [extractLoop_spec jidDecode me excludeZeroDevices result hall []]
    simp
  · intro device hdev hmem
    obtain ⟨userResult, -, hin⟩ := List.mem_flatMap.1 hmem
    unfold devicesKept at hin
    cases hj : jidDecode userResult.id with
    | none => simp [hj] at hin
    | some decoded =>
      cases hl : userResult.deviceList with
      | none => simp [hj, hl] at hin
      | some deviceList =>
        simp only [hj, hl, List.mem_map, List.mem_filter, decide_eq_true_eq] at hin
        obtain ⟨entry, ⟨-, -, hdiff, -⟩, heq⟩ := hin
        simp only [Prod.mk.injEq] at heq
        rcases hdiff with h | h
        · exact h heq.1
        · rw [hdev, heq.2] at h
          exact h rfl
  · intro userResult _ hl
    unfold devicesKept
    cases hj : jidDecode userResult.id <;> simp [hl]

theorem extractDeviceJids_keeps_listed_devices_witness :
    tableDecode "me:2" = some { user := "me", device := some 2 } ∧
    (∀ userResult ∈ usync0, (tableDecode userResult.id).isSome = true) ∧
    (extractDeviceJids tableDecode usync0 "me:2" true
      = Except.ok (usync0.flatMap
          (devicesKept tableDecode { user := "me", device := some 2 } true)) ∧
    (∀ device, ({ user := "me", device := some 2 } : DecodedJid).device = some device →
      (({ user := "me", device := some 2 } : DecodedJid).user, device)
        ∉ usync0.flatMap (devicesKept tableDecode { user := "me", device := some 2 } true)) ∧
    (∀ userResult ∈ usync0, userResult.deviceList = none →
      devicesKept tableDecode { user := "me", device := some 2 } true userResult = [])) :=
  ⟨by decide, by decide,
    extractDeviceJids_keeps_listed_devices tableDecode usync0 "me:2" true
      { user := "me", device := some 2 } (by decide) (by decide)⟩

/-- On `usync0` for the caller `me:2`: with zero devices excluded, device 3 of
`me` and device 7 of `ann` are returned; with zero devices kept, the devices 0
as well; device 5 of `ann`, which has no key index, and my own device 2 never
are. -/
theorem extractDeviceJids_example :
    extractDeviceJids tableDecode usync0 "me:2" true = Except.ok [("me", 3), ("ann", 7)] ∧
    extractDeviceJids tableDecode usync0 "me:2" false
      = Except.ok [("me", 0), ("me", 3), ("ann", 0), ("ann", 7)] := by
  decide

/-! ## The pre-generation buffer -/

theorem draws_succ (supply : Nat → Blob) (n k : Nat) :
    draws supply n (k + 1) = supply n :: draws supply (n + 1) k := by
  unfold draws
  rw [List.range_succ_eq_map, List.map_cons, List.map_map]
  congr 1
  apply List.map_congr_left
  intro j _
  simp only [Function.comp, Nat.succ_eq_add_one]
  congr 1
  omega

theorem length_draws (supply : Nat → Blob) (n k : Nat) : (draws supply n k).length = k := by
  simp [draws]

theorem mem_draws (supply : Nat → Blob) (n k : Nat) (v : Blob) :
    v ∈ draws supply n k ↔ ∃ j, j < k ∧ v = supply (n + j) := by
  simp only [draws, List.mem_map, List.mem_range]
  constructor
  · rintro ⟨j, hj, rfl⟩
    exact ⟨j, hj, rfl⟩
  · rintro ⟨j, hj, rfl⟩
    exact ⟨j, hj, rfl⟩

namespace IdObj

/-- Writing a key that the object does not have appends the entry. -/
theorem set_fresh {α : Type} (o : IdObj α) (k : Int) (v : α)
    (h : ∀ k' ∈ o.map Prod.fst, k' ≠ k) : set o k v = o ++ [(k, v)] := by
  induction o with
  | nil => rfl
  | cons p r ih =>
    obtain ⟨k', v'⟩ := p
    have hk : k' ≠ k := h k' (by simp)
    simp only [set, hk, if_false, List.cons_append]
    rw [ih (fun x hx => h x (by simp [hx]))]

end IdObj

/-- Generating key pairs for the ids `start, start + 1, ...` into an object
whose ids are all below `start`: the entries appended pair those ids with the
next draws of the supply. -/
theorem foldl_generateFor_eq (supply : Nat → Blob) (n : Nat) :
    ∀ (start : Int) (acc : IdObj Blob × PreKeyGenerationCache),
      (∀ k ∈ acc.1.map Prod.fst, k < start) →
      (idsFrom start n).foldl (generateFor supply) acc
        = (acc.1 ++ List.zip (idsFrom start n) (draws supply acc.2.drawn n),
           { acc.2 with drawn := acc.2.drawn + n }) := by
  induction n with
  | zero =>
    intro start acc _
    simp [idsFrom, draws]
  | succ n ih =>
    intro start acc h
    rw [idsFrom_succ, List.foldl_cons]
    have hstep : generateFor supply acc start
        = (acc.1 ++ [(start, supply acc.2.drawn)], { acc.2 with drawn := acc.2.drawn + 1 }) := by
      unfold generateFor generateSinglePreKey
      simp only
      rw [IdObj.set_fresh _ _ _ (fun k hk => by have := h k hk; omega)]
    rw [hstep, ih (start + 1) _ ?_]
    · simp only [draws_succ, List.zip_cons_cons, List.append_assoc, List.singleton_append]
      congr 2
      omega
    · intro k hk
      simp only [List.map_append, List.map_cons, List.map_nil, List.mem_append,
        List.mem_singleton] at hk
      rcases hk with hk | hk
      · have := h k hk
        omega
      · omega

/-- The loop over the buffered key pairs: the first `m` of them are paired, in
order, with the ids from `keyIndex` on, where `m` is the lesser of the size of
the buffer and the number of ids up to `lastPreKeyId`. -/
theorem fillFromPending_eq (pending : List (Int × Blob)) :
    ∀ (keyIndex lastPreKeyId : Int) (acc : IdObj Blob),
      (∀ k ∈ acc.map Prod.fst, k < keyIndex) → keyIndex ≤ lastPreKeyId + 1 →
      fillFromPending pending keyIndex lastPreKeyId acc
        = (acc ++ List.zip
            (idsFrom keyIndex (min pending.length (lastPreKeyId + 1 - keyIndex).toNat))
            ((pending.take (min pending.length
              (lastPreKeyId + 1 - keyIndex).toNat)).map Prod.snd),
           keyIndex + (min pending.length (lastPreKeyId + 1 - keyIndex).toNat : Nat)) := by
  induction pending with
  | nil =>
    intro keyIndex lastPreKeyId acc _ _
    simp [fillFromPending, idsFrom]
  | cons p rest ih =>
    intro keyIndex lastPreKeyId acc h hle
    obtain ⟨i, keyPair⟩ := p
    unfold fillFromPending
    by_cases hk : keyIndex ≤ lastPreKeyId
    · rw [if_pos hk, IdObj.set_fresh _ _ _ (fun k hk' => by have := h k hk'; omega),
        ih (keyIndex + 1) lastPreKeyId _ ?_ (by omega)]
      · have hmin : min (List.length ((i, keyPair) :: rest))
            (lastPreKeyId + 1 - keyIndex).toNat
            = min rest.length (lastPreKeyId + 1 - (keyIndex + 1)).toNat + 1 := by
          simp only [List.length_cons]
          omega
        rw [hmin, idsFrom_succ, List.take_succ_cons, List.map_cons, List.zip_cons_cons]
        simp only [List.append_assoc, List.singleton_append, Nat.cast_add, Nat.cast_one]
        congr 1
        omega
      · intro k hk'
        simp only [List.map_append, List.map_cons, List.map_nil, List.mem_append,
          List.mem_singleton] at hk'
        rcases hk' with hk' | hk'
        · have := h k hk'
          omega
        · omega
    · rw [if_neg hk]
      have hz : (lastPreKeyId + 1 - keyIndex).toNat = 0 := by omega
      simp [hz, idsFrom]

/-- What `generateOrGetPreKeys` hands out when it does not read the buffer
(nothing is missing, or the buffer is empty, or it is 5000 ms old or older):
the missing ids paired with the next draws of the supply; the buffer is left
as it was. -/
theorem generateOrGetPreKeys_unbuffered (supply : Nat → Blob) (now : Int) (creds : Creds)
    (range : Int) (g : PreKeyGenerationCache)
    (hno : ¬ (0 < range - (creds.nextPreKeyId - creds.firstUnuploadedPreKeyId) ∧
      g.pendingKeys.length > 0 ∧ now - g.lastGenerationTime < 5000)) :
    (generateOrGetPreKeys supply now creds range g).1.newPreKeys
      = List.zip
          (idsFrom creds.nextPreKeyId
            (range - (creds.nextPreKeyId - creds.firstUnuploadedPreKeyId)).toNat)
          (draws supply g.drawn
            (range - (creds.nextPreKeyId - creds.firstUnuploadedPreKeyId)).toNat) ∧
    (generateOrGetPreKeys supply now creds range g).2
      = { g with drawn := g.drawn
            + (range - (creds.nextPreKeyId - creds.firstUnuploadedPreKeyId)).toNat } := by
  unfold generateOrGetPreKeys
  by_cases hpos : range - (creds.nextPreKeyId - creds.firstUnuploadedPreKeyId) > 0
  · have hb : ¬ (g.pendingKeys.length > 0 ∧ now - g.lastGenerationTime < 5000) :=
      fun h => hno ⟨hpos, h⟩
    simp only [hpos, hb, if_true, if_false]
    rw [length_idsFrom, foldl_slices (generateFor supply) PREKEY_BATCH_SIZE (by decide) _ _ _
      (by rw [length_idsFrom]), foldl_generateFor_eq supply _ _ _ (by simp)]
    have hn : (creds.nextPreKeyId
        + (range - (creds.nextPreKeyId - creds.firstUnuploadedPreKeyId)) - 1 + 1
        - creds.nextPreKeyId).toNat
        = (range - (creds.nextPreKeyId - creds.firstUnuploadedPreKeyId)).toNat := by
      omega
    simp only [hn, List.nil_append]
    exact ⟨trivial, trivial⟩
  · have hz : (range - (creds.nextPreKeyId - creds.firstUnuploadedPreKeyId)).toNat = 0 := by
      omega
    simp only [hpos, if_false, hz]
    exact ⟨by simp [idsFrom, draws], rfl⟩

/-- What `generateOrGetPreKeys` hands out when it reads the buffer (ids are
missing, the buffer is not empty and less than 5000 ms old): the first missing
ids take the buffered key pairs one each, in the order of the buffer, as far
as the buffer or the missing ids go; the remaining ids take the next draws of
the supply; the buffer is left empty. -/
theorem generateOrGetPreKeys_buffered (supply : Nat → Blob) (now : Int) (creds : Creds)
    (range : Int) (g : PreKeyGenerationCache)
    (hpos : 0 < range - (creds.nextPreKeyId - creds.firstUnuploadedPreKeyId))
    (hfull : g.pendingKeys.length > 0) (hfresh : now - g.lastGenerationTime < 5000) :
    (generateOrGetPreKeys supply now creds range g).1.newPreKeys
      = List.zip
          (idsFrom creds.nextPreKeyId (min g.pendingKeys.length
            (range - (creds.nextPreKeyId - creds.firstUnuploadedPreKeyId)).toNat))
          ((g.pendingKeys.take (min g.pendingKeys.length
            (range - (creds.nextPreKeyId - creds.firstUnuploadedPreKeyId)).toNat)).map Prod.snd)
        ++ List.zip
          (idsFrom (creds.nextPreKeyId + (min g.pendingKeys.length
              (range - (creds.nextPreKeyId - creds.firstUnuploadedPreKeyId)).toNat : Nat))
            ((range - (creds.nextPreKeyId - creds.firstUnuploadedPreKeyId)).toNat
              - g.pendingKeys.length))
          (draws supply g.drawn
            ((range - (creds.nextPreKeyId - creds.firstUnuploadedPreKeyId)).toNat
              - g.pendingKeys.length)) ∧
    (generateOrGetPreKeys supply now creds range g).2
      = { g with
          pendingKeys := [],
          drawn := g.drawn
            + ((range - (creds.nextPreKeyId - creds.firstUnuploadedPreKeyId)).toNat
              - g.pendingKeys.length) } := by
  unfold generateOrGetPreKeys
  have hpos' : range - (creds.nextPreKeyId - creds.firstUnuploadedPreKeyId) > 0 := hpos
  have hb : g.pendingKeys.length > 0 ∧ now - g.lastGenerationTime < 5000 := ⟨hfull, hfresh⟩
  simp only [hpos', hb, and_self, if_true]
  have hn : (creds.nextPreKeyId
      + (range - (creds.nextPreKeyId - creds.firstUnuploadedPreKeyId)) - 1 + 1
      - creds.nextPreKeyId).toNat
      = (range - (creds.nextPreKeyId - creds.firstUnuploadedPreKeyId)).toNat := by
    omega
  rw [fillFromPending_eq g.pendingKeys creds.nextPreKeyId _ [] (by simp) (by omega), hn]
  simp only [List.nil_append]
  rw [foldl_generateFor_eq supply _ _ _ ?_]
  · have hk : (creds.nextPreKeyId
        + (range - (creds.nextPreKeyId - creds.firstUnuploadedPreKeyId)) - 1 + 1
        - (creds.nextPreKeyId + (min g.pendingKeys.length
            (range - (creds.nextPreKeyId - creds.firstUnuploadedPreKeyId)).toNat : Nat))).toNat
        = (range - (creds.nextPreKeyId - creds.firstUnuploadedPreKeyId)).toNat
          - g.pendingKeys.length := by
      omega
    simp only [hk]
    exact ⟨trivial, trivial⟩
  · intro k hk
    simp only at hk
    obtain ⟨p, hp, rfl⟩ := List.mem_map.1 hk
    have := (List.of_mem_zip hp).1
    exact ((mem_idsFrom _ _ _).1 this).2

namespace IdObj

/-- The values after a write: the value written, and values there before. -/
theorem mem_values_set {α : Type} (o : IdObj α) (k : Int) (v x : α)
    (h : x ∈ (set o k v).map Prod.snd) : x = v ∨ x ∈ o.map Prod.snd := by
  induction o with
  | nil =>
    simp only [set, List.map_cons, List.map_nil, List.mem_singleton] at h
    exact Or.inl h
  | cons p r ih =>
    obtain ⟨k', v'⟩ := p
    by_cases hk : k' = k
    · simp only [set, hk, if_true, List.map_cons, List.mem_cons] at h ⊢
      rcases h with h | h
      · exact Or.inl h
      · exact Or.inr (Or.inr h)
    · simp only [set, hk, if_false, List.map_cons, List.mem_cons] at h ⊢
      rcases h with h | h
      · exact Or.inr (Or.inl h)
      · rcases ih h with h' | h'
        · exact Or.inl h'
        · exact Or.inr (Or.inr h')

/-- Writing a value that is not there keeps the values pairwise distinct. -/
theorem nodup_values_set {α : Type} (o : IdObj α) (k : Int) (v : α)
    (hn : (o.map Prod.snd).Nodup) (hv : v ∉ o.map Prod.snd) :
    ((set o k v).map Prod.snd).Nodup := by
  induction o with
  | nil => simp [set]
  | cons p r ih =>
    obtain ⟨k', v'⟩ := p
    simp only [List.map_cons, List.nodup_cons, List.mem_cons, not_or] at hn hv
    by_cases hk : k' = k
    · simp only [set, hk, if_true, List.map_cons, List.nodup_cons]
      exact ⟨hv.2, hn.2⟩
    · simp only [set, hk, if_false, List.map_cons, List.nodup_cons]
      refine ⟨?_, ih hn.2 hv.2⟩
      intro hmem
      rcases mem_values_set r k v v' hmem with h | h
      · exact hv.1 h.symm
      · exact hn.1 h

end IdObj

/-- A draw of the supply not made yet is none of the key pairs held or handed
out. -/
theorem drawnOnce_fresh (supply : Nat → Blob) (hinj : Function.Injective supply)
    (s : PreKeyGenerationCache × List Blob) (h : DrawnOnce supply s) (j : Nat)
    (hj : s.1.drawn ≤ j) : supply j ∉ s.1.pendingKeys.map Prod.snd ++ s.2 := by
  intro hmem
  obtain ⟨i, hi, he⟩ := h.2 _ hmem
  have := hinj he
  omega

/-- One turn of `preGenerateKeys` keeps the key pairs pairwise distinct. -/
theorem drawnOnce_bufferOne (supply : Nat → Blob) (hinj : Function.Injective supply)
    (handed : List Blob) (g : PreKeyGenerationCache) (i : Int)
    (h : DrawnOnce supply (g, handed)) : DrawnOnce supply (bufferOne supply g i, handed) := by
  have hfresh := drawnOnce_fresh supply hinj (g, handed) h g.drawn (le_refl _)
  obtain ⟨hn, hd⟩ := h
  simp only at hn hd hfresh
  rw [List.mem_append, not_or] at hfresh
  rw [List.nodup_append] at hn
  unfold bufferOne generateSinglePreKey
  refine ⟨?_, ?_⟩
  · simp only
    rw [List.nodup_append]
    refine ⟨IdObj.nodup_values_set _ _ _ hn.1 hfresh.1, hn.2.1, ?_⟩
    intro x hx hx2
    rcases IdObj.mem_values_set _ _ _ _ hx with h' | h'
    · rw [h'] at hx2
      exact hfresh.2 hx2
    · exact hn.2.2 h' hx2
  · intro v hv
    simp only [List.mem_append] at hv
    rcases hv with hv | hv
    · rcases IdObj.mem_values_set _ _ _ _ hv with h' | h'
      · exact ⟨g.drawn, by simp, h'⟩
      · obtain ⟨j, hj, he⟩ := hd v (List.mem_append_left _ h')
        exact ⟨j, by simp only; omega, he⟩
    · obtain ⟨j, hj, he⟩ := hd v (List.mem_append_right _ hv)
      exact ⟨j, by simp only; omega, he⟩

/-- Emptying the buffer, or changing the time or the flag, keeps the key pairs
pairwise distinct. -/
theorem drawnOnce_of_less (supply : Nat → Blob) (handed : List Blob)
    (g g' : PreKeyGenerationCache) (h : DrawnOnce supply (g, handed))
    (hsub : ∀ v ∈ g'.pendingKeys.map Prod.snd, v ∈ g.pendingKeys.map Prod.snd)
    (hnd : (g'.pendingKeys.map Prod.snd).Nodup) (hdrawn : g.drawn ≤ g'.drawn) :
    DrawnOnce supply (g', handed) := by
  obtain ⟨hn, hd⟩ := h
  simp only at hn hd
  rw [List.nodup_append] at hn
  refine ⟨?_, ?_⟩
  · simp only
    rw [List.nodup_append]
    exact ⟨hnd, hn.2.1, fun x hx hx2 => hn.2.2 (hsub x hx) hx2⟩
  · intro v hv
    simp only [List.mem_append] at hv
    rcases hv with hv | hv
    · obtain ⟨j, hj, he⟩ := hd v (List.mem_append_left _ (hsub v hv))
      exact ⟨j, by simp only; omega, he⟩
    · obtain ⟨j, hj, he⟩ := hd v (List.mem_append_right _ hv)
      exact ⟨j, by simp only; omega, he⟩

theorem drawnOnce_preGenerateFrom (supply : Nat → Blob) (hinj : Function.Injective supply)
    (count : Nat) (now : Int) (b : Nat) (handed : List Blob) (g : PreKeyGenerationCache)
    (h : DrawnOnce supply (g, handed)) :
    DrawnOnce supply (preGenerateFrom supply count now b g, handed) := by
  have hbatch : DrawnOnce supply (preGenerateBatch supply count b g, handed) := by
    unfold preGenerateBatch
    exact foldl_invariant (fun g' => DrawnOnce supply (g', handed)) (bufferOne supply) _ g h
      (fun g' i hg => drawnOnce_bufferOne supply hinj handed g' i hg)
  unfold preGenerateFrom
  simp only
  split
  · split
    · exact hbatch
    · exact drawnOnce_of_less supply handed _ _ hbatch (fun v hv => hv) hbatch.1.of_append_left
        (le_refl _)
  · exact h

theorem drawnOnce_preGenerateStart (supply : Nat → Blob) (hinj : Function.Injective supply)
    (count : Nat) (now : Int) (handed : List Blob) (g : PreKeyGenerationCache)
    (h : DrawnOnce supply (g, handed)) :
    DrawnOnce supply (preGenerateStart supply count now g, handed) := by
  have h0 : DrawnOnce supply ({ g with isGenerating := true, pendingKeys := [] }, handed) :=
    drawnOnce_of_less supply handed g _ h (by simp) (by simp) (le_refl _)
  unfold preGenerateStart
  simp only
  split
  · exact h
  · split
    · exact drawnOnce_of_less supply handed g _ h (by simp) (by simp) (le_refl _)
    · exact drawnOnce_preGenerateFrom supply hinj count now 0 handed _ h0

theorem nodup_draws (supply : Nat → Blob) (hinj : Function.Injective supply) (n k : Nat) :
    (draws supply n k).Nodup := by
  unfold draws
  apply List.Nodup.map _ (List.nodup_range k)
  intro a b hab
  have := hinj hab
  omega

/-- Handing out key pairs taken from the buffer together with new draws keeps
all key pairs pairwise distinct. -/
theorem drawnOnce_extend (supply : Nat → Blob) (hinj : Function.Injective supply)
    (g g' : PreKeyGenerationCache) (handed taken : List Blob) (k : Nat)
    (h : DrawnOnce supply (g, handed)) (hdrawn : g'.drawn = g.drawn + k)
    (hsub : (g'.pendingKeys.map Prod.snd ++ taken).Sublist (g.pendingKeys.map Prod.snd)) :
    DrawnOnce supply (g', handed ++ (taken ++ draws supply g.drawn k)) := by
  have hfresh := fun j hj => drawnOnce_fresh supply hinj (g, handed) h j hj
  obtain ⟨hn, hd⟩ := h
  simp only at hn hd hfresh
  have hold : ((g'.pendingKeys.map Prod.snd ++ taken) ++ handed).Nodup :=
    hn.sublist (List.Sublist.append hsub (List.Sublist.refl handed))
  have hperm : (g'.pendingKeys.map Prod.snd ++ (handed ++ (taken ++ draws supply g.drawn k))).Perm
      (((g'.pendingKeys.map Prod.snd ++ taken) ++ handed) ++ draws supply g.drawn k) := by
    simp only [List.append_assoc]
    apply List.Perm.append_left
    rw [← List.append_assoc, ← List.append_assoc taken]
    exact List.Perm.append_right _ List.perm_append_comm
  have hmemold : ∀ v ∈ (g'.pendingKeys.map Prod.snd ++ taken) ++ handed,
      v ∈ g.pendingKeys.map Prod.snd ++ handed := by
    intro v hv
    rcases List.mem_append.1 hv with hv | hv
    · exact List.mem_append_left _ (hsub.subset hv)
    · exact List.mem_append_right _ hv
  refine ⟨?_, ?_⟩
  · simp only
    rw [hperm.nodup_iff, List.nodup_append]
    refine ⟨hold, nodup_draws supply hinj _ _, ?_⟩
    intro x hx hx2
    obtain ⟨j, -, rfl⟩ := (mem_draws supply _ _ _).1 hx2
    exact hfresh (g.drawn + j) (by omega) (hmemold _ hx)
  · intro v hv
    simp only at hv
    have hv' := hperm.subset hv
    rcases List.mem_append.1 hv' with hv' | hv'
    · obtain ⟨j, hj, he⟩ := hd v (hmemold v hv')
      exact ⟨j, by simp only; omega, he⟩
    · obtain ⟨j, hj, rfl⟩ := (mem_draws supply _ _ _).1 hv'
      exact ⟨g.drawn + j, by simp only; omega, rfl⟩

theorem drawnOnce_generate (supply : Nat → Blob) (hinj : Function.Injective supply)
    (creds : Creds) (range now : Int) (s : PreKeyGenerationCache × List Blob)
    (h : DrawnOnce supply s) :
    DrawnOnce supply ((PreKeyOp.generate creds range now).apply supply s) := by
  obtain ⟨g, handed⟩ := s
  simp only [PreKeyOp.apply]
  by_cases hc : 0 < range - (creds.nextPreKeyId - creds.firstUnuploadedPreKeyId) ∧
      g.pendingKeys.length > 0 ∧ now - g.lastGenerationTime < 5000
  · obtain ⟨h1, h2⟩ := generateOrGetPreKeys_buffered supply now creds range g hc.1 hc.2.1 hc.2.2
    rw [h1, h2, List.map_append,
      List.map_snd_zip _ _ (by simp [length_idsFrom]),
      List.map_snd_zip _ _ (by simp [length_idsFrom, length_draws])]
    exact drawnOnce_extend supply hinj g _ handed _ _ h rfl
      (by simpa using (List.take_sublist _ _).map Prod.snd)
  · obtain ⟨h1, h2⟩ := generateOrGetPreKeys_unbuffered supply now creds range g hc
    rw [h1, h2, List.map_snd_zip _ _ (by simp [length_idsFrom, length_draws])]
    have := drawnOnce_extend supply hinj g
      { g with drawn := g.drawn
          + (range - (creds.nextPreKeyId - creds.firstUnuploadedPreKeyId)).toNat }
      handed [] _ h rfl (by simp)
    simpa using this

/-- Whatever the order of the calls of `generateOrGetPreKeys` and of the
stretches of `preGenerateKeys`, the key pairs stay pairwise distinct. -/
theorem drawnOnce_run (supply : Nat → Blob) (hinj : Function.Injective supply)
    (ops : List PreKeyOp) :
    ∀ s : PreKeyGenerationCache × List Blob, DrawnOnce supply s →
      DrawnOnce supply (runPreKeyOps supply ops s) := by
  induction ops with
  | nil => intro s h; exact h
  | cons op rest ih =>
    intro s h
    simp only [runPreKeyOps, List.foldl_cons]
    apply ih
    cases op with
    | generate creds range now => exact drawnOnce_generate supply hinj creds range now s h
    | preGenerate count now =>
      exact drawnOnce_preGenerateStart supply hinj count now s.2 s.1 h
    | resume count now b =>
      exact drawnOnce_preGenerateFrom supply hinj count now b s.2 s.1 h

/-- C30. With `remaining = range - (nextPreKeyId - firstUnuploadedPreKeyId)`:
unless ids are missing, the buffer is not empty and it is less than 5000 ms
old, `generateOrGetPreKeys` pairs the missing ids with new draws of the supply
alone and leaves the buffer as it was. When all three hold, the buffered key
pairs go, one each and in the order of the buffer, to the first missing ids
(as far as the buffer or the ids go), the ids left over take new draws, and the
buffer is empty afterwards. Hence, with a supply that never yields the same
key pair twice, from the module's initial state and through any sequence of
calls of `generateOrGetPreKeys` and stretches of `preGenerateKeys`, no key pair
is handed out twice, be it for two ids or by two calls. -/
theorem buffered_key_pairs_handed_out_once (supply : Nat → Blob) :
    (∀ (now : Int) (creds : Creds) (range : Int) (g : PreKeyGenerationCache),
      ¬ (0 < range - (creds.nextPreKeyId - creds.firstUnuploadedPreKeyId) ∧
        g.pendingKeys.length > 0 ∧ now - g.lastGenerationTime < 5000) →
      (generateOrGetPreKeys supply now creds range g).1.newPreKeys
        = List.zip
            (idsFrom creds.nextPreKeyId
              (range - (creds.nextPreKeyId - creds.firstUnuploadedPreKeyId)).toNat)
            (draws supply g.drawn
              (range - (creds.nextPreKeyId - creds.firstUnuploadedPreKeyId)).toNat) ∧
      (generateOrGetPreKeys supply now creds range g).2.pendingKeys = g.pendingKeys) ∧
    (∀ (now : Int) (creds : Creds) (range : Int) (g : PreKeyGenerationCache),
      0 < range - (creds.nextPreKeyId - creds.firstUnuploadedPreKeyId) →
      g.pendingKeys.length > 0 → now - g.lastGenerationTime < 5000 →
      (generateOrGetPreKeys supply now creds range g).1.newPreKeys
        = List.zip
            (idsFrom creds.nextPreKeyId (min g.pendingKeys.length
              (range - (creds.nextPreKeyId - creds.firstUnuploadedPreKeyId)).toNat))
            ((g.pendingKeys.take (min g.pendingKeys.length
              (range - (creds.nextPreKeyId
                - creds.firstUnuploadedPreKeyId)).toNat)).map Prod.snd)
          ++ List.zip
            (idsFrom (creds.nextPreKeyId + (min g.pendingKeys.length
                (range - (creds.nextPreKeyId - creds.firstUnuploadedPreKeyId)).toNat : Nat))
              ((range - (creds.nextPreKeyId - creds.firstUnuploadedPreKeyId)).toNat
                - g.pendingKeys.length))
            (draws supply g.drawn
              ((range - (creds.nextPreKeyId - creds.firstUnuploadedPreKeyId)).toNat
                - g.pendingKeys.length)) ∧
      (generateOrGetPreKeys supply now creds range g).2.pendingKeys = []) ∧
    (Function.Injective supply → ∀ ops : List PreKeyOp,
      (runPreKeyOps supply ops (idleBuffer, [])).2.Nodup) := by
  refine ⟨?_, ?_, ?_⟩
  · intro now creds range g hno
    obtain ⟨h1, h2⟩ := generateOrGetPreKeys_unbuffered supply now creds range g hno
    exact ⟨h1, by rw [h2]⟩
  · intro now creds range g hpos hfull hfresh
    obtain ⟨h1, h2⟩ := generateOrGetPreKeys_buffered supply now creds range g hpos hfull hfresh
    exact ⟨h1, by rw [h2]⟩
  · intro hinj ops
    have h0 : DrawnOnce supply (idleBuffer, []) := by
      refine ⟨by simp [idleBuffer], ?_⟩
      intro v hv
      simp [idleBuffer] at hv
    exact (drawnOnce_run supply hinj ops _ h0).1.of_append_right

/-- A run from the module's initial state, with the supply `k0, k1, ...`: thirty
key pairs are buffered in three batches; a call for four ids made 50 ms later
takes the first four of them and empties the buffer; the next call draws anew. -/
theorem buffer_example :
    (runPreKeyOps (fun n => "k" ++ toString n)
      [PreKeyOp.preGenerate 30 1000, PreKeyOp.resume 30 1000 1, PreKeyOp.resume 30 1000 2,
       PreKeyOp.generate { nextPreKeyId := 1, firstUnuploadedPreKeyId := 1 } 4 1050,
       PreKeyOp.generate { nextPreKeyId := 5, firstUnuploadedPreKeyId := 5 } 2 1060]
      (idleBuffer, []))
      = ({ pendingKeys := [], lastGenerationTime := 1000, isGenerating := false, drawn := 32 },
         ["k0", "k1", "k2", "k3", "k30", "k31"]) := by
  decide

/-! ## MessageQueue: the order of the queue -/

/-- The insertion loop keeps a queue that is in priority order in priority order. -/
theorem insertByPriority_sorted (item : QueueItem) :
    ∀ queue : List QueueItem, InPriorityOrder queue →
      InPriorityOrder (insertByPriority item queue) := by
  intro queue
  induction queue with
  | nil => intro _; simp [insertByPriority, InPriorityOrder]
  | cons x rest ih =>
    intro h
    unfold InPriorityOrder at h ih ⊢
    rw [List.sorted_cons] at h
    unfold insertByPriority
    by_cases hx : x.priority > item.priority
    · rw [if_pos hx]
      refine List.sorted_cons.mpr ⟨?_, List.sorted_cons.mpr h⟩
      intro b hb
      rcases List.mem_cons.mp hb with rfl | hb
      · omega
      · have := h.1 b hb
        omega
    · rw [if_neg hx]
      refine List.sorted_cons.mpr ⟨?_, ih h.2⟩
      intro b hb
      have hmem : ∀ l : List QueueItem, b ∈ insertByPriority item l → b = item ∨ b ∈ l := by
        intro l
        induction l with
        | nil => intro hb; simp [insertByPriority] at hb; exact Or.inl hb
        | cons y l ihl =>
          intro hb
          unfold insertByPriority at hb
          by_cases hy : y.priority > item.priority
          · rw [if_pos hy] at hb
            rcases List.mem_cons.mp hb with rfl | hb
            · exact Or.inl rfl
            · exact Or.inr hb
          · rw [if_neg hy] at hb
            rcases List.mem_cons.mp hb with rfl | hb
            · exact Or.inr (List.mem_cons_self _ _)
            · rcases ihl hb with h1 | h1
              · exact Or.inl h1
              · exact Or.inr (List.mem_cons_of_mem _ h1)
      rcases hmem rest hb with rfl | hb
      · omega
      · exact h.1 b hb

/-- The insertion loop only adds the item: the queue it was given is a sublist
of the result. -/
theorem sublist_insertByPriority (item : QueueItem) :
    ∀ queue : List QueueItem, queue.Sublist (insertByPriority item queue) := by
  intro queue
  induction queue with
  | nil => simp
  | cons x rest ih =>
    unfold insertByPriority
    by_cases hx : x.priority > item.priority
    · rw [if_pos hx]; exact List.sublist_cons_self _ _
    · rw [if_neg hx]; exact ih.cons₂ _

/-- Below `MAX_QUEUE_SIZE`, `enqueue` keeps a queue that is in priority order in
priority order, whether it takes the item or rejects it as a duplicate. -/
theorem enqueue_below_capacity_sorted {ρ : Type} (R : RecentMessages ρ)
    (hashTask : String → Metadata → String) (id task : String) (priority : Int)
    (metadata : Metadata) (q : MessageQueue ρ)
    (hroom : q.queue.length < q.config.MAX_QUEUE_SIZE) (hsorted : InPriorityOrder q.queue) :
    InPriorityOrder (q.enqueue R hashTask id task priority metadata).2.queue := by
  unfold MessageQueue.enqueue
  simp only [ge_iff_le, if_neg (Nat.not_le.mpr hroom)]
  split
  · exact hsorted
  · exact insertByPriority_sorted _ _ hsorted

/-- What `_dropLowPriority` leaves is in the reverse of priority order. -/
theorem dropLowPriority_descending {ρ : Type} (q : MessageQueue ρ) :
    (q._dropLowPriority).queue.Sorted (fun a b => a.priority ≥ b.priority) := by
  unfold MessageQueue._dropLowPriority
  simp only
  haveI : IsTotal QueueItem (fun a b => a.priority ≥ b.priority) :=
    ⟨fun a b => by simp only [ge_iff_le]; omega⟩
  haveI : IsTrans QueueItem (fun a b => a.priority ≥ b.priority) :=
    ⟨fun a b c hab hbc => by simp only [ge_iff_le] at *; omega⟩
  exact (List.sorted_insertionSort (fun a b : QueueItem => a.priority ≥ b.priority)
    q.queue).sublist (List.drop_sublist _ _)

/-- At `MAX_QUEUE_SIZE`, when `_dropLowPriority` leaves items of two different
priorities, the queue after `enqueue` is not in priority order, whatever is
enqueued. -/
theorem enqueue_at_capacity_unsorted {ρ : Type} (R : RecentMessages ρ)
    (hashTask : String → Metadata → String) (id task : String) (priority : Int)
    (metadata : Metadata) (q : MessageQueue ρ)
    (hfull : q.config.MAX_QUEUE_SIZE ≤ q.queue.length)
    (a b : QueueItem) (ha : a ∈ (q._dropLowPriority).queue)
    (hb : b ∈ (q._dropLowPriority).queue) (hab : a.priority ≠ b.priority) :
    ¬ InPriorityOrder (q.enqueue R hashTask id task priority metadata).2.queue := by
  intro hsorted
  have hsub : (q._dropLowPriority).queue.Sublist
      (q.enqueue R hashTask id task priority metadata).2.queue := by
    unfold MessageQueue.enqueue
    simp only [ge_iff_le, if_pos hfull]
    split
    · exact List.Sublist.refl _
    · exact sublist_insertByPriority _ _
  have hup : (q._dropLowPriority).queue.Pairwise (fun a b => a.priority ≤ b.priority) :=
    List.Pairwise.sublist hsub hsorted
  have hdown := dropLowPriority_descending q
  have heq : (q._dropLowPriority).queue.Pairwise (fun a b => a.priority = b.priority) :=
    (List.Pairwise.and hup hdown).imp (fun h => by
      obtain ⟨h1, h2⟩ := h
      simp only [ge_iff_le] at h2
      omega)
  have hall : ∀ x ∈ (q._dropLowPriority).queue, ∀ y ∈ (q._dropLowPriority).queue,
      (fun a b : QueueItem => a.priority = b.priority) x y :=
    List.Pairwise.forall_of_forall
      (show Symmetric (fun a b : QueueItem => a.priority = b.priority) from
        fun x y h => h.symm)
      (show ∀ x ∈ (q._dropLowPriority).queue,
        (fun a b : QueueItem => a.priority = b.priority) x x from fun _ _ => rfl) heq
  exact hab (hall a ha b hb)

/-- C27. A `MessageQueue` for three items holds `a` (CRITICAL), `b` (HIGH) and
`c` (LOW) in priority order. `enqueue("d", PRIORITY.NORMAL, ..)` finds the queue
full: `_dropLowPriority` sorts it with the largest priority number first, drops
`c`, and leaves `b, a`; the new item goes to the end. The queue is then `b`
(HIGH), `a` (CRITICAL), `d` (NORMAL): it is not in priority order, and the item
at the front is not the one of the best priority present. -/
theorem full_queue_loses_priority_order :
    InPriorityOrder fullQueue.queue ∧
    fullQueue.queue.map (fun i => (i.task, i.priority)) = [("a", 0), ("b", 1), ("c", 3)] ∧
    (fullQueue.enqueue listRecent plainHash "id4" "d" PRIORITY.NORMAL (toJid "x")).1
      = some "id4" ∧
    (fullQueue.enqueue listRecent plainHash "id4" "d" PRIORITY.NORMAL (toJid "x")).2.queue.map
      (fun i => (i.task, i.priority)) = [("b", 1), ("a", 0), ("d", 2)] ∧
    ¬ InPriorityOrder
      (fullQueue.enqueue listRecent plainHash "id4" "d" PRIORITY.NORMAL (toJid "x")).2.queue := by
  have h1 : fullQueue.queue.map (fun i => (i.task, i.priority))
      = [("a", 0), ("b", 1), ("c", 3)] := by decide
  have h2 : (fullQueue.enqueue listRecent plainHash "id4" "d" PRIORITY.NORMAL (toJid "x")).1
      = some "id4" := by decide
  have h3 : (fullQueue.enqueue listRecent plainHash "id4" "d" PRIORITY.NORMAL
      (toJid "x")).2.queue = [⟨"id2", "b", 1, toJid "x"⟩, ⟨"id1", "a", 0, toJid "x"⟩,
        ⟨"id4", "d", 2, toJid "x"⟩] := by decide
  have h0 : fullQueue.queue = [⟨"id1", "a", 0, toJid "x"⟩, ⟨"id2", "b", 1, toJid "x"⟩,
      ⟨"id3", "c", 3, toJid "x"⟩] := by decide
  refine ⟨?_, h1, h2, ?_, ?_⟩
  · rw [h0]; simp [InPriorityOrder]
  · rw [h3]; rfl
  · rw [h3]; simp [InPriorityOrder]

/-! ## The lock of the Tiered Cache -/

/-- With a permit left, `get` under the lock returns what `get` without the
lock computes, and leaves as many permits as it found. -/
theorem tieredGetLocked_free {σ γ : Type} (S : Store σ) (G : GeneralTier γ) (now later : Int)
    (type : String) (ids : List String) (m : Semaphore) (s : Tiered γ × World σ)
    (hfree : 0 < m.value) :
    (tieredGetLocked S G now later type ids (m, s)).1 = some (tieredGet S G now later type ids s).1 ∧
    (tieredGetLocked S G now later type ids (m, s)).2.2 = (tieredGet S G now later type ids s).2 ∧
    (tieredGetLocked S G now later type ids (m, s)).2.1.value = m.value := by
  unfold tieredGetLocked tieredGet
  simp only [Semaphore.acquire, gt_iff_lt, if_pos hfree]
  split
  · split
    · simp only [Semaphore.release, and_self, true_and]; omega
    · simp only [Semaphore.release, and_self, true_and]; omega
  · simp

/-- With a permit left, `set` under the lock returns what `set` without the
lock computes, and leaves as many permits as it found. -/
theorem tieredSetLocked_free {σ γ : Type} (S : Store σ) (G : GeneralTier γ) (now : Int)
    (data : Patch) (m : Semaphore) (s : Tiered γ × World σ) (hfree : 0 < m.value) :
    (tieredSetLocked S G now data (m, s)).1 = some (tieredSet S G now data s).1 ∧
    (tieredSetLocked S G now data (m, s)).2.2 = (tieredSet S G now data s).2 ∧
    (tieredSetLocked S G now data (m, s)).2.1.value = m.value := by
  unfold tieredSetLocked tieredSet
  simp only [Semaphore.acquire, gt_iff_lt, if_pos hfree, Semaphore.release, and_self, true_and]
  omega

/-- When `store.get` fails on the ids that miss both tiers, `get` without the
lock returns that failure and the log grows by that one call. -/
theorem tieredGet_store_failure {σ γ : Type} (S : Store σ) (G : GeneralTier γ) (now later : Int)
    (type : String) (ids : List String) (t : Tiered γ) (w : World σ) (e : Err)
    (hmiss : (idsToFetch G now type ids t).length ≠ 0)
    (hfail : (S.get w.st type (idsToFetch G now type ids t)).1 = Except.error e) :
    (tieredGet S G now later type ids (t, w)).1 = Except.error e ∧
    (tieredGet S G now later type ids (t, w)).2.2.log
      = w.log ++ [Call.get type (idsToFetch G now type ids t) (Except.error e)] := by
  unfold idsToFetch at hmiss hfail
  unfold tieredGet
  simp only [idsToFetch, if_pos hmiss, storeGet, hfail]
  simp

/-- When `store.set` fails, `set` without the lock returns that failure and the
log grows by that one call. -/
theorem tieredSet_store_failure {σ γ : Type} (S : Store σ) (G : GeneralTier γ) (now : Int)
    (data : Patch) (t : Tiered γ) (w : World σ) (e : Err)
    (hfail : (S.set w.st data).1 = Except.error e) :
    (tieredSet S G now data (t, w)).1 = Except.error e ∧
    (tieredSet S G now data (t, w)).2.2.log = w.log ++ [Call.set data (Except.error e)] := by
  unfold tieredSet
  simp only [storeSet, hfail]
  simp
/-- C22. With a permit left in `cacheLock`: when the store's `get` fails with
`e` on the ids that miss both tiers, the cache's `get` returns the failure `e`,
the store has been called exactly once (that `get`), the lock has as many
permits as before, and no later `get` or `set` of the cache is blocked; when the
store's `set` fails with `e`, the same holds of the cache's `set`. -/
theorem store_failure_propagates_and_unlocks {σ γ : Type} (S : Store σ) (G : GeneralTier γ)
    (m : Semaphore) (t : Tiered γ) (w : World σ) (e : Err) (hfree : 0 < m.value) :
    (∀ (now later : Int) (type : String) (ids : List String),
      (idsToFetch G now type ids t).length ≠ 0 →
      (S.get w.st type (idsToFetch G now type ids t)).1 = Except.error e →
      (tieredGetLocked S G now later type ids (m, (t, w))).1 = some (Except.error e) ∧
      (tieredGetLocked S G now later type ids (m, (t, w))).2.2.2.log
        = w.log ++ [Call.get type (idsToFetch G now type ids t) (Except.error e)] ∧
      (tieredGetLocked S G now later type ids (m, (t, w))).2.1.value = m.value ∧
      (∀ (now1 later1 : Int) (type1 : String) (ids1 : List String),
        (tieredGetLocked S G now1 later1 type1 ids1
          (tieredGetLocked S G now later type ids (m, (t, w))).2).1 ≠ none) ∧
      (∀ (now1 : Int) (data1 : Patch),
        (tieredSetLocked S G now1 data1
          (tieredGetLocked S G now later type ids (m, (t, w))).2).1 ≠ none)) ∧
    (∀ (now : Int) (data : Patch),
      (S.set w.st data).1 = Except.error e →
      (tieredSetLocked S G now data (m, (t, w))).1 = some (Except.error e) ∧
      (tieredSetLocked S G now data (m, (t, w))).2.2.2.log
        = w.log ++ [Call.set data (Except.error e)] ∧
      (tieredSetLocked S G now data (m, (t, w))).2.1.value = m.value ∧
      (∀ (now1 later1 : Int) (type1 : String) (ids1 : List String),
        (tieredGetLocked S G now1 later1 type1 ids1
          (tieredSetLocked S G now data (m, (t, w))).2).1 ≠ none) ∧
      (∀ (now1 : Int) (data1 : Patch),
        (tieredSetLocked S G now1 data1
          (tieredSetLocked S G now data (m, (t, w))).2).1 ≠ none)) := by
  constructor
  · intro now later type ids hmiss hfail
    obtain ⟨h1, h2, h3⟩ := tieredGetLocked_free S G now later type ids m (t, w) hfree
    obtain ⟨k1, k2⟩ := tieredGet_store_failure S G now later type ids t w e hmiss hfail
    have hfree1 : 0 < (tieredGetLocked S G now later type ids (m, (t, w))).2.1.value := by
      rw [h3]; exact hfree
    refine ⟨by rw [h1, k1], by rw [h2, k2], h3, ?_, ?_⟩
    · intro now1 later1 type1 ids1
      have := (tieredGetLocked_free S G now1 later1 type1 ids1 _
        (tieredGetLocked S G now later type ids (m, (t, w))).2.2 hfree1).1
      simp only [Prod.mk.eta] at this
      rw [this]; exact Option.some_ne_none _
    · intro now1 data1
      have := (tieredSetLocked_free S G now1 data1 _
        (tieredGetLocked S G now later type ids (m, (t, w))).2.2 hfree1).1
      simp only [Prod.mk.eta] at this
      rw [this]; exact Option.some_ne_none _
  · intro now data hfail
    obtain ⟨h1, h2, h3⟩ := tieredSetLocked_free S G now data m (t, w) hfree
    obtain ⟨k1, k2⟩ := tieredSet_store_failure S G now data t w e hfail
    have hfree1 : 0 < (tieredSetLocked S G now data (m, (t, w))).2.1.value := by
      rw [h3]; exact hfree
    refine ⟨by rw [h1, k1], by rw [h2, k2], h3, ?_, ?_⟩
    · intro now1 later1 type1 ids1
      have := (tieredGetLocked_free S G now1 later1 type1 ids1 _
        (tieredSetLocked S G now data (m, (t, w))).2.2 hfree1).1
      simp only [Prod.mk.eta] at this
      rw [this]; exact Option.some_ne_none _
    · intro now1 data1
      have := (tieredSetLocked_free S G now1 data1 _
        (tieredSetLocked S G now data (m, (t, w))).2.2 hfree1).1
      simp only [Prod.mk.eta] at this
      rw [this]; exact Option.some_ne_none _

/-- C22 at a store that is down, a cache just made and a new lock: a `get` of
session `alice.0` and a `set` of it both return `EIO`, and a `set` made after
the failed `get` returns as well. -/
theorem store_failure_propagates_and_unlocks_witness :
    0 < Semaphore.new.value ∧
    (tieredGetLocked downStore ttlCache 0 1 "session" ["alice.0"]
      (Semaphore.new, (emptyTier, World.fresh ()))).1 = some (Except.error "EIO") ∧
    (tieredGetLocked downStore ttlCache 0 1 "session" ["alice.0"]
      (Semaphore.new, (emptyTier, World.fresh ()))).2.2.2.log
        = (World.fresh ()).log ++ [Call.get "session"
            (idsToFetch ttlCache 0 "session" ["alice.0"] emptyTier) (Except.error "EIO")] ∧
    (tieredSetLocked downStore ttlCache 2 [("session", [("alice.0", some "s")])]
      (tieredGetLocked downStore ttlCache 0 1 "session" ["alice.0"]
        (Semaphore.new, (emptyTier, World.fresh ()))).2).1 ≠ none ∧
    (tieredSetLocked downStore ttlCache 0 [("session", [("alice.0", some "s")])]
      (Semaphore.new, (emptyTier, World.fresh ()))).1 = some (Except.error "EIO") :=
  have h := store_failure_propagates_and_unlocks downStore ttlCache Semaphore.new emptyTier
    (World.fresh ()) "EIO" (by decide)
  have hg := h.1 0 1 "session" ["alice.0"] (by decide) (by decide)
  ⟨by decide, hg.1, hg.2.1, hg.2.2.2.2 2 [("session", [("alice.0", some "s")])],
    (h.2 0 [("session", [("alice.0", some "s")])] (by decide)).1⟩

/-- A `get` that misses at a store that is down, on a cache just made: the
result is the failure, one call is logged, and the trace of the lock is one
acquire and one release. -/
theorem locked_get_example :
    (tieredGetLocked downStore ttlCache 0 1 "session" ["alice.0"]
      (Semaphore.new, (emptyTier, World.fresh ()))).1 = some (Except.error "EIO") ∧
    (tieredGetLocked downStore ttlCache 0 1 "session" ["alice.0"]
      (Semaphore.new, (emptyTier, World.fresh ()))).2.1
      = { value := 1,
          trace := [LockEvent.acquire "cacheLock", LockEvent.release "cacheLock"] } ∧
    (tieredGetLocked downStore ttlCache 0 1 "session" ["alice.0"]
      (Semaphore.new, (emptyTier, World.fresh ()))).2.2.2.log
      = [Call.get "session" ["alice.0"] (Except.error "EIO")] := by
  decide

/-! ## Concurrent `transaction` calls -/

/-- C24, the serialization of calls under one scope token. Two calls of
`transaction` under the token `k`, each with one `set` as its work, over an
in-memory store: the first call gets the mutex, counts itself and releases the
mutex; the second then gets the mutex, counts itself, and its work makes its
`set`, while the first has made no call of its work yet and nothing has been
committed. The first call then finishes with the counter at 2 and returns
without a commit; the writes of both reach the store in the one commit of the
second. -/
theorem second_work_starts_before_first_commits :
    (runSchedule memStore opts0 [0, 0, 1, 1, 1]
        (TxSched.start sameToken (Coord.init, World.fresh []))).map
      (fun s => (s.phases, s.mutexes, s.state.1.transactionsInProgress, s.state.2.log))
      = some ([TxPhase.working [CallerStep.set [("session", [("alice.0", some "s1")])]],
               TxPhase.working []], [], 2, []) ∧
    (runSchedule memStore opts0 [0, 0, 1, 1, 1, 0, 0, 0]
        (TxSched.start sameToken (Coord.init, World.fresh []))).map
      (fun s => (s.phases, s.state.1.transactionsInProgress, s.state.2.log))
      = some ([TxPhase.returned, TxPhase.working []], 1, []) ∧
    (runSchedule memStore opts0 [0, 0, 1, 1, 1, 0, 0, 0, 1, 1]
        (TxSched.start sameToken (Coord.init, World.fresh []))).map
      (fun s => (s.phases, s.state.1.transactionsInProgress, s.state.2.log))
      = some ([TxPhase.returned, TxPhase.returned], 0,
          [Call.set [("session", [("bob.0", some "s2"), ("alice.0", some "s1")])]
            (Except.ok ())]) := by
  decide
/-- The names of the transaction mutexes tell the scope tokens apart. -/
theorem getTransactionMutex_injective (a b : String)
    (h : getTransactionMutex a = getTransactionMutex b) : a = b := by
  unfold getTransactionMutex at h
  have hd := congrArg String.data h
  simp only [String.data_append] at hd
  exact String.ext (List.append_cancel_left hd)

/-- A mutex is held exactly when some entry of the table names it. -/
theorem isLocked_iff (mutexes : List (String × Nat)) (name : String) :
    isLocked mutexes name = true ↔ ∃ j, (name, j) ∈ mutexes := by
  unfold isLocked
  simp only [List.any_eq_true, beq_iff_eq]
  constructor
  · rintro ⟨p, hp, rfl⟩
    exact ⟨p.2, hp⟩
  · rintro ⟨j, hj⟩
    exact ⟨(name, j), hj, rfl⟩

/-- In a table that holds no name twice, a name has one holder. -/
theorem holder_unique (l : List (String × Nat)) (hnd : (l.map Prod.fst).Nodup)
    (n : String) (a b : Nat) (ha : (n, a) ∈ l) (hb : (n, b) ∈ l) : a = b := by
  induction l with
  | nil => cases ha
  | cons p l ih =>
    simp only [List.map_cons, List.nodup_cons] at hnd
    rcases List.mem_cons.mp ha with ha | ha
    · rcases List.mem_cons.mp hb with hb | hb
      · rw [← ha] at hb
        exact (Prod.mk.inj hb).2.symm
      · exfalso
        apply hnd.1
        rw [← ha]
        exact List.mem_map.mpr ⟨(n, b), hb, rfl⟩
    · rcases List.mem_cons.mp hb with hb | hb
      · exfalso
        apply hnd.1
        rw [← hb]
        exact List.mem_map.mpr ⟨(n, a), ha, rfl⟩
      · exact ih hnd.2 ha hb

/-- Reading a list of calls at `j` after call `i` has been replaced. -/
theorem thread_after_set (threads : List TxThread) (i j : Nat) (th th1 : TxThread)
    (hi : threads[i]? = some th) :
    (threads.set i th1)[j]? = if j = i then some th1 else threads[j]? := by
  have hlt : i < threads.length := by
    rcases Nat.lt_or_ge i threads.length with h | h
    · exact h
    · rw [List.getElem?_eq_none h] at hi; cases hi
  by_cases hji : j = i
  · subst hji
    simp [hlt]
  · rw [if_neg hji, List.getElem?_set_ne (fun h => hji h.symm)]

/-- Replacing a call that is not `granted` by one that is not `granted` keeps
the mutex table in order. -/
theorem mutexInv_of_ungranted {σ : Type} (s : TxSched σ) (i : Nat) (th th1 : TxThread)
    (state : Coord × World σ) (hinv : MutexInv s) (hi : s.threads[i]? = some th)
    (hphase : th.phase ≠ TxPhase.granted) (hphase1 : th1.phase ≠ TxPhase.granted) :
    MutexInv { s with state := state, threads := s.threads.set i th1 } := by
  refine ⟨?_, ?_, hinv.once⟩
  · intro name j hj
    obtain ⟨thj, h1, h2, h3⟩ := hinv.holder name j hj
    have hji : j ≠ i := by
      rintro rfl
      rw [hi] at h1
      cases h1
      exact hphase h2
    refine ⟨thj, ?_, h2, h3⟩
    simp only
    rw [thread_after_set _ i j th th1 hi, if_neg hji]
    exact h1
  · intro j thj hj hg
    simp only at hj
    rw [thread_after_set _ i j th th1 hi] at hj
    by_cases hji : j = i
    · rw [if_pos hji] at hj
      cases hj
      exact absurd hg hphase1
    · rw [if_neg hji] at hj
      exact hinv.holds j thj hj hg

/-- Every step keeps the mutex table in order. -/
theorem mutexInv_step {σ : Type} (S : Store σ) (opts : TransactionOpts) (i : Nat)
    (s s1 : TxSched σ) (hinv : MutexInv s) (hstep : s.step S opts i = some s1) :
    MutexInv s1 := by
  unfold TxSched.step at hstep
  rcases hi : s.threads[i]? with _ | th
  · rw [hi] at hstep; cases hstep
  rw [hi] at hstep
  simp only at hstep
  rcases hph : th.phase with _ | _ | rest | _ | _
  · -- called
    rw [hph] at hstep
    simp only at hstep
    by_cases hl : isLocked s.mutexes (getTransactionMutex th.key) = true
    · rw [if_pos hl] at hstep; cases hstep
    rw [if_neg hl] at hstep
    cases hstep
    have hfree : ∀ j, (getTransactionMutex th.key, j) ∉ s.mutexes := by
      intro j hj
      exact hl ((isLocked_iff _ _).mpr ⟨j, hj⟩)
    refine ⟨?_, ?_, ?_⟩
    · intro name j hj
      simp only [List.mem_cons, Prod.mk.injEq] at hj
      simp only
      rcases hj with ⟨rfl, rfl⟩ | hj
      · refine ⟨{ th with phase := TxPhase.granted }, ?_, rfl, rfl⟩
        rw [thread_after_set _ j j th _ hi, if_pos rfl]
      · obtain ⟨thj, h1, h2, h3⟩ := hinv.holder name j hj
        have hji : j ≠ i := by
          rintro rfl
          rw [hi] at h1
          cases h1
          rw [hph] at h2
          cases h2
        refine ⟨thj, ?_, h2, h3⟩
        rw [thread_after_set _ i j th _ hi, if_neg hji]
        exact h1
    · intro j thj hj hg
      simp only at hj
      rw [thread_after_set _ i j th _ hi] at hj
      simp only [List.mem_cons, Prod.mk.injEq]
      by_cases hji : j = i
      · rw [if_pos hji] at hj
        cases hj
        exact Or.inl ⟨rfl, hji⟩
      · rw [if_neg hji] at hj
        exact Or.inr (hinv.holds j thj hj hg)
    · simp only [List.map_cons, List.nodup_cons]
      refine ⟨?_, hinv.once⟩
      intro hmem
      obtain ⟨p, hp, hname⟩ := List.mem_map.mp hmem
      exact hfree p.2 (by rw [← hname]; exact hp)
  · -- granted
    rw [hph] at hstep
    simp only at hstep
    cases hstep
    have hmine := hinv.holds i th hi hph
    refine ⟨?_, ?_, ?_⟩
    · intro name j hj
      simp only [List.mem_filter, bne_iff_ne, ne_eq] at hj
      obtain ⟨thj, h1, h2, h3⟩ := hinv.holder name j hj.1
      have hji : j ≠ i := by
        rintro rfl
        rw [hi] at h1
        cases h1
        exact hj.2 (by simpa using h3)
      refine ⟨thj, ?_, h2, h3⟩
      simp only
      rw [thread_after_set _ i j th _ hi, if_neg hji]
      exact h1
    · intro j thj hj hg
      simp only at hj
      rw [thread_after_set _ i j th _ hi] at hj
      by_cases hji : j = i
      · rw [if_pos hji] at hj
        cases hj
        cases hg
      · rw [if_neg hji] at hj
        have hheld := hinv.holds j thj hj hg
        simp only [List.mem_filter, bne_iff_ne, ne_eq]
        refine ⟨hheld, ?_⟩
        intro hsame
        rw [hsame] at hheld
        exact hji (holder_unique _ hinv.once _ j i hheld hmine)
    · exact (hinv.once).sublist ((List.filter_sublist _).map Prod.fst)
  · -- working
    rw [hph] at hstep
    rcases rest with _ | ⟨call, rest⟩
    · simp only at hstep
      cases hstep
      exact mutexInv_of_ungranted s i th _ _ hinv hi (by rw [hph]; simp) (by simp)
    · simp only at hstep
      rcases hc : call.apply S s.state with ⟨r, st1⟩
      rw [hc] at hstep
      rcases r with e | u
      · simp only at hstep
        cases hstep
        exact mutexInv_of_ungranted s i th _ _ hinv hi (by rw [hph]; simp) (by simp)
      · simp only at hstep
        cases hstep
        exact mutexInv_of_ungranted s i th _ _ hinv hi (by rw [hph]; simp) (by simp)
  · -- leaving
    rw [hph] at hstep
    simp only at hstep
    cases hstep
    exact mutexInv_of_ungranted s i th _ _ hinv hi (by rw [hph]; simp) (by simp)
  · -- returned
    rw [hph] at hstep
    cases hstep

/-- Every schedule keeps the mutex table in order. -/
theorem mutexInv_run {σ : Type} (S : Store σ) (opts : TransactionOpts) (sched : List Nat) :
    ∀ s s1 : TxSched σ, MutexInv s → runSchedule S opts sched s = some s1 → MutexInv s1 := by
  induction sched with
  | nil =>
    intro s s1 hinv hrun
    unfold runSchedule at hrun
    cases hrun
    exact hinv
  | cons i rest ih =>
    intro s s1 hinv hrun
    unfold runSchedule at hrun
    rcases hstep : s.step S opts i with _ | s2
    · rw [hstep] at hrun; cases hrun
    · rw [hstep] at hrun
      exact ih s2 s1 (mutexInv_step S opts i s s2 hinv hstep) hrun

/-- When the calls have just been made the mutex table is in order. -/
theorem mutexInv_start {σ : Type} (calls : List (String × List CallerStep))
    (state : Coord × World σ) : MutexInv (TxSched.start calls state) := by
  refine ⟨?_, ?_, ?_⟩
  · intro name j hj
    simp [TxSched.start] at hj
  · intro j th hj hg
    simp only [TxSched.start, List.getElem?_map] at hj
    rcases hc : calls[j]? with _ | c
    · rw [hc] at hj; cases hj
    · rw [hc] at hj
      cases hj
      cases hg
  · simp [TxSched.start]

/-- C24, as the code has it. After any schedule of any calls of `transaction`:
a transaction mutex that is held is the mutex of the scope token of its
holder, and the holder is between the answer of `acquire()` and its next line;
the next step of a holder can always be taken, and it raises
`transactionsInProgress` by one, releases the mutex and starts the work; a
call that has not got its mutex yet can take its step exactly when no call
under the same scope token is between those two points. So calls under
different scope tokens never wait on each other, and a call waits for a call
under the same token only until that one has counted itself, not until it
has committed. -/
theorem scope_mutex_spans_counter_update_only {σ : Type} (S : Store σ)
    (opts : TransactionOpts) (calls : List (String × List CallerStep))
    (state : Coord × World σ) (sched : List Nat) (s : TxSched σ)
    (hrun : runSchedule S opts sched (TxSched.start calls state) = some s) :
    (∀ (name : String) (j : Nat), (name, j) ∈ s.mutexes →
      ∃ th, s.threads[j]? = some th ∧ th.phase = TxPhase.granted ∧
        name = getTransactionMutex th.key) ∧
    (∀ (j : Nat) (th : TxThread), s.threads[j]? = some th → th.phase = TxPhase.granted →
      ∃ s1, s.step S opts j = some s1 ∧
        isLocked s1.mutexes (getTransactionMutex th.key) = false ∧
        s1.state.1.transactionsInProgress = s.state.1.transactionsInProgress + 1 ∧
        s1.threads[j]? = some { th with phase := TxPhase.working th.work }) ∧
    (∀ (i : Nat) (th : TxThread), s.threads[i]? = some th → th.phase = TxPhase.called →
      ((s.step S opts i).isSome = true ↔
        ∀ (j : Nat) (th1 : TxThread), s.threads[j]? = some th1 → th1.phase = TxPhase.granted →
          th1.key ≠ th.key)) := by
  have hinv := mutexInv_run S opts sched _ s (mutexInv_start calls state) hrun
  refine ⟨hinv.holder, ?_, ?_⟩
  · intro j th hj hg
    have hstep : s.step S opts j = some
        { threads := s.threads.set j { th with phase := TxPhase.working th.work }
          mutexes := s.mutexes.filter (fun p => p.1 != getTransactionMutex th.key)
          state :=
            ({ s.state.1 with
                transactionsInProgress := s.state.1.transactionsInProgress + 1 },
              s.state.2) } := by
      unfold TxSched.step
      rw [hj]
      simp only [hg]
    refine ⟨_, hstep, ?_, rfl, ?_⟩
    · rw [Bool.eq_false_iff]
      intro hl
      obtain ⟨k, hk⟩ := (isLocked_iff _ _).mp hl
      simp at hk
    · simp only
      rw [thread_after_set _ j j th _ hj, if_pos rfl]
  · intro i th hi hc
    have hstep : (s.step S opts i).isSome = true ↔
        isLocked s.mutexes (getTransactionMutex th.key) = false := by
      unfold TxSched.step
      rw [hi]
      simp only [hc]
      by_cases hl : isLocked s.mutexes (getTransactionMutex th.key) = true
      · simp [hl]
      · simp [hl]
    rw [hstep, Bool.eq_false_iff]
    constructor
    · intro hfree j th1 hj hg hkey
      apply hfree
      have := hinv.holds j th1 hj hg
      rw [hkey] at this
      exact (isLocked_iff _ _).mpr ⟨j, this⟩
    · intro hno hl
      obtain ⟨j, hj⟩ := (isLocked_iff _ _).mp hl
      obtain ⟨th1, h1, h2, h3⟩ := hinv.holder _ j hj
      exact hno j th1 h1 h2 (getTransactionMutex_injective _ _ h3).symm

/-- C24 as the code has it, at the two calls of `sameToken` after the schedule
`0, 0, 1`: the second call holds the mutex of `k` while the first is in its
work. -/
theorem scope_mutex_spans_counter_update_only_witness :
    runSchedule memStore opts0 [0, 0, 1]
      (TxSched.start sameToken (Coord.init, World.fresh [])) = some midRun ∧
    (∀ (name : String) (j : Nat), (name, j) ∈ midRun.mutexes →
      ∃ th, midRun.threads[j]? = some th ∧ th.phase = TxPhase.granted ∧
        name = getTransactionMutex th.key) ∧
    (∀ (j : Nat) (th : TxThread), midRun.threads[j]? = some th → th.phase = TxPhase.granted →
      ∃ s1, midRun.step memStore opts0 j = some s1 ∧
        isLocked s1.mutexes (getTransactionMutex th.key) = false ∧
        s1.state.1.transactionsInProgress = midRun.state.1.transactionsInProgress + 1 ∧
        s1.threads[j]? = some { th with phase := TxPhase.working th.work }) ∧
    (∀ (i : Nat) (th : TxThread), midRun.threads[i]? = some th → th.phase = TxPhase.called →
      ((midRun.step memStore opts0 i).isSome = true ↔
        ∀ (j : Nat) (th1 : TxThread), midRun.threads[j]? = some th1 → th1.phase = TxPhase.granted →
          th1.key ≠ th.key)) :=
  ⟨rfl, scope_mutex_spans_counter_update_only memStore opts0 sameToken
    (Coord.init, World.fresh []) [0, 0, 1] midRun rfl⟩

/-! ## Concurrent `get` and `set` calls -/

/-- Writing to a key that is there keeps the keys. -/
theorem keys_set_of_get {α : Type} (o : Obj α) (k : String) (v v1 : α)
    (h : Obj.get o k = some v1) : Obj.keys (Obj.set o k v) = Obj.keys o := by
  induction o with
  | nil => simp [Obj.get] at h
  | cons p r ih =>
    obtain ⟨k1, v2⟩ := p
    unfold Obj.get at h
    unfold Obj.set
    by_cases hk : k1 = k
    · simp [hk, Obj.keys]
    · rw [if_neg hk] at h
      rw [if_neg hk]
      have := ih h
      simp only [Obj.keys, List.map_cons] at this ⊢
      rw [this]

/-- The guarded removal of `processPreKeyDeletions` keeps the key types. -/
theorem keys_deleteIn (data : Patch) (keyType keyId : String) :
    Obj.keys (deleteIn data keyType keyId) = Obj.keys data := by
  unfold deleteIn
  rcases h : Obj.get data keyType with _ | d
  · rfl
  · exact keys_set_of_get data keyType _ d h

/-- The loop of `processPreKeyDeletions` keeps the key types of the patch. -/
theorem keys_processPreKeyDeletionsLoop {σ : Type} (S : Store σ) (keyType : String)
    (keyData : Obj Val) (ids : List String) :
    ∀ (data : Patch) (w : World σ) (data1 : Patch),
      (processPreKeyDeletionsLoop S keyType keyData ids data w).1 = Except.ok data1 →
      Obj.keys data1 = Obj.keys data := by
  induction ids with
  | nil =>
    intro data w data1 h
    unfold processPreKeyDeletionsLoop at h
    cases h
    rfl
  | cons keyId rest ih =>
    intro data w data1 h
    unfold processPreKeyDeletionsLoop at h
    by_cases hdel : Obj.get keyData keyId = some none
    · rw [if_pos hdel] at h
      rcases hg : storeGet S keyType [keyId] w with ⟨r, w1⟩
      rw [hg] at h
      rcases r with e | existingKeys
      · cases h
      · simp only at h
        by_cases ht : truthy (Obj.get existingKeys keyId) = true
        · rw [if_pos ht] at h
          exact ih data w1 data1 h
        · rw [if_neg ht] at h
          rw [ih _ w1 data1 h, keys_deleteIn]
    · rw [if_neg hdel] at h
      exact ih data w data1 h

/-- The pre-key pass keeps the key types of the patch. -/
theorem keys_preKeyPass {σ : Type} (S : Store σ) (types : List String) :
    ∀ (data : Patch) (w : World σ) (data1 : Patch),
      (preKeyPass S types data w).1 = Except.ok data1 → Obj.keys data1 = Obj.keys data := by
  induction types with
  | nil =>
    intro data w data1 h
    unfold preKeyPass at h
    cases h
    rfl
  | cons keyType rest ih =>
    intro data w data1 h
    unfold preKeyPass at h
    by_cases hk : keyType = "pre-key"
    · rw [if_pos hk] at h
      rcases hp : processPreKeyDeletions S data keyType w with ⟨r, w1⟩
      rw [hp] at h
      rcases r with e | data2
      · cases h
      · simp only at h
        rw [ih data2 w1 data1 h]
        unfold processPreKeyDeletions at hp
        rcases hd : Obj.get data keyType with _ | keyData
        · rw [hd] at hp
          cases hp
          rfl
        · rw [hd] at hp
          simp only at hp
          exact keys_processPreKeyDeletionsLoop S keyType keyData _ data w data2
            (by rw [hp])
    · rw [if_neg hk] at h
      exact ih data w data1 h

/-- A patch without the key type `sender-key` is guarded by the mutexes of its
key types. -/
theorem mem_scopes_plain (patch : Patch) (hno : "sender-key" ∉ Obj.keys patch) (n : String)
    (hn : n ∈ scopes patch) : ∃ t ∈ Obj.keys patch, n = getKeyTypeMutex t := by
  unfold scopes at hn
  obtain ⟨t, ht, hnt⟩ := List.mem_flatMap.mp hn
  have hts : t ≠ "sender-key" := fun h => hno (h ▸ ht)
  rw [if_neg hts] at hnt
  exact ⟨t, ht, List.mem_singleton.mp hnt⟩

/-- With more mutexes held the steps are guarded all the more. -/
theorem guarded_mono (ops : List MicroOp) :
    ∀ (H H1 : String → Prop), (∀ n, H n → H1 n) → Guarded H ops → Guarded H1 ops := by
  induction ops with
  | nil => intro _ _ _ _; trivial
  | cons op rest ih =>
    intro H H1 hsub h
    cases op with
    | acquire m =>
      exact ih _ _ (fun n hn => hn.imp id (hsub n)) h
    | release m =>
      exact ih _ _ (fun n hn => ⟨hn.1, hsub n hn.2⟩) h
    | read type ids => exact ih _ _ hsub h
    | store data =>
      obtain ⟨h1, h2, h3, h4⟩ := h
      exact ⟨h1, fun t ht => hsub _ (h2 t ht), h3, ih _ _ hsub h4⟩
    | send patch =>
      obtain ⟨h1, h2, h3⟩ := h
      exact ⟨fun n hn => hsub _ (h1 n hn), h2, ih _ _ hsub h3⟩
    | settle => exact ih _ _ hsub h
/-- Releases alone are guarded. -/
theorem guarded_releases (g : String → String) (l : List String) :
    ∀ H : String → Prop, Guarded H (l.map (fun t => MicroOp.release (g t))) := by
  induction l with
  | nil => intro _; trivial
  | cons t rest ih => intro H; exact ih _

/-- After the acquires of `withMutexes` the mutexes of the key types are held. -/
theorem guarded_acquires (l : List String) :
    ∀ (H : String → Prop) (body : List MicroOp),
      Guarded (fun n => (∃ t ∈ l, n = getKeyTypeMutex t) ∨ H n) body →
      Guarded H (l.map (fun t => MicroOp.acquire (getKeyTypeMutex t)) ++ body) := by
  induction l with
  | nil =>
    intro H body h
    exact guarded_mono body _ _ (fun n hn => by
      rcases hn with ⟨t, ht, _⟩ | hn
      · cases ht
      · exact hn) h
  | cons t rest ih =>
    intro H body h
    simp only [List.map_cons, List.cons_append]
    show Guarded (fun n => n = getKeyTypeMutex t ∨ H n)
      (rest.map (fun t => MicroOp.acquire (getKeyTypeMutex t)) ++ body)
    apply ih
    refine guarded_mono body _ _ ?_ h
    rintro n (⟨t1, ht1, hn⟩ | hn)
    · rcases List.mem_cons.mp ht1 with rfl | ht1
      · exact Or.inr (Or.inl hn)
      · exact Or.inl ⟨t1, ht1, hn⟩
    · exact Or.inr (Or.inr hn)

/-- The steps of `withMutexes` around the callback of `set` are guarded when the
patch has no key type `sender-key`. -/
theorem guarded_withMutexesOps (data : Patch) (hno : "sender-key" ∉ Obj.keys data)
    (H : String → Prop) :
    Guarded H (withMutexesOps (Obj.keys data) [MicroOp.store data, MicroOp.settle]) := by
  unfold withMutexesOps
  simp only [List.append_assoc]
  apply guarded_acquires
  refine ⟨hno, ?_, ⟨_, rfl⟩, ?_⟩
  · intro t ht
    exact Or.inl ⟨t, (List.perm_insertionSort _ _).mem_iff.mpr ht, rfl⟩
  · exact guarded_releases getKeyTypeMutex _ _

/-- The steps of the sender-key loop of `set`, followed by guarded steps, are
guarded. -/
theorem guarded_senderKeyOps (data : Patch) (tail : List MicroOp)
    (htail : ∀ H : String → Prop, Guarded H tail) (names : List String) :
    ∀ H : String → Prop, Guarded H (names.flatMap (senderKeyOps data) ++ tail) := by
  induction names with
  | nil => intro H; exact htail H
  | cons name rest ih =>
    intro H
    simp only [List.flatMap_cons, senderKeyOps, List.cons_append, List.nil_append]
    refine ⟨?_, ⟨_, rfl⟩, ih _⟩
    intro n hn
    rcases he : Patch.entry data "sender-key" name with _ | v
    · rw [he] at hn
      simp [scopes, Obj.keys, Obj.get] at hn
    · rw [he] at hn
      simp only [scopes, Obj.keys, Obj.get, List.map_cons, List.map_nil, List.flatMap_cons,
        List.flatMap_nil, if_true, Option.getD_some, List.append_nil,
        List.mem_singleton] at hn
      exact Or.inl hn

/-- The steps of a direct `set` are guarded. -/
theorem guarded_setOps (data : Patch) (H : String → Prop) : Guarded H (setOps data) := by
  unfold setOps
  by_cases hsk : Obj.has data "sender-key" = true
  · rw [if_pos hsk]
    apply guarded_senderKeyOps
    intro H1
    by_cases hlen : (Obj.keys (Obj.delete data "sender-key")).length > 0
    · rw [if_pos hlen]
      apply guarded_withMutexesOps
      simp [Obj.keys, Obj.delete]
    · rw [if_neg hlen]
      trivial
  · rw [if_neg hsk]
    apply guarded_withMutexesOps
    intro hmem
    apply hsk
    unfold Obj.has
    obtain ⟨v, hv⟩ := Obj.get_isSome_of_mem_keys data "sender-key" hmem
    rw [hv]
    rfl

/-- The steps of a direct `get` are guarded: they call no `state.set`. -/
theorem guarded_getOps (type : String) (ids : List String) (H : String → Prop) :
    Guarded H (getOps type ids) := by
  unfold getOps
  by_cases ht : type = "sender-key"
  · rw [if_pos ht]
    induction ids generalizing H with
    | nil => trivial
    | cons id rest ih =>
      simp only [List.flatMap_cons, List.cons_append, List.nil_append]
      exact ih _
  · rw [if_neg ht]
    trivial

/-- The steps of a call are guarded. -/
theorem guarded_ops (c : CoordCall) (H : String → Prop) : Guarded H c.ops := by
  cases c with
  | get type ids => exact guarded_getOps type ids H
  | set data => exact guarded_setOps data H
/-- Reading a list at `j` after the entry at `i` has been replaced. -/
theorem nth_after_set {α : Type} (l : List α) (i j : Nat) (a a1 : α) (hi : l[i]? = some a) :
    (l.set i a1)[j]? = if j = i then some a1 else l[j]? := by
  have hlt : i < l.length := by
    rcases Nat.lt_or_ge i l.length with h | h
    · exact h
    · rw [List.getElem?_eq_none h] at hi; cases hi
  by_cases hji : j = i
  · subst hji
    simp [hlt]
  · rw [if_neg hji, List.getElem?_set_ne (fun h => hji h.symm)]

/-- A step of call `i` keeps the invariant when the new table holds no mutex
twice and keeps what the other calls held, and the new state of call `i` is
guarded under what it now holds. -/
theorem callInv_update {σ : Type} (s : CallSched σ) (i : Nat) (th th1 : CallThread)
    (mutexes : List (String × Nat)) (w : World σ) (hinv : CallInv s)
    (hi : s.threads[i]? = some th)
    (honce : (mutexes.map Prod.fst).Nodup)
    (hkeep : ∀ (j : Nat) (n : String), j ≠ i → (n, j) ∈ s.mutexes → (n, j) ∈ mutexes)
    (hfly : ∀ patch, th1.inFlight = some patch →
      (∀ n ∈ scopes patch, (n, i) ∈ mutexes) ∧ ∃ rest, th1.ops = MicroOp.settle :: rest)
    (hguard : Guarded (fun n => (n, i) ∈ mutexes) th1.ops) :
    CallInv { threads := s.threads.set i th1, mutexes := mutexes, world := w } := by
  refine ⟨honce, ?_, ?_⟩
  · intro j thj patch hj hp
    simp only at hj
    rw [nth_after_set _ i j th th1 hi] at hj
    by_cases hji : j = i
    · rw [if_pos hji] at hj
      cases hj
      subst hji
      exact hfly patch hp
    · rw [if_neg hji] at hj
      obtain ⟨h1, h2⟩ := hinv.flying j thj patch hj hp
      exact ⟨fun n hn => hkeep j n hji (h1 n hn), h2⟩
  · intro j thj hj
    simp only at hj
    rw [nth_after_set _ i j th th1 hi] at hj
    by_cases hji : j = i
    · rw [if_pos hji] at hj
      cases hj
      subst hji
      exact hguard
    · rw [if_neg hji] at hj
      exact guarded_mono _ _ _ (fun n hn => hkeep j n hji hn) (hinv.guarded j thj hj)

/-- A rejected call keeps the invariant. -/
theorem callInv_abort {σ : Type} (s : CallSched σ) (i : Nat) (th : CallThread) (e : Err)
    (w : World σ) (hinv : CallInv s) (hi : s.threads[i]? = some th) :
    CallInv (s.abort i e w) := by
  unfold CallSched.abort
  refine callInv_update s i th _ _ w hinv hi ?_ ?_ ?_ ?_
  · exact (hinv.once).sublist ((List.filter_sublist _).map Prod.fst)
  · intro j n hji hn
    simp only [List.mem_filter, decide_eq_true_eq]
    exact ⟨hn, hji⟩
  · intro patch hp
    cases hp
  · trivial

/-- A call whose next step is not the answer of a `state.set` has none in
flight. -/
theorem not_inFlight_of_ops {σ : Type} (s : CallSched σ) (i : Nat) (th : CallThread)
    (hinv : CallInv s) (hi : s.threads[i]? = some th)
    (hops : ∀ rest, th.ops ≠ MicroOp.settle :: rest) : th.inFlight = none := by
  rcases hf : th.inFlight with _ | patch
  · rfl
  · obtain ⟨_, rest, hrest⟩ := hinv.flying i th patch hi hf
    exact absurd hrest (hops rest)

/-- Every step keeps the invariant. -/
theorem callInv_step {σ : Type} (S : Store σ) (i : Nat) (s s1 : CallSched σ)
    (hinv : CallInv s) (hstep : s.step S i = some s1) : CallInv s1 := by
  unfold CallSched.step at hstep
  rcases hi : s.threads[i]? with _ | th
  · rw [hi] at hstep; cases hstep
  rw [hi] at hstep
  simp only at hstep
  have hg := hinv.guarded i th hi
  rcases hops : th.ops with _ | ⟨op, rest⟩
  · rw [hops] at hstep; cases hstep
  rw [hops] at hstep hg
  cases op with
  | acquire m =>
    simp only at hstep
    by_cases hl : isLocked s.mutexes m = true
    · rw [if_pos hl] at hstep; cases hstep
    rw [if_neg hl] at hstep
    cases hstep
    have hnone := not_inFlight_of_ops s i th hinv hi (fun r h => by rw [hops] at h; cases h)
    refine callInv_update s i th _ _ s.world hinv hi ?_ ?_ ?_ ?_
    · simp only [List.map_cons, List.nodup_cons]
      refine ⟨?_, hinv.once⟩
      intro hmem
      obtain ⟨p, hp, hname⟩ := List.mem_map.mp hmem
      exact hl ((isLocked_iff _ _).mpr ⟨p.2, by rw [← hname]; exact hp⟩)
    · intro j n _ hn
      exact List.mem_cons_of_mem _ hn
    · intro patch hp
      simp only [hnone] at hp
      cases hp
    · refine guarded_mono rest _ _ ?_ hg
      rintro n (rfl | hn)
      · exact List.mem_cons_self _ _
      · exact List.mem_cons_of_mem _ hn
  | release m =>
    simp only at hstep
    cases hstep
    have hnone := not_inFlight_of_ops s i th hinv hi (fun r h => by rw [hops] at h; cases h)
    refine callInv_update s i th _ _ s.world hinv hi ?_ ?_ ?_ ?_
    · exact (hinv.once).sublist ((List.filter_sublist _).map Prod.fst)
    · intro j n hji hn
      simp only [List.mem_filter, decide_eq_true_eq]
      refine ⟨hn, ?_⟩
      intro h
      exact hji (Prod.mk.inj h).2
    · intro patch hp
      simp only [hnone] at hp
      cases hp
    · refine guarded_mono rest _ _ ?_ hg
      rintro n ⟨hne, hn⟩
      simp only [List.mem_filter, decide_eq_true_eq]
      refine ⟨hn, ?_⟩
      intro h
      exact hne (Prod.mk.inj h).1
  | read type ids =>
    simp only at hstep
    have hnone := not_inFlight_of_ops s i th hinv hi (fun r h => by rw [hops] at h; cases h)
    rcases hr : storeGet S type ids s.world with ⟨r, w1⟩
    rw [hr] at hstep
    rcases r with e | found
    · simp only at hstep
      cases hstep
      exact callInv_abort s i th e w1 hinv hi
    · simp only at hstep
      cases hstep
      refine callInv_update s i th _ _ w1 hinv hi hinv.once (fun _ _ _ h => h) ?_ hg
      intro patch hp
      simp only [hnone] at hp
      cases hp
  | store data =>
    simp only at hstep
    obtain ⟨hno, hheld, hnext, hrest⟩ := hg
    rcases hr : preKeyPass S (Obj.keys data) data s.world with ⟨r, w1⟩
    rw [hr] at hstep
    rcases r with e | data1
    · simp only at hstep
      cases hstep
      exact callInv_abort s i th e w1 hinv hi
    · simp only at hstep
      cases hstep
      have hkeys : Obj.keys data1 = Obj.keys data :=
        keys_preKeyPass S _ data s.world data1 (by rw [hr])
      refine callInv_update s i th _ _ w1 hinv hi hinv.once (fun _ _ _ h => h) ?_ hrest
      intro patch hp
      simp only [Option.some.injEq] at hp
      subst hp
      refine ⟨?_, hnext⟩
      intro n hn
      obtain ⟨t, ht, rfl⟩ := mem_scopes_plain data1 (by rw [hkeys]; exact hno) n hn
      exact hheld t (by rw [← hkeys]; exact ht)
  | send patch =>
    simp only at hstep
    cases hstep
    obtain ⟨hheld, hnext, hrest⟩ := hg
    refine callInv_update s i th _ _ s.world hinv hi hinv.once (fun _ _ _ h => h) ?_ hrest
    intro patch1 hp
    simp only [Option.some.injEq] at hp
    subst hp
    exact ⟨hheld, hnext⟩
  | settle =>
    simp only at hstep
    rcases hf : th.inFlight with _ | patch
    · rw [hf] at hstep; cases hstep
    rw [hf] at hstep
    simp only at hstep
    rcases hr : storeSet S patch s.world with ⟨r, w1⟩
    rw [hr] at hstep
    rcases r with e | u
    · simp only at hstep
      cases hstep
      exact callInv_abort s i th e w1 hinv hi
    · simp only at hstep
      cases hstep
      refine callInv_update s i th _ _ w1 hinv hi hinv.once (fun _ _ _ h => h) ?_ hg
      intro patch1 hp
      cases hp

/-- Every schedule keeps the invariant. -/
theorem callInv_run {σ : Type} (S : Store σ) (sched : List Nat) :
    ∀ s s1 : CallSched σ, CallInv s → runCalls S sched s = some s1 → CallInv s1 := by
  induction sched with
  | nil =>
    intro s s1 hinv hrun
    unfold runCalls at hrun
    cases hrun
    exact hinv
  | cons i rest ih =>
    intro s s1 hinv hrun
    unfold runCalls at hrun
    rcases hstep : s.step S i with _ | s2
    · rw [hstep] at hrun; cases hrun
    · rw [hstep] at hrun
      exact ih s2 s1 (callInv_step S i s s2 hinv hstep) hrun

/-- When the calls have just been made the invariant holds. -/
theorem callInv_start {σ : Type} (calls : List CoordCall) (w : World σ) :
    CallInv (CallSched.start calls w) := by
  refine ⟨by simp [CallSched.start], ?_, ?_⟩
  · intro j th patch hj hp
    simp only [CallSched.start, List.getElem?_map] at hj
    rcases hc : calls[j]? with _ | c
    · rw [hc] at hj; cases hj
    · rw [hc] at hj
      cases hj
      cases hp
  · intro j th hj
    simp only [CallSched.start, List.getElem?_map] at hj
    rcases hc : calls[j]? with _ | c
    · rw [hc] at hj; cases hj
    · rw [hc] at hj
      cases hj
      exact guarded_ops c _

/-- The names of the sender-key mutexes tell the sender keys apart. -/
theorem getSenderKeyMutex_injective (a b : String)
    (h : getSenderKeyMutex a = getSenderKeyMutex b) : a = b := by
  unfold getSenderKeyMutex at h
  have hd := congrArg String.data h
  simp only [String.data_append] at hd
  exact String.ext (List.append_cancel_left hd)

/-- The mutex of a key type other than `sender-key` guards a patch of that key
type. -/
theorem keyType_mem_scopes (patch : Patch) (t : String) (hts : t ≠ "sender-key")
    (ht : t ∈ Obj.keys patch) : getKeyTypeMutex t ∈ scopes patch := by
  unfold scopes
  refine List.mem_flatMap.mpr ⟨t, ht, ?_⟩
  rw [if_neg hts]
  exact List.mem_singleton.mpr rfl

/-- The mutex of a sender key guards a patch that writes that sender key. -/
theorem senderKey_mem_scopes (patch : Patch) (name : String)
    (hn : name ∈ Obj.keys ((Obj.get patch "sender-key").getD [])) :
    getSenderKeyMutex name ∈ scopes patch := by
  unfold scopes
  rcases hg : Obj.get patch "sender-key" with _ | d
  · rw [hg] at hn
    simp [Obj.keys] at hn
  · refine List.mem_flatMap.mpr ⟨"sender-key", Obj.mem_keys_of_get patch _ d hg, ?_⟩
    rw [if_pos rfl]
    exact List.mem_map.mpr ⟨name, hn, rfl⟩

/-- C23. After any schedule of any `get` and `set` calls made with no
transaction open, two different calls that both have a `state.set` in flight
write no common key type other than `sender-key`, and no common sender key:
for a key type (sender keys apart) and for a sender-key name, at most one
mutation of the store is in flight. -/
theorem one_mutation_in_flight_per_scope {σ : Type} (S : Store σ) (calls : List CoordCall)
    (w : World σ) (sched : List Nat) (s : CallSched σ)
    (hrun : runCalls S sched (CallSched.start calls w) = some s)
    (i j : Nat) (thi thj : CallThread) (pi pj : Patch) (hij : i ≠ j)
    (hi : s.threads[i]? = some thi) (hj : s.threads[j]? = some thj)
    (hpi : thi.inFlight = some pi) (hpj : thj.inFlight = some pj) :
    (∀ t : String, t ≠ "sender-key" → t ∈ Obj.keys pi → t ∉ Obj.keys pj) ∧
    (∀ name : String, name ∈ Obj.keys ((Obj.get pi "sender-key").getD []) →
      name ∉ Obj.keys ((Obj.get pj "sender-key").getD [])) := by
  have hinv := callInv_run S sched _ s (callInv_start calls w) hrun
  have hdisj : ∀ n, n ∈ scopes pi → n ∉ scopes pj := by
    intro n h1 h2
    have hi1 := (hinv.flying i thi pi hi hpi).1 n h1
    have hj1 := (hinv.flying j thj pj hj hpj).1 n h2
    exact hij (holder_unique _ hinv.once n i j hi1 hj1)
  constructor
  · intro t hts h1 h2
    exact hdisj _ (keyType_mem_scopes pi t hts h1) (keyType_mem_scopes pj t hts h2)
  · intro name h1 h2
    exact hdisj _ (senderKey_mem_scopes pi name h1) (senderKey_mem_scopes pj name h2)

/-- C23 at the calls of `threeCalls` after the schedule `0, 0, 1, 1`: both `set`
calls have a `state.set` in flight, one for the sender key `g1` and one for
`g2`. -/
theorem one_mutation_in_flight_per_scope_witness :
    runCalls memStore [0, 0, 1, 1] (CallSched.start threeCalls (World.fresh []))
      = some twoInFlight ∧
    (0 : Nat) ≠ 1 ∧
    twoInFlight.threads[0]? = some flyingG1 ∧ twoInFlight.threads[1]? = some flyingG2 ∧
    flyingG1.inFlight = some [("sender-key", [("g1", some "k1")])] ∧
    flyingG2.inFlight = some [("sender-key", [("g2", some "k2")])] ∧
    (∀ t : String, t ≠ "sender-key" →
      t ∈ Obj.keys ([("sender-key", [("g1", some "k1")])] : Patch) →
      t ∉ Obj.keys ([("sender-key", [("g2", some "k2")])] : Patch)) ∧
    (∀ name : String,
      name ∈ Obj.keys
        ((Obj.get ([("sender-key", [("g1", some "k1")])] : Patch) "sender-key").getD []) →
      name ∉ Obj.keys
        ((Obj.get ([("sender-key", [("g2", some "k2")])] : Patch) "sender-key").getD [])) :=
  ⟨rfl, by decide, rfl, rfl, rfl, rfl,
    one_mutation_in_flight_per_scope memStore threeCalls (World.fresh []) [0, 0, 1, 1]
      twoInFlight rfl 0 1 flyingG1 flyingG2 _ _ (by decide) rfl rfl rfl rfl⟩

/-- While the first `set` of `threeCalls` has its sessions in flight, the second
`set` and the `get` wait for the mutex of the key type `session`: neither has a
step to take. When the first has returned, the second can go on. -/
theorem session_mutex_example :
    ((runCalls memStore [0, 0, 0, 0, 0, 0, 1, 1, 1, 1]
        (CallSched.start threeCalls (World.fresh []))).map
      (fun s => (s.mutexes, (s.step memStore 1).isSome, (s.step memStore 2).isSome)))
      = some ([("keytype:session", 0)], false, false) ∧
    ((runCalls memStore [0, 0, 0, 0, 0, 0, 1, 1, 1, 1, 0, 0]
        (CallSched.start threeCalls (World.fresh []))).map
      (fun s => (s.mutexes, (s.step memStore 1).isSome)))
      = some ([], true) := by
  decide


/-! ## A direct `set`: what is asked of the store and what is sent to it -/

/-- When the loop of `processPreKeyDeletions` completes, it has asked the store
about every id it visited whose value in the patch is `null`. -/
theorem processPreKeyDeletionsLoop_asks {σ : Type} (S : Store σ) (keyType : String)
    (keyData : Obj Val) (ids : List String) :
    ∀ (data : Patch) (w : World σ) (data1 : Patch),
      (processPreKeyDeletionsLoop S keyType keyData ids data w).1 = Except.ok data1 →
      ∃ calls, (processPreKeyDeletionsLoop S keyType keyData ids data w).2.log = w.log ++ calls ∧
        ∀ id ∈ ids, Obj.get keyData id = some none →
          ∃ r, Call.get keyType [id] (Except.ok r) ∈ calls := by
  induction ids with
  | nil =>
    intro data w data1 _
    exact ⟨[], by simp [processPreKeyDeletionsLoop], fun id hid => by cases hid⟩
  | cons keyId rest ih =>
    intro data w data1 h
    unfold processPreKeyDeletionsLoop at h ⊢
    by_cases hdel : Obj.get keyData keyId = some none
    · rw [if_pos hdel] at h
      rw [if_pos hdel]
      have hlog := (storeGet_log S keyType [keyId] w).1
      rcases hg : storeGet S keyType [keyId] w with ⟨r, w1⟩
      rw [hg] at h hlog
      simp only at hlog
      rcases r with e | existingKeys
      · cases h
      · simp only at h ⊢
        by_cases ht : truthy (Obj.get existingKeys keyId) = true
        · rw [if_pos ht] at h
          rw [if_pos ht]
          obtain ⟨calls, hl, hasked⟩ := ih data w1 data1 h
          refine ⟨Call.get keyType [keyId] (Except.ok existingKeys) :: calls, ?_, ?_⟩
          · rw [hl, hlog]; simp
          · intro id hid hnull
            rcases List.mem_cons.mp hid with rfl | hid
            · exact ⟨existingKeys, List.mem_cons_self _ _⟩
            · obtain ⟨r, hr⟩ := hasked id hid hnull
              exact ⟨r, List.mem_cons_of_mem _ hr⟩
        · rw [if_neg ht] at h
          rw [if_neg ht]
          obtain ⟨calls, hl, hasked⟩ := ih _ w1 data1 h
          refine ⟨Call.get keyType [keyId] (Except.ok existingKeys) :: calls, ?_, ?_⟩
          · rw [hl, hlog]; simp
          · intro id hid hnull
            rcases List.mem_cons.mp hid with rfl | hid
            · exact ⟨existingKeys, List.mem_cons_self _ _⟩
            · obtain ⟨r, hr⟩ := hasked id hid hnull
              exact ⟨r, List.mem_cons_of_mem _ hr⟩
    · rw [if_neg hdel] at h
      rw [if_neg hdel]
      obtain ⟨calls, hl, hasked⟩ := ih data w data1 h
      refine ⟨calls, hl, ?_⟩
      intro id hid hnull
      rcases List.mem_cons.mp hid with rfl | hid
      · exact absurd hnull hdel
      · exact hasked id hid hnull

/-- When the pre-key pass completes over key types that include `pre-key`, it
has asked the store about every pre-key id that the patch deletes. -/
theorem preKeyPass_asks {σ : Type} (S : Store σ) (types : List String) :
    ∀ (data : Patch) (w : World σ) (data1 : Patch),
      (preKeyPass S types data w).1 = Except.ok data1 → "pre-key" ∈ types →
      ∃ calls, (preKeyPass S types data w).2.log = w.log ++ calls ∧
        ∀ id, Patch.entry data "pre-key" id = some none →
          ∃ r, Call.get "pre-key" [id] (Except.ok r) ∈ calls := by
  induction types with
  | nil =>
    intro data w data1 _ hmem
    cases hmem
  | cons keyType rest ih =>
    intro data w data1 h hmem
    unfold preKeyPass at h ⊢
    by_cases hk : keyType = "pre-key"
    · rw [if_pos hk] at h
      rw [if_pos hk]
      subst hk
      rcases hp : processPreKeyDeletions S data "pre-key" w with ⟨r, w1⟩
      rw [hp] at h
      rcases r with e | data2
      · cases h
      · simp only at h ⊢
        obtain ⟨calls2, hl2, _⟩ := preKeyPass_spec S rest data2 w1
        have hfirst : ∃ calls1, w1.log = w.log ++ calls1 ∧
            ∀ id, Patch.entry data "pre-key" id = some none →
              ∃ r, Call.get "pre-key" [id] (Except.ok r) ∈ calls1 := by
          unfold processPreKeyDeletions at hp
          rcases hd : Obj.get data "pre-key" with _ | keyData
          · rw [hd] at hp
            cases hp
            refine ⟨[], by simp, ?_⟩
            intro id hid
            simp [Patch.entry, hd] at hid
          · rw [hd] at hp
            simp only at hp
            obtain ⟨calls1, hl1, hasked⟩ := processPreKeyDeletionsLoop_asks S "pre-key" keyData
              (Obj.keys keyData) data w data2 (by rw [hp])
            rw [hp] at hl1
            refine ⟨calls1, hl1, ?_⟩
            intro id hid
            have hget : Obj.get keyData id = some none := by
              simpa [Patch.entry, hd] using hid
            exact hasked id (Obj.mem_keys_of_get keyData id none hget) hget
        obtain ⟨calls1, hl1, hasked⟩ := hfirst
        refine ⟨calls1 ++ calls2, ?_, ?_⟩
        · rw [hl2, hl1, List.append_assoc]
        · intro id hid
          obtain ⟨r, hr⟩ := hasked id hid
          exact ⟨r, List.mem_append_left _ hr⟩
    · rw [if_neg hk] at h
      rw [if_neg hk]
      rcases List.mem_cons.mp hmem with hm | hm
      · exact absurd hm.symm hk
      · exact ih data w data1 h hm

/-- The patches that the sender-key loop of `set` hands to the store are the
single-entry patches built from the input. -/
theorem storeSenderKeys_patches {σ : Type} (S : Store σ) (data : Patch) (names : List String) :
    ∀ w : World σ, ∃ calls, (storeSenderKeys S data names w).2.log = w.log ++ calls ∧
      ∀ call ∈ calls, ∃ name r, call = Call.set (senderKeyPatch data name) r := by
  induction names with
  | nil => intro w; exact ⟨[], by simp [storeSenderKeys], fun c hc => by cases hc⟩
  | cons name rest ih =>
    intro w
    unfold storeSenderKeys
    simp only
    have hlog := (storeSet_log S (senderKeyPatch data name) w).1
    unfold senderKeyPatch at hlog
    rcases hss : storeSet S [("sender-key", match Patch.entry data "sender-key" name with
        | some v => [(name, v)]
        | none => [])] w with ⟨r, w1⟩
    rw [hss] at hlog
    simp only at hlog
    rcases r with e | u
    · refine ⟨[Call.set (senderKeyPatch data name) (Except.error e)], hlog, ?_⟩
      intro call hc
      exact ⟨name, _, List.mem_singleton.mp hc⟩
    · simp only
      obtain ⟨calls, hl, hshape⟩ := ih w1
      refine ⟨Call.set (senderKeyPatch data name) (Except.ok u) :: calls, ?_, ?_⟩
      · rw [hl, hlog]
        simp [senderKeyPatch]
      · intro call hc
        rcases List.mem_cons.mp hc with h | h
        · exact ⟨name, _, h⟩
        · exact hshape call h

/-- The callback of `withMutexes` in `set` sends only entries of its patch, and
the deletion of a pre-key id only after the store answered with a value. -/
theorem validateAndStore_checked {σ : Type} (S : Store σ) (data : Patch) (w : World σ) :
    ∃ calls, (validateAndStore S data w).2.log = w.log ++ calls ∧ SendsChecked data calls := by
  unfold validateAndStore
  obtain ⟨calls1, hl1, hs1⟩ := preKeyPass_spec S (Obj.keys data) data w
  rcases hp : preKeyPass S (Obj.keys data) data w with ⟨r, w1⟩
  rw [hp] at hl1 hs1
  simp only at hl1 hs1
  obtain ⟨hg, _, hk⟩ := hs1
  have noset : ∀ p r, Call.set p r ∉ calls1 := by
    intro p r hc
    obtain ⟨id, r', h, _⟩ := hg _ hc
    cases h
  cases r with
  | error e =>
    exact ⟨calls1, hl1, fun p r t i v hc _ => absurd hc (noset p r),
      fun p r id hc _ => absurd hc (noset p r)⟩
  | ok data1 =>
    simp only
    obtain ⟨fr, dr⟩ := hk data1 rfl
    have hlog := (storeSet_log S data1 w1).1
    have hprov : ∀ t i v, Patch.entry data1 t i = some v → Patch.entry data t i = some v := by
      intro t i v hv
      rcases fr t i with h | ⟨h, _, _⟩
      · rw [← h, hv]
      · rw [h] at hv
        cases hv
    have hsent : ∀ p r, Call.set p r ∈ calls1 ++ [Call.set data1 (storeSet S data1 w1).1] →
        p = data1 := by
      intro p r hc
      rcases List.mem_append.mp hc with h | h
      · exact absurd h (noset p r)
      · simp only [List.mem_singleton, Call.set.injEq] at h
        exact h.1
    refine ⟨calls1 ++ [Call.set data1 (storeSet S data1 w1).1], ?_, ?_, ?_⟩
    · rw [hlog, hl1, List.append_assoc]
    · intro p r t i v hc hv
      rw [hsent p r hc] at hv
      exact hprov t i v hv
    · intro p r id hc hv
      rw [hsent p r hc] at hv
      have hdata := hprov "pre-key" id none hv
      have hmem : "pre-key" ∈ Obj.keys data := by
        unfold Patch.entry at hdata
        rcases hd : Obj.get data "pre-key" with _ | d
        · rw [hd] at hdata
          cases hdata
        · exact Obj.mem_keys_of_get data "pre-key" d hd
      obtain ⟨calls2, hl2, hasked⟩ := preKeyPass_asks S (Obj.keys data) data w data1
        (by rw [hp]) hmem
      rw [hp] at hl2
      simp only at hl2
      have hsame : calls2 = calls1 := List.append_cancel_left (hl2.symm.trans hl1)
      obtain ⟨r1, hr1⟩ := hasked id hdata
      rw [hsame] at hr1
      refine ⟨r1, List.mem_append_left _ hr1, ?_⟩
      by_contra hfalse
      have hm : AnsweredMissing calls1 "pre-key" id :=
        ⟨r1, hr1, by simpa using hfalse⟩
      rw [dr id hm] at hv
      cases hv

/-- A direct `set` sends only entries of its patch, and the deletion of a
pre-key id only after the store answered with a value. -/
theorem setDirect_checked {σ : Type} (S : Store σ) (data : Patch) (w : World σ) :
    ∃ calls, (setDirect S data w).2.log = w.log ++ calls ∧ SendsChecked data calls := by
  unfold setDirect
  by_cases hsk : Obj.has data "sender-key" = true
  · simp only [hsk, if_true]
    obtain ⟨calls0, hl0, hshape⟩ :=
      storeSenderKeys_patches S data (Obj.keys ((Obj.get data "sender-key").getD [])) w
    rcases hs : storeSenderKeys S data (Obj.keys ((Obj.get data "sender-key").getD [])) w
      with ⟨r, w1⟩
    rw [hs] at hl0
    simp only at hl0
    have hprov0 : ∀ p r t i v, Call.set p r ∈ calls0 → Patch.entry p t i = some v →
        Patch.entry data t i = some v := by
      intro p r t i v hc hv
      obtain ⟨name, r', he⟩ := hshape _ hc
      cases he
      rw [entry_senderKeyPatch] at hv
      by_cases hti : t = "sender-key" ∧ i = name
      · rw [if_pos hti] at hv
        rw [hti.1]
        exact hv
      · rw [if_neg hti] at hv
        cases hv
    have hpre0 : ∀ p r id, Call.set p r ∈ calls0 → Patch.entry p "pre-key" id ≠ some none := by
      intro p r id hc hv
      obtain ⟨name, r', he⟩ := hshape _ hc
      cases he
      rw [entry_senderKeyPatch] at hv
      simp at hv
    cases r with
    | error e =>
      exact ⟨calls0, hl0, hprov0, fun p r id hc hv => absurd hv (hpre0 p r id hc)⟩
    | ok u =>
      simp only
      by_cases hne : (Obj.keys (Obj.delete data "sender-key")).length > 0
      · simp only [hne, if_true]
        obtain ⟨calls1, hl1, hprov1, hchk1⟩ :=
          validateAndStore_checked S (Obj.delete data "sender-key") w1
        refine ⟨calls0 ++ calls1, ?_, ?_, ?_⟩
        · rw [hl1, hl0, List.append_assoc]
        · intro p r t i v hc hv
          rcases List.mem_append.mp hc with h | h
          · exact hprov0 p r t i v h hv
          · have := hprov1 p r t i v h hv
            rw [entry_delete] at this
            by_cases ht : "sender-key" = t
            · rw [if_pos ht] at this
              cases this
            · rw [if_neg ht] at this
              exact this
        · intro p r id hc hv
          rcases List.mem_append.mp hc with h | h
          · exact absurd hv (hpre0 p r id h)
          · obtain ⟨r1, hr1, ht⟩ := hchk1 p r id h hv
            exact ⟨r1, List.mem_append_right _ hr1, ht⟩
      · simp only [hne, if_false]
        exact ⟨calls0, hl0, hprov0, fun p r id hc hv => absurd hv (hpre0 p r id hc)⟩
  · simp only [hsk, Bool.false_eq_true, if_false]
    exact validateAndStore_checked S data w

/-- C1. A `set` made while no transaction is open returns without error unless
a call to the store itself fails; a pre-key id about which the store answered
that it holds no value is in no patch handed to the store's `set`; when no
store call fails, every entry of the patch other than such a dropped deletion
reaches the store's `set` with its value unchanged; a patch handed to the
store's `set` holds only entries of the input; and it holds the deletion of a
pre-key id only if the store was asked about that very id during the call and
answered with a value, so a deletion is never handed on unasked. -/
theorem set_drops_unknown_prekey_deletions {σ : Type} (S : Store σ) (data : Patch)
    (c : Coord) (w : World σ) (hidle : isInTransaction c = false) :
    ((∀ call ∈ callsSince w.log (coordSet S data (c, w)).2.2.log, call.succeeded = true) →
      (coordSet S data (c, w)).1 = Except.ok ()) ∧
    (∀ id, AnsweredMissing (callsSince w.log (coordSet S data (c, w)).2.2.log) "pre-key" id →
      ∀ p r, Call.set p r ∈ callsSince w.log (coordSet S data (c, w)).2.2.log →
        Patch.entry p "pre-key" id = none) ∧
    ((∀ call ∈ callsSince w.log (coordSet S data (c, w)).2.2.log, call.succeeded = true) →
      ∀ t i v, Patch.entry data t i = some v →
        ¬ (t = "pre-key" ∧ v = none ∧
          AnsweredMissing (callsSince w.log (coordSet S data (c, w)).2.2.log) "pre-key" i) →
        ∃ p, Call.set p (Except.ok ()) ∈ callsSince w.log (coordSet S data (c, w)).2.2.log ∧
          Patch.entry p t i = some v) ∧
    (∀ p r t i v, Call.set p r ∈ callsSince w.log (coordSet S data (c, w)).2.2.log →
      Patch.entry p t i = some v → Patch.entry data t i = some v) ∧
    (∀ p r id, Call.set p r ∈ callsSince w.log (coordSet S data (c, w)).2.2.log →
      Patch.entry p "pre-key" id = some none →
      ∃ r1, Call.get "pre-key" [id] (Except.ok r1)
          ∈ callsSince w.log (coordSet S data (c, w)).2.2.log ∧
        truthy (Obj.get r1 id) = true) := by
  obtain ⟨calls, hl, hspec⟩ := setDirect_spec S data w
  obtain ⟨calls1, hl1, hprov, hchk⟩ := setDirect_checked S data w
  have hsame : calls1 = calls := List.append_cancel_left (hl1.symm.trans hl)
  rw [hsame] at hprov hchk
  have hrun : coordSet S data (c, w) = ((setDirect S data w).1, (c, (setDirect S data w).2)) := by
    simp [coordSet, hidle]
  rw [hrun]
  simp only
  rw [hl, callsSince_append]
  exact ⟨hspec.1, hspec.2.1, hspec.2.2, hprov, hchk⟩

theorem set_drops_unknown_prekey_deletions_witness :
    isInTransaction Coord.init = false ∧
    (coordSet memStore patch0 (Coord.init, World.fresh store0)).1 = Except.ok () ∧
    (∀ p r, Call.set p r ∈
        callsSince (World.fresh store0).log
          (coordSet memStore patch0 (Coord.init, World.fresh store0)).2.2.log →
      Patch.entry p "pre-key" "7" = none) :=
  ⟨by decide,
   (set_drops_unknown_prekey_deletions memStore patch0 Coord.init (World.fresh store0)
      (by decide)).1 (by decide),
   (set_drops_unknown_prekey_deletions memStore patch0 Coord.init (World.fresh store0)
      (by decide)).2.1 "7" ⟨[], by decide, by decide⟩⟩

/-- The calls that `set(patch0)` makes over a store that holds pre-key `1` and
not pre-key `7`: it asks about each of the two ids that the patch deletes, and
the one patch it hands to the store keeps the deletion of `1` and has lost the
deletion of `7`. -/
theorem direct_set_asks_example :
    callsSince (World.fresh store0).log
      (coordSet memStore patch0 (Coord.init, World.fresh store0)).2.2.log
    = [Call.get "pre-key" ["1"] (Except.ok [("1", some "kp1")]),
       Call.get "pre-key" ["7"] (Except.ok []),
       Call.set [("pre-key", [("1", none), ("2", some "kp2")]),
                 ("session", [("alice.0", some "s0")])] (Except.ok ())] := by
  decide

/-- Two calls of `transaction` under the token `k` whose works finish while both
are open: each finds the counter at 2 when its work has returned, so neither
commits, and the `finally` of the second clears the Mutation Batch. Both calls
return, the counter is 0, and the store has received nothing. -/
theorem overlapping_calls_may_commit_nothing :
    (runSchedule memStore opts0 [0, 0, 1, 1, 0, 1, 0, 1, 0, 1]
        (TxSched.start sameToken (Coord.init, World.fresh []))).map
      (fun s => (s.phases, s.state.1.transactionsInProgress, Obj.keys s.state.1.mutations,
        s.state.2.log))
      = some ([TxPhase.returned, TxPhase.returned], 0, [], []) := by
  decide

end Ryzewa
